import Mathlib

/-!
# Persistent hash map, persistent vector, list and iterators

A shallow embedding of `hashmap/src/hashmap.c`, `vector/src/vector.c`,
`list/src/list.c` and `iterator/iterator.c` together with the properties of
the collections that the specification states.  The definitions come first:
hash map, vector, the heap model of the hash map, list, iterators; the
theorems follow.  Pointers are natural numbers and `0` is `NULL`.
-/

/-! ## Persistent hash map (`hashmap/src/hashmap.c`)

Hash map nodes are never written after construction, so a node pointer is
modelled by the node it points to: `Node *` is `Node`, a possibly-`NULL`
`Node *` is `Option Node`, a child array is a `List Node` and a collision
chain (linked through `next`) is the list of its cells.  Keys and values are
`void *`, that is natural numbers with `0` for `NULL`.  A function returns
`none` where the C code would index a child array beyond its entries; past the
last entry of an array nothing is modelled. -/

namespace PHashmap

/-- The null pointer. -/
def NULL : Nat := 0

/-- `#define BITS_PER_LEVEL 5` -/
def BITS_PER_LEVEL : Nat := 5

/-- `#define UNCHANGED 0` -/
def UNCHANGED : Nat := 0

/-- `#define ADDED 1` -/
def ADDED : Nat := 1

/-- `#define UPDATED 2` -/
def UPDATED : Nat := 2

/-- `#define REMOVED 3` -/
def REMOVED : Nat := 3

/-- The width of `hash_t` (`unsigned int`) and of the `int` bitmap. -/
def HASH_BITS : Nat := 32

/-- The key, value and hash of a `HashCollisionNode`. -/
structure Cell where
  key : Nat
  val : Nat
  hash : Nat

/-- `struct Node` with its three variants `LeafNode`, `BitmapIndexedNode` and
`HashCollisionNode`; the variant stands for the `type` field. -/
inductive Node where
  | leaf (key val hash : Nat)
  | bitmap_indexed (bitmap : Nat) (children : List Node)
  | hash_collision (cells : List Cell)

/-- `struct Hashmap` -/
structure Hashmap where
  hash : Nat → Nat
  eq_key : Nat → Nat → Bool
  eq_val : Nat → Nat → Bool
  count : Int
  root : Option Node

/-- `popcount(x)`, that is `__builtin_popcount`: the number of 1 bits of a
32-bit word. -/
def popcount (x : Nat) : Nat := ((List.range HASH_BITS).filter (fun i => x.testBit i)).length

/-- `mask(hash, level)`.  The shift count is below the width of `hash_t` up
to level 6; the nodes of a well-formed map that compute a mask sit at level 6
at most (`WF.bitmap_indexed`, `level_le_of_ne`). -/
def mask (hash level : Nat) : Nat := (hash >>> (BITS_PER_LEVEL * level)) &&& 0x01f

/-- `bitpos(hash, level)`; an `int` bitmap is modelled by its 32-bit pattern,
a natural number below `2 ^ 32`. -/
def bitpos (hash level : Nat) : Nat := 1 <<< mask hash level

/-- `bit_index(bitmap, bit)`; `bit` is a power of two, so `bit - 1` is the
same word in `int` and in natural-number arithmetic. -/
def bit_index (bitmap bit : Nat) : Nat := popcount (bitmap &&& (bit - 1))

/-- `hash_str`: DJB2 over the characters of a C string, given as the `int`
values of its `char`s up to the terminating NUL; `unsigned int` arithmetic
wraps modulo `2 ^ 32`. -/
def hash_str (obj : List Int) : Nat :=
  obj.foldl (fun hash c => (((((hash <<< 5) + hash : Nat) : Int) + c) % 2 ^ HASH_BITS).toNat) 5381

/-- `equal_str`: `strcmp(obj1, obj2) == 0` -/
def equal_str (obj1 obj2 : List Int) : Bool := decide (obj1 = obj2)

/-- `hashmap_make`; a `NULL` function pointer is `none`, and `str` is the
memory the default string functions read: `str p` is the C string at `p`. -/
def hashmap_make (str : Nat → List Int) (hash : Option (Nat → Nat))
    (eq_keys eq_vals : Option (Nat → Nat → Bool)) : Hashmap :=
  { count := 0
    root := none
    hash := match hash with
      | some f => f
      | none => fun p => hash_str (str p)
    eq_key := match eq_keys with
      | some f => f
      | none => fun p q => equal_str (str p) (str q)
    eq_val := match eq_vals with
      | some f => f
      | none => fun p q => equal_str (str p) (str q) }

/-- `map->hash(key)`, a value of type `hash_t`. -/
def Hashmap.hash_of (map : Hashmap) (key : Nat) : Nat := map.hash key % 2 ^ HASH_BITS

/-- `leaf_get` on the leaf `(k, v, _)` -/
def leaf_get (eq_key : Nat → Nat → Bool) (k v key : Nat) : Nat :=
  if eq_key k key then v else NULL

/-- `hash_collision_get`: the `while (node)` scan of the chain -/
def hash_collision_get (eq_key : Nat → Nat → Bool) (key : Nat) : List Cell → Nat
  | [] => NULL
  | node :: next => if eq_key node.key key then node.val else hash_collision_get eq_key key next

mutual
/-- `self->type->get(self, level, key, hash, eq_key, eq_val)`; the second case
is `bitmap_indexed_get`. -/
def node_get (eq_key : Nat → Nat → Bool) (key hash : Nat) : Node → Nat → Option Nat
  | .leaf k v _, _ => some (leaf_get eq_key k v key)
  | .bitmap_indexed bitmap children, level =>
    let bit := bitpos hash level
    if bitmap &&& bit ≠ 0 then
      let idx := bit_index bitmap bit
      child_get eq_key key hash children idx (level + 1)
    else some NULL
  | .hash_collision cells, _ => some (hash_collision_get eq_key key cells)
/-- `children[idx]->type->get(children[idx], level, key, hash, eq_key, eq_val)` -/
def child_get (eq_key : Nat → Nat → Bool) (key hash : Nat) : List Node → Nat → Nat → Option Nat
  | [], _, _ => none
  | child :: _, 0, level => node_get eq_key key hash child level
  | _ :: children, idx + 1, level => child_get eq_key key hash children idx level
end

/-- `hashmap_get`; `some NULL` is the C function returning `NULL`. -/
def hashmap_get (map : Hashmap) (key : Nat) : Option Nat :=
  match map.root with
  | none => some NULL
  | some root => node_get map.eq_key key (map.hash_of key) root 0

/-- The first loop of `hash_collision_assoc` and `hash_collision_dissoc`: the
cells before the first one whose key equals `key`, and the chain from that
cell on (`[]` when the loop ends with `node == NULL`). -/
def chain_find (eq_key : Nat → Nat → Bool) (key : Nat) : List Cell → List Cell × List Cell
  | [] => ([], [])
  | node :: next =>
    if eq_key node.key key then ([], node :: next)
    else (node :: (chain_find eq_key key next).1, (chain_find eq_key key next).2)

/-- The copy loop of `hash_collision_assoc` and `hash_collision_dissoc`: each
cell from the head up to the matched one is copied in front of `prev`. -/
def chain_copy (prev : List Cell) : List Cell → List Cell
  | [] => prev
  | curr :: rest => chain_copy ({ key := curr.key, val := curr.val, hash := curr.hash } :: prev) rest

/-- `hash_collision_assoc` -/
def hash_collision_assoc (self : List Cell) (key val hash : Nat)
    (eq_key eq_val : Nat → Nat → Bool) : Node × Nat :=
  match chain_find eq_key key self with
  | (_, []) => (.hash_collision ({ key := key, val := val, hash := hash } :: self), ADDED)
  | (before, node :: next) =>
    if eq_key node.key key && eq_val node.val val then (.hash_collision self, UNCHANGED)
    else
      let new : List Cell := { key := key, val := val, hash := hash } :: next
      match before with
      | [] => (.hash_collision new, UPDATED)
      | _ :: _ => (.hash_collision (chain_copy new before), UPDATED)

/-- `bitmap_indexed_assoc`; `assoc` is the dispatch `child->type->assoc`. -/
def bitmap_indexed_assoc (assoc : Node → Nat → Option (Node × Nat)) (bitmap : Nat)
    (children : List Node) (level key val hash : Nat) : Option (Node × Nat) :=
  let bit := bitpos hash level
  let idx := bit_index bitmap bit
  if bitmap &&& bit ≠ 0 then
    match children[idx]? with
    | none => none
    | some child =>
      match assoc child (level + 1) with
      | none => none
      | some (new, result) =>
        if result ≠ UNCHANGED then
          let nodes := popcount bitmap
          some (.bitmap_indexed bitmap ((children.take nodes).set idx new), result)
        else some (.bitmap_indexed bitmap children, result)
  else
    let bitmap1 := bitmap ||| bit
    let nodes := popcount bitmap1
    some (.bitmap_indexed bitmap1
      (children.take idx ++ .leaf key val hash :: (children.drop idx).take (nodes - idx)), ADDED)

/-- `leaf_assoc` on the leaf `(k, v, h)`; `assoc` is the dispatch
`parent->type->assoc`. -/
def leaf_assoc (assoc : Node → Nat → Option (Node × Nat)) (k v h : Nat) (level key val hash : Nat)
    (eq_key eq_val : Nat → Nat → Bool) : Option (Node × Nat) :=
  if h ≠ hash then
    let node_bit := bitpos h level
    let new_bit := bitpos hash level
    if node_bit ≠ new_bit then
      let bitmap := (0 ||| node_bit) ||| new_bit
      let node_idx := bit_index bitmap node_bit
      let new_idx := bit_index bitmap new_bit
      let children : List (Option Node) :=
        (([none, none] : List (Option Node)).set node_idx (some (.leaf k v h))).set new_idx
          (some (.leaf key val hash))
      match children with
      | [some c0, some c1] => some (.bitmap_indexed bitmap [c0, c1], ADDED)
      | _ => none
    else
      assoc (.bitmap_indexed (0 ||| node_bit) [.leaf k v h]) level
  else if eq_key k key && eq_val v val then some (.leaf k v h, UNCHANGED)
  else if eq_key k key then some (.leaf key val hash, UPDATED)
  else
    some (.hash_collision [{ key := key, val := val, hash := hash },
      { key := k, val := v, hash := h }], ADDED)

/-- `self->type->assoc(self, level, key, val, hash, eq_key, eq_val, &result)`;
the pair is the returned node and `*result`.  The recursion of the C code is
not structural (`leaf_assoc` recurses into a node it has just built), so the
number of nested calls is bounded by `fuel`; `none` also stands for running
out of it. -/
def node_assoc (key val hash : Nat) (eq_key eq_val : Nat → Nat → Bool) :
    Nat → Node → Nat → Option (Node × Nat)
  | 0, _, _ => none
  | fuel + 1, .leaf k v h, level =>
    leaf_assoc (node_assoc key val hash eq_key eq_val fuel) k v h level key val hash eq_key eq_val
  | fuel + 1, .bitmap_indexed bitmap children, level =>
    bitmap_indexed_assoc (node_assoc key val hash eq_key eq_val fuel) bitmap children level key val
      hash
  | _ + 1, .hash_collision cells, _ => some (hash_collision_assoc cells key val hash eq_key eq_val)

/-- `hashmap_assoc` -/
def hashmap_assoc (fuel : Nat) (map : Hashmap) (key val : Nat) : Option Hashmap :=
  let r : Option (Node × Nat) :=
    match map.root with
    | none => some (.leaf key val (map.hash_of key), ADDED)
    | some root => node_assoc key val (map.hash_of key) map.eq_key map.eq_val fuel root 0
  match r with
  | none => none
  | some (root, result) =>
    if result ≠ UNCHANGED then
      some { map with root := some root, count := map.count + (if result = ADDED then 1 else 0) }
    else some map

/-- `leaf_dissoc` on the leaf `(k, v, h)` -/
def leaf_dissoc (eq_key : Nat → Nat → Bool) (k v h key : Nat) : Option Node × Nat :=
  if eq_key k key then (none, REMOVED) else (some (.leaf k v h), UNCHANGED)

/-- `hash_collision_dissoc`; a chain pointer that is `NULL` is `none`. -/
def hash_collision_dissoc (eq_key : Nat → Nat → Bool) (head : List Cell) (key : Nat) :
    Option Node × Nat :=
  match chain_find eq_key key head with
  | (_, []) => (none, UNCHANGED)
  | ([], _ :: [next]) => (some (.leaf next.key next.val next.hash), REMOVED)
  | ([first], [_]) => (some (.leaf first.key first.val first.hash), REMOVED)
  | ([], _ :: []) => (none, REMOVED)
  | ([], _ :: next) => (some (.hash_collision next), REMOVED)
  | (before, _ :: next) => (some (.hash_collision (chain_copy next before)), REMOVED)

mutual
/-- `self->type->dissoc(self, level, key, hash, eq_key, eq_val, &result)`; the
second case is `bitmap_indexed_dissoc`. -/
def node_dissoc (eq_key : Nat → Nat → Bool) (key hash : Nat) :
    Node → Nat → Option (Option Node × Nat)
  | .leaf k v h, _ => some (leaf_dissoc eq_key k v h key)
  | .bitmap_indexed bitmap children, level =>
    let bit := bitpos hash level
    let idx := bit_index bitmap bit
    if bitmap &&& bit ≠ 0 then
      match child_dissoc eq_key key hash children idx (level + 1) with
      | none => none
      | some (new, result) =>
        if result ≠ UNCHANGED then
          match new with
          | none =>
            let bitmap1 := bitmap &&& ((2 ^ HASH_BITS - 1) ^^^ bit)
            if bitmap1 = 0 then some (none, result)
            else
              let nodes := popcount bitmap1
              some (some (.bitmap_indexed bitmap1
                (children.take idx ++ (children.drop (idx + 1)).take (nodes - idx))), result)
          | some new =>
            let nodes := popcount bitmap
            some (some (.bitmap_indexed bitmap ((children.take nodes).set idx new)), result)
        else some (some (.bitmap_indexed bitmap children), result)
    else some (some (.bitmap_indexed bitmap children), UNCHANGED)
  | .hash_collision cells, _ => some (hash_collision_dissoc eq_key cells key)
/-- `children[idx]->type->dissoc(children[idx], level, key, hash, eq_key, eq_val, &result)` -/
def child_dissoc (eq_key : Nat → Nat → Bool) (key hash : Nat) :
    List Node → Nat → Nat → Option (Option Node × Nat)
  | [], _, _ => none
  | child :: _, 0, level => node_dissoc eq_key key hash child level
  | _ :: children, idx + 1, level => child_dissoc eq_key key hash children idx level
end

/-- `hashmap_dissoc` -/
def hashmap_dissoc (map : Hashmap) (key : Nat) : Option Hashmap :=
  match map.root with
  | none => some map
  | some root =>
    match node_dissoc map.eq_key key (map.hash_of key) root 0 with
    | none => none
    | some (root, result) =>
      if result ≠ UNCHANGED then
        some { map with root := root, count := map.count - (if result = REMOVED then 1 else 0) }
      else some map

/-- `hashmap_count` -/
def hashmap_count (map : Hashmap) : Int := map.count

/-- `hashmap_empty` -/
def hashmap_empty (map : Hashmap) : Bool := map.count == 0

/-- The maps a program can hold: `hashmap_make(hash, eq_key, eq_val)` followed
by any number of `hashmap_assoc` and `hashmap_dissoc` calls that returned. -/
inductive Reach (hash : Nat → Nat) (eq_key eq_val : Nat → Nat → Bool) : Hashmap → Prop
  | make (str : Nat → List Int) :
      Reach hash eq_key eq_val (hashmap_make str (some hash) (some eq_key) (some eq_val))
  | assoc {map map1 : Hashmap} (fuel key val : Nat) :
      Reach hash eq_key eq_val map → hashmap_assoc fuel map key val = some map1 →
      Reach hash eq_key eq_val map1
  | dissoc {map map1 : Hashmap} (key : Nat) :
      Reach hash eq_key eq_val map → hashmap_dissoc map key = some map1 →
      Reach hash eq_key eq_val map1

/-- One call of the mutating API. -/
inductive Op where
  | assoc (key val : Nat)
  | dissoc (key : Nat)

/-- Apply one API call to the latest map; `fuel` bounds the recursion of
`hashmap_assoc`. -/
def Op.apply (fuel : Nat) (map : Hashmap) : Op → Option Hashmap
  | .assoc key val => hashmap_assoc fuel map key val
  | .dissoc key => hashmap_dissoc map key

/-- Run a program: a sequence of API calls, each applied to the result of the
one before. -/
def run (fuel : Nat) : List Op → Hashmap → Option Hashmap
  | [], map => some map
  | op :: ops, map =>
    match op.apply fuel map with
    | none => none
    | some map1 => run fuel ops map1

/-- A map with a colliding hash (`key mod 4`) and pointer equality on keys and
values. -/
def mod4_map : Hashmap :=
  hashmap_make (fun _ => []) (some (fun k => k % 4)) (some (fun a b => a == b))
    (some (fun a b => a == b))

/-- Twelve calls on `mod4_map`.  They leave a bitmap-indexed root with the
collision chain of the keys 9, 13, 1 in slot 1, the leaf of key 6 in slot 2
and the chain of the keys 7, 3 in slot 3. -/
def mod4_ops : List Op :=
  [.assoc 1 10, .assoc 2 20, .assoc 5 50, .assoc 9 90, .assoc 6 60, .assoc 3 30, .dissoc 5,
    .assoc 9 91, .dissoc 2, .assoc 13 130, .assoc 7 70, .assoc 1 11]

/-- A Boolean test on the result of a call that may fail; a failure fails it. -/
def returns {α : Type} (o : Option α) (P : α → Bool) : Bool :=
  match o with
  | some s => P s
  | none => false

/-! ### Predicates on hash map nodes -/

/-- The number of 1 bits of `bitmap` below position `s`. -/
def rank (bitmap s : Nat) : Nat := ((List.range s).filter (fun i => bitmap.testBit i)).length

/-- Hashes `a` and `b` select the same slot at every level below `level`. -/
def agree (level a b : Nat) : Prop := ∀ j, j < level → mask a j = mask b j

/-- The assumptions on the hash and key-equality functions of a map: key
equality is an equivalence relation, and equal keys have equal hashes. -/
structure KeyOps (hash : Nat → Nat) (eq_key : Nat → Nat → Bool) : Prop where
  refl : ∀ a, eq_key a a = true
  symm : ∀ a b, eq_key a b = true → eq_key b a = true
  trans : ∀ a b c, eq_key a b = true → eq_key b c = true → eq_key a c = true
  hash_eq : ∀ a b, eq_key a b = true → hash a = hash b

/-- Value equality is genuine equality. -/
def GenuineEq (eq_val : Nat → Nat → Bool) : Prop := ∀ a b, eq_val a b = true ↔ a = b

/-- Well-formedness of the node found at `level` on the lookup path of the
hash `p`: cached hashes are the hashes of the keys and follow the path, the
keys of a chain are pairwise different, a bitmap-indexed node has one child per
set bit, and the child in slot `s` is well formed for every hash that follows
the path through `s`. -/
inductive WF (hash : Nat → Nat) (eq_key : Nat → Nat → Bool) : Nat → Nat → Node → Prop
  | leaf {level p k v h : Nat} :
      h = hash k % 2 ^ HASH_BITS → agree level h p → WF hash eq_key level p (.leaf k v h)
  | hash_collision {level p : Nat} {cells : List Cell} :
      (∀ c ∈ cells, c.hash = hash c.key % 2 ^ HASH_BITS ∧ agree level c.hash p) →
      cells.Pairwise (fun a b => eq_key a.key b.key = false) →
      WF hash eq_key level p (.hash_collision cells)
  | bitmap_indexed {level p bitmap : Nat} {children : List Node} :
      level ≤ 6 → bitmap < 2 ^ HASH_BITS → children.length = popcount bitmap →
      (∀ s, s < 32 → bitmap.testBit s = true → ∀ c, children[rank bitmap s]? = some c →
        ∀ q, agree level q p → mask q level = s → WF hash eq_key (level + 1) q c) →
      WF hash eq_key level p (.bitmap_indexed bitmap children)

/-- Nested calls that `node_assoc` needs at most on a well-formed node at
`level`. -/
def need : Node → Nat → Nat
  | .leaf _ _ _, level => 2 * (7 - level) + 1
  | .bitmap_indexed _ _, level => 2 * (7 - level)
  | .hash_collision _, _ => 1

/-- The node `n` at `level` is a leaf with another hash than `hash`, or a
bitmap-indexed node whose child in the slot of `hash` is such a leaf: the
shapes on which `leaf_assoc` splits. -/
def splits (hash level : Nat) : Node → Prop
  | .leaf _ _ h => h ≠ hash
  | .bitmap_indexed bitmap children =>
    bitmap.testBit (mask hash level) = true ∧
      ∃ k v h, children[rank bitmap (mask hash level)]? = some (.leaf k v h) ∧ h ≠ hash
  | .hash_collision _ => False

/-- `hashmap_get` below the root: the value for `key` in the possibly absent
node `n`. -/
def get_opt (eq_key : Nat → Nat → Bool) (key hash : Nat) (n : Option Node) (level : Nat) :
    Option Nat :=
  match n with
  | none => some NULL
  | some node => node_get eq_key key hash node level

/-- A map whose fields are the given functions and whose root is well formed. -/
structure MapWF (hash : Nat → Nat) (eq_key eq_val : Nat → Nat → Bool) (map : Hashmap) : Prop where
  hash_eq : map.hash = hash
  eq_key_eq : map.eq_key = eq_key
  eq_val_eq : map.eq_val = eq_val
  root_wf : ∀ root, map.root = some root → WF hash eq_key 0 0 root

end PHashmap

/-! ## Persistent vector (`vector/src/vector.c`)

The vector nodes live in a garbage-collected heap and are updated in place by
the C code, so the embedding threads an explicit heap through every function.
A `Vector` header is only ever written while it is the fresh copy owned by the
running operation; it is therefore passed by value.  A function returns `none`
where the C code would dereference `NULL` (or an unallocated address) or index
a node outside `0 .. WIDTH-1`.  The `int` fields are natural numbers: they are
never decremented below zero.  The model follows the C code as long as the
`int` arithmetic is in range, which `vector_push_checked` checks for a push: a
count below `INT_MAX`, and a shift count `BITS * (levels + 1)` below 31 where
the tail is flushed. -/

namespace PVector

/-- The null pointer; every C pointer (`void *`, `Node *`) is a natural number. -/
def NULL : Nat := 0

/-- `#define BITS 5` -/
def BITS : Nat := 5

/-- `#define WIDTH (1 << BITS)` -/
def WIDTH : Nat := 1 <<< BITS

/-- `#define MASK (WIDTH - 1)` -/
def MASK : Nat := WIDTH - 1

/-- `struct Node`: a union of `WIDTH` child pointers or `WIDTH` elements. -/
abbrev Node := Nat → Nat

/-- The garbage-collected heap: the nodes allocated so far and the next
address the allocator hands out. -/
structure Heap where
  mem : Nat → Option Node
  next : Nat

/-- `struct Vector_s` -/
structure Vector where
  head : Nat
  count : Nat
  levels : Nat
  tail : Nat
  tail_count : Nat

/-- A heap with nothing allocated. -/
def Heap.empty : Heap := { mem := fun _ => none, next := 1 }

/-- `GC_MALLOC(sizeof(Node))`: a fresh node, cleared to zero. -/
def GC_MALLOC (h : Heap) : Heap × Nat :=
  ({ mem := fun a => if a = h.next then some (fun _ => NULL) else h.mem a,
     next := h.next + 1 }, h.next)

/-- Read `p->children[i]` (equally `p->elements[i]`). -/
def load (h : Heap) (p : Nat) (i : Nat) : Option Nat :=
  match h.mem p with
  | none => none
  | some n => if i < WIDTH then some (n i) else none

/-- Write `p->children[i] = x` (equally `p->elements[i] = x`). -/
def store (h : Heap) (p : Nat) (i : Nat) (x : Nat) : Option Heap :=
  match h.mem p with
  | none => none
  | some n =>
    if i < WIDTH then
      some { h with mem := fun a => if a = p then some (fun j => if j = i then x else n j)
                                    else h.mem a }
    else none

/-- `node_new` -/
def node_new (h : Heap) : Heap × Nat := GC_MALLOC h

/-- `node_copy`: a fresh node holding the `WIDTH` slots of `node`. -/
def node_copy (h : Heap) (node : Nat) : Option (Heap × Nat) :=
  match h.mem node with
  | none => none
  | some n =>
    let (h1, new) := GC_MALLOC h
    some ({ h1 with mem := fun a => if a = new then some n else h1.mem a }, new)

/-- `vector_copy`: the header is copied, the root node is copied, the tail is
shared. -/
def vector_copy (h : Heap) (vec : Vector) : Option (Heap × Vector) := do
  let (h1, hd) ← node_copy h vec.head
  some (h1, { vec with head := hd })

/-- The loop of `vector_append_tail`; `n` iterations remain and the C loop
variable is `level = BITS * n`. -/
def append_tail_loop (tail : Nat) (idx : Nat) : Nat → Heap → Nat → Option Heap
  | 0, h, _ => some h
  | n + 1, h, prev => do
    let level := BITS * (n + 1)
    let index := (idx >>> level) &&& MASK
    let cur ← load h prev index
    if cur = NULL ∧ level - BITS = 0 then
      store h prev index tail
    else if cur = NULL then
      let (h1, c) := node_new h
      let h2 ← store h1 prev index c
      append_tail_loop tail idx n h2 c
    else
      append_tail_loop tail idx n h cur

/-- `vector_append_tail` -/
def vector_append_tail (h : Heap) (vec : Vector) : Option (Heap × Vector) := do
  let capacity := 1 <<< (BITS * (vec.levels + 1))
  let (h, vec) ←
    if vec.count = capacity then do
      let (h1, new_root) := node_new h
      let h2 ← store h1 new_root 0 vec.head
      some (h2, { vec with head := new_root, levels := vec.levels + 1 })
    else some (h, vec)
  let idx := vec.count - vec.tail_count
  let h3 ← append_tail_loop vec.tail idx vec.levels h vec.head
  let (h4, t) := node_new h3
  some (h4, { vec with tail := t, tail_count := 0 })

/-- `pop_from_head(vec, node, level, idx)` with `level = BITS * n`; the result
carries the heap, the updated header and the returned node pointer.  At
`level = 0` the C code would shift by a negative count. -/
def pop_from_head (idx : Nat) : Nat → Heap → Vector → Nat → Option (Heap × Vector × Nat)
  | 0, _, _, _ => none
  | n + 1, h, vec, node => do
    let level := BITS * (n + 1)
    let index := (idx >>> level) &&& MASK
    if level - BITS = 0 then
      let t ← load h node index
      let vec := { vec with tail := t, tail_count := WIDTH }
      let h1 ← store h node index NULL
      let c0 ← load h1 node 0
      if c0 = NULL ∧ vec.levels > 1 then some (h1, vec, NULL) else some (h1, vec, node)
    else
      let child ← load h node index
      let (h1, vec, r) ← pop_from_head idx n h vec child
      let h2 ← store h1 node index r
      let c0 ← load h2 node 0
      if c0 = NULL then some (h2, vec, NULL) else some (h2, vec, node)

/-- `vector_pop_from_head` -/
def vector_pop_from_head (h : Heap) (vec : Vector) : Option (Heap × Vector) := do
  let (h1, vec, r) ← pop_from_head (vec.count - 1) vec.levels h vec vec.head
  let vec := { vec with head := r }
  let c1 ← load h1 vec.head 1
  if c1 = NULL ∧ vec.levels > 1 then
    let c0 ← load h1 vec.head 0
    some (h1, { vec with head := c0, levels := vec.levels - 1 })
  else some (h1, vec)

/-- `vector_make` -/
def vector_make (h : Heap) : Heap × Vector :=
  let (h1, hd) := node_new h
  let (h2, tl) := node_new h1
  (h2, { head := hd, levels := 1, tail := tl, tail_count := 0, count := 0 })

/-- `vector_count` -/
def vector_count (vec : Vector) : Nat := vec.count

/-- `vector_empty` -/
def vector_empty (vec : Vector) : Bool := vec.count == 0

/-- `vector_push` -/
def vector_push (h : Heap) (vec : Vector) (data : Nat) : Option (Heap × Vector) := do
  let (h1, copy) ← vector_copy h vec
  let (h2, copy) ← if copy.tail_count = WIDTH then vector_append_tail h1 copy else some (h1, copy)
  let h3 ← store h2 copy.tail copy.tail_count data
  some (h3, { copy with count := copy.count + 1, tail_count := copy.tail_count + 1 })

/-- `vector_pop` -/
def vector_pop (h : Heap) (vec : Vector) : Option (Heap × Vector) :=
  if vec.count = 0 then some (h, vec)
  else do
    let (h1, copy) ← vector_copy h vec
    let (h2, copy) ← if copy.tail_count = 0 then vector_pop_from_head h1 copy else some (h1, copy)
    let h3 ← store h2 copy.tail (copy.tail_count - 1) NULL
    some (h3, { copy with count := copy.count - 1, tail_count := copy.tail_count - 1 })

/-- The descent loop shared by `vector_get` and `vector_set`: `n` iterations
remain, `level = BITS * n`, and the result is the node reached. -/
def descend (idx : Nat) : Nat → Heap → Nat → Option Nat
  | 0, _, prev => some prev
  | n + 1, h, prev => do
    let next ← load h prev ((idx >>> (BITS * (n + 1))) &&& MASK)
    descend idx n h next

/-- `vector_get`; `some NULL` is the C function returning `NULL`. -/
def vector_get (h : Heap) (vec : Vector) (idx : Int) : Option Nat :=
  if idx < 0 ∨ idx ≥ vec.count then some NULL
  else
    let i := idx.toNat
    let tail_offset := vec.count - vec.tail_count
    if i ≥ tail_offset then load h vec.tail (i - tail_offset)
    else do
      let prev ← descend i vec.levels h vec.head
      load h prev (i &&& MASK)

/-- `vector_set` -/
def vector_set (h : Heap) (vec : Vector) (idx : Int) (data : Nat) : Option (Heap × Vector) :=
  if idx < 0 ∨ idx ≥ vec.count then some (h, vec)
  else do
    let (h1, copy) ← vector_copy h vec
    let i := idx.toNat
    let tail_offset := vec.count - vec.tail_count
    if i ≥ tail_offset then
      let (h2, t) ← node_copy h1 vec.tail
      let h3 ← store h2 t (i - tail_offset) data
      some (h3, { copy with tail := t })
    else
      let cur ← if vec.levels = 0 then some NULL else descend i vec.levels h1 copy.head
      let h2 ← store h1 cur (i &&& MASK) data
      some (h2, copy)

/-- The vectors a program can hold: `vector_make()` followed by any number of
`vector_push`, `vector_pop` and `vector_set` calls, each applied to the result
of the one before, that returned normally. -/
inductive Reach : Heap → Vector → Prop
  | make : Reach (vector_make Heap.empty).1 (vector_make Heap.empty).2
  | push {h vec h1 vec1} (data : Nat) :
      Reach h vec → vector_push h vec data = some (h1, vec1) → Reach h1 vec1
  | pop {h vec h1 vec1} :
      Reach h vec → vector_pop h vec = some (h1, vec1) → Reach h1 vec1
  | set {h vec h1 vec1} (idx : Int) (data : Nat) :
      Reach h vec → vector_set h vec idx data = some (h1, vec1) → Reach h1 vec1

/-- One call of the mutating API. -/
inductive Op where
  | push (data : Nat)
  | pop
  | set (idx : Int) (data : Nat)

/-- Apply one API call to the latest vector. -/
def Op.apply (s : Heap × Vector) : Op → Option (Heap × Vector)
  | .push data => vector_push s.1 s.2 data
  | .pop => vector_pop s.1 s.2
  | .set idx data => vector_set s.1 s.2 idx data

/-- Run a program: a sequence of API calls, each applied to the result of the
one before. -/
def run : List Op → Heap × Vector → Option (Heap × Vector)
  | [], s => some s
  | op :: ops, s => do
    let s1 ← op.apply s
    run ops s1

/-- The program `v = vector_make(); for i in 0..1056: v = vector_push(v, i + 1);
v = vector_pop(v); v = vector_pop(v); v = vector_push(v, 2001)`.  After the
1057 pushes the trie has two levels and 33 blocks; the second pop refills the
tail from block 32 and collapses the root, leaving a one-level trie with all
32 blocks in use; the last push fills the tail again (`count = 1056`,
`tail_count = 32`, `levels = 1`). -/
def full_trie_ops : List Op :=
  (List.range 1057).map (fun i => Op.push (i + 1)) ++ [Op.pop, Op.pop, Op.push 2001]

/-- The result of running `p` on a fresh vector, or `none` if a call crashed. -/
def run_fresh (p : List Op) : Option (Heap × Vector) := run p (vector_make Heap.empty)

/-! ### Predicates on heaps and vectors -/

/-- Address `a` holds a node. -/
def allocated (h : Heap) (a : Nat) : Prop := ∃ n, h.mem a = some n

/-- The allocator is sound: `NULL` and every address from `next` on are free. -/
def HeapOK (h : Heap) : Prop :=
  h.mem NULL = none ∧ 0 < h.next ∧ ∀ a, h.next ≤ a → h.mem a = none

/-- Depth typing of the heap: a node of depth `d + 1` holds only `NULL` or
allocated nodes of depth `d` (a node of depth `0` is a block of elements). -/
def Typed (h : Heap) (dep : Nat → Nat) : Prop :=
  ∀ a n d, h.mem a = some n → dep a = d + 1 →
    ∀ i, i < WIDTH → n i = NULL ∨ (allocated h (n i) ∧ dep (n i) = d)

/-- Heap `h1` keeps every node address of `h`, with the same depth. -/
def Extends (h h1 : Heap) (dep dep1 : Nat → Nat) : Prop :=
  ∀ a, allocated h a → allocated h1 a ∧ dep1 a = dep a

/-- What holds of every heap and vector header the API produces, whatever the
history: the heap is sound and depth-typed, the root is a node of depth
`levels`, the tail is a block of elements, and the counters are in range. -/
structure Inv (h : Heap) (v : Vector) (dep : Nat → Nat) : Prop where
  ok : HeapOK h
  typed : Typed h dep
  head_alloc : allocated h v.head
  head_dep : dep v.head = v.levels
  tail_alloc : allocated h v.tail
  tail_dep : dep v.tail = 0
  tc_le : v.tail_count ≤ WIDTH
  tc_count : ∃ k, v.count = WIDTH * k + v.tail_count
  levels_pos : 1 ≤ v.levels

end PVector

namespace PHashmap

/-! ### The entries of a map -/

mutual
/-- The entries stored below a node: the pair of a leaf, the cells of a
collision chain from its head on, and the entries of the children of a
bitmap-indexed node from child 0 on. -/
def node_entries : Node → List Cell
  | .leaf k v h => [{ key := k, val := v, hash := h }]
  | .bitmap_indexed _ children => children_entries children
  | .hash_collision cells => cells
/-- The entries below the nodes of a child array. -/
def children_entries : List Node → List Cell
  | [] => []
  | child :: children => node_entries child ++ children_entries children
end

/-- The entries below a possibly absent node. -/
def entries_opt : Option Node → List Cell
  | none => []
  | some node => node_entries node

/-- The entries of a map. -/
def hashmap_entries (map : Hashmap) : List Cell := entries_opt map.root

/-- Key `k` is in the map: an entry has a key that `eq_key` equates with `k`. -/
def has_key (map : Hashmap) (k : Nat) : Prop :=
  ∃ c ∈ hashmap_entries map, map.eq_key c.key k = true

/-- The `count` field is the number of entries. -/
def CountOK (map : Hashmap) : Prop := map.count = (hashmap_entries map).length

end PHashmap

namespace PHashmap

/-- What an `assoc` of `(key, val)` with result `r` does to the entries `es`
of a node, giving `es1`: with `UNCHANGED` an entry for `key` whose value
`eq_val` equates with `val` is there and the entries stay; with `UPDATED` the
one entry for `key` is replaced; with `ADDED` no entry for `key` was there and
one is added. -/
def AssocEntries (eq_key eq_val : Nat → Nat → Bool) (key val hash : Nat) (es es1 : List Cell)
    (r : Nat) : Prop :=
  (r = UNCHANGED ∧ es1 = es ∧ ∃ c ∈ es, eq_key c.key key = true ∧ eq_val c.val val = true) ∨
  (r = UPDATED ∧ ∃ c rest, eq_key c.key key = true ∧ eq_val c.val val = false ∧
    es.Perm (c :: rest) ∧ es1.Perm ({ key := key, val := val, hash := hash } :: rest) ∧
    ∀ x ∈ rest, eq_key x.key key = false) ∨
  (r = ADDED ∧ (∀ x ∈ es, eq_key x.key key = false) ∧
    es1.Perm ({ key := key, val := val, hash := hash } :: es))

/-- What a `dissoc` of `key` with result `r` does to the entries `es` of a
node, giving `es1`: with `UNCHANGED` no entry for `key` was there; with
`REMOVED` the one entry for `key` is taken out. -/
def DissocEntries (eq_key : Nat → Nat → Bool) (key : Nat) (es es1 : List Cell) (r : Nat) : Prop :=
  (r = UNCHANGED ∧ ∀ x ∈ es, eq_key x.key key = false) ∨
  (r = REMOVED ∧ ∃ c, eq_key c.key key = true ∧ es.Perm (c :: es1) ∧
    ∀ x ∈ es1, eq_key x.key key = false)

end PHashmap

/-! ## The hash map in memory (`hashmap/src/hashmap.c`)

The same functions once more, this time with the heap of the garbage collector
made explicit: a pointer is an address, `GC_MALLOC` hands out fresh addresses,
and every assignment of the C code is a write to the heap.  This is the level
at which one can ask whether an operation writes to a block of its input, and
whether the map it returns is the very map it was given.

Each of the five constructor functions of the C code (`new_leaf_node`,
`new_bitmap_indexed_node`, `new_hash_collision_node`, `copy_hashmap`,
`copy_bitmap_indexed_node`) obtains a block from `GC_MALLOC` and fills it in
before returning it; here that is the single step `alloc`.  Every other
assignment is a `write` to an address held by the running function.  A
function returns `none` where the C code would dereference `NULL` or a block of
another type, or index a child array outside its entries; `memcpy` copies the
entries that exist in both arrays (what lies past the last entry of an array
is not modelled).  Loops and recursion run on `fuel`. -/

namespace PHashmapMem

open PHashmap (NULL UNCHANGED ADDED UPDATED REMOVED HASH_BITS popcount mask bitpos bit_index)

/-- A block of the heap: one of the three node structs (the constructor stands
for the `type` field), an array of child pointers, or a `struct Hashmap`. -/
inductive Obj where
  | leaf (key val hash : Nat)
  | bitmap_indexed (bitmap children : Nat)
  | hash_collision (key val hash next : Nat)
  | children (slots : List Nat)
  | hashmap (hash : Nat → Nat) (eq_key eq_val : Nat → Nat → Bool) (count : Int) (root : Nat)

/-- The garbage-collected heap: the blocks allocated so far and the next
address the allocator hands out. -/
structure Heap where
  mem : Nat → Option Obj
  next : Nat

/-- A heap with nothing allocated. -/
def Heap.empty : Heap := { mem := fun _ => none, next := 1 }

/-- A fresh block with contents `o`: `GC_MALLOC` followed by the assignments
that initialise the block. -/
def alloc (h : Heap) (o : Obj) : Heap × Nat :=
  ({ mem := fun a => if a = h.next then some o else h.mem a, next := h.next + 1 }, h.next)

/-- The heap after an assignment that turns the block at `p` into `o`. -/
def write (h : Heap) (p : Nat) (o : Obj) : Heap :=
  { h with mem := fun a => if a = p then some o else h.mem a }

/-- `GC_MALLOC(sizeof(Node*) * n)`: a fresh array of `n` child pointers,
cleared to zero. -/
def GC_MALLOC (h : Heap) (n : Nat) : Heap × Nat := alloc h (.children (List.replicate n NULL))

/-- `new_leaf_node` -/
def new_leaf_node (h : Heap) (key val hash : Nat) : Heap × Nat := alloc h (.leaf key val hash)

/-- `new_bitmap_indexed_node`; `children` is `NULL` from the zero fill. -/
def new_bitmap_indexed_node (h : Heap) : Heap × Nat := alloc h (.bitmap_indexed 0 NULL)

/-- `new_hash_collision_node` -/
def new_hash_collision_node (h : Heap) (key val hash : Nat) : Heap × Nat :=
  alloc h (.hash_collision key val hash NULL)

/-- `copy_hashmap` -/
def copy_hashmap (h : Heap) (map : Nat) : Option (Heap × Nat) :=
  match h.mem map with
  | some (.hashmap hash eq_key eq_val count root) =>
    some (alloc h (.hashmap hash eq_key eq_val count root))
  | _ => none

/-- `copy_bitmap_indexed_node` -/
def copy_bitmap_indexed_node (h : Heap) (node : Nat) : Option (Heap × Nat) :=
  match h.mem node with
  | some (.bitmap_indexed bitmap children) => some (alloc h (.bitmap_indexed bitmap children))
  | _ => none

/-- Read `node->bitmap`. -/
def get_bitmap (h : Heap) (node : Nat) : Option Nat :=
  match h.mem node with
  | some (.bitmap_indexed bitmap _) => some bitmap
  | _ => none

/-- Read `node->children`. -/
def get_children (h : Heap) (node : Nat) : Option Nat :=
  match h.mem node with
  | some (.bitmap_indexed _ children) => some children
  | _ => none

/-- Read `children[idx]`. -/
def get_child (h : Heap) (children idx : Nat) : Option Nat :=
  match h.mem children with
  | some (.children slots) => slots[idx]?
  | _ => none

/-- `node->bitmap = bitmap` -/
def set_bitmap (h : Heap) (node bitmap : Nat) : Option Heap :=
  match h.mem node with
  | some (.bitmap_indexed _ children) => some (write h node (.bitmap_indexed bitmap children))
  | _ => none

/-- `node->children = children` -/
def set_children (h : Heap) (node children : Nat) : Option Heap :=
  match h.mem node with
  | some (.bitmap_indexed bitmap _) => some (write h node (.bitmap_indexed bitmap children))
  | _ => none

/-- `children[idx] = x` -/
def set_child (h : Heap) (children idx x : Nat) : Option Heap :=
  match h.mem children with
  | some (.children slots) =>
    if idx < slots.length then some (write h children (.children (slots.set idx x))) else none
  | _ => none

/-- `node->next = next` -/
def set_next (h : Heap) (node next : Nat) : Option Heap :=
  match h.mem node with
  | some (.hash_collision key val hash _) => some (write h node (.hash_collision key val hash next))
  | _ => none

/-- `map->root = root` -/
def set_root (h : Heap) (map root : Nat) : Option Heap :=
  match h.mem map with
  | some (.hashmap hash eq_key eq_val count _) =>
    some (write h map (.hashmap hash eq_key eq_val count root))
  | _ => none

/-- `map->count += d` -/
def add_count (h : Heap) (map : Nat) (d : Int) : Option Heap :=
  match h.mem map with
  | some (.hashmap hash eq_key eq_val count root) =>
    some (write h map (.hashmap hash eq_key eq_val (count + d) root))
  | _ => none

/-- The destination array after `memcpy(&dst[doff], &src[soff], sizeof(Node*) * n)`:
slot `doff + i` receives source slot `soff + i` for every `i < n` for which
both exist. -/
def copy_slots (dst : List Nat) (doff : Nat) (src : List Nat) (soff n : Nat) : List Nat :=
  (List.range dst.length).map (fun j =>
    if doff ≤ j ∧ j - doff < n then src.getD (soff + (j - doff)) (dst.getD j NULL)
    else dst.getD j NULL)

/-- `memcpy(&dst[doff], &src[soff], sizeof(Node*) * n)` on two child arrays. -/
def memcpy (h : Heap) (dst doff src soff n : Nat) : Option Heap :=
  match h.mem dst, h.mem src with
  | some (.children d), some (.children s) =>
    some (write h dst (.children (copy_slots d doff s soff n)))
  | _, _ => none

/-! ### `get` -/

/-- `hash_collision_get`: the `while (node)` scan of the chain. -/
def hash_collision_get (eq_key : Nat → Nat → Bool) (key : Nat) : Nat → Heap → Nat → Option Nat
  | 0, _, _ => none
  | fuel + 1, h, node =>
    if node = NULL then some NULL
    else
      match h.mem node with
      | some (.hash_collision k v _ next) =>
        if eq_key k key then some v else hash_collision_get eq_key key fuel h next
      | _ => none

/-- `self->type->get(self, level, key, hash, eq_key, eq_val)`: `leaf_get`,
`bitmap_indexed_get` or `hash_collision_get` by the type of the block. -/
def node_get (eq_key : Nat → Nat → Bool) (key hash : Nat) : Nat → Heap → Nat → Nat → Option Nat
  | 0, _, _, _ => none
  | fuel + 1, h, self, level =>
    match h.mem self with
    | some (.leaf k v _) => some (if eq_key k key then v else NULL)
    | some (.bitmap_indexed bitmap children) =>
      let bit := bitpos hash level
      if bitmap &&& bit ≠ 0 then
        let idx := bit_index bitmap bit
        match get_child h children idx with
        | none => none
        | some child => node_get eq_key key hash fuel h child (level + 1)
      else some NULL
    | some (.hash_collision _ _ _ _) => hash_collision_get eq_key key fuel h self
    | _ => none

/-- `hashmap_get` -/
def hashmap_get (fuel : Nat) (h : Heap) (map key : Nat) : Option Nat :=
  match h.mem map with
  | some (.hashmap hash eq_key _ _ root) =>
    if root = NULL then some NULL
    else node_get eq_key key (hash key % 2 ^ HASH_BITS) fuel h root 0
  | _ => none

/-- `hashmap_count` -/
def hashmap_count (h : Heap) (map : Nat) : Option Int :=
  match h.mem map with
  | some (.hashmap _ _ _ count _) => some count
  | _ => none

/-! ### `assoc` -/

/-- The first loop of `hash_collision_assoc` and `hash_collision_dissoc`: the
first cell from `node` on whose key equals `key`, or `NULL`. -/
def chain_find (eq_key : Nat → Nat → Bool) (key : Nat) : Nat → Heap → Nat → Option Nat
  | 0, _, _ => none
  | fuel + 1, h, node =>
    if node = NULL then some NULL
    else
      match h.mem node with
      | some (.hash_collision k _ _ next) =>
        if eq_key k key then some node else chain_find eq_key key fuel h next
      | _ => none

/-- The copy loop of `hash_collision_assoc` and `hash_collision_dissoc`,
`while (curr != node)`; the result is the heap and the final `copy`. -/
def chain_copy (node : Nat) : Nat → Heap → Nat → Nat → Nat → Option (Heap × Nat)
  | 0, _, _, _, _ => none
  | fuel + 1, h, prev, curr, copy =>
    if curr = node then some (h, copy)
    else
      match h.mem curr with
      | some (.hash_collision k v hash next) =>
        let (h1, c) := new_hash_collision_node h k v hash
        match set_next h1 c prev with
        | none => none
        | some h2 => chain_copy node fuel h2 c next c
      | _ => none

/-- `hash_collision_assoc`; the result is the heap, the returned node and
`*result`. -/
def hash_collision_assoc (fuel : Nat) (h : Heap) (self key val hash : Nat)
    (eq_key eq_val : Nat → Nat → Bool) : Option (Heap × Nat × Nat) :=
  match chain_find eq_key key fuel h self with
  | none => none
  | some node =>
    if node = NULL then
      let (h1, new) := new_hash_collision_node h key val hash
      match set_next h1 new self with
      | none => none
      | some h2 => some (h2, new, ADDED)
    else
      match h.mem node with
      | some (.hash_collision k v _ next) =>
        if eq_key k key && eq_val v val then some (h, self, UNCHANGED)
        else
          let (h1, new) := new_hash_collision_node h key val hash
          match set_next h1 new next with
          | none => none
          | some h2 =>
            if node = self then some (h2, new, UPDATED)
            else
              match chain_copy node fuel h2 new self NULL with
              | none => none
              | some (h3, copy) => some (h3, copy, UPDATED)
      | _ => none

/-- `leaf_assoc`; `assoc` is the dispatch `parent->type->assoc`. -/
def leaf_assoc (assoc : Heap → Nat → Nat → Option (Heap × Nat × Nat)) (h : Heap)
    (self level key val hash : Nat) (eq_key eq_val : Nat → Nat → Bool) :
    Option (Heap × Nat × Nat) :=
  match h.mem self with
  | some (.leaf k v nhash) =>
    if nhash ≠ hash then
      let (h1, parent) := new_bitmap_indexed_node h
      let node_bit := bitpos nhash level
      let new_bit := bitpos hash level
      if node_bit ≠ new_bit then do
        let (h2, arr) := GC_MALLOC h1 2
        let h3 ← set_children h2 parent arr
        let b0 ← get_bitmap h3 parent
        let h4 ← set_bitmap h3 parent (b0 ||| node_bit)
        let b1 ← get_bitmap h4 parent
        let h5 ← set_bitmap h4 parent (b1 ||| new_bit)
        let b2 ← get_bitmap h5 parent
        let node_idx := bit_index b2 node_bit
        let new_idx := bit_index b2 new_bit
        let (h6, new) := new_leaf_node h5 key val hash
        let cs ← get_children h6 parent
        let h7 ← set_child h6 cs node_idx self
        let h8 ← set_child h7 cs new_idx new
        some (h8, parent, ADDED)
      else do
        let (h2, arr) := GC_MALLOC h1 1
        let h3 ← set_children h2 parent arr
        let b0 ← get_bitmap h3 parent
        let h4 ← set_bitmap h3 parent (b0 ||| node_bit)
        let cs ← get_children h4 parent
        let h5 ← set_child h4 cs 0 self
        assoc h5 parent level
    else if eq_key k key && eq_val v val then some (h, self, UNCHANGED)
    else if eq_key k key then
      let (h1, new) := new_leaf_node h key val hash
      some (h1, new, UPDATED)
    else do
      let (h1, original) := new_hash_collision_node h k v nhash
      let (h2, new) := new_hash_collision_node h1 key val hash
      let h3 ← set_next h2 new original
      some (h3, new, ADDED)
  | _ => none

/-- `bitmap_indexed_assoc`; `assoc` is the dispatch `child->type->assoc`. -/
def bitmap_indexed_assoc (assoc : Heap → Nat → Nat → Option (Heap × Nat × Nat)) (h : Heap)
    (self level key val hash : Nat) : Option (Heap × Nat × Nat) := do
  let bitmap ← get_bitmap h self
  let bit := bitpos hash level
  let idx := bit_index bitmap bit
  if bitmap &&& bit ≠ 0 then do
    let children ← get_children h self
    let child ← get_child h children idx
    let (h1, new, result) ← assoc h child (level + 1)
    if result ≠ UNCHANGED then do
      let (h2, copy) ← copy_bitmap_indexed_node h1 self
      let b ← get_bitmap h2 self
      let nodes := popcount b
      let (h3, arr) := GC_MALLOC h2 nodes
      let h4 ← set_children h3 copy arr
      let dst ← get_children h4 copy
      let src ← get_children h4 self
      let h5 ← memcpy h4 dst 0 src 0 nodes
      let h6 ← set_child h5 dst idx new
      some (h6, copy, result)
    else some (h1, self, result)
  else do
    let (h1, new) ← copy_bitmap_indexed_node h self
    let b0 ← get_bitmap h1 new
    let h2 ← set_bitmap h1 new (b0 ||| bit)
    let b1 ← get_bitmap h2 new
    let nodes := popcount b1
    let (h3, arr) := GC_MALLOC h2 nodes
    let h4 ← set_children h3 new arr
    let dst ← get_children h4 new
    let src ← get_children h4 self
    let h5 ← memcpy h4 dst 0 src 0 idx
    let h6 ← memcpy h5 dst (idx + 1) src idx (nodes - idx)
    let (h7, leaf) := new_leaf_node h6 key val hash
    let h8 ← set_child h7 dst idx leaf
    some (h8, new, ADDED)

/-- `self->type->assoc(self, level, key, val, hash, eq_key, eq_val, &result)`
by the type of the block. -/
def node_assoc (key val hash : Nat) (eq_key eq_val : Nat → Nat → Bool) :
    Nat → Heap → Nat → Nat → Option (Heap × Nat × Nat)
  | 0, _, _, _ => none
  | fuel + 1, h, self, level =>
    match h.mem self with
    | some (.leaf _ _ _) =>
      leaf_assoc (node_assoc key val hash eq_key eq_val fuel) h self level key val hash eq_key
        eq_val
    | some (.bitmap_indexed _ _) =>
      bitmap_indexed_assoc (node_assoc key val hash eq_key eq_val fuel) h self level key val hash
    | some (.hash_collision _ _ _ _) => hash_collision_assoc fuel h self key val hash eq_key eq_val
    | _ => none

/-- `hashmap_make`; the functions are given (a `NULL` function pointer, which
selects a default string function, is not modelled at this level). -/
def hashmap_make (h : Heap) (hash : Nat → Nat) (eq_keys eq_vals : Nat → Nat → Bool) : Heap × Nat :=
  alloc h (.hashmap hash eq_keys eq_vals 0 NULL)

/-- `hashmap_assoc` -/
def hashmap_assoc (fuel : Nat) (h : Heap) (map key val : Nat) : Option (Heap × Nat) :=
  match h.mem map with
  | some (.hashmap hash eq_key eq_val _ root) => do
    let (h1, root1, result) ←
      if root = NULL then
        let (h1, leaf) := new_leaf_node h key val (hash key % 2 ^ HASH_BITS)
        some (h1, leaf, ADDED)
      else node_assoc key val (hash key % 2 ^ HASH_BITS) eq_key eq_val fuel h root 0
    if result ≠ UNCHANGED then do
      let (h2, new) ← copy_hashmap h1 map
      let h3 ← set_root h2 new root1
      let h4 ← add_count h3 new (if result = ADDED then 1 else 0)
      some (h4, new)
    else some (h1, map)
  | _ => none

end PHashmapMem

namespace PHashmapMem

open PHashmap (NULL UNCHANGED ADDED UPDATED REMOVED HASH_BITS popcount mask bitpos bit_index)

/-! ### `dissoc` -/

/-- `leaf_dissoc` -/
def leaf_dissoc (h : Heap) (self key : Nat) (eq_key : Nat → Nat → Bool) :
    Option (Heap × Nat × Nat) :=
  match h.mem self with
  | some (.leaf k _ _) =>
    if eq_key k key then some (h, NULL, REMOVED) else some (h, self, UNCHANGED)
  | _ => none

/-- Read `node->next`. -/
def get_next (h : Heap) (node : Nat) : Option Nat :=
  match h.mem node with
  | some (.hash_collision _ _ _ next) => some next
  | _ => none

/-- `hash_collision_dissoc` -/
def hash_collision_dissoc (fuel : Nat) (h : Heap) (self key : Nat) (eq_key : Nat → Nat → Bool) :
    Option (Heap × Nat × Nat) := do
  let head := self
  let node ← chain_find eq_key key fuel h head
  if node = NULL then some (h, node, UNCHANGED)
  else do
    let next ← get_next h node
    let two_head ← if node = head ∧ next ≠ NULL then do
        let nn ← get_next h next
        some (decide (nn = NULL))
      else some false
    if two_head then
      match h.mem next with
      | some (.hash_collision k v hash _) =>
        let (h1, new) := new_leaf_node h k v hash
        some (h1, new, REMOVED)
      | _ => none
    else do
      let head_next ← get_next h head
      if node = head_next ∧ next = NULL then
        match h.mem head with
        | some (.hash_collision k v hash _) =>
          let (h1, new) := new_leaf_node h k v hash
          some (h1, new, REMOVED)
        | _ => none
      else if node = self then some (h, next, REMOVED)
      else do
        let (h1, copy) ← chain_copy node fuel h next head NULL
        some (h1, copy, REMOVED)

/-- `bitmap_indexed_dissoc`; `dissoc` is the dispatch `child->type->dissoc`. -/
def bitmap_indexed_dissoc (dissoc : Heap → Nat → Nat → Option (Heap × Nat × Nat)) (h : Heap)
    (self level hash : Nat) : Option (Heap × Nat × Nat) := do
  let bitmap ← get_bitmap h self
  let bit := bitpos hash level
  let idx := bit_index bitmap bit
  if bitmap &&& bit ≠ 0 then do
    let children ← get_children h self
    let child ← get_child h children idx
    let (h1, new, result) ← dissoc h child (level + 1)
    if result ≠ UNCHANGED then do
      let (h2, copy) ← copy_bitmap_indexed_node h1 self
      if new = NULL then do
        let b0 ← get_bitmap h2 copy
        let h3 ← set_bitmap h2 copy (b0 &&& ((2 ^ HASH_BITS - 1) ^^^ bit))
        let b1 ← get_bitmap h3 copy
        if b1 = 0 then some (h3, NULL, result)
        else do
          let nodes := popcount b1
          let (h4, arr) := GC_MALLOC h3 nodes
          let h5 ← set_children h4 copy arr
          let dst ← get_children h5 copy
          let src ← get_children h5 self
          let h6 ← memcpy h5 dst 0 src 0 idx
          let h7 ← memcpy h6 dst idx src (idx + 1) (nodes - idx)
          some (h7, copy, result)
      else do
        let b ← get_bitmap h2 copy
        let nodes := popcount b
        let (h3, arr) := GC_MALLOC h2 nodes
        let h4 ← set_children h3 copy arr
        let dst ← get_children h4 copy
        let src ← get_children h4 self
        let h5 ← memcpy h4 dst 0 src 0 nodes
        let h6 ← set_child h5 dst idx new
        some (h6, copy, result)
    else some (h1, self, result)
  else some (h, self, UNCHANGED)

/-- `self->type->dissoc(self, level, key, hash, eq_key, eq_val, &result)` by
the type of the block. -/
def node_dissoc (eq_key : Nat → Nat → Bool) (key hash : Nat) :
    Nat → Heap → Nat → Nat → Option (Heap × Nat × Nat)
  | 0, _, _, _ => none
  | fuel + 1, h, self, level =>
    match h.mem self with
    | some (.leaf _ _ _) => leaf_dissoc h self key eq_key
    | some (.bitmap_indexed _ _) =>
      bitmap_indexed_dissoc (node_dissoc eq_key key hash fuel) h self level hash
    | some (.hash_collision _ _ _ _) => hash_collision_dissoc fuel h self key eq_key
    | _ => none

/-- `hashmap_dissoc` -/
def hashmap_dissoc (fuel : Nat) (h : Heap) (map key : Nat) : Option (Heap × Nat) :=
  match h.mem map with
  | some (.hashmap hash eq_key _ _ root) =>
    if root = NULL then some (h, map)
    else do
      let (h1, root1, result) ← node_dissoc eq_key key (hash key % 2 ^ HASH_BITS) fuel h root 0
      if result ≠ UNCHANGED then do
        let (h2, new) ← copy_hashmap h1 map
        let h3 ← set_root h2 new root1
        let h4 ← add_count h3 new (-(if result = REMOVED then 1 else 0))
        some (h4, new)
      else some (h1, map)
  | _ => none

/-! ### Programs -/

/-- The maps a program holds after `hashmap_make(hash, eq_key, eq_val)` and any
number of `hashmap_assoc` and `hashmap_dissoc` calls that returned: `Reach h m`
says that `m` is one of them when the heap is `h`.  The result of a call is
such a map, and so is every map held before the call, the argument included. -/
inductive Reach (hash : Nat → Nat) (eq_key eq_val : Nat → Nat → Bool) : Heap → Nat → Prop
  | make : Reach hash eq_key eq_val (hashmap_make Heap.empty hash eq_key eq_val).1
      (hashmap_make Heap.empty hash eq_key eq_val).2
  | assoc {h h1 : Heap} {map map1 : Nat} (fuel key val : Nat) :
      Reach hash eq_key eq_val h map → hashmap_assoc fuel h map key val = some (h1, map1) →
      Reach hash eq_key eq_val h1 map1
  | dissoc {h h1 : Heap} {map map1 : Nat} (fuel key : Nat) :
      Reach hash eq_key eq_val h map → hashmap_dissoc fuel h map key = some (h1, map1) →
      Reach hash eq_key eq_val h1 map1
  | keep_assoc {h h1 : Heap} {m map map1 : Nat} (fuel key val : Nat) :
      Reach hash eq_key eq_val h m → Reach hash eq_key eq_val h map →
      hashmap_assoc fuel h map key val = some (h1, map1) → Reach hash eq_key eq_val h1 m
  | keep_dissoc {h h1 : Heap} {m map map1 : Nat} (fuel key : Nat) :
      Reach hash eq_key eq_val h m → Reach hash eq_key eq_val h map →
      hashmap_dissoc fuel h map key = some (h1, map1) → Reach hash eq_key eq_val h1 m

/-- Apply one API call to the latest map. -/
def apply (fuel : Nat) (s : Heap × Nat) : PHashmap.Op → Option (Heap × Nat)
  | .assoc key val => hashmap_assoc fuel s.1 s.2 key val
  | .dissoc key => hashmap_dissoc fuel s.1 s.2 key

/-- Run a program: a sequence of API calls, each applied to the result of the
one before. -/
def run (fuel : Nat) : List PHashmap.Op → Heap × Nat → Option (Heap × Nat)
  | [], s => some s
  | op :: ops, s =>
    match apply fuel s op with
    | none => none
    | some s1 => run fuel ops s1

/-- The heap-level `mod4_map`: hash `key mod 4`, pointer equality on keys and
values, in an empty heap. -/
def mod4_map : Heap × Nat :=
  hashmap_make Heap.empty (fun k => k % 4) (fun a b => a == b) (fun a b => a == b)

/-! ### Predicates on heaps -/

/-- The allocator is sound: `NULL` and every address from `next` on are free. -/
def HeapOK (h : Heap) : Prop :=
  h.mem NULL = none ∧ 0 < h.next ∧ ∀ a, h.next ≤ a → h.mem a = none

/-- Heap `h1` has every block of `h`, unchanged. -/
def Frame (h h1 : Heap) : Prop :=
  h.next ≤ h1.next ∧ ∀ a, a < h.next → h1.mem a = h.mem a

/-- The chain starting at address `p` holds the cells `cells`. -/
def RepChain (h : Heap) : Nat → List PHashmap.Cell → Prop
  | p, [] => p = NULL
  | p, c :: rest =>
    ∃ next, h.mem p = some (.hash_collision c.key c.val c.hash next) ∧ RepChain h next rest

/-- The cells `cells` lead from address `p` to address `q` of a chain. -/
def RepSeg (h : Heap) : Nat → Nat → List PHashmap.Cell → Prop
  | p, q, [] => p = q
  | p, q, c :: rest =>
    ∃ next, h.mem p = some (.hash_collision c.key c.val c.hash next) ∧ RepSeg h next q rest

/-- The block at address `p` and the blocks it points to hold the node `n`. -/
inductive Rep (h : Heap) : Nat → PHashmap.Node → Prop
  | leaf {p k v hash : Nat} : h.mem p = some (.leaf k v hash) → Rep h p (.leaf k v hash)
  | hash_collision {p : Nat} {cells : List PHashmap.Cell} :
      cells ≠ [] → RepChain h p cells → Rep h p (.hash_collision cells)
  | bitmap_indexed {p bitmap a : Nat} {ps : List Nat} {cs : List PHashmap.Node} :
      h.mem p = some (.bitmap_indexed bitmap a) → h.mem a = some (.children ps) →
      ps.length = cs.length →
      (∀ (i q : Nat) (c : PHashmap.Node), ps[i]? = some q → cs[i]? = some c → Rep h q c) →
      Rep h p (.bitmap_indexed bitmap cs)

/-- The root pointer `p` holds the possibly absent node `n`. -/
def RepOpt (h : Heap) (p : Nat) : Option PHashmap.Node → Prop
  | none => p = NULL
  | some n => Rep h p n

/-- The `struct Hashmap` at address `m` and the nodes below it hold the map
`map`. -/
def RepMap (h : Heap) (m : Nat) (map : PHashmap.Hashmap) : Prop :=
  ∃ root, h.mem m = some (.hashmap map.hash map.eq_key map.eq_val map.count root) ∧
    RepOpt h root map.root

end PHashmapMem

namespace PVector

/-! ### Vectors built by pushes only

The predicates below describe the heap of a vector that was built by
`vector_push` calls alone.  Block `j` of the vector is the node that holds the
elements `WIDTH * j .. WIDTH * j + WIDTH - 1`; the trie holds the blocks
`0 .. B - 1` and the tail holds the elements from `WIDTH * B` on.  A labelling
gives each node of the trie its depth `d` (0 for a block of elements) and its
position `j` among the nodes of that depth. -/

/-- The number of blocks that a node of depth `d` is to hold while
`vector_append_tail` inserts block `B`: the nodes of depth above `k`, which
the loop has left behind, already count block `B`. -/
def thr (B k d : Nat) : Nat := if k < d then B + 1 else B

/-- The nodes of the trie: the root `head` has depth `levels`; child `i` of
the node `(d + 1, j)` is the node `(d, WIDTH * j + i)` if that node holds a
block below the threshold and `NULL` otherwise; the node `(0, j)` holds the
elements of block `j` of `f`. -/
structure Labelled (h : Heap) (f : Nat → Nat) (lab : Nat → Option (Nat × Nat))
    (levels head B k : Nat) : Prop where
  head_lab : lab head = some (levels, 0)
  inj : ∀ a a1 x, lab a = some x → lab a1 = some x → a = a1
  place : ∀ a d j, lab a = some (d, j) →
    (d = levels ∧ j = 0 ∧ a = head) ∨ (d < levels ∧ j * WIDTH ^ d < thr B k (d + 1))
  node : ∀ a d j, lab a = some (d, j) → ∃ n, h.mem a = some n ∧
    (d = 0 → ∀ i, i < WIDTH → n i = f (WIDTH * j + i)) ∧
    (∀ e, d = e + 1 → ∀ i, i < WIDTH →
      if (WIDTH * j + i) * WIDTH ^ e < thr B k d then lab (n i) = some (e, WIDTH * j + i)
      else n i = NULL)

/-- The state after `count` pushes of `f 0, f 1, ...` onto a fresh vector: the
trie holds the blocks `0 .. B - 1` of `f`, the tail is a node outside the trie
that holds the `tail_count` elements after them, and the trie has room for one
more block. -/
structure PushInv (h : Heap) (v : Vector) (f : Nat → Nat) (B : Nat)
    (lab : Nat → Option (Nat × Nat)) : Prop where
  ok : HeapOK h
  labelled : Labelled h f lab v.levels v.head B v.levels
  tail_lab : lab v.tail = none
  tail_mem : ∃ n, h.mem v.tail = some n ∧ ∀ i, i < v.tail_count → n i = f (WIDTH * B + i)
  count_eq : v.count = WIDTH * B + v.tail_count
  tc_le : v.tail_count ≤ WIDTH
  cap : B < WIDTH ^ v.levels
  levels_pos : 1 ≤ v.levels
  grown : v.levels = 1 ∨ WIDTH ^ v.levels ≤ WIDTH * B

end PVector

namespace PHashmap

/-! ### The default hash and the visitors -/

/-- The body of the loop of `hash_str`, `hash = ((hash << 5) + hash) + c`, with
every `unsigned int` operation wrapping modulo `2 ^ 32`; `c` is the `int` value
of the `char` read, which the last addition converts to `unsigned int`. -/
def hash_step (hash : Nat) (c : Int) : Nat :=
  ((((((hash <<< 5) % 2 ^ HASH_BITS + hash) % 2 ^ HASH_BITS : Nat) : Int) + c) %
    2 ^ HASH_BITS).toNat

/-- `hash_collision_visit`: the `while (node)` walk of the chain.  The visitor
`fn(key, val, acc)` is a function on the state `σ` that it reads and writes
through `acc`. -/
def hash_collision_visit {σ : Type} (fn : Nat → Nat → σ → σ) : List Cell → σ → σ
  | [], acc => acc
  | node :: next, acc => hash_collision_visit fn next (fn node.key node.val acc)

mutual
/-- `self->type->visitor(self, fn, acc)`; the first case is `leaf_visit`, the
second `bitmap_indexed_visit`. -/
def node_visit {σ : Type} (fn : Nat → Nat → σ → σ) : Node → σ → Option σ
  | .leaf k v _, acc => some (fn k v acc)
  | .bitmap_indexed bitmap children, acc => children_visit fn children (popcount bitmap) acc
  | .hash_collision cells, acc => some (hash_collision_visit fn cells acc)
/-- The loop `for (i = 0; i < nodes; i++)` of `bitmap_indexed_visit` from child
`i` on, with `nodes - i` iterations left. -/
def children_visit {σ : Type} (fn : Nat → Nat → σ → σ) : List Node → Nat → σ → Option σ
  | _, 0, acc => some acc
  | [], _ + 1, _ => none
  | child :: rest, n + 1, acc =>
    match node_visit fn child acc with
    | none => none
    | some acc1 => children_visit fn rest n acc1
end

/-- `hashmap_visit` -/
def hashmap_visit {σ : Type} (map : Hashmap) (fn : Nat → Nat → σ → σ) (acc : σ) : Option σ :=
  match map.root with
  | none => some acc
  | some root => node_visit fn root acc

/-- The value of the first entry whose key `eq_key` equates with `k`, `NULL`
when there is none. -/
def find_val (eq_key : Nat → Nat → Bool) (k : Nat) (es : List Cell) : Nat :=
  match es.find? (fun c => eq_key c.key k) with
  | some c => c.val
  | none => NULL

end PHashmap

/-! ## Linked list (`list/src/list.c`)

A list is a pointer to a chain of `pair`s in a garbage-collected heap, and the
empty list is `NULL`.  `list_reverse` relinks the pairs in place, so the
embedding threads an explicit heap through every function.  A function returns
`none` where the C code would dereference an unallocated address.  Every
`while` loop takes a bound `fuel` on its iterations and returns `none` when it
runs out.  The `int` and `long` counters are unbounded integers: a list whose
length overflows them is out of reach of any heap the allocator can serve.  The
comparison `fn` of `list_find` is a function of its two arguments that does not
touch the heap. -/

namespace PList

/-- The null pointer, which is the empty list. -/
def NULL : Nat := 0

/-- `struct pair_s` -/
structure Pair where
  data : Nat
  next : Nat
  deriving DecidableEq, Repr

/-- The garbage-collected heap: the pairs allocated so far and the next
address the allocator hands out. -/
structure Heap where
  mem : Nat → Option Pair
  next : Nat

/-- A heap with nothing allocated. -/
def Heap.empty : Heap := { mem := fun _ => none, next := 1 }

/-- The heap after the assignment `p->next = x`. -/
def set_next (h : Heap) (p x : Nat) : Option Heap :=
  match h.mem p with
  | none => none
  | some pr =>
    some (Heap.mk (fun a => if a = p then some { pr with next := x } else h.mem a) h.next)

/-- `list_cons`: a fresh pair with `data = val` and `next = lst`. -/
def list_cons (h : Heap) (lst val : Nat) : Heap × Nat :=
  (Heap.mk (fun a => if a = h.next then some { data := val, next := lst } else h.mem a)
    (h.next + 1), h.next)

/-- `list_make` -/
def list_make (h : Heap) (data : Nat) : Heap × Nat := list_cons h NULL data

/-- `list_empty` -/
def list_empty (lst : Nat) : Bool := lst == NULL

/-- `list_first` -/
def list_first (h : Heap) (lst : Nat) : Option Nat :=
  if lst ≠ NULL then (h.mem lst).map (fun p => p.data) else some NULL

/-- `list_rest` -/
def list_rest (h : Heap) (lst : Nat) : Option Nat :=
  if lst ≠ NULL then (h.mem lst).map (fun p => p.next) else some NULL

/-- The loop `while (lst->next)` of `list_count`. -/
def count_loop : Nat → Heap → Nat → Int → Option Int
  | 0, _, _, _ => none
  | fuel + 1, h, lst, ctr =>
    match h.mem lst with
    | none => none
    | some p => if p.next ≠ NULL then count_loop fuel h p.next (ctr + 1) else some ctr

/-- `list_count` -/
def list_count (fuel : Nat) (h : Heap) (lst : Nat) : Option Int :=
  if lst = NULL then some 0 else count_loop fuel h lst 1

/-- The loop `while (lst)` of `list_nth`. -/
def nth_loop (n : Int) : Nat → Heap → Nat → Int → Option Nat
  | 0, _, _, _ => none
  | fuel + 1, h, lst, idx =>
    if lst ≠ NULL then
      match h.mem lst with
      | none => none
      | some p => if n = idx then some p.data else nth_loop n fuel h p.next (idx + 1)
    else some NULL

/-- `list_nth` -/
def list_nth (fuel : Nat) (h : Heap) (lst : Nat) (n : Int) : Option Nat :=
  if lst = NULL then some NULL else nth_loop n fuel h lst 0

/-- The loop `while (current)` of `list_reverse`; the result is the heap and
the final `prev`. -/
def reverse_loop : Nat → Heap → Nat → Nat → Option (Heap × Nat)
  | 0, _, _, _ => none
  | fuel + 1, h, prev, current =>
    if current ≠ NULL then
      match h.mem current with
      | none => none
      | some p =>
        match set_next h current prev with
        | none => none
        | some h1 => reverse_loop fuel h1 current p.next
    else some (h, prev)

/-- `list_reverse` -/
def list_reverse (fuel : Nat) (h : Heap) (lst : Nat) : Option (Heap × Nat) :=
  if lst = NULL then some (h, lst)
  else
    match h.mem lst with
    | none => none
    | some p => if p.next ≠ NULL then reverse_loop fuel h NULL lst else some (h, lst)

/-- The loop `while (lst)` of `list_copy`, which is also the loop
`while (lst_iter)` of `list_concatenate`: each element of `lst` is pushed onto
`copy`. -/
def push_loop : Nat → Heap → Nat → Nat → Option (Heap × Nat)
  | 0, _, _, _ => none
  | fuel + 1, h, lst, copy =>
    if lst ≠ NULL then
      match h.mem lst with
      | none => none
      | some p =>
        let (h1, copy1) := list_cons h copy p.data
        push_loop fuel h1 p.next copy1
    else some (h, copy)

/-- `list_copy` -/
def list_copy (fuel : Nat) (h : Heap) (lst : Nat) : Option (Heap × Nat) :=
  if lst = NULL then some (h, NULL)
  else
    match push_loop fuel h lst NULL with
    | none => none
    | some (h1, copy) => list_reverse fuel h1 copy

/-- `list_concatenate` -/
def list_concatenate (fuel : Nat) (h : Heap) (lst_1 lst_2 : Nat) : Option (Heap × Nat) :=
  match list_copy fuel h lst_2 with
  | none => none
  | some (h1, lst_cat) =>
    match list_reverse fuel h1 lst_1 with
    | none => none
    | some (h2, lst_1r) =>
      match push_loop fuel h2 lst_1r lst_cat with
      | none => none
      | some (h3, lst_cat1) =>
        match list_reverse fuel h3 lst_1r with
        | none => none
        | some (h4, _) => some (h4, lst_cat1)

/-- The loop `while (current)` of `list_find`. -/
def find_loop (val : Nat) (fn : Nat → Nat → Bool) : Nat → Heap → Nat → Int → Option Int
  | 0, _, _, _ => none
  | fuel + 1, h, current, ctr =>
    if current ≠ NULL then
      match h.mem current with
      | none => none
      | some p => if fn val p.data then some ctr else find_loop val fn fuel h p.next (ctr + 1)
    else some (-1)

/-- `list_find`; `fn val d` says that the C function `fn(val, d)` returns a
value other than 0. -/
def list_find (fuel : Nat) (h : Heap) (lst val : Nat) (fn : Nat → Nat → Bool) : Option Int :=
  if lst = NULL ∨ val = NULL then some (-1) else find_loop val fn fuel h lst 0

/-! ### Predicates on list heaps -/

/-- The allocator is sound: `NULL` and every address from `next` on are free. -/
def HeapOK (h : Heap) : Prop :=
  h.mem NULL = none ∧ 0 < h.next ∧ ∀ a, h.next ≤ a → h.mem a = none

/-- The first address of a chain of pairs, `NULL` for the empty chain. -/
def first : List (Nat × Nat) → Nat
  | [] => NULL
  | (a, _) :: _ => a

/-- The list at `p` is the chain `cs` of pairs, each given by its address and
its data, the last one with `next = NULL`. -/
def IsList (h : Heap) : Nat → List (Nat × Nat) → Prop
  | p, [] => p = NULL
  | p, (a, d) :: rest =>
    p = a ∧ a ≠ NULL ∧ h.mem a = some { data := d, next := first rest } ∧
      IsList h (first rest) rest

/-- The list `(9 8 7)`, built as the tests build their lists: `list_make`, then
`list_cons` twice. -/
def sample_list : Heap × Nat :=
  let r1 := list_make Heap.empty 7
  let r2 := list_cons r1.1 r1.2 8
  list_cons r2.1 r2.2 9

end PList

/-! ## Iterators (`iterator/iterator.c` and the iterator functions of
`vector.c`, `hashmap.c` and `list.c`)

An iterator is a block of four fields in the garbage-collected heap.
`vector_next_fn` writes to the iterator it receives, so the iterators live in
an explicit store.  The store of iterators, the pairs of the lists and the
nodes of the vectors are kept apart in a `World`: the allocator never hands out
one address twice, so blocks of different types do not overlap.  The field
`next_fn` is one of the three functions the repository installs, and
`iterator_next` calls the one the iterator holds.  The field `data` of a vector
iterator points to the vector header, which is passed by value as in the vector
model; the list and map iterators leave it `NULL`.  `struct list` of
`hashmap.c` has the fields of the `pair` of `list.c`, and its blocks are kept
with the pairs.  `GC_MALLOC` of an iterator and the assignments to its fields
that follow are one step.  A function returns `none` where the C code would
dereference `NULL` or an unallocated address. -/

namespace PIterator

/-- The null pointer. -/
def NULL : Nat := 0

/-- The functions installed as `next_fn`. -/
inductive NextFn where
  | vector_next_fn
  | hashmap_next_fn
  | list_next_fn
  deriving DecidableEq, Repr

/-- `struct Iterator_s` -/
structure Iterator where
  value : Nat
  next_fn : NextFn
  current : Nat
  data : Option PVector.Vector

/-- The heap: the iterators, the next address for an iterator, the pairs of
the lists and the nodes of the vectors. -/
structure World where
  iters : Nat → Option Iterator
  inext : Nat
  pairs : PList.Heap
  nodes : PVector.Heap

/-- A world with no iterator, over the given pairs and nodes. -/
def World.init (pairs : PList.Heap) (nodes : PVector.Heap) : World :=
  World.mk (fun _ => none) 1 pairs nodes

/-- `GC_MALLOC(sizeof(Iterator))` followed by the assignment of the fields. -/
def iter_alloc (w : World) (it : Iterator) : World × Nat :=
  (World.mk (fun a => if a = w.inext then some it else w.iters a) (w.inext + 1) w.pairs w.nodes,
    w.inext)

/-- The assignment `p->current = x`. -/
def set_current (w : World) (p x : Nat) : Option World :=
  match w.iters p with
  | none => none
  | some it =>
    some (World.mk (fun a => if a = p then some { it with current := x } else w.iters a)
      w.inext w.pairs w.nodes)

/-- The assignment `p->value = x`. -/
def set_value (w : World) (p x : Nat) : Option World :=
  match w.iters p with
  | none => none
  | some it =>
    some (World.mk (fun a => if a = p then some { it with value := x } else w.iters a)
      w.inext w.pairs w.nodes)

/-- `iterator_value` -/
def iterator_value (w : World) (iter : Nat) : Option Nat :=
  (w.iters iter).map (fun it => it.value)

/-- `iterator_copy` -/
def iterator_copy (w : World) (iter : Nat) : Option (World × Nat) :=
  match w.iters iter with
  | none => none
  | some it => some (iter_alloc w (Iterator.mk it.value it.next_fn it.current it.data))

/-- `vector_next_fn`: `++iter->current` writes the incremented index to the
iterator received. -/
def vector_next_fn (w : World) (iter : Nat) : Option (World × Nat) := do
  let it ← w.iters iter
  let vec ← it.data
  let idx := it.current + 1
  let w1 ← set_current w iter idx
  if idx = vec.count then some (w1, NULL)
  else
    let (w2, new) ← iterator_copy w1 iter
    let w3 ← set_current w2 new idx
    let x ← PVector.vector_get w3.nodes vec (idx : Int)
    let w4 ← set_value w3 new x
    some (w4, new)

/-- `vector_iterator_make` -/
def vector_iterator_make (w : World) (vec : PVector.Vector) : Option (World × Nat) :=
  if PVector.vector_empty vec then some (w, NULL)
  else do
    let x ← PVector.vector_get w.nodes vec 0
    some (iter_alloc w (Iterator.mk x NextFn.vector_next_fn 0 (some vec)))

/-- `list_next_fn` -/
def list_next_fn (w : World) (iter : Nat) : Option (World × Nat) := do
  let it ← w.iters iter
  let p ← w.pairs.mem it.current
  let current := p.next
  if current = NULL then some (w, NULL)
  else
    let (w1, new) ← iterator_copy w iter
    let w2 ← set_current w1 new current
    let q ← w2.pairs.mem current
    let w3 ← set_value w2 new q.data
    some (w3, new)

/-- `list_iterator_make` -/
def list_iterator_make (w : World) (lst : Nat) : Option (World × Nat) :=
  if lst = NULL then some (w, NULL)
  else do
    let p ← w.pairs.mem lst
    some (iter_alloc w (Iterator.mk p.data NextFn.list_next_fn lst none))

/-- `iterator_visit`: two pairs are put in front of the list `acc`, the one
with the value and, before it, the one with the key. -/
def iterator_visit (key val : Nat) (acc : PList.Heap × Nat) : PList.Heap × Nat :=
  let r1 := PList.list_cons acc.1 acc.2 val
  PList.list_cons r1.1 r1.2 key

/-- `hashmap_next_fn` -/
def hashmap_next_fn (w : World) (iter : Nat) : Option (World × Nat) := do
  let it ← w.iters iter
  let p ← w.pairs.mem it.current
  if p.next = NULL then some (w, NULL)
  else
    let current := p.next
    let (w1, new) ← iterator_copy w iter
    let w2 ← set_current w1 new current
    let q ← w2.pairs.mem current
    let w3 ← set_value w2 new q.data
    some (w3, new)

/-- `hashmap_iterator_make` -/
def hashmap_iterator_make (w : World) (map : PHashmap.Hashmap) : Option (World × Nat) :=
  if PHashmap.hashmap_empty map then some (w, NULL)
  else do
    let (w1, iter) := iter_alloc w (Iterator.mk NULL NextFn.hashmap_next_fn NULL none)
    let (pairs, lst) ← PHashmap.hashmap_visit map iterator_visit (w1.pairs, NULL)
    let w2 := World.mk w1.iters w1.inext pairs w1.nodes
    let w3 ← set_current w2 iter lst
    let p ← w3.pairs.mem lst
    let w4 ← set_value w3 iter p.data
    some (w4, iter)

/-- `iterator_next`: the call `(*iter->next_fn)(iter)`. -/
def iterator_next (w : World) (iter : Nat) : Option (World × Nat) :=
  match w.iters iter with
  | none => none
  | some it =>
    match it.next_fn with
    | .vector_next_fn => vector_next_fn w iter
    | .hashmap_next_fn => hashmap_next_fn w iter
    | .list_next_fn => list_next_fn w iter

/-- The loop `while (iter) { x = iterator_value(iter); iter = iterator_next(iter); }`
of the tests; the result is the list of the values `x`, one for each iterator
the loop held. -/
def iterate : Nat → World → Nat → Option (World × List Nat)
  | 0, _, _ => none
  | fuel + 1, w, iter =>
    if iter = NULL then some (w, [])
    else
      match iterator_value w iter with
      | none => none
      | some x =>
        match iterator_next w iter with
        | none => none
        | some (w1, iter1) =>
          match iterate fuel w1 iter1 with
          | none => none
          | some (w2, xs) => some (w2, x :: xs)

/-- The allocator of iterators is sound, and so is the heap of pairs. -/
def WorldOK (w : World) : Prop :=
  w.iters NULL = none ∧ 0 < w.inext ∧ (∀ a, w.inext ≤ a → w.iters a = none) ∧
    PList.HeapOK w.pairs

/-- The vector `[10, 11, 12]` in a world with no iterator. -/
def sample_vector : Option (World × PVector.Vector) :=
  match PVector.run_fresh [PVector.Op.push 10, PVector.Op.push 11, PVector.Op.push 12] with
  | none => none
  | some s => some (World.init PList.sample_list.1 s.1, s.2)

end PIterator

namespace PVector

/-- The state after pushes of `f 0, f 1, ...` onto a fresh vector followed by
pops: as `PushInv`, but after a pop has removed the root the trie may be
full. -/
structure PopInv (h : Heap) (v : Vector) (f : Nat → Nat) (B : Nat)
    (lab : Nat → Option (Nat × Nat)) : Prop where
  ok : HeapOK h
  labelled : Labelled h f lab v.levels v.head B v.levels
  tail_lab : lab v.tail = none
  tail_mem : ∃ n, h.mem v.tail = some n ∧ ∀ i, i < v.tail_count → n i = f (WIDTH * B + i)
  count_eq : v.count = WIDTH * B + v.tail_count
  tc_le : v.tail_count ≤ WIDTH
  cap : B ≤ WIDTH ^ v.levels
  levels_pos : 1 ≤ v.levels
  grown : v.levels = 1 ∨ WIDTH ^ v.levels ≤ WIDTH * B

end PVector

namespace PHashmap

/-- A map with the hash `key mod 4`, pointer equality on keys, and a value
equality that equates two values with the same last decimal digit. -/
def digit_map : Hashmap :=
  hashmap_make (fun _ => []) (some (fun k => k % 4)) (some (fun a b => a == b))
    (some (fun a b => a % 10 == b % 10))

/-- Two calls on `digit_map`. -/
def digit_ops : List Op := [.assoc 1 10, .assoc 2 25]

/-- A map with the hash `key mod 64` and pointer equality on keys and values:
the keys 1 and 65 have the same hash, and the hash of the key 33 differs from
it above the five bits of level 0. -/
def mod64_map : Hashmap :=
  hashmap_make (fun _ => []) (some (fun k => k % 64)) (some (fun a b => a == b))
    (some (fun a b => a == b))

/-- Four calls on `mod64_map`: the key 2 makes the root a bitmap-indexed node
once the key 1 arrives, the key 65 collides with the key 1, and the key 33 is
routed to the same child of the root. -/
def mod64_ops : List Op := [.assoc 2 20, .assoc 1 10, .assoc 65 650, .assoc 33 330]

/-- The keys and hashes of the cells of a node that is a collision chain. -/
def chain_hashes : Node → Option (List (Nat × Nat))
  | .hash_collision cells => some (cells.map (fun c => (c.key, c.hash)))
  | _ => none

/-- `node_assoc` with the shift count of `mask` checked: `none` where a call
evaluates `mask(hash, level)` with a shift count `BITS_PER_LEVEL * level` of
the width of `hash_t` or more.  `leaf_assoc` evaluates the mask (through
`bitpos`) when the two hashes differ, `bitmap_indexed_assoc` always, and
`hash_collision_assoc` never. -/
def node_assoc_checked (key val hash : Nat) (eq_key eq_val : Nat → Nat → Bool) :
    Nat → Node → Nat → Option (Node × Nat)
  | 0, _, _ => none
  | fuel + 1, .leaf k v h, level =>
    if h ≠ hash ∧ HASH_BITS ≤ BITS_PER_LEVEL * level then none
    else
      leaf_assoc (node_assoc_checked key val hash eq_key eq_val fuel) k v h level key val hash
        eq_key eq_val
  | fuel + 1, .bitmap_indexed bitmap children, level =>
    if HASH_BITS ≤ BITS_PER_LEVEL * level then none
    else
      bitmap_indexed_assoc (node_assoc_checked key val hash eq_key eq_val fuel) bitmap children
        level key val hash
  | _ + 1, .hash_collision cells, _ => some (hash_collision_assoc cells key val hash eq_key eq_val)

/-- The node that splits the leaf `(k, v, h)` from the new leaf
`(key, val, hash)`: `n` bitmap-indexed nodes with one child each, for the
levels `level .. level + n - 1`, above a bitmap-indexed node with the two
leaves as its children, in the order of their slots at level `level + n`. -/
def split_node (k v h key val hash : Nat) : Nat → Nat → Node
  | 0, level =>
    .bitmap_indexed (bitpos h level ||| bitpos hash level)
      (if mask h level < mask hash level then [.leaf k v h, .leaf key val hash]
       else [.leaf key val hash, .leaf k v h])
  | n + 1, level => .bitmap_indexed (bitpos h level) [split_node k v h key val hash n (level + 1)]

/-- What the constructors of nodes guarantee beyond `WF`: a collision chain has
at least two cells, a bitmap-indexed node has a bit set, and so for the nodes
below it. -/
inductive Solid : Node → Prop
  | leaf (k v h : Nat) : Solid (.leaf k v h)
  | hash_collision {cells : List Cell} : 2 ≤ cells.length → Solid (.hash_collision cells)
  | bitmap_indexed {bitmap : Nat} {children : List Node} :
      bitmap ≠ 0 → (∀ c ∈ children, Solid c) → Solid (.bitmap_indexed bitmap children)

/-- The positions of the 1 bits of a bitmap in increasing order.  The child
that `bitmap_indexed_get` selects for the set bit `s` has the index
`bit_index(bitmap, 1 << s)`, the number of set bits below `s`, so that the
child of index `i` is the child for the `i`-th set bit (`slots_rank`). -/
def slots (bitmap : Nat) : List Nat := (List.range HASH_BITS).filter (fun i => bitmap.testBit i)

/-- The slots that the hash `q` selects at the levels `0 .. level - 1`. -/
def path_of (q level : Nat) : List Nat := (List.range level).map (fun l => mask q l)

mutual
/-- The nodes of the tree below `node`, `node` included, each with the path
that leads to it: the slots followed at the bitmap-indexed nodes above it,
from the root on.  The level of a node is the length of its path. -/
def node_subnodes : Node → List Nat → List (List Nat × Node)
  | .leaf k v h, path => [(path, .leaf k v h)]
  | .bitmap_indexed bitmap children, path =>
    (path, .bitmap_indexed bitmap children) :: children_subnodes children (slots bitmap) path
  | .hash_collision cells, path => [(path, .hash_collision cells)]
/-- The nodes below the children of a bitmap-indexed node; `ss` holds the
slots of the children that remain. -/
def children_subnodes : List Node → List Nat → List Nat → List (List Nat × Node)
  | [], _, _ => []
  | child :: children, ss, path =>
    node_subnodes child (path ++ [ss.headD HASH_BITS]) ++ children_subnodes children ss.tail path
end

/-- The nodes of a map with their paths. -/
def hashmap_subnodes (map : Hashmap) : List (List Nat × Node) :=
  match map.root with
  | none => []
  | some root => node_subnodes root []

/-- The node is a leaf or a collision chain. -/
def is_bucket : Node → Bool
  | .bitmap_indexed _ _ => false
  | _ => true

/-- Three calls on `mod64_map`: the keys 1 and 33 have the same slot at level 0
and are split at level 1; after the key 33 is removed, the key 1 is the one
entry of a bitmap-indexed root with one child, a bitmap-indexed node with one
child. -/
def single_ops : List Op := [.assoc 1 10, .assoc 33 330, .dissoc 33]

end PHashmap

namespace PVector

/-- The number of blocks of elements in the trie below `node`, a node `d`
levels above the blocks: a `NULL` child holds none, a node of depth 0 is one
block, and a node of depth `d + 1` holds the blocks of its `WIDTH` children. -/
def leaf_blocks (h : Heap) : Nat → Nat → Option Nat
  | 0, node => if node = NULL then some 0 else some 1
  | d + 1, node =>
    if node = NULL then some 0
    else
      match h.mem node with
      | none => none
      | some n =>
        (List.range WIDTH).foldlM (fun acc i => (leaf_blocks h d (n i)).map (fun b => acc + b)) 0

end PVector

namespace PHashmapMem

open PHashmap (NULL UNCHANGED ADDED UPDATED REMOVED HASH_BITS popcount mask bitpos bit_index)

/-! ### The bounds of the child arrays -/

/-- `memcpy(&dst[doff], &src[soff], sizeof(Node*) * n)` with the bounds of
the two arrays checked: `none` if the `n` entries from `soff` on are not all
entries of the source array, or the `n` entries from `doff` on are not all
entries of the destination array. -/
def memcpy_checked (h : Heap) (dst doff src soff n : Nat) : Option Heap :=
  match h.mem dst, h.mem src with
  | some (.children d), some (.children s) =>
    if doff + n ≤ d.length ∧ soff + n ≤ s.length then
      some (write h dst (.children (copy_slots d doff s soff n)))
    else none
  | _, _ => none

/-- The branch of `bitmap_indexed_assoc` that creates a new child node (the
bit of the key is not set in the bitmap), over the function `cpy` that stands
for `memcpy`. -/
def bitmap_indexed_insert (cpy : Heap → Nat → Nat → Nat → Nat → Nat → Option Heap) (h : Heap)
    (self level key val hash : Nat) : Option (Heap × Nat × Nat) := do
  let bitmap ← get_bitmap h self
  let bit := bitpos hash level
  let idx := bit_index bitmap bit
  let (h1, new) ← copy_bitmap_indexed_node h self
  let b0 ← get_bitmap h1 new
  let h2 ← set_bitmap h1 new (b0 ||| bit)
  let b1 ← get_bitmap h2 new
  let nodes := popcount b1
  let (h3, arr) := GC_MALLOC h2 nodes
  let h4 ← set_children h3 new arr
  let dst ← get_children h4 new
  let src ← get_children h4 self
  let h5 ← cpy h4 dst 0 src 0 idx
  let h6 ← cpy h5 dst (idx + 1) src idx (nodes - idx)
  let (h7, leaf) := new_leaf_node h6 key val hash
  let h8 ← set_child h7 dst idx leaf
  some (h8, new, ADDED)

/-- The root pointer of the map at address `map`. -/
def get_root (h : Heap) (map : Nat) : Option Nat :=
  match h.mem map with
  | some (.hashmap _ _ _ _ root) => some root
  | _ => none

/-- The number of entries of the child array at address `children`. -/
def array_length (h : Heap) (children : Nat) : Option Nat :=
  match h.mem children with
  | some (.children slots) => some slots.length
  | _ => none

end PHashmapMem

namespace PVector

/-! ### The range of `int` -/

end PVector

namespace PHashmapMem

open PHashmap (NULL UNCHANGED ADDED UPDATED REMOVED HASH_BITS popcount mask bitpos bit_index)

/-! ### `assoc` over a given `memcpy` -/

/-- `bitmap_indexed_assoc` over the function `cpy` that stands for `memcpy`;
`assoc` is the dispatch `child->type->assoc`. -/
def bitmap_indexed_assoc_with (cpy : Heap → Nat → Nat → Nat → Nat → Nat → Option Heap)
    (assoc : Heap → Nat → Nat → Option (Heap × Nat × Nat)) (h : Heap)
    (self level key val hash : Nat) : Option (Heap × Nat × Nat) := do
  let bitmap ← get_bitmap h self
  let bit := bitpos hash level
  let idx := bit_index bitmap bit
  if bitmap &&& bit ≠ 0 then do
    let children ← get_children h self
    let child ← get_child h children idx
    let (h1, new, result) ← assoc h child (level + 1)
    if result ≠ UNCHANGED then do
      let (h2, copy) ← copy_bitmap_indexed_node h1 self
      let b ← get_bitmap h2 self
      let nodes := popcount b
      let (h3, arr) := GC_MALLOC h2 nodes
      let h4 ← set_children h3 copy arr
      let dst ← get_children h4 copy
      let src ← get_children h4 self
      let h5 ← cpy h4 dst 0 src 0 nodes
      let h6 ← set_child h5 dst idx new
      some (h6, copy, result)
    else some (h1, self, result)
  else do
    let (h1, new) ← copy_bitmap_indexed_node h self
    let b0 ← get_bitmap h1 new
    let h2 ← set_bitmap h1 new (b0 ||| bit)
    let b1 ← get_bitmap h2 new
    let nodes := popcount b1
    let (h3, arr) := GC_MALLOC h2 nodes
    let h4 ← set_children h3 new arr
    let dst ← get_children h4 new
    let src ← get_children h4 self
    let h5 ← cpy h4 dst 0 src 0 idx
    let h6 ← cpy h5 dst (idx + 1) src idx (nodes - idx)
    let (h7, leaf) := new_leaf_node h6 key val hash
    let h8 ← set_child h7 dst idx leaf
    some (h8, new, ADDED)

/-- `self->type->assoc(self, level, key, val, hash, eq_key, eq_val, &result)`
over the function `cpy` that stands for `memcpy`. -/
def node_assoc_with (cpy : Heap → Nat → Nat → Nat → Nat → Nat → Option Heap)
    (key val hash : Nat) (eq_key eq_val : Nat → Nat → Bool) :
    Nat → Heap → Nat → Nat → Option (Heap × Nat × Nat)
  | 0, _, _, _ => none
  | fuel + 1, h, self, level =>
    match h.mem self with
    | some (.leaf _ _ _) =>
      leaf_assoc (node_assoc_with cpy key val hash eq_key eq_val fuel) h self level key val hash
        eq_key eq_val
    | some (.bitmap_indexed _ _) =>
      bitmap_indexed_assoc_with cpy (node_assoc_with cpy key val hash eq_key eq_val fuel) h self
        level key val hash
    | some (.hash_collision _ _ _ _) => hash_collision_assoc fuel h self key val hash eq_key eq_val
    | _ => none

/-- `hashmap_assoc` over the function `cpy` that stands for `memcpy`. -/
def hashmap_assoc_with (cpy : Heap → Nat → Nat → Nat → Nat → Nat → Option Heap) (fuel : Nat)
    (h : Heap) (map key val : Nat) : Option (Heap × Nat) :=
  match h.mem map with
  | some (.hashmap hash eq_key eq_val _ root) => do
    let (h1, root1, result) ←
      if root = NULL then
        let (h1, leaf) := new_leaf_node h key val (hash key % 2 ^ HASH_BITS)
        some (h1, leaf, ADDED)
      else node_assoc_with cpy key val (hash key % 2 ^ HASH_BITS) eq_key eq_val fuel h root 0
    if result ≠ UNCHANGED then do
      let (h2, new) ← copy_hashmap h1 map
      let h3 ← set_root h2 new root1
      let h4 ← add_count h3 new (if result = ADDED then 1 else 0)
      some (h4, new)
    else some (h1, map)
  | _ => none

end PHashmapMem

namespace PHashmap

/-! ### Bitmaps -/

theorem mask_lt (hash level : Nat) : mask hash level < 32 := by
  have h : (hash >>> (BITS_PER_LEVEL * level)) &&& 0x01f ≤ 0x01f := Nat.and_le_right
  unfold mask
  omega

theorem bitpos_eq (hash level : Nat) : bitpos hash level = 2 ^ mask hash level := by
  unfold bitpos
  exact Nat.one_shiftLeft _

theorem and_two_pow_ne_zero (bitmap s : Nat) : bitmap &&& 2 ^ s ≠ 0 ↔ bitmap.testBit s = true := by
  constructor
  · intro h
    obtain ⟨i, hi⟩ := Nat.ne_zero_implies_bit_true h
    rw [Nat.testBit_and, Nat.testBit_two_pow] at hi
    simp only [Bool.and_eq_true, decide_eq_true_eq] at hi
    rw [hi.2]
    exact hi.1
  · intro h h0
    have : (bitmap &&& 2 ^ s).testBit s = true := by
      rw [Nat.testBit_and, Nat.testBit_two_pow_self, h]
      rfl
    rw [h0] at this
    simp at this

theorem rank_succ (bitmap s : Nat) :
    rank bitmap (s + 1) = rank bitmap s + (if bitmap.testBit s = true then 1 else 0) := by
  unfold rank
  rw [List.range_succ, List.filter_append, List.length_append]
  by_cases h : bitmap.testBit s = true
  · simp [h]
  · simp [h]

theorem rank_zero (bitmap : Nat) : rank bitmap 0 = 0 := rfl

theorem rank_mono (bitmap : Nat) {s t : Nat} (h : s ≤ t) : rank bitmap s ≤ rank bitmap t := by
  induction t with
  | zero =>
    have : s = 0 := by omega
    rw [this]
  | succ t ih =>
    rcases Nat.eq_or_lt_of_le h with h1 | h1
    · rw [h1]
    · have := ih (by omega)
      rw [rank_succ]
      omega

theorem rank_lt_of_testBit (bitmap : Nat) {s t : Nat} (h : s < t)
    (hs : bitmap.testBit s = true) : rank bitmap s < rank bitmap t := by
  have h1 : rank bitmap (s + 1) ≤ rank bitmap t := rank_mono bitmap h
  rw [rank_succ, if_pos hs] at h1
  omega

theorem popcount_eq_rank (bitmap : Nat) : popcount bitmap = rank bitmap 32 := rfl

/-- Counting below `s` among the first `n` positions. -/
theorem filter_range_lt (p : Nat → Bool) (s : Nat) :
    ∀ n, s ≤ n → ((List.range n).filter (fun i => p i && decide (i < s))).length =
      ((List.range s).filter p).length := by
  intro n
  induction n with
  | zero =>
    intro h
    have : s = 0 := by omega
    subst this
    rfl
  | succ n ih =>
    intro h
    rcases Nat.eq_or_lt_of_le h with h1 | h1
    · subst h1
      congr 1
      apply List.filter_congr
      intro i hi
      have : i < n + 1 := List.mem_range.mp hi
      simp [this]
    · rw [List.range_succ, List.filter_append, List.length_append, ih (by omega)]
      have : ¬ n < s := by omega
      simp [this]

theorem bit_index_eq_rank (bitmap : Nat) {s : Nat} (hs : s ≤ 32) :
    bit_index bitmap (2 ^ s) = rank bitmap s := by
  unfold bit_index popcount rank
  have h := filter_range_lt (fun i => bitmap.testBit i) s HASH_BITS hs
  rw [← h]
  congr 1
  apply List.filter_congr
  intro i _
  rw [Nat.testBit_and, Nat.testBit_two_pow_sub_one]

theorem rank_lt_popcount (bitmap : Nat) {s : Nat} (hs : s < 32)
    (h : bitmap.testBit s = true) : rank bitmap s < popcount bitmap :=
  rank_lt_of_testBit bitmap hs h

/-- The rank below `t` after setting a clear bit `s`. -/
theorem rank_or (bitmap s : Nat) (hs : bitmap.testBit s = false) (t : Nat) :
    rank (bitmap ||| 2 ^ s) t = rank bitmap t + (if s < t then 1 else 0) := by
  induction t with
  | zero => rfl
  | succ t ih =>
    rw [rank_succ, rank_succ, ih, Nat.testBit_or, Nat.testBit_two_pow]
    by_cases h1 : s = t
    · subst h1
      simp [hs]
    · by_cases h2 : s < t
      · have h3 : s < t + 1 := by omega
        simp [h1, h2, h3]
        omega
      · have h3 : ¬ s < t + 1 := by omega
        simp [h1, h2, h3]

theorem testBit_or_two_pow (bitmap s i : Nat) :
    (bitmap ||| 2 ^ s).testBit i = (bitmap.testBit i || decide (s = i)) := by
  rw [Nat.testBit_or, Nat.testBit_two_pow]

theorem testBit_clear (bitmap s i : Nat) (hb : bitmap < 2 ^ HASH_BITS) :
    (bitmap &&& ((2 ^ HASH_BITS - 1) ^^^ 2 ^ s)).testBit i =
      (bitmap.testBit i && !decide (s = i)) := by
  rw [Nat.testBit_and, Nat.testBit_xor, Nat.testBit_two_pow_sub_one, Nat.testBit_two_pow]
  by_cases hi : i < HASH_BITS
  · by_cases h1 : s = i
    · simp [hi, h1]
    · simp [hi, h1]
  · have : bitmap.testBit i = false := by
      apply Nat.testBit_lt_two_pow
      calc bitmap < 2 ^ HASH_BITS := hb
        _ ≤ 2 ^ i := Nat.pow_le_pow_right (by decide) (by omega)
    simp [this]

/-- The rank below `t` after clearing a set bit `s`. -/
theorem rank_clear (bitmap s : Nat) (hb : bitmap < 2 ^ HASH_BITS) (hs : bitmap.testBit s = true)
    (t : Nat) :
    rank (bitmap &&& ((2 ^ HASH_BITS - 1) ^^^ 2 ^ s)) t + (if s < t then 1 else 0) =
      rank bitmap t := by
  induction t with
  | zero => rfl
  | succ t ih =>
    rw [rank_succ, rank_succ, testBit_clear bitmap s t hb]
    by_cases h1 : s = t
    · subst h1
      simp [hs] at ih ⊢
      omega
    · by_cases h2 : s < t
      · have h3 : s < t + 1 := by omega
        simp [h1, h2, h3] at ih ⊢
        omega
      · have h3 : ¬ s < t + 1 := by omega
        simp [h1, h2, h3] at ih ⊢
        omega

theorem clear_lt (bitmap s : Nat) (hb : bitmap < 2 ^ HASH_BITS) :
    bitmap &&& ((2 ^ HASH_BITS - 1) ^^^ 2 ^ s) < 2 ^ HASH_BITS :=
  Nat.lt_of_le_of_lt Nat.and_le_left hb

theorem or_two_pow_lt (bitmap s : Nat) (hb : bitmap < 2 ^ HASH_BITS) (hs : s < 32) :
    bitmap ||| 2 ^ s < 2 ^ HASH_BITS :=
  Nat.or_lt_two_pow hb (Nat.pow_lt_pow_right (by decide) hs)

/-- Two 32-bit hashes that select the same slot at all seven levels are equal. -/
theorem eq_of_agree {a b : Nat} (ha : a < 2 ^ HASH_BITS) (hb : b < 2 ^ HASH_BITS)
    (h : agree 7 a b) : a = b := by
  apply Nat.eq_of_testBit_eq
  intro i
  by_cases hi : i < 35
  · have hj : i / 5 < 7 := by omega
    have hm := h (i / 5) hj
    have key : ∀ x : Nat, (mask x (i / 5)).testBit (i % 5) = x.testBit i := by
      intro x
      unfold mask BITS_PER_LEVEL
      rw [Nat.testBit_and, Nat.testBit_shiftRight]
      have h31 : (0x01f : Nat) = 2 ^ 5 - 1 := by decide
      rw [h31, Nat.testBit_two_pow_sub_one]
      have h5 : i % 5 < 5 := Nat.mod_lt _ (by decide)
      have hdm : 5 * (i / 5) + i % 5 = i := Nat.div_add_mod i 5
      simp [h5, hdm]
    rw [← key a, ← key b, hm]
  · have h2 : ∀ x : Nat, x < 2 ^ HASH_BITS → x.testBit i = false := by
      intro x hx
      apply Nat.testBit_lt_two_pow
      calc x < 2 ^ HASH_BITS := hx
        _ ≤ 2 ^ i := Nat.pow_le_pow_right (by decide) (by unfold HASH_BITS; omega)
    rw [h2 a ha, h2 b hb]

theorem agree_refl (level a : Nat) : agree level a a := fun _ _ => rfl

theorem agree_symm {level a b : Nat} (h : agree level a b) : agree level b a :=
  fun j hj => (h j hj).symm

theorem agree_trans {level a b c : Nat} (h1 : agree level a b) (h2 : agree level b c) :
    agree level a c :=
  fun j hj => (h1 j hj).trans (h2 j hj)

theorem agree_succ {level a b : Nat} (h : agree level a b) (hm : mask a level = mask b level) :
    agree (level + 1) a b := by
  intro j hj
  rcases Nat.eq_or_lt_of_le (Nat.lt_succ_iff.mp hj) with h1 | h1
  · rw [h1]
    exact hm
  · exact h j h1

theorem agree_of_succ {level a b : Nat} (h : agree (level + 1) a b) : agree level a b :=
  fun j hj => h j (by omega)

/-- Two different 32-bit hashes that agree below `level` differ at a level
that exists. -/
theorem level_le_of_ne {level a b : Nat} (ha : a < 2 ^ HASH_BITS) (hb : b < 2 ^ HASH_BITS)
    (h : agree level a b) (hne : a ≠ b) : level ≤ 6 := by
  by_contra hl
  exact hne (eq_of_agree ha hb (fun j hj => h j (by omega)))

end PHashmap

namespace PHashmap

/-! ### Child arrays -/

theorem getElem?_insert (cs : List Node) (x : Node) {idx : Nat} (h : idx ≤ cs.length) (j : Nat) :
    (cs.take idx ++ x :: cs.drop idx)[j]? =
      if j < idx then cs[j]? else if j = idx then some x else cs[j - 1]? := by
  have hl : (cs.take idx).length = idx := by
    rw [List.length_take]
    omega
  by_cases h1 : j < idx
  · rw [if_pos h1, List.getElem?_append_left (by omega), List.getElem?_take_of_lt h1]
  · rw [if_neg h1, List.getElem?_append_right (by omega), hl]
    by_cases h2 : j = idx
    · subst h2
      simp
    · rw [if_neg h2]
      obtain ⟨m, hm⟩ : ∃ m, j - idx = m + 1 := ⟨j - idx - 1, by omega⟩
      rw [hm, List.getElem?_cons_succ, List.getElem?_drop]
      congr 1
      omega

theorem getElem?_remove (cs : List Node) (idx j : Nat) :
    (cs.take idx ++ cs.drop (idx + 1))[j]? = if j < idx then cs[j]? else cs[j + 1]? := by
  rw [← List.eraseIdx_eq_take_drop_succ, List.getElem?_eraseIdx]

theorem length_insert (cs : List Node) (x : Node) {idx : Nat} (h : idx ≤ cs.length) :
    (cs.take idx ++ x :: cs.drop idx).length = cs.length + 1 := by
  rw [List.length_append, List.length_cons, List.length_take, List.length_drop]
  omega

theorem length_remove (cs : List Node) {idx : Nat} (h : idx < cs.length) :
    (cs.take idx ++ cs.drop (idx + 1)).length = cs.length - 1 := by
  rw [List.length_append, List.length_take, List.length_drop]
  omega

theorem child_get_eq (eq_key : Nat → Nat → Bool) (key hash : Nat) :
    ∀ (cs : List Node) (idx level : Nat), child_get eq_key key hash cs idx level =
      match cs[idx]? with
      | none => none
      | some c => node_get eq_key key hash c level := by
  intro cs
  induction cs with
  | nil =>
    intro idx level
    simp [child_get]
  | cons c cs ih =>
    intro idx level
    cases idx with
    | zero => simp [child_get]
    | succ i =>
      simp only [child_get, List.getElem?_cons_succ]
      exact ih i level

theorem child_dissoc_eq (eq_key : Nat → Nat → Bool) (key hash : Nat) :
    ∀ (cs : List Node) (idx level : Nat), child_dissoc eq_key key hash cs idx level =
      match cs[idx]? with
      | none => none
      | some c => node_dissoc eq_key key hash c level := by
  intro cs
  induction cs with
  | nil =>
    intro idx level
    simp [child_dissoc]
  | cons c cs ih =>
    intro idx level
    cases idx with
    | zero => simp [child_dissoc]
    | succ i =>
      simp only [child_dissoc, List.getElem?_cons_succ]
      exact ih i level

/-- `bitmap_indexed_get` in terms of the slot of the hash. -/
theorem node_get_bitmap (eq_key : Nat → Nat → Bool) (key hash bitmap : Nat) (cs : List Node)
    (level : Nat) :
    node_get eq_key key hash (.bitmap_indexed bitmap cs) level =
      if bitmap.testBit (mask hash level) = true then
        match cs[rank bitmap (mask hash level)]? with
        | none => none
        | some c => node_get eq_key key hash c (level + 1)
      else some NULL := by
  have hm := mask_lt hash level
  rw [node_get]
  simp only [bitpos_eq, bit_index_eq_rank bitmap (Nat.le_of_lt hm), child_get_eq]
  by_cases h : bitmap.testBit (mask hash level) = true
  · rw [if_pos ((and_two_pow_ne_zero _ _).mpr h), if_pos h]
  · rw [if_neg (fun hc => h ((and_two_pow_ne_zero _ _).mp hc)), if_neg h]

theorem wf_child_exists {bitmap : Nat}
    {cs : List Node} (hlen : cs.length = popcount bitmap) {s : Nat} (hs : s < 32)
    (hb : bitmap.testBit s = true) : ∃ c, cs[rank bitmap s]? = some c := by
  have := rank_lt_popcount bitmap hs hb
  rw [← hlen] at this
  exact ⟨cs[rank bitmap s], List.getElem?_eq_getElem this⟩

/-- Well-formedness does not depend on the path hash beyond the levels above. -/
theorem wf_agree {hashf : Nat → Nat} {eq_key : Nat → Nat → Bool} {level p : Nat} {n : Node}
    (h : WF hashf eq_key level p n) : ∀ q, agree level p q → WF hashf eq_key level q n := by
  induction h with
  | leaf hh ha =>
    intro q hq
    exact WF.leaf hh (agree_trans ha hq)
  | hash_collision hc hp =>
    intro q hq
    exact WF.hash_collision (fun c hcm => ⟨(hc c hcm).1, agree_trans (hc c hcm).2 hq⟩) hp
  | bitmap_indexed hl hb hlen hch _ =>
    intro q hq
    exact WF.bitmap_indexed hl hb hlen
      (fun s hs hbit c hc q1 hq1 hm => hch s hs hbit c hc q1 (agree_trans hq1 (agree_symm hq)) hm)

end PHashmap

namespace PHashmap

/-! ### Collision chains -/

theorem chain_find_spec (eq_key : Nat → Nat → Bool) (key : Nat) :
    ∀ cells : List Cell, cells = (chain_find eq_key key cells).1 ++ (chain_find eq_key key cells).2 ∧
      (∀ c ∈ (chain_find eq_key key cells).1, eq_key c.key key = false) ∧
      (∀ c next, (chain_find eq_key key cells).2 = c :: next → eq_key c.key key = true) := by
  intro cells
  induction cells with
  | nil =>
    refine ⟨rfl, ?_, ?_⟩
    · intro c hc
      cases hc
    · intro c next h
      cases h
  | cons x rest ih =>
    unfold chain_find
    by_cases hx : eq_key x.key key = true
    · simp only [hx, if_true]
      refine ⟨rfl, ?_, ?_⟩
      · intro c hc
        cases hc
      · intro c next h
        simp only [List.cons.injEq] at h
        rw [← h.1]
        exact hx
    · simp only [hx, if_false]
      refine ⟨?_, ?_, ih.2.2⟩
      · show x :: rest = x :: ((chain_find eq_key key rest).1 ++ (chain_find eq_key key rest).2)
        congr 1
        exact ih.1
      · intro c hc
        rcases List.mem_cons.mp hc with h1 | h1
        · rw [h1]
          simpa using hx
        · exact ih.2.1 c h1

theorem chain_copy_eq : ∀ (l prev : List Cell), chain_copy prev l = l.reverse ++ prev := by
  intro l
  induction l with
  | nil =>
    intro prev
    rfl
  | cons x rest ih =>
    intro prev
    simp only [chain_copy, List.reverse_cons, List.append_assoc, List.singleton_append]
    exact ih _

theorem get_of_mem {hashf : Nat → Nat} {eq_key : Nat → Nat → Bool}
    (ops : KeyOps hashf eq_key) (k : Nat) :
    ∀ (cells : List Cell), cells.Pairwise (fun a b => eq_key a.key b.key = false) →
      ∀ c ∈ cells, eq_key c.key k = true → hash_collision_get eq_key k cells = c.val := by
  intro cells
  induction cells with
  | nil =>
    intro _ c hc
    cases hc
  | cons x rest ih =>
    intro hp c hc hck
    rw [List.pairwise_cons] at hp
    unfold hash_collision_get
    by_cases hx : eq_key x.key k = true
    · rw [if_pos hx]
      rcases List.mem_cons.mp hc with h1 | h1
      · rw [h1]
      · exfalso
        have h2 := hp.1 c h1
        have h3 := ops.trans _ _ _ hx (ops.symm _ _ hck)
        rw [h3] at h2
        cases h2
    · rw [if_neg hx]
      rcases List.mem_cons.mp hc with h1 | h1
      · rw [h1] at hck
        exact absurd hck hx
      · exact ih hp.2 c h1 hck

theorem get_null (eq_key : Nat → Nat → Bool) (k : Nat) :
    ∀ (cells : List Cell), (∀ c ∈ cells, eq_key c.key k = false) →
      hash_collision_get eq_key k cells = NULL := by
  intro cells
  induction cells with
  | nil =>
    intro _
    rfl
  | cons x rest ih =>
    intro h
    unfold hash_collision_get
    have hx := h x (List.mem_cons_self _ _)
    simp only [hx, Bool.false_eq_true, if_false]
    exact ih (fun c hc => h c (List.mem_cons_of_mem _ hc))

/-- Two duplicate-free chains with the same cells give the same lookups. -/
theorem get_congr {hashf : Nat → Nat} {eq_key : Nat → Nat → Bool}
    (ops : KeyOps hashf eq_key) (k : Nat) {a b : List Cell}
    (ha : a.Pairwise (fun x y => eq_key x.key y.key = false))
    (hb : b.Pairwise (fun x y => eq_key x.key y.key = false))
    (hab : ∀ c, c ∈ a ↔ c ∈ b) :
    hash_collision_get eq_key k a = hash_collision_get eq_key k b := by
  by_cases h : ∃ c ∈ a, eq_key c.key k = true
  · obtain ⟨c, hc, hck⟩ := h
    rw [get_of_mem ops k a ha c hc hck, get_of_mem ops k b hb c ((hab c).mp hc) hck]
  · have hn : ∀ c ∈ a, eq_key c.key k = false := by
      intro c hc
      by_contra hk
      exact h ⟨c, hc, by simpa using hk⟩
    rw [get_null eq_key k a hn, get_null eq_key k b (fun c hc => hn c ((hab c).mpr hc))]

theorem pairwise_symm {hashf : Nat → Nat} {eq_key : Nat → Nat → Bool}
    (ops : KeyOps hashf eq_key) (a b : Cell) (h : eq_key a.key b.key = false) :
    eq_key b.key a.key = false := by
  by_contra hc
  have := ops.symm _ _ (by simpa using hc)
  rw [this] at h
  cases h

/-- A key that equals `key` equals nothing that `key` differs from. -/
theorem eq_key_false_of {hashf : Nat → Nat} {eq_key : Nat → Nat → Bool}
    (ops : KeyOps hashf eq_key) {a b c : Nat} (hab : eq_key a b = true)
    (hac : eq_key a c = false) : eq_key b c = false := by
  by_contra h
  have := ops.trans _ _ _ hab (by simpa using h)
  rw [this] at hac
  cases hac

theorem eq_key_false_of' {hashf : Nat → Nat} {eq_key : Nat → Nat → Bool}
    (ops : KeyOps hashf eq_key) {a b c : Nat} (hab : eq_key a b = true)
    (hca : eq_key c a = false) : eq_key c b = false := by
  by_contra h
  have := ops.trans _ _ _ (by simpa using h) (ops.symm _ _ hab)
  rw [this] at hca
  cases hca

end PHashmap

namespace PHashmap

/-- `hash_collision_assoc` keeps the chain well formed and changes the lookup
of the given key only. -/
theorem hash_collision_assoc_spec {hashf : Nat → Nat} {eq_key : Nat → Nat → Bool}
    (ops : KeyOps hashf eq_key) (eq_val : Nat → Nat → Bool) {level p : Nat} {cells : List Cell}
    (key val : Nat)
    (hwf : WF hashf eq_key level p (.hash_collision cells))
    (hpath : agree level (hashf key % 2 ^ HASH_BITS) p) :
    ∃ cells1 r, hash_collision_assoc cells key val (hashf key % 2 ^ HASH_BITS) eq_key eq_val =
        (.hash_collision cells1, r) ∧
      WF hashf eq_key level p (.hash_collision cells1) ∧
      (r = UNCHANGED → cells1 = cells ∧ ∃ w, eq_val w val = true ∧
        ∀ k, eq_key key k = true → hash_collision_get eq_key k cells = w) ∧
      (r ≠ UNCHANGED → ∀ k, hash_collision_get eq_key k cells1 =
        if eq_key key k = true then val else hash_collision_get eq_key k cells) := by
  cases hwf with
  | hash_collision hc hp =>
  obtain ⟨hsplit, hpre, hsuf⟩ := chain_find_spec eq_key key cells
  unfold hash_collision_assoc
  cases hfind : chain_find eq_key key cells with
  | mk pre suf =>
  rw [hfind] at hsplit hpre hsuf
  simp only at hsplit hpre hsuf
  cases suf with
  | nil =>
    rw [List.append_nil] at hsplit
    subst hsplit
    refine ⟨_, ADDED, rfl, WF.hash_collision ?_ ?_, fun h => absurd h (by decide), fun _ => ?_⟩
    · intro c hcm
      rcases List.mem_cons.mp hcm with h1 | h1
      · rw [h1]
        exact ⟨rfl, hpath⟩
      · exact hc c h1
    · rw [List.pairwise_cons]
      exact ⟨fun c hcm => pairwise_symm ops _ _ (hpre c hcm), hp⟩
    · intro k
      rfl
  | cons c next =>
    have hck : eq_key c.key key = true := hsuf c next rfl
    have hcm : c ∈ cells := by
      rw [hsplit]
      exact List.mem_append_right _ (List.mem_cons_self _ _)
    by_cases hsame : (eq_key c.key key && eq_val c.val val) = true
    · simp only [Bool.and_eq_true] at hsame
      refine ⟨cells, UNCHANGED, by simp only [hsame, Bool.and_self, if_true],
        WF.hash_collision hc hp, fun _ => ⟨rfl, c.val, hsame.2, fun k hk => ?_⟩,
        fun h => absurd rfl h⟩
      exact get_of_mem ops k cells hp c hcm (ops.trans _ _ _ hck hk)
    · have hperm0 : (pre ++ c :: next).Perm (c :: (pre ++ next)) := List.perm_middle
      have hsymm : ∀ a b : Cell, eq_key a.key b.key = false → eq_key b.key a.key = false :=
        pairwise_symm ops
      have hp1 : (c :: (pre ++ next)).Pairwise (fun a b => eq_key a.key b.key = false) := by
        rw [hsplit] at hp
        exact (hperm0.pairwise_iff (fun {a b} h => hsymm a b h)).mp hp
      rw [List.pairwise_cons] at hp1
      have hp2 : (({ key := key, val := val, hash := hashf key % 2 ^ HASH_BITS } : Cell) ::
          (pre ++ next)).Pairwise (fun a b => eq_key a.key b.key = false) := by
        rw [List.pairwise_cons]
        exact ⟨fun x hx => eq_key_false_of ops hck (hp1.1 x hx), hp1.2⟩
      have hperm1 : (pre.reverse ++
          ({ key := key, val := val, hash := hashf key % 2 ^ HASH_BITS } : Cell) :: next).Perm
          (({ key := key, val := val, hash := hashf key % 2 ^ HASH_BITS } : Cell) ::
            (pre ++ next)) :=
        List.perm_middle.trans (List.Perm.cons _ (List.Perm.append_right _ (List.reverse_perm _)))
      have hp3 := (hperm1.pairwise_iff (fun {a b} h => hsymm a b h)).mpr hp2
      have hmem : ∀ x, x ∈ pre.reverse ++
          ({ key := key, val := val, hash := hashf key % 2 ^ HASH_BITS } : Cell) :: next ↔
          x = { key := key, val := val, hash := hashf key % 2 ^ HASH_BITS } ∨ x ∈ pre ++ next := by
        intro x
        rw [hperm1.mem_iff, List.mem_cons]
      have hmem0 : ∀ x, x ∈ cells ↔ x = c ∨ x ∈ pre ++ next := by
        intro x
        rw [hsplit, hperm0.mem_iff, List.mem_cons]
      refine ⟨pre.reverse ++
        ({ key := key, val := val, hash := hashf key % 2 ^ HASH_BITS } : Cell) :: next, UPDATED,
        ?_, WF.hash_collision ?_ hp3, fun h => absurd h (by decide), fun _ => ?_⟩
      · simp only [hsame, Bool.false_eq_true, if_false]
        clear hmem0 hmem hp3 hperm1 hp2 hp1 hperm0 hcm hsuf hpre hsplit hfind
        cases pre with
        | nil => rfl
        | cons x rest => simp only [chain_copy_eq]
      · intro x hx
        rcases (hmem x).mp hx with h1 | h1
        · rw [h1]
          exact ⟨rfl, hpath⟩
        · exact hc x ((hmem0 x).mpr (Or.inr h1))
      · intro k
        by_cases hk : eq_key key k = true
        · rw [if_pos hk]
          exact get_of_mem ops k _ hp3 _ ((hmem _).mpr (Or.inl rfl)) hk
        · rw [if_neg hk]
          have hk' : eq_key key k = false := by simpa using hk
          by_cases hex : ∃ x ∈ cells, eq_key x.key k = true
          · obtain ⟨x, hx, hxk⟩ := hex
            have hx1 : x ∈ pre ++ next := by
              rcases (hmem0 x).mp hx with h1 | h1
              · exfalso
                rw [h1] at hxk
                have := ops.trans _ _ _ (ops.symm _ _ hck) hxk
                exact hk this
              · exact h1
            rw [get_of_mem ops k _ hp3 x ((hmem x).mpr (Or.inr hx1)) hxk,
              get_of_mem ops k cells hp x hx hxk]
          · have hn : ∀ x ∈ cells, eq_key x.key k = false := by
              intro x hx
              by_contra hxk
              exact hex ⟨x, hx, by simpa using hxk⟩
            rw [get_null eq_key k cells hn]
            apply get_null
            intro x hx
            rcases (hmem x).mp hx with h1 | h1
            · rw [h1]
              exact hk'
            · exact hn x ((hmem0 x).mpr (Or.inr h1))

end PHashmap

namespace PHashmap

/-! ### Bitmap-indexed nodes -/

theorem hash_of_eq {hashf : Nat → Nat} {eq_key : Nat → Nat → Bool}
    (ops : KeyOps hashf eq_key) {a b : Nat} (h : eq_key a b = true) :
    hashf a % 2 ^ HASH_BITS = hashf b % 2 ^ HASH_BITS := by
  rw [ops.hash_eq a b h]

/-- A leaf does not hold a key whose hash leaves the leaf's path. -/
theorem leaf_get_other {hashf : Nat → Nat} {eq_key : Nat → Nat → Bool}
    (ops : KeyOps hashf eq_key) {k0 v0 k level : Nat}
    (h : mask (hashf k % 2 ^ HASH_BITS) level ≠ mask (hashf k0 % 2 ^ HASH_BITS) level) :
    leaf_get eq_key k0 v0 k = NULL := by
  unfold leaf_get
  by_cases he : eq_key k0 k = true
  · exact absurd (by rw [hash_of_eq ops he]) h
  · rw [if_neg he]

theorem rank_ne_of_ne (bitmap : Nat) {s t : Nat} (hs : bitmap.testBit s = true)
    (ht : bitmap.testBit t = true) (hne : s ≠ t) : rank bitmap s ≠ rank bitmap t := by
  rcases Nat.lt_or_gt_of_ne hne with h | h
  · exact Nat.ne_of_lt (rank_lt_of_testBit bitmap h hs)
  · exact Nat.ne_of_gt (rank_lt_of_testBit bitmap h ht)

/-- Replacing the child in the slot of `key` by a well-formed node whose
lookups differ from the old child's for `key` only. -/
theorem bitmap_replace_spec {hashf : Nat → Nat} {eq_key : Nat → Nat → Bool}
    (ops : KeyOps hashf eq_key) {level bitmap : Nat} {cs : List Node} (key : Nat)
    (res : Option Nat)
    (hwf : WF hashf eq_key level (hashf key % 2 ^ HASH_BITS) (.bitmap_indexed bitmap cs))
    (hbit : bitmap.testBit (mask (hashf key % 2 ^ HASH_BITS) level) = true)
    {c c1 : Node} (hc : cs[rank bitmap (mask (hashf key % 2 ^ HASH_BITS) level)]? = some c)
    (hwf1 : WF hashf eq_key (level + 1) (hashf key % 2 ^ HASH_BITS) c1)
    (hget : ∀ k, agree (level + 1) (hashf k % 2 ^ HASH_BITS) (hashf key % 2 ^ HASH_BITS) →
      node_get eq_key k (hashf k % 2 ^ HASH_BITS) c1 (level + 1) =
        if eq_key key k = true then res
        else node_get eq_key k (hashf k % 2 ^ HASH_BITS) c (level + 1)) :
    WF hashf eq_key level (hashf key % 2 ^ HASH_BITS)
        (.bitmap_indexed bitmap (cs.set (rank bitmap (mask (hashf key % 2 ^ HASH_BITS) level)) c1)) ∧
      ∀ k, agree level (hashf k % 2 ^ HASH_BITS) (hashf key % 2 ^ HASH_BITS) →
        node_get eq_key k (hashf k % 2 ^ HASH_BITS)
          (.bitmap_indexed bitmap (cs.set (rank bitmap (mask (hashf key % 2 ^ HASH_BITS) level)) c1))
          level =
          if eq_key key k = true then res
          else node_get eq_key k (hashf k % 2 ^ HASH_BITS) (.bitmap_indexed bitmap cs) level := by
  cases hwf with
  | bitmap_indexed hl hb hlen hch =>
  have hs := mask_lt (hashf key % 2 ^ HASH_BITS) level
  have hidx : rank bitmap (mask (hashf key % 2 ^ HASH_BITS) level) < cs.length := by
    rw [hlen]
    exact rank_lt_popcount bitmap hs hbit
  constructor
  · refine WF.bitmap_indexed hl hb (by rw [List.length_set]; exact hlen) ?_
    intro s hs1 hbs d hd q hq hm
    by_cases hss : s = mask (hashf key % 2 ^ HASH_BITS) level
    · subst hss
      rw [List.getElem?_set_self hidx] at hd
      have : d = c1 := (Option.some.inj hd).symm
      subst this
      exact wf_agree hwf1 q (agree_symm (agree_succ hq hm))
    · rw [List.getElem?_set_ne (rank_ne_of_ne bitmap hbit hbs (Ne.symm hss))] at hd
      exact hch s hs1 hbs d hd q hq hm
  · intro k hk
    rw [node_get_bitmap, node_get_bitmap]
    by_cases hss : mask (hashf k % 2 ^ HASH_BITS) level = mask (hashf key % 2 ^ HASH_BITS) level
    · rw [hss, if_pos hbit, if_pos hbit, List.getElem?_set_self hidx, hc]
      exact hget k (agree_succ hk hss)
    · have hne : eq_key key k = false := by
        by_contra he
        exact hss (by rw [hash_of_eq ops (by simpa using he : eq_key key k = true)])
      simp only [hne, Bool.false_eq_true, if_false]
      by_cases hbk : bitmap.testBit (mask (hashf k % 2 ^ HASH_BITS) level) = true
      · rw [if_pos hbk, if_pos hbk,
          List.getElem?_set_ne (rank_ne_of_ne bitmap hbit hbk (Ne.symm hss))]
      · rw [if_neg hbk, if_neg hbk]

/-- Inserting a new leaf for `key` into the clear slot of its hash. -/
theorem bitmap_insert_spec {hashf : Nat → Nat} {eq_key : Nat → Nat → Bool}
    (ops : KeyOps hashf eq_key) {level bitmap : Nat} {cs : List Node} (key val : Nat)
    (hwf : WF hashf eq_key level (hashf key % 2 ^ HASH_BITS) (.bitmap_indexed bitmap cs))
    (hbit : bitmap.testBit (mask (hashf key % 2 ^ HASH_BITS) level) = false) :
    WF hashf eq_key level (hashf key % 2 ^ HASH_BITS)
        (.bitmap_indexed (bitmap ||| 2 ^ mask (hashf key % 2 ^ HASH_BITS) level)
          (cs.take (rank bitmap (mask (hashf key % 2 ^ HASH_BITS) level)) ++
            .leaf key val (hashf key % 2 ^ HASH_BITS) ::
            cs.drop (rank bitmap (mask (hashf key % 2 ^ HASH_BITS) level)))) ∧
      ∀ k, agree level (hashf k % 2 ^ HASH_BITS) (hashf key % 2 ^ HASH_BITS) →
        node_get eq_key k (hashf k % 2 ^ HASH_BITS)
          (.bitmap_indexed (bitmap ||| 2 ^ mask (hashf key % 2 ^ HASH_BITS) level)
            (cs.take (rank bitmap (mask (hashf key % 2 ^ HASH_BITS) level)) ++
              .leaf key val (hashf key % 2 ^ HASH_BITS) ::
              cs.drop (rank bitmap (mask (hashf key % 2 ^ HASH_BITS) level)))) level =
          if eq_key key k = true then some val
          else node_get eq_key k (hashf k % 2 ^ HASH_BITS) (.bitmap_indexed bitmap cs) level := by
  cases hwf with
  | bitmap_indexed hl hb hlen hch =>
  have hs := mask_lt (hashf key % 2 ^ HASH_BITS) level
  have hidx : rank bitmap (mask (hashf key % 2 ^ HASH_BITS) level) ≤ cs.length := by
    rw [hlen]
    exact rank_mono bitmap (Nat.le_of_lt hs)
  -- the new child array, slot by slot
  have hslot : ∀ t, t < 32 →
      (bitmap ||| 2 ^ mask (hashf key % 2 ^ HASH_BITS) level).testBit t = true →
      (cs.take (rank bitmap (mask (hashf key % 2 ^ HASH_BITS) level)) ++
        Node.leaf key val (hashf key % 2 ^ HASH_BITS) ::
        cs.drop (rank bitmap (mask (hashf key % 2 ^ HASH_BITS) level)))[rank
          (bitmap ||| 2 ^ mask (hashf key % 2 ^ HASH_BITS) level) t]? =
        if t = mask (hashf key % 2 ^ HASH_BITS) level then
          some (Node.leaf key val (hashf key % 2 ^ HASH_BITS))
        else cs[rank bitmap t]? := by
    intro t _ hbt
    rw [getElem?_insert cs _ hidx, rank_or bitmap _ hbit]
    by_cases hts : t = mask (hashf key % 2 ^ HASH_BITS) level
    · subst hts
      simp
    · rw [if_neg hts]
      rw [testBit_or_two_pow] at hbt
      have hbt1 : bitmap.testBit t = true := by
        have : ¬ mask (hashf key % 2 ^ HASH_BITS) level = t := fun h => hts h.symm
        simpa [this] using hbt
      rcases Nat.lt_or_gt_of_ne hts with h | h
      · have h1 := rank_lt_of_testBit bitmap h hbt1
        have h2 : ¬ mask (hashf key % 2 ^ HASH_BITS) level < t := by omega
        simp only [h2, if_false, Nat.add_zero]
        rw [if_pos h1]
      · have h1 := rank_mono bitmap (Nat.le_of_lt h)
        simp only [h, if_true]
        have h2 : ¬ rank bitmap t + 1 < rank bitmap (mask (hashf key % 2 ^ HASH_BITS) level) := by
          omega
        have h3 : ¬ rank bitmap t + 1 = rank bitmap (mask (hashf key % 2 ^ HASH_BITS) level) := by
          omega
        rw [if_neg h2, if_neg h3, Nat.add_sub_cancel]
  constructor
  · refine WF.bitmap_indexed hl (or_two_pow_lt bitmap _ hb hs) ?_ ?_
    · rw [length_insert cs _ hidx, hlen, popcount_eq_rank, popcount_eq_rank, rank_or bitmap _ hbit,
        if_pos hs]
    · intro t ht hbt d hd q hq hm
      rw [hslot t ht hbt] at hd
      by_cases hts : t = mask (hashf key % 2 ^ HASH_BITS) level
      · rw [if_pos hts] at hd
        have : d = Node.leaf key val (hashf key % 2 ^ HASH_BITS) := (Option.some.inj hd).symm
        subst this
        exact WF.leaf rfl (agree_symm (agree_succ hq (hm.trans hts)))
      · rw [if_neg hts] at hd
        rw [testBit_or_two_pow] at hbt
        have hbt1 : bitmap.testBit t = true := by
          have : ¬ mask (hashf key % 2 ^ HASH_BITS) level = t := fun h => hts h.symm
          simpa [this] using hbt
        exact hch t ht hbt1 d hd q hq hm
  · intro k hk
    rw [node_get_bitmap, node_get_bitmap]
    have hmk := mask_lt (hashf k % 2 ^ HASH_BITS) level
    by_cases hss : mask (hashf k % 2 ^ HASH_BITS) level = mask (hashf key % 2 ^ HASH_BITS) level
    · have hbt : (bitmap ||| 2 ^ mask (hashf key % 2 ^ HASH_BITS) level).testBit
          (mask (hashf k % 2 ^ HASH_BITS) level) = true := by
        rw [testBit_or_two_pow, hss]
        simp
      rw [if_pos hbt, hslot _ hmk hbt, if_pos hss]
      rw [hss, hbit]
      simp only [Bool.false_eq_true, if_false]
      rw [node_get]
      unfold leaf_get
      by_cases he : eq_key key k = true
      · simp [he]
      · simp [he]
    · have hne : eq_key key k = false := by
        by_contra he
        exact hss (by rw [hash_of_eq ops (by simpa using he : eq_key key k = true)])
      simp only [hne, Bool.false_eq_true, if_false]
      have hbeq : (bitmap ||| 2 ^ mask (hashf key % 2 ^ HASH_BITS) level).testBit
          (mask (hashf k % 2 ^ HASH_BITS) level) =
          bitmap.testBit (mask (hashf k % 2 ^ HASH_BITS) level) := by
        rw [testBit_or_two_pow]
        have : ¬ mask (hashf key % 2 ^ HASH_BITS) level = mask (hashf k % 2 ^ HASH_BITS) level :=
          fun h => hss h.symm
        simp [this]
      by_cases hbk : bitmap.testBit (mask (hashf k % 2 ^ HASH_BITS) level) = true
      · have hbt := hbeq.trans hbk
        rw [if_pos hbt, if_pos hbk, hslot _ hmk hbt, if_neg hss]
      · have hbt : ¬ (bitmap ||| 2 ^ mask (hashf key % 2 ^ HASH_BITS) level).testBit
            (mask (hashf k % 2 ^ HASH_BITS) level) = true := by
          rw [hbeq]
          exact hbk
        rw [if_neg hbt, if_neg hbk]

end PHashmap

namespace PHashmap

/-! ### `assoc` -/

theorem rank_zero_bitmap (t : Nat) : rank 0 t = 0 := by
  induction t with
  | zero => rfl
  | succ t ih => rw [rank_succ, ih, Nat.zero_testBit]; rfl

theorem set_eq_self {cs : List Node} {i : Nat} {c : Node} (h : cs[i]? = some c) :
    cs.set i c = cs := by
  apply List.ext_getElem?
  intro j
  by_cases hj : i = j
  · subst hj
    rw [List.getElem?_set_self (by
      by_contra hlt
      rw [List.getElem?_eq_none (Nat.le_of_not_lt hlt)] at h
      cases h), h]
  · rw [List.getElem?_set_ne hj]

/-- The one-child node that `leaf_assoc` builds around a leaf is well formed. -/
theorem wf_singleton {hashf : Nat → Nat} {eq_key : Nat → Nat → Bool} {level p k0 v0 h0 : Nat}
    (hl : level ≤ 6) (hh : h0 = hashf k0 % 2 ^ HASH_BITS) (ha : agree level h0 p) :
    WF hashf eq_key level p (.bitmap_indexed (0 ||| 2 ^ mask h0 level) [.leaf k0 v0 h0]) := by
  have hs := mask_lt h0 level
  have hz : (0 : Nat).testBit (mask h0 level) = false := Nat.zero_testBit _
  refine WF.bitmap_indexed hl (or_two_pow_lt 0 _ (by decide) hs) ?_ ?_
  · rw [popcount_eq_rank, rank_or 0 _ hz, rank_zero_bitmap, if_pos hs]
    rfl
  · intro s _ hbs c hc q hq hm
    rw [testBit_or_two_pow, Nat.zero_testBit] at hbs
    have hsa : mask h0 level = s := by simpa using hbs
    subst hsa
    rw [rank_or 0 _ hz, rank_zero_bitmap] at hc
    simp only [lt_self_iff_false, if_false, Nat.add_zero, List.getElem?_cons_zero,
      Option.some.injEq] at hc
    subst hc
    exact WF.leaf hh (agree_succ (agree_trans ha (agree_symm hq)) hm.symm)

/-- Looking a key up in that one-child node is looking it up in the leaf. -/
theorem get_singleton {hashf : Nat → Nat} {eq_key : Nat → Nat → Bool}
    (ops : KeyOps hashf eq_key) {level k0 v0 : Nat} (k : Nat) :
    node_get eq_key k (hashf k % 2 ^ HASH_BITS)
        (.bitmap_indexed (0 ||| 2 ^ mask (hashf k0 % 2 ^ HASH_BITS) level)
          [.leaf k0 v0 (hashf k0 % 2 ^ HASH_BITS)]) level =
      node_get eq_key k (hashf k % 2 ^ HASH_BITS) (.leaf k0 v0 (hashf k0 % 2 ^ HASH_BITS))
        (level + 1) := by
  have hz : (0 : Nat).testBit (mask (hashf k0 % 2 ^ HASH_BITS) level) = false :=
    Nat.zero_testBit _
  rw [node_get_bitmap, testBit_or_two_pow, Nat.zero_testBit, rank_or 0 _ hz, rank_zero_bitmap]
  by_cases hs : mask (hashf k0 % 2 ^ HASH_BITS) level = mask (hashf k % 2 ^ HASH_BITS) level
  · simp [hs]
  · simp only [Bool.false_or, decide_eq_true_eq, hs, if_false]
    rw [node_get, leaf_get_other ops (fun h => hs h.symm)]

/-- The two-child node that `leaf_assoc` builds when the slots differ is the
one-child node with the new leaf inserted. -/
theorem leaf_split_eq (k0 v0 h0 key val hash level : Nat)
    (hne : mask h0 level ≠ mask hash level) :
    (match (([none, none] : List (Option Node)).set
        (bit_index ((0 ||| bitpos h0 level) ||| bitpos hash level) (bitpos h0 level))
        (some (.leaf k0 v0 h0))).set
        (bit_index ((0 ||| bitpos h0 level) ||| bitpos hash level) (bitpos hash level))
        (some (.leaf key val hash)) with
      | [some c0, some c1] =>
        some (Node.bitmap_indexed ((0 ||| bitpos h0 level) ||| bitpos hash level) [c0, c1], ADDED)
      | _ => none) =
      some (Node.bitmap_indexed ((0 ||| 2 ^ mask h0 level) ||| 2 ^ mask hash level)
        (([Node.leaf k0 v0 h0] : List Node).take (rank (0 ||| 2 ^ mask h0 level) (mask hash level)) ++
          Node.leaf key val hash ::
          ([Node.leaf k0 v0 h0] : List Node).drop
            (rank (0 ||| 2 ^ mask h0 level) (mask hash level))), ADDED) := by
  have ha := mask_lt h0 level
  have hb := mask_lt hash level
  have hz : (0 : Nat).testBit (mask h0 level) = false := Nat.zero_testBit _
  have hab : (0 ||| 2 ^ mask h0 level).testBit (mask hash level) = false := by
    rw [testBit_or_two_pow, Nat.zero_testBit]
    simp [hne]
  rw [bitpos_eq, bitpos_eq, bit_index_eq_rank _ (Nat.le_of_lt ha),
    bit_index_eq_rank _ (Nat.le_of_lt hb), rank_or _ _ hab, rank_or _ _ hab, rank_or 0 _ hz,
    rank_or 0 _ hz, rank_zero_bitmap, rank_zero_bitmap]
  rcases Nat.lt_or_gt_of_ne hne with h | h
  · have h1 : ¬ mask hash level < mask h0 level := by omega
    simp [h, h1]
  · have h1 : ¬ mask h0 level < mask hash level := by omega
    simp [h, h1]

end PHashmap

namespace PHashmap

theorem need_le (n : Node) (level : Nat) : need n level ≤ 2 * (7 - level) + 1 := by
  cases n with
  | leaf k v h => exact Nat.le_refl _
  | bitmap_indexed b cs => exact Nat.le_succ _
  | hash_collision cells => exact Nat.le_add_left _ _

/-- `node_assoc` on a well-formed node returns, given enough fuel, a
well-formed node.  With the result `UNCHANGED` it is the node itself, in which
`key` is bound to a value that `eq_val` equates with `val`; with another
result `key` is bound to `val` in it and every other key is bound as before. -/
theorem node_assoc_spec {hashf : Nat → Nat} {eq_key : Nat → Nat → Bool}
    (ops : KeyOps hashf eq_key) (eq_val : Nat → Nat → Bool) (key val : Nat) :
    ∀ (fuel level : Nat) (n : Node), WF hashf eq_key level (hashf key % 2 ^ HASH_BITS) n →
      need n level ≤ fuel →
      ∃ n1 r, node_assoc key val (hashf key % 2 ^ HASH_BITS) eq_key eq_val fuel n level =
          some (n1, r) ∧
        WF hashf eq_key level (hashf key % 2 ^ HASH_BITS) n1 ∧
        (r = UNCHANGED → n1 = n ∧ ∃ w, eq_val w val = true ∧
          ∀ k, eq_key key k = true →
            node_get eq_key k (hashf k % 2 ^ HASH_BITS) n level = some w) ∧
        (splits (hashf key % 2 ^ HASH_BITS) level n → r ≠ UNCHANGED) ∧
        (r ≠ UNCHANGED →
          ∀ k, agree level (hashf k % 2 ^ HASH_BITS) (hashf key % 2 ^ HASH_BITS) →
            node_get eq_key k (hashf k % 2 ^ HASH_BITS) n1 level =
              if eq_key key k = true then some val
              else node_get eq_key k (hashf k % 2 ^ HASH_BITS) n level) := by
  intro fuel
  induction fuel with
  | zero =>
    intro level n hwf hneed
    exfalso
    cases hwf with
    | leaf hh ha => simp [need] at hneed
    | hash_collision hc hp => simp [need] at hneed
    | bitmap_indexed hl hb hlen hch =>
      simp only [need] at hneed
      omega
  | succ fuel ih =>
    intro level n hwf hneed
    cases hwf with
    | hash_collision hc hp =>
      rename_i cells
      obtain ⟨cells1, r, heq, hwf1, hun, hget⟩ :=
        hash_collision_assoc_spec ops eq_val key val (WF.hash_collision hc hp) (agree_refl _ _)
      refine ⟨_, r, by rw [node_assoc, heq], hwf1, fun h => ?_, fun h => h.elim, fun h => ?_⟩
      · obtain ⟨hcells, w, hw, hgw⟩ := hun h
        refine ⟨by rw [hcells], w, hw, fun k he => ?_⟩
        rw [node_get, hgw k he]
      · intro k _
        rw [node_get, node_get, hget h k]
        by_cases he : eq_key key k = true
        · rw [if_pos he, if_pos he]
        · rw [if_neg he, if_neg he]
    | leaf hh ha =>
      rename_i k0 v0 h0
      rw [node_assoc]
      unfold leaf_assoc
      by_cases hhash : h0 = hashf key % 2 ^ HASH_BITS
      · -- same hash: unchanged, updated, or a new collision chain
        have hnh : ¬ h0 ≠ hashf key % 2 ^ HASH_BITS := fun h => h hhash
        rw [if_neg hnh]
        by_cases hk0 : eq_key k0 key = true
        · by_cases hv0 : eq_val v0 val = true
          · refine ⟨_, UNCHANGED, by simp [hk0, hv0], WF.leaf hh ha,
              fun _ => ⟨rfl, v0, hv0, fun k he => ?_⟩, fun h => absurd hhash h,
              fun h => absurd rfl h⟩
            rw [node_get, leaf_get, if_pos (ops.trans _ _ _ hk0 he)]
          · refine ⟨.leaf key val (hashf key % 2 ^ HASH_BITS), UPDATED, by simp [hk0, hv0],
              WF.leaf rfl (agree_refl _ _), fun h => absurd h (by decide),
              fun h => absurd hhash h, fun _ => ?_⟩
            intro k _
            rw [node_get, node_get, leaf_get, leaf_get]
            by_cases he : eq_key key k = true
            · rw [if_pos he, if_pos he]
            · have he' : eq_key key k = false := by simpa using he
              rw [if_neg he, if_neg he, eq_key_false_of ops (ops.symm _ _ hk0) he']
              rfl
        · have hk0' : eq_key k0 key = false := by simpa using hk0
          refine ⟨.hash_collision [{ key := key, val := val, hash := hashf key % 2 ^ HASH_BITS },
              { key := k0, val := v0, hash := h0 }], ADDED, by simp [hk0'], ?_,
            fun h => absurd h (by decide), fun h => absurd hhash h, fun _ => ?_⟩
          · refine WF.hash_collision ?_ ?_
            · intro c hc
              simp only [List.mem_cons, List.mem_singleton, List.not_mem_nil, or_false] at hc
              rcases hc with h1 | h1
              · rw [h1]
                exact ⟨rfl, agree_refl _ _⟩
              · rw [h1]
                exact ⟨hh, ha⟩
            · simp only [List.pairwise_cons, List.mem_singleton, forall_eq, List.not_mem_nil,
                false_implies, implies_true, List.Pairwise.nil, and_true]
              exact pairwise_symm ops { key := k0, val := v0, hash := h0 }
                { key := key, val := val, hash := hashf key % 2 ^ HASH_BITS } hk0'
          · intro k _
            rw [node_get, node_get]
            simp only [hash_collision_get, leaf_get]
            by_cases he : eq_key key k = true
            · rw [if_pos he, if_pos he]
            · rw [if_neg he, if_neg he]
      · -- another hash: split
        rw [if_pos hhash]
        have hl : level ≤ 6 := by
          apply level_le_of_ne _ _ ha hhash
          · rw [hh]
            exact Nat.mod_lt _ (by decide)
          · exact Nat.mod_lt _ (by decide)
        by_cases hbits : mask h0 level = mask (hashf key % 2 ^ HASH_BITS) level
        · -- same slot: descend through a one-child node
          have hbp : ¬ bitpos h0 level ≠ bitpos (hashf key % 2 ^ HASH_BITS) level := by
            rw [bitpos_eq, bitpos_eq, hbits]
            exact fun h => h rfl
          rw [if_neg hbp, bitpos_eq]
          have hwfp : WF hashf eq_key level (hashf key % 2 ^ HASH_BITS)
              (.bitmap_indexed (0 ||| 2 ^ mask h0 level) [.leaf k0 v0 h0]) := wf_singleton hl hh ha
          have hneedp : need (.bitmap_indexed (0 ||| 2 ^ mask h0 level) [.leaf k0 v0 h0]) level
              ≤ fuel := by
            simp only [need] at hneed ⊢
            omega
          obtain ⟨n1, r, heq, hwf1, _, hsp, hget⟩ := ih level _ hwfp hneedp
          have hz : (0 : Nat).testBit (mask h0 level) = false := Nat.zero_testBit _
          have hr : r ≠ UNCHANGED := by
            apply hsp
            refine ⟨?_, k0, v0, h0, ?_, hhash⟩
            · rw [← hbits, testBit_or_two_pow]
              simp
            · rw [← hbits, rank_or 0 _ hz, rank_zero_bitmap]
              simp
          refine ⟨n1, r, heq, hwf1, fun h => absurd h hr, fun _ => hr, fun _ => ?_⟩
          intro k hk
          rw [hget hr k hk]
          by_cases he : eq_key key k = true
          · rw [if_pos he, if_pos he]
          · rw [if_neg he, if_neg he]
            subst hh
            exact get_singleton ops k
        · -- different slots: a two-child node
          have hbp : bitpos h0 level ≠ bitpos (hashf key % 2 ^ HASH_BITS) level := by
            rw [bitpos_eq, bitpos_eq]
            intro h
            exact hbits (Nat.pow_right_injective (Nat.le_refl 2) h)
          rw [if_pos hbp]
          have hwfp : WF hashf eq_key level (hashf key % 2 ^ HASH_BITS)
              (.bitmap_indexed (0 ||| 2 ^ mask h0 level) [.leaf k0 v0 h0]) := wf_singleton hl hh ha
          have hclear : (0 ||| 2 ^ mask h0 level).testBit
              (mask (hashf key % 2 ^ HASH_BITS) level) = false := by
            rw [testBit_or_two_pow, Nat.zero_testBit]
            simp [hbits]
          obtain ⟨hwf1, hget⟩ := bitmap_insert_spec ops key val hwfp hclear
          refine ⟨_, ADDED, leaf_split_eq k0 v0 h0 key val _ level hbits, hwf1,
            fun h => absurd h (by decide), fun _ => by decide, fun _ => ?_⟩
          intro k hk
          rw [hget k hk]
          by_cases he : eq_key key k = true
          · rw [if_pos he, if_pos he]
          · rw [if_neg he, if_neg he]
            subst hh
            exact get_singleton ops k
    | bitmap_indexed hl hb hlen hch =>
      rename_i bitmap cs
      have hs := mask_lt (hashf key % 2 ^ HASH_BITS) level
      rw [node_assoc]
      unfold bitmap_indexed_assoc
      simp only [bitpos_eq, bit_index_eq_rank _ (Nat.le_of_lt hs)]
      by_cases hbit : bitmap.testBit (mask (hashf key % 2 ^ HASH_BITS) level) = true
      · rw [if_pos ((and_two_pow_ne_zero _ _).mpr hbit)]
        obtain ⟨c, hc⟩ := wf_child_exists hlen hs hbit
        have hwfc := hch _ hs hbit c hc _ (agree_refl _ _) rfl
        have hneedc : need c (level + 1) ≤ fuel := by
          have := need_le c (level + 1)
          simp only [need] at hneed
          omega
        obtain ⟨c1, r, heq, hwf1, hun, hsp, hget⟩ := ih (level + 1) c hwfc hneedc
        have htake : cs.take (popcount bitmap) = cs := by
          rw [← hlen]
          exact List.take_length cs
        by_cases hr : r = UNCHANGED
        · obtain ⟨hc1, w, hw, hgw⟩ := hun hr
          subst hc1
          refine ⟨.bitmap_indexed bitmap cs, r, by simp [hc, heq, hr],
            WF.bitmap_indexed hl hb hlen hch, fun _ => ⟨rfl, w, hw, fun k he => ?_⟩, ?_,
            fun h => absurd hr h⟩
          · rw [node_get_bitmap, ← ops.hash_eq key k he, if_pos hbit, hc]
            have hgk := hgw k he
            rw [← ops.hash_eq key k he] at hgk
            exact hgk
          · rintro ⟨_, k1, v1, h1, hc', hne⟩
            rw [hc] at hc'
            have hcl : c1 = .leaf k1 v1 h1 := Option.some.inj hc'
            subst hcl
            exact fun _ => hsp hne hr
        · have hrep := bitmap_replace_spec ops key (some val)
            (WF.bitmap_indexed hl hb hlen hch) hbit hc hwf1 (hget hr)
          refine ⟨_, r, by simp [hc, heq, hr, htake], hrep.1, fun h => absurd h hr, fun _ => hr,
            fun _ => hrep.2⟩
      · have hbit' : bitmap.testBit (mask (hashf key % 2 ^ HASH_BITS) level) = false := by
          simpa using hbit
        rw [if_neg (fun h => hbit ((and_two_pow_ne_zero _ _).mp h))]
        obtain ⟨hwf1, hget⟩ := bitmap_insert_spec ops key val
          (WF.bitmap_indexed hl hb hlen hch) hbit'
        have hdrop : (cs.drop (rank bitmap (mask (hashf key % 2 ^ HASH_BITS) level))).take
            (popcount (bitmap ||| 2 ^ mask (hashf key % 2 ^ HASH_BITS) level) -
              rank bitmap (mask (hashf key % 2 ^ HASH_BITS) level)) =
            cs.drop (rank bitmap (mask (hashf key % 2 ^ HASH_BITS) level)) := by
          apply List.take_of_length_le
          rw [List.length_drop, hlen, popcount_eq_rank, popcount_eq_rank, rank_or _ _ hbit']
          omega
        refine ⟨_, ADDED, by rw [hdrop], hwf1, fun h => absurd h (by decide),
          fun h => absurd h.1 hbit, fun _ => hget⟩

end PHashmap

namespace PHashmap

/-! ### `dissoc` -/

/-- Lookups in a chain from which the cell of `key` has been taken out. -/
theorem get_removed {hashf : Nat → Nat} {eq_key : Nat → Nat → Bool}
    (ops : KeyOps hashf eq_key) {key : Nat} {pre next : List Cell} {c : Cell}
    (hp : (pre ++ c :: next).Pairwise (fun a b => eq_key a.key b.key = false))
    (hck : eq_key c.key key = true) :
    (pre ++ next).Pairwise (fun a b => eq_key a.key b.key = false) ∧
      ∀ k, hash_collision_get eq_key k (pre ++ next) =
        if eq_key key k = true then NULL else hash_collision_get eq_key k (pre ++ c :: next) := by
  have hperm0 : (pre ++ c :: next).Perm (c :: (pre ++ next)) := List.perm_middle
  have hp1 : (c :: (pre ++ next)).Pairwise (fun a b => eq_key a.key b.key = false) :=
    (hperm0.pairwise_iff (fun {a b} h => pairwise_symm ops a b h)).mp hp
  rw [List.pairwise_cons] at hp1
  have hmem0 : ∀ x, x ∈ pre ++ c :: next ↔ x = c ∨ x ∈ pre ++ next := by
    intro x
    rw [hperm0.mem_iff, List.mem_cons]
  refine ⟨hp1.2, ?_⟩
  intro k
  by_cases hk : eq_key key k = true
  · rw [if_pos hk]
    apply get_null
    intro x hx
    have h1 := hp1.1 x hx
    have h2 := eq_key_false_of ops hck h1
    exact eq_key_false_of' ops hk (pairwise_symm ops ⟨key, 0, 0⟩ x h2)
  · rw [if_neg hk]
    by_cases hex : ∃ x ∈ pre ++ c :: next, eq_key x.key k = true
    · obtain ⟨x, hx, hxk⟩ := hex
      have hx1 : x ∈ pre ++ next := by
        rcases (hmem0 x).mp hx with h1 | h1
        · exfalso
          rw [h1] at hxk
          exact hk (ops.trans _ _ _ (ops.symm _ _ hck) hxk)
        · exact h1
      rw [get_of_mem ops k _ hp1.2 x hx1 hxk, get_of_mem ops k _ hp x hx hxk]
    · have hn : ∀ x ∈ pre ++ c :: next, eq_key x.key k = false := by
        intro x hx
        by_contra hxk
        exact hex ⟨x, hx, by simpa using hxk⟩
      rw [get_null eq_key k _ hn]
      exact get_null eq_key k _ (fun x hx => hn x ((hmem0 x).mpr (Or.inr hx)))

/-- A chain, a leaf or nothing, standing for the cells `l`. -/
theorem get_opt_cells {hashf : Nat → Nat} {eq_key : Nat → Nat → Bool}
    (ops : KeyOps hashf eq_key) {level p : Nat} {l0 l : List Cell} {m : Option Node}
    (hc : ∀ c ∈ l0, c.hash = hashf c.key % 2 ^ HASH_BITS ∧ agree level c.hash p)
    (hp0 : l0.Pairwise (fun a b => eq_key a.key b.key = false))
    (hperm : l.Perm l0)
    (hm : (l = [] ∧ m = none) ∨ (∃ x, l = [x] ∧ m = some (.leaf x.key x.val x.hash)) ∨
      m = some (.hash_collision l)) :
    (∀ n, m = some n → WF hashf eq_key level p n) ∧
      ∀ k h lv, get_opt eq_key k h m lv = some (hash_collision_get eq_key k l0) := by
  have hp : l.Pairwise (fun a b => eq_key a.key b.key = false) :=
    (hperm.pairwise_iff (fun {a b} h => pairwise_symm ops a b h)).mpr hp0
  have hcongr : ∀ k, hash_collision_get eq_key k l = hash_collision_get eq_key k l0 :=
    fun k => get_congr ops k hp hp0 (fun c => hperm.mem_iff)
  rcases hm with ⟨hl, rfl⟩ | ⟨x, hl, rfl⟩ | rfl
  · refine ⟨fun n hn => (by cases hn), fun k h lv => ?_⟩
    rw [← hcongr k, hl]
    rfl
  · refine ⟨fun n hn => ?_, fun k h lv => ?_⟩
    · have hx := hc x (hperm.mem_iff.mp (by rw [hl]; exact List.mem_singleton_self x))
      rw [← Option.some.inj hn]
      exact WF.leaf hx.1 hx.2
    · rw [← hcongr k, hl]
      simp only [get_opt, node_get, leaf_get, hash_collision_get]
  · refine ⟨fun n hn => ?_, fun k h lv => ?_⟩
    · rw [← Option.some.inj hn]
      exact WF.hash_collision (fun c hcm => hc c (hperm.mem_iff.mp hcm)) hp
    · rw [← hcongr k]
      simp only [get_opt, node_get]

/-- `hash_collision_dissoc` unbinds `key` and nothing else. -/
theorem hash_collision_dissoc_spec {hashf : Nat → Nat} {eq_key : Nat → Nat → Bool}
    (ops : KeyOps hashf eq_key) {level p : Nat} {cells : List Cell} (key : Nat)
    (hwf : WF hashf eq_key level p (.hash_collision cells)) :
    (∀ n, (if (hash_collision_dissoc eq_key cells key).2 = UNCHANGED
        then some (Node.hash_collision cells)
        else (hash_collision_dissoc eq_key cells key).1) = some n → WF hashf eq_key level p n) ∧
      ∀ k h lv, get_opt eq_key k h
        (if (hash_collision_dissoc eq_key cells key).2 = UNCHANGED
          then some (Node.hash_collision cells)
          else (hash_collision_dissoc eq_key cells key).1) lv =
        some (if eq_key key k = true then NULL else hash_collision_get eq_key k cells) := by
  cases hwf with
  | hash_collision hc hp =>
  obtain ⟨hsplit, hpre, hsuf⟩ := chain_find_spec eq_key key cells
  unfold hash_collision_dissoc
  cases hfind : chain_find eq_key key cells with
  | mk pre suf =>
  rw [hfind] at hsplit hpre hsuf
  simp only at hsplit hpre hsuf
  cases suf with
  | nil =>
    rw [List.append_nil] at hsplit
    subst hsplit
    simp only [if_true]
    refine ⟨fun n hn => ?_, fun k h lv => ?_⟩
    · rw [← Option.some.inj hn]
      exact WF.hash_collision hc hp
    · simp only [get_opt, node_get]
      by_cases hk : eq_key key k = true
      · rw [if_pos hk]
        congr 1
        apply get_null
        intro x hx
        exact eq_key_false_of' ops hk (hpre x hx)
      · rw [if_neg hk]
  | cons c next =>
    have hck : eq_key c.key key = true := hsuf c next rfl
    subst hsplit
    obtain ⟨hp0, hget0⟩ := get_removed ops hp hck
    have hc0 : ∀ x ∈ pre ++ next, x.hash = hashf x.key % 2 ^ HASH_BITS ∧ agree level x.hash p := by
      intro x hx
      apply hc x
      rcases List.mem_append.mp hx with h1 | h1
      · exact List.mem_append_left _ h1
      · exact List.mem_append_right _ (List.mem_cons_of_mem _ h1)
    have hne : REMOVED ≠ UNCHANGED := by decide
    -- every shape of the result stands for the cells `pre ++ next`
    have key_step : ∀ (l : List Cell) (m : Option Node), l.Perm (pre ++ next) →
        ((l = [] ∧ m = none) ∨ (∃ x, l = [x] ∧ m = some (.leaf x.key x.val x.hash)) ∨
          m = some (.hash_collision l)) →
        (∀ n, (if REMOVED = UNCHANGED then some (Node.hash_collision (pre ++ c :: next)) else m)
            = some n → WF hashf eq_key level p n) ∧
          ∀ k h lv, get_opt eq_key k h
            (if REMOVED = UNCHANGED then some (Node.hash_collision (pre ++ c :: next)) else m) lv =
            some (if eq_key key k = true then NULL
              else hash_collision_get eq_key k (pre ++ c :: next)) := by
      intro l m hperm hm
      obtain ⟨h1, h2⟩ := get_opt_cells ops hc0 hp0 hperm hm
      rw [if_neg hne]
      refine ⟨h1, fun k h lv => ?_⟩
      rw [h2 k h lv, hget0 k]
    have hcopy : ∀ l : List Cell, (chain_copy next l).Perm (l ++ next) := by
      intro l
      rw [chain_copy_eq]
      exact List.Perm.append_right _ (List.reverse_perm _)
    clear hfind hsuf hpre hget0 hp0 hc0 hp hc
    cases pre with
    | nil =>
      cases next with
      | nil => exact key_step [] none (List.Perm.refl _) (Or.inl ⟨rfl, rfl⟩)
      | cons n rest =>
        cases rest with
        | nil => exact key_step [n] _ (List.Perm.refl _) (Or.inr (Or.inl ⟨n, rfl, rfl⟩))
        | cons m rest => exact key_step (n :: m :: rest) _ (List.Perm.refl _) (Or.inr (Or.inr rfl))
    | cons f pre1 =>
      cases pre1 with
      | nil =>
        cases next with
        | nil => exact key_step [f] _ (by simp) (Or.inr (Or.inl ⟨f, rfl, rfl⟩))
        | cons n rest => exact key_step _ _ (hcopy _) (Or.inr (Or.inr rfl))
      | cons g pre2 => exact key_step _ _ (hcopy _) (Or.inr (Or.inr rfl))

end PHashmap

namespace PHashmap

/-- Taking the child in the slot of `key` out of a bitmap-indexed node, when
that child held no other key. -/
theorem bitmap_remove_spec {hashf : Nat → Nat} {eq_key : Nat → Nat → Bool}
    (ops : KeyOps hashf eq_key) {level bitmap : Nat} {cs : List Node} (key : Nat)
    (hwf : WF hashf eq_key level (hashf key % 2 ^ HASH_BITS) (.bitmap_indexed bitmap cs))
    (hbit : bitmap.testBit (mask (hashf key % 2 ^ HASH_BITS) level) = true)
    {c : Node} (hc : cs[rank bitmap (mask (hashf key % 2 ^ HASH_BITS) level)]? = some c)
    (hget : ∀ k, agree (level + 1) (hashf k % 2 ^ HASH_BITS) (hashf key % 2 ^ HASH_BITS) →
      some NULL = if eq_key key k = true then some NULL
        else node_get eq_key k (hashf k % 2 ^ HASH_BITS) c (level + 1)) :
    WF hashf eq_key level (hashf key % 2 ^ HASH_BITS)
        (.bitmap_indexed
          (bitmap &&& ((2 ^ HASH_BITS - 1) ^^^ 2 ^ mask (hashf key % 2 ^ HASH_BITS) level))
          (cs.take (rank bitmap (mask (hashf key % 2 ^ HASH_BITS) level)) ++
            cs.drop (rank bitmap (mask (hashf key % 2 ^ HASH_BITS) level) + 1))) ∧
      ∀ k, agree level (hashf k % 2 ^ HASH_BITS) (hashf key % 2 ^ HASH_BITS) →
        node_get eq_key k (hashf k % 2 ^ HASH_BITS)
          (.bitmap_indexed
            (bitmap &&& ((2 ^ HASH_BITS - 1) ^^^ 2 ^ mask (hashf key % 2 ^ HASH_BITS) level))
            (cs.take (rank bitmap (mask (hashf key % 2 ^ HASH_BITS) level)) ++
              cs.drop (rank bitmap (mask (hashf key % 2 ^ HASH_BITS) level) + 1))) level =
          if eq_key key k = true then some NULL
          else node_get eq_key k (hashf k % 2 ^ HASH_BITS) (.bitmap_indexed bitmap cs) level := by
  cases hwf with
  | bitmap_indexed hl hb hlen hch =>
  have hs := mask_lt (hashf key % 2 ^ HASH_BITS) level
  have hidx : rank bitmap (mask (hashf key % 2 ^ HASH_BITS) level) < cs.length := by
    rw [hlen]
    exact rank_lt_popcount bitmap hs hbit
  have hclr : ∀ t, (bitmap &&& ((2 ^ HASH_BITS - 1) ^^^
      2 ^ mask (hashf key % 2 ^ HASH_BITS) level)).testBit t = true ↔
      bitmap.testBit t = true ∧ t ≠ mask (hashf key % 2 ^ HASH_BITS) level := by
    intro t
    rw [testBit_clear bitmap _ t hb]
    simp only [Bool.and_eq_true, Bool.not_eq_true', decide_eq_false_iff_not, ne_eq]
    exact ⟨fun h => ⟨h.1, fun e => h.2 e.symm⟩, fun h => ⟨h.1, fun e => h.2 e.symm⟩⟩
  have hslot : ∀ t, bitmap.testBit t = true → t ≠ mask (hashf key % 2 ^ HASH_BITS) level →
      (cs.take (rank bitmap (mask (hashf key % 2 ^ HASH_BITS) level)) ++
        cs.drop (rank bitmap (mask (hashf key % 2 ^ HASH_BITS) level) + 1))[rank
          (bitmap &&& ((2 ^ HASH_BITS - 1) ^^^ 2 ^ mask (hashf key % 2 ^ HASH_BITS) level)) t]? =
        cs[rank bitmap t]? := by
    intro t hbt hts
    have hrk := rank_clear bitmap _ hb hbit t
    rw [getElem?_remove]
    rcases Nat.lt_or_gt_of_ne hts with h | h
    · have h1 := rank_lt_of_testBit bitmap h hbt
      have h2 : ¬ mask (hashf key % 2 ^ HASH_BITS) level < t := by omega
      rw [if_neg h2, Nat.add_zero] at hrk
      rw [hrk, if_pos h1]
    · have h1 := rank_lt_of_testBit bitmap h hbit
      rw [if_pos h] at hrk
      have h2 : ¬ rank (bitmap &&& ((2 ^ HASH_BITS - 1) ^^^
          2 ^ mask (hashf key % 2 ^ HASH_BITS) level)) t <
          rank bitmap (mask (hashf key % 2 ^ HASH_BITS) level) := by omega
      rw [if_neg h2, hrk]
  constructor
  · refine WF.bitmap_indexed hl (clear_lt bitmap _ hb) ?_ ?_
    · have hrk := rank_clear bitmap _ hb hbit 32
      rw [if_pos hs] at hrk
      rw [length_remove cs hidx, hlen, popcount_eq_rank, popcount_eq_rank, ← hrk]
      rfl
    · intro t ht hbt d hd q hq hm
      have ht2 := (hclr t).mp hbt
      rw [hslot t ht2.1 ht2.2] at hd
      exact hch t ht ht2.1 d hd q hq hm
  · intro k hk
    rw [node_get_bitmap, node_get_bitmap]
    by_cases hss : mask (hashf k % 2 ^ HASH_BITS) level = mask (hashf key % 2 ^ HASH_BITS) level
    · have hnb : ¬ (bitmap &&& ((2 ^ HASH_BITS - 1) ^^^
          2 ^ mask (hashf key % 2 ^ HASH_BITS) level)).testBit
          (mask (hashf k % 2 ^ HASH_BITS) level) = true := by
        rw [hclr]
        exact fun h => h.2 hss
      rw [if_neg hnb, hss, if_pos hbit, hc]
      exact hget k (agree_succ hk hss)
    · have hne : eq_key key k = false := by
        by_contra he
        exact hss (by rw [hash_of_eq ops (by simpa using he : eq_key key k = true)])
      simp only [hne, Bool.false_eq_true, if_false]
      by_cases hbk : bitmap.testBit (mask (hashf k % 2 ^ HASH_BITS) level) = true
      · rw [if_pos ((hclr _).mpr ⟨hbk, hss⟩), if_pos hbk, hslot _ hbk hss]
      · rw [if_neg (fun h => hbk ((hclr _).mp h).1), if_neg hbk]

/-- `node_dissoc` on a well-formed node returns; what is left (the node itself
when the status is `UNCHANGED`) is well formed, has no binding for `key` and
binds every other key as before. -/
theorem node_dissoc_spec {hashf : Nat → Nat} {eq_key : Nat → Nat → Bool}
    (ops : KeyOps hashf eq_key) (key : Nat) {level p : Nat} {n : Node}
    (hwf : WF hashf eq_key level p n) :
    agree level (hashf key % 2 ^ HASH_BITS) p →
    ∃ n1 r, node_dissoc eq_key key (hashf key % 2 ^ HASH_BITS) n level = some (n1, r) ∧
      (∀ m, (if r = UNCHANGED then some n else n1) = some m →
        WF hashf eq_key level (hashf key % 2 ^ HASH_BITS) m) ∧
      ∀ k, agree level (hashf k % 2 ^ HASH_BITS) (hashf key % 2 ^ HASH_BITS) →
        get_opt eq_key k (hashf k % 2 ^ HASH_BITS) (if r = UNCHANGED then some n else n1) level =
          if eq_key key k = true then some NULL
          else node_get eq_key k (hashf k % 2 ^ HASH_BITS) n level := by
  induction hwf with
  | leaf hh ha =>
    rename_i level p k0 v0 h0
    intro hpath
    rw [node_dissoc]
    unfold leaf_dissoc
    by_cases hk0 : eq_key k0 key = true
    · refine ⟨none, REMOVED, by rw [if_pos hk0], fun m hm => ?_, fun k _ => ?_⟩
      · rw [if_neg (by decide)] at hm
        cases hm
      · rw [if_neg (by decide), node_get, leaf_get]
        by_cases he : eq_key key k = true
        · rw [if_pos he]
          rfl
        · have he' : eq_key key k = false := by simpa using he
          rw [if_neg he, eq_key_false_of ops (ops.symm _ _ hk0) he']
          rfl
    · have hk0' : eq_key k0 key = false := by simpa using hk0
      refine ⟨some (.leaf k0 v0 h0), UNCHANGED, by rw [if_neg hk0], fun m hm => ?_, fun k _ => ?_⟩
      · rw [if_pos rfl] at hm
        rw [← Option.some.inj hm]
        exact WF.leaf hh (agree_trans ha (agree_symm hpath))
      · rw [if_pos rfl]
        simp only [get_opt, node_get, leaf_get]
        by_cases he : eq_key key k = true
        · rw [if_pos he, eq_key_false_of' ops he hk0']
          rfl
        · rw [if_neg he]
  | hash_collision hc hp =>
    rename_i level p cells
    intro hpath
    obtain ⟨h1, h2⟩ := hash_collision_dissoc_spec ops key
      (wf_agree (WF.hash_collision hc hp) _ (agree_symm hpath))
    refine ⟨_, _, by rw [node_dissoc], h1, fun k _ => ?_⟩
    rw [h2 k _ level, node_get]
    by_cases he : eq_key key k = true
    · rw [if_pos he, if_pos he]
    · rw [if_neg he, if_neg he]
  | bitmap_indexed hl hb hlen hch ih =>
    rename_i level p bitmap cs
    intro hpath
    have hwfn : WF hashf eq_key level (hashf key % 2 ^ HASH_BITS) (.bitmap_indexed bitmap cs) :=
      wf_agree (WF.bitmap_indexed hl hb hlen hch) _ (agree_symm hpath)
    have hs := mask_lt (hashf key % 2 ^ HASH_BITS) level
    rw [node_dissoc]
    simp only [bitpos_eq, bit_index_eq_rank _ (Nat.le_of_lt hs), child_dissoc_eq]
    by_cases hbit : bitmap.testBit (mask (hashf key % 2 ^ HASH_BITS) level) = true
    · rw [if_pos ((and_two_pow_ne_zero _ _).mpr hbit)]
      obtain ⟨c, hc⟩ := wf_child_exists hlen hs hbit
      obtain ⟨c1, r, heq, hwf1, hget⟩ := ih _ hs hbit c hc _ hpath rfl (agree_refl _ _)
      have hidx : rank bitmap (mask (hashf key % 2 ^ HASH_BITS) level) < cs.length := by
        rw [hlen]
        exact rank_lt_popcount bitmap hs hbit
      have htake : cs.take (popcount bitmap) = cs := by
        rw [← hlen]
        exact List.take_length cs
      by_cases hr : r = UNCHANGED
      · rw [if_pos hr] at hwf1 hget
        have hrep := bitmap_replace_spec ops key (some NULL) hwfn hbit hc (hwf1 c rfl) hget
        rw [set_eq_self hc] at hrep
        refine ⟨some (.bitmap_indexed bitmap cs), r, by simp [hc, heq, hr], fun m hm => ?_,
          fun k hk => ?_⟩
        · rw [if_pos hr] at hm
          rw [← Option.some.inj hm]
          exact hrep.1
        · rw [if_pos hr]
          exact hrep.2 k hk
      · rw [if_neg hr] at hwf1 hget
        cases c1 with
        | some d =>
          have hrep := bitmap_replace_spec ops key (some NULL) hwfn hbit hc (hwf1 d rfl) hget
          refine ⟨some (.bitmap_indexed bitmap
              (cs.set (rank bitmap (mask (hashf key % 2 ^ HASH_BITS) level)) d)), r,
            by simp [hc, heq, hr, htake],
            fun m hm => ?_, fun k hk => ?_⟩
          · rw [if_neg hr] at hm
            rw [← Option.some.inj hm]
            exact hrep.1
          · rw [if_neg hr]
            exact hrep.2 k hk
        | none =>
          have hrem := bitmap_remove_spec ops key hwfn hbit hc hget
          have hdrop : (cs.drop (rank bitmap (mask (hashf key % 2 ^ HASH_BITS) level) + 1)).take
              (popcount (bitmap &&& ((2 ^ HASH_BITS - 1) ^^^
                2 ^ mask (hashf key % 2 ^ HASH_BITS) level)) -
                rank bitmap (mask (hashf key % 2 ^ HASH_BITS) level)) =
              cs.drop (rank bitmap (mask (hashf key % 2 ^ HASH_BITS) level) + 1) := by
            apply List.take_of_length_le
            have hrk := rank_clear bitmap _ hb hbit 32
            rw [if_pos hs] at hrk
            rw [List.length_drop, hlen, popcount_eq_rank, popcount_eq_rank, ← hrk]
            omega
          by_cases hz : bitmap &&& ((2 ^ HASH_BITS - 1) ^^^
              2 ^ mask (hashf key % 2 ^ HASH_BITS) level) = 0
          · refine ⟨none, r, by simp [hc, heq, hr, hz], fun m hm => ?_, fun k hk => ?_⟩
            · rw [if_neg hr] at hm
              cases hm
            · rw [if_neg hr, ← hrem.2 k hk, hz, node_get_bitmap, Nat.zero_testBit]
              rfl
          · refine ⟨some (.bitmap_indexed
                (bitmap &&& ((2 ^ HASH_BITS - 1) ^^^ 2 ^ mask (hashf key % 2 ^ HASH_BITS) level))
                (cs.take (rank bitmap (mask (hashf key % 2 ^ HASH_BITS) level)) ++
                  cs.drop (rank bitmap (mask (hashf key % 2 ^ HASH_BITS) level) + 1))), r,
              by simp [hc, heq, hr, hz, hdrop], fun m hm => ?_, fun k hk => ?_⟩
            · rw [if_neg hr] at hm
              rw [← Option.some.inj hm]
              exact hrem.1
            · rw [if_neg hr]
              exact hrem.2 k hk
    · rw [if_neg (fun h => hbit ((and_two_pow_ne_zero _ _).mp h))]
      refine ⟨_, UNCHANGED, rfl, fun m hm => ?_, fun k hk => ?_⟩
      · rw [if_pos rfl] at hm
        rw [← Option.some.inj hm]
        exact hwfn
      · rw [if_pos rfl]
        simp only [get_opt]
        by_cases he : eq_key key k = true
        · rw [if_pos he, node_get_bitmap, ← hash_of_eq ops he, if_neg hbit]
        · rw [if_neg he]

end PHashmap

namespace PHashmap

/-! ### The map operations -/

theorem exists_of_returns {α : Type} {o : Option α} {P : α → Bool}
    (h : returns o P = true) : ∃ s, o = some s ∧ P s = true := by
  cases o with
  | none => cases h
  | some s => exact ⟨s, rfl, h⟩

theorem leaf_assoc_mono {f g : Node → Nat → Option (Node × Nat)}
    (hfg : ∀ n l r, f n l = some r → g n l = some r) (k v h level key val hash : Nat)
    (eq_key eq_val : Nat → Nat → Bool) (r : Node × Nat)
    (hr : leaf_assoc f k v h level key val hash eq_key eq_val = some r) :
    leaf_assoc g k v h level key val hash eq_key eq_val = some r := by
  unfold leaf_assoc at hr ⊢
  by_cases h1 : h ≠ hash
  · rw [if_pos h1] at hr ⊢
    by_cases h2 : bitpos h level ≠ bitpos hash level
    · rw [if_pos h2] at hr ⊢
      exact hr
    · rw [if_neg h2] at hr ⊢
      exact hfg _ _ _ hr
  · rw [if_neg h1] at hr ⊢
    exact hr

theorem bitmap_indexed_assoc_mono {f g : Node → Nat → Option (Node × Nat)}
    (hfg : ∀ n l r, f n l = some r → g n l = some r) (bitmap : Nat) (cs : List Node)
    (level key val hash : Nat) (r : Node × Nat)
    (hr : bitmap_indexed_assoc f bitmap cs level key val hash = some r) :
    bitmap_indexed_assoc g bitmap cs level key val hash = some r := by
  unfold bitmap_indexed_assoc at hr ⊢
  by_cases h1 : bitmap &&& bitpos hash level ≠ 0
  · rw [if_pos h1] at hr ⊢
    cases hc : cs[bit_index bitmap (bitpos hash level)]? with
    | none =>
      rw [hc] at hr
      cases hr
    | some c =>
      rw [hc] at hr
      simp only at hr ⊢
      cases hf : f c (level + 1) with
      | none =>
        rw [hf] at hr
        cases hr
      | some x =>
        rw [hf] at hr
        rw [hfg _ _ _ hf]
        exact hr
  · rw [if_neg h1] at hr ⊢
    exact hr

/-- More fuel does not change a result of `node_assoc`. -/
theorem node_assoc_mono (key val hash : Nat) (eq_key eq_val : Nat → Nat → Bool) :
    ∀ (fuel : Nat) (n : Node) (level : Nat) (r : Node × Nat),
      node_assoc key val hash eq_key eq_val fuel n level = some r →
      node_assoc key val hash eq_key eq_val (fuel + 1) n level = some r := by
  intro fuel
  induction fuel with
  | zero =>
    intro n level r h
    simp [node_assoc] at h
  | succ fuel ih =>
    intro n level r h
    cases n with
    | leaf k v h0 =>
      rw [node_assoc] at h ⊢
      exact leaf_assoc_mono ih _ _ _ _ _ _ _ _ _ _ h
    | bitmap_indexed bitmap cs =>
      rw [node_assoc] at h ⊢
      exact bitmap_indexed_assoc_mono ih _ _ _ _ _ _ _ h
    | hash_collision cells =>
      rw [node_assoc] at h ⊢
      exact h

theorem node_assoc_mono_le (key val hash : Nat) (eq_key eq_val : Nat → Nat → Bool)
    {fuel fuel1 : Nat} (hle : fuel ≤ fuel1) (n : Node) (level : Nat) (r : Node × Nat)
    (h : node_assoc key val hash eq_key eq_val fuel n level = some r) :
    node_assoc key val hash eq_key eq_val fuel1 n level = some r := by
  induction hle with
  | refl => exact h
  | step _ ih => exact node_assoc_mono _ _ _ _ _ _ _ _ _ ih

theorem wf_level_zero {hashf : Nat → Nat} {eq_key : Nat → Nat → Bool} {p : Nat} {n : Node}
    (h : WF hashf eq_key 0 p n) (q : Nat) : WF hashf eq_key 0 q n :=
  wf_agree h q (fun _ hj => absurd hj (Nat.not_lt_zero _))

/-- `hashmap_assoc` with enough fuel returns a well-formed map that binds
every other key as before and binds `key` to `val`, or to the value already
there when `eq_val` equates it with `val`. -/
theorem hashmap_assoc_spec {hashf : Nat → Nat} {eq_key eq_val : Nat → Nat → Bool}
    (ops : KeyOps hashf eq_key) {map : Hashmap} (hm : MapWF hashf eq_key eq_val map)
    (key val : Nat) {fuel : Nat} (hf : 15 ≤ fuel) :
    ∃ map1, hashmap_assoc fuel map key val = some map1 ∧ MapWF hashf eq_key eq_val map1 ∧
      (∀ k, eq_key key k = false → hashmap_get map1 k = hashmap_get map k) ∧
      ∀ k, eq_key key k = true →
        ∃ w, (w = val ∨ eq_val w val = true) ∧ hashmap_get map1 k = some w := by
  obtain ⟨hh, hk, hv, hroot⟩ := hm
  unfold hashmap_assoc
  cases hr : map.root with
  | none =>
    refine ⟨{ map with root := some (.leaf key val (map.hash_of key)), count := map.count + 1 },
      by simp [ADDED, UNCHANGED], ⟨hh, hk, hv, ?_⟩, ?_, ?_⟩
    · intro root hroot1
      simp only [Option.some.injEq] at hroot1
      rw [← hroot1]
      refine WF.leaf ?_ (fun _ hj => absurd hj (Nat.not_lt_zero _))
      simp only [Hashmap.hash_of, hh]
    · intro k he
      simp only [hashmap_get, hr, node_get, leaf_get, hk, he]
      rfl
    · intro k he
      refine ⟨val, Or.inl rfl, ?_⟩
      simp only [hashmap_get, hr, node_get, leaf_get, hk, he, if_true]
  | some root =>
    have hwf := wf_level_zero (hroot root hr) (hashf key % 2 ^ HASH_BITS)
    have hneed : need root 0 ≤ fuel := Nat.le_trans (need_le root 0) hf
    obtain ⟨n1, r, heq, hwf1, hun, _, hget⟩ :=
      node_assoc_spec ops eq_val key val fuel 0 root hwf hneed
    have heq1 : node_assoc key val (map.hash_of key) map.eq_key map.eq_val fuel root 0 =
        some (n1, r) := by
      simp only [Hashmap.hash_of, hh, hk, hv]
      exact heq
    simp only [heq1]
    by_cases hru : r = UNCHANGED
    · obtain ⟨_, w, hw, hgw⟩ := hun hru
      refine ⟨map, by simp [hru], ⟨hh, hk, hv, hroot⟩, fun _ _ => rfl, ?_⟩
      intro k he
      refine ⟨w, Or.inr hw, ?_⟩
      simp only [hashmap_get, hr, Hashmap.hash_of, hh, hk]
      exact hgw k he
    · have hgetroot : ∀ k, node_get eq_key k (hashf k % 2 ^ HASH_BITS) n1 0 =
          if eq_key key k = true then some val
          else node_get eq_key k (hashf k % 2 ^ HASH_BITS) root 0 :=
        fun k => hget hru k (fun _ hj => absurd hj (Nat.not_lt_zero _))
      refine ⟨{ map with root := some n1, count := map.count + (if r = ADDED then 1 else 0) },
        by simp [hru], ⟨hh, hk, hv, ?_⟩, ?_, ?_⟩
      · intro root1 hroot1
        simp only [Option.some.injEq] at hroot1
        rw [← hroot1]
        exact wf_level_zero hwf1 0
      · intro k he
        simp only [hashmap_get, hr, Hashmap.hash_of, hh, hk]
        rw [hgetroot k, he]
        rfl
      · intro k he
        refine ⟨val, Or.inl rfl, ?_⟩
        simp only [hashmap_get, hr, Hashmap.hash_of, hh, hk]
        rw [hgetroot k, if_pos he]

/-- A result of `hashmap_assoc`, whatever the fuel, is the result with enough
fuel. -/
theorem hashmap_assoc_fuel {map map1 : Hashmap} {key val fuel : Nat}
    (h : hashmap_assoc fuel map key val = some map1) {fuel1 : Nat} (hle : fuel ≤ fuel1) :
    hashmap_assoc fuel1 map key val = some map1 := by
  unfold hashmap_assoc at h ⊢
  cases hr : map.root with
  | none =>
    rw [hr] at h
    exact h
  | some root =>
    rw [hr] at h
    simp only at h ⊢
    cases hn : node_assoc key val (map.hash_of key) map.eq_key map.eq_val fuel root 0 with
    | none =>
      rw [hn] at h
      cases h
    | some x =>
      rw [hn] at h
      rw [node_assoc_mono_le _ _ _ _ _ hle _ _ _ hn]
      exact h

/-- `hashmap_dissoc` returns a well-formed map that has no binding for `key`
and binds every other key as before. -/
theorem hashmap_dissoc_spec {hashf : Nat → Nat} {eq_key eq_val : Nat → Nat → Bool}
    (ops : KeyOps hashf eq_key) {map : Hashmap} (hm : MapWF hashf eq_key eq_val map)
    (key : Nat) :
    ∃ map1, hashmap_dissoc map key = some map1 ∧ MapWF hashf eq_key eq_val map1 ∧
      ∀ k, hashmap_get map1 k = if eq_key key k = true then some NULL else hashmap_get map k := by
  obtain ⟨hh, hk, hv, hroot⟩ := hm
  unfold hashmap_dissoc
  cases hr : map.root with
  | none =>
    refine ⟨map, rfl, ⟨hh, hk, hv, hroot⟩, ?_⟩
    intro k
    simp only [hashmap_get, hr]
    by_cases he : eq_key key k = true
    · rw [if_pos he]
    · rw [if_neg he]
  | some root =>
    have hwf := hroot root hr
    obtain ⟨n1, r, heq, hwf1, hget⟩ := node_dissoc_spec ops key hwf
      (fun _ hj => absurd hj (Nat.not_lt_zero _))
    have heq1 : node_dissoc map.eq_key key (map.hash_of key) root 0 = some (n1, r) := by
      simp only [Hashmap.hash_of, hh, hk]
      exact heq
    simp only [heq1]
    have hgetroot : ∀ k, get_opt eq_key k (hashf k % 2 ^ HASH_BITS)
        (if r = UNCHANGED then some root else n1) 0 =
        if eq_key key k = true then some NULL
        else node_get eq_key k (hashf k % 2 ^ HASH_BITS) root 0 :=
      fun k => hget k (fun _ hj => absurd hj (Nat.not_lt_zero _))
    by_cases hru : r = UNCHANGED
    · refine ⟨map, by simp [hru], ⟨hh, hk, hv, hroot⟩, ?_⟩
      intro k
      have := hgetroot k
      rw [if_pos hru] at this
      simp only [hashmap_get, hr, Hashmap.hash_of, hh, hk]
      exact this
    · refine ⟨{ map with root := n1, count := map.count - (if r = REMOVED then 1 else 0) },
        by simp [hru], ⟨hh, hk, hv, ?_⟩, ?_⟩
      · intro root1 hroot1
        simp only at hroot1
        exact wf_level_zero (hwf1 root1 (by rw [if_neg hru]; exact hroot1)) 0
      · intro k
        have := hgetroot k
        rw [if_neg hru] at this
        simp only [hashmap_get, hr, Hashmap.hash_of, hh, hk]
        rw [← this]
        cases n1 with
        | none => rfl
        | some d => rfl

/-- Every map built through the API is well formed. -/
theorem reach_wf {hashf : Nat → Nat} {eq_key eq_val : Nat → Nat → Bool}
    (ops : KeyOps hashf eq_key) {map : Hashmap} (hr : Reach hashf eq_key eq_val map) :
    MapWF hashf eq_key eq_val map := by
  induction hr with
  | make str =>
    exact ⟨rfl, rfl, rfl, fun root h => by cases h⟩
  | assoc fuel key val _ h ih =>
    obtain ⟨map1, h1, hwf, _⟩ := hashmap_assoc_spec ops ih key val (Nat.le_max_right fuel 15)
    rw [hashmap_assoc_fuel h (Nat.le_max_left fuel 15)] at h1
    rw [Option.some.inj h1]
    exact hwf
  | dissoc key _ h ih =>
    obtain ⟨map1, h1, hwf, _⟩ := hashmap_dissoc_spec ops ih key
    rw [h] at h1
    rw [Option.some.inj h1]
    exact hwf

theorem hashmap_reach_run {hashf : Nat → Nat} {eq_key eq_val : Nat → Nat → Bool} (fuel : Nat) :
    ∀ (p : List Op) (map map1 : Hashmap), Reach hashf eq_key eq_val map →
      run fuel p map = some map1 → Reach hashf eq_key eq_val map1 := by
  intro p
  induction p with
  | nil =>
    intro map map1 hr h
    simp only [run, Option.some.injEq] at h
    rw [← h]
    exact hr
  | cons op ops ih =>
    intro map map1 hr h
    rw [run] at h
    cases hop : op.apply fuel map with
    | none =>
      rw [hop] at h
      cases h
    | some map2 =>
      rw [hop] at h
      refine ih map2 map1 ?_ h
      cases op with
      | assoc key val => exact Reach.assoc fuel key val hr hop
      | dissoc key => exact Reach.dissoc key hr hop

theorem mod4_keyOps : KeyOps (fun k => k % 4) (fun a b => a == b) where
  refl := by simp
  symm := by
    intro a b h
    simp only [beq_iff_eq] at h ⊢
    exact h.symm
  trans := by
    intro a b c h1 h2
    simp only [beq_iff_eq] at h1 h2 ⊢
    exact h1.trans h2
  hash_eq := by
    intro a b h
    simp only [beq_iff_eq] at h
    rw [h]

theorem beq_genuine : GenuineEq (fun a b : Nat => a == b) := by
  intro a b
  simp

theorem mod4_reach {map : Hashmap} (h : run 15 mod4_ops mod4_map = some map) :
    Reach (fun k => k % 4) (fun a b => a == b) (fun a b => a == b) map :=
  hashmap_reach_run 15 mod4_ops mod4_map map (Reach.make _) h

end PHashmap

namespace PHashmap

/-! ### The lookup laws of `assoc` and `dissoc` -/

/-- C1: for every map obtained from `hashmap_make(hash, eq_key, eq_val)` by
`hashmap_assoc`/`hashmap_dissoc` calls (key equality an equivalence relation
that the hash respects, value equality genuine), every key and every value,
`hashmap_assoc` returns (given 15 or more units of fuel) a map in which
`hashmap_get` of that key is that value. -/
theorem hashmap_get_assoc_same {hashf : Nat → Nat} {eq_key eq_val : Nat → Nat → Bool}
    (ops : KeyOps hashf eq_key) (hv : GenuineEq eq_val) {map : Hashmap}
    (hr : Reach hashf eq_key eq_val map) (key val : Nat) {fuel : Nat} (hf : 15 ≤ fuel) :
    ∃ map1, hashmap_assoc fuel map key val = some map1 ∧ hashmap_get map1 key = some val := by
  obtain ⟨map1, h1, _, _, hget⟩ := hashmap_assoc_spec ops (reach_wf ops hr) key val hf
  refine ⟨map1, h1, ?_⟩
  obtain ⟨w, hw, hg⟩ := hget key (ops.refl key)
  rcases hw with hw | hw
  · rw [hg, hw]
  · rw [hg, (hv w val).mp hw]

/-- C1 on the map built by `mod4_ops`, whose hash has four values only: key 17
joins the collision chain of the keys 9, 13 and 1. -/
theorem hashmap_get_assoc_same_witness :
    KeyOps (fun k => k % 4) (fun a b => a == b) ∧ GenuineEq (fun a b : Nat => a == b) ∧
      15 ≤ 15 ∧
      ∃ map, run 15 mod4_ops mod4_map = some map ∧
        Reach (fun k => k % 4) (fun a b => a == b) (fun a b => a == b) map ∧
        ∃ map1, hashmap_assoc 15 map 17 170 = some map1 ∧ hashmap_get map1 17 = some 170 := by
  have hc : returns (run 15 mod4_ops mod4_map) (fun _ => true) = true := by decide!
  obtain ⟨map, hm, _⟩ := exists_of_returns hc
  exact ⟨mod4_keyOps, beq_genuine, Nat.le_refl 15, map, hm, mod4_reach hm,
    hashmap_get_assoc_same mod4_keyOps beq_genuine (mod4_reach hm) 17 170 (Nat.le_refl 15)⟩

/-- C2: for every reachable map (key equality an equivalence relation that the
hash respects, any value equality), every key, value and every other key `k`
that is not key-equal to the given one, `hashmap_assoc` returns (given 15 or
more units of fuel) a map in which `hashmap_get` of `k` is the same as in the
input map. -/
theorem hashmap_get_assoc_other {hashf : Nat → Nat} {eq_key eq_val : Nat → Nat → Bool}
    (ops : KeyOps hashf eq_key) {map : Hashmap} (hr : Reach hashf eq_key eq_val map)
    (key val k : Nat) (hne : eq_key key k = false) {fuel : Nat} (hf : 15 ≤ fuel) :
    ∃ map1, hashmap_assoc fuel map key val = some map1 ∧
      hashmap_get map1 k = hashmap_get map k := by
  obtain ⟨map1, h1, _, hget, _⟩ := hashmap_assoc_spec ops (reach_wf ops hr) key val hf
  exact ⟨map1, h1, hget k hne⟩

/-- C2 on the map built by `mod4_ops`: binding key 5 leaves key 9, which has
the same hash, bound as before. -/
theorem hashmap_get_assoc_other_witness :
    KeyOps (fun k => k % 4) (fun a b => a == b) ∧
      ((fun a b : Nat => a == b) 5 9 = false) ∧ 15 ≤ 15 ∧
      ∃ map, run 15 mod4_ops mod4_map = some map ∧
        Reach (fun k => k % 4) (fun a b => a == b) (fun a b => a == b) map ∧
        ∃ map1, hashmap_assoc 15 map 5 55 = some map1 ∧
          hashmap_get map1 9 = hashmap_get map 9 := by
  have hc : returns (run 15 mod4_ops mod4_map) (fun _ => true) = true := by decide!
  obtain ⟨map, hm, _⟩ := exists_of_returns hc
  exact ⟨mod4_keyOps, rfl, Nat.le_refl 15, map, hm, mod4_reach hm,
    hashmap_get_assoc_other mod4_keyOps (mod4_reach hm) 5 55 9 rfl (Nat.le_refl 15)⟩

/-- C3: for every reachable map (key equality an equivalence relation that the
hash respects) and every key, `hashmap_dissoc` returns a map in which
`hashmap_get` of that key is `NULL`. -/
theorem hashmap_get_dissoc_same {hashf : Nat → Nat} {eq_key eq_val : Nat → Nat → Bool}
    (ops : KeyOps hashf eq_key) {map : Hashmap} (hr : Reach hashf eq_key eq_val map)
    (key : Nat) :
    ∃ map1, hashmap_dissoc map key = some map1 ∧ hashmap_get map1 key = some NULL := by
  obtain ⟨map1, h1, _, hget⟩ := hashmap_dissoc_spec ops (reach_wf ops hr) key
  refine ⟨map1, h1, ?_⟩
  rw [hget key, if_pos (ops.refl key)]

/-- C3 on the map built by `mod4_ops`: key 13 sits in the middle of a
collision chain. -/
theorem hashmap_get_dissoc_same_witness :
    KeyOps (fun k => k % 4) (fun a b => a == b) ∧
      ∃ map, run 15 mod4_ops mod4_map = some map ∧
        Reach (fun k => k % 4) (fun a b => a == b) (fun a b => a == b) map ∧
        ∃ map1, hashmap_dissoc map 13 = some map1 ∧ hashmap_get map1 13 = some NULL := by
  have hc : returns (run 15 mod4_ops mod4_map) (fun _ => true) = true := by decide!
  obtain ⟨map, hm, _⟩ := exists_of_returns hc
  exact ⟨mod4_keyOps, map, hm, mod4_reach hm,
    hashmap_get_dissoc_same mod4_keyOps (mod4_reach hm) 13⟩

/-- C4: for every reachable map (key equality an equivalence relation that the
hash respects), every key and every other key `k` that is not key-equal to it,
`hashmap_dissoc` returns a map in which `hashmap_get` of `k` is the same as in
the input map. -/
theorem hashmap_get_dissoc_other {hashf : Nat → Nat} {eq_key eq_val : Nat → Nat → Bool}
    (ops : KeyOps hashf eq_key) {map : Hashmap} (hr : Reach hashf eq_key eq_val map)
    (key k : Nat) (hne : eq_key key k = false) :
    ∃ map1, hashmap_dissoc map key = some map1 ∧ hashmap_get map1 k = hashmap_get map k := by
  obtain ⟨map1, h1, _, hget⟩ := hashmap_dissoc_spec ops (reach_wf ops hr) key
  refine ⟨map1, h1, ?_⟩
  rw [hget k, hne]
  rfl

/-- C4 on the map built by `mod4_ops`: removing key 13 from the middle of its
collision chain leaves key 1, further down the chain, bound as before. -/
theorem hashmap_get_dissoc_other_witness :
    KeyOps (fun k => k % 4) (fun a b => a == b) ∧
      ((fun a b : Nat => a == b) 13 1 = false) ∧
      ∃ map, run 15 mod4_ops mod4_map = some map ∧
        Reach (fun k => k % 4) (fun a b => a == b) (fun a b => a == b) map ∧
        ∃ map1, hashmap_dissoc map 13 = some map1 ∧
          hashmap_get map1 1 = hashmap_get map 1 := by
  have hc : returns (run 15 mod4_ops mod4_map) (fun _ => true) = true := by decide!
  obtain ⟨map, hm, _⟩ := exists_of_returns hc
  exact ⟨mod4_keyOps, rfl, map, hm, mod4_reach hm,
    hashmap_get_dissoc_other mod4_keyOps (mod4_reach hm) 13 1 rfl⟩

end PHashmap

namespace PVector

/-! ### Heap lemmas -/

theorem heapOK_empty : HeapOK Heap.empty :=
  ⟨rfl, by decide, fun _ _ => rfl⟩

theorem not_allocated_null {h : Heap} (ok : HeapOK h) : ¬ allocated h NULL := by
  rintro ⟨n, hn⟩
  rw [ok.1] at hn
  cases hn

theorem allocated_lt {h : Heap} (ok : HeapOK h) {a : Nat} (ha : allocated h a) : a < h.next := by
  by_contra hlt
  obtain ⟨n, hn⟩ := ha
  rw [ok.2.2 a (Nat.le_of_not_lt hlt)] at hn
  cases hn

theorem extends_refl (h : Heap) (dep : Nat → Nat) : Extends h h dep dep :=
  fun _ ha => ⟨ha, rfl⟩

theorem extends_trans {h h1 h2 : Heap} {dep dep1 dep2 : Nat → Nat}
    (e1 : Extends h h1 dep dep1) (e2 : Extends h1 h2 dep1 dep2) : Extends h h2 dep dep2 :=
  fun a ha => ⟨(e2 a (e1 a ha).1).1, ((e2 a (e1 a ha).1).2).trans (e1 a ha).2⟩

theorem and_mask_lt (x : Nat) : x &&& MASK < WIDTH := by
  have h : x &&& MASK ≤ MASK := Nat.and_le_right
  have h2 : MASK < WIDTH := by decide
  omega

theorem load_eq_some {h : Heap} {p : Nat} {i : Nat} {x : Nat} :
    load h p i = some x ↔ ∃ n, h.mem p = some n ∧ i < WIDTH ∧ n i = x := by
  unfold load
  cases hp : h.mem p with
  | none => simp
  | some n =>
    by_cases hi : i < WIDTH
    · simp [hi]
    · simp [hi]

theorem load_of_mem {h : Heap} {p : Nat} {n : Node} (hp : h.mem p = some n) {i : Nat}
    (hi : i < WIDTH) : load h p i = some (n i) :=
  load_eq_some.mpr ⟨n, hp, hi, rfl⟩

theorem store_eq_some {h h1 : Heap} {p : Nat} {i : Nat} {x : Nat} :
    store h p i x = some h1 ↔ ∃ n, h.mem p = some n ∧ i < WIDTH ∧
      h1 = { h with mem := fun a => if a = p then some (fun j => if j = i then x else n j)
                                    else h.mem a } := by
  unfold store
  cases hp : h.mem p with
  | none => simp
  | some n =>
    by_cases hi : i < WIDTH
    · simp [hi, eq_comm]
    · simp [hi]

theorem store_of_mem {h : Heap} {p : Nat} {n : Node} (hp : h.mem p = some n) {i : Nat}
    (hi : i < WIDTH) (x : Nat) : ∃ h1, store h p i x = some h1 :=
  ⟨_, store_eq_some.mpr ⟨n, hp, hi, rfl⟩⟩

theorem store_allocated {h h1 : Heap} {p : Nat} {i : Nat} {x : Nat}
    (hs : store h p i x = some h1) (a : Nat) : allocated h1 a ↔ allocated h a := by
  obtain ⟨n, hp, _, rfl⟩ := store_eq_some.mp hs
  unfold allocated
  by_cases hap : a = p
  · subst hap
    simp [hp]
  · simp [hap]

theorem store_next {h h1 : Heap} {p : Nat} {i : Nat} {x : Nat}
    (hs : store h p i x = some h1) : h1.next = h.next := by
  obtain ⟨n, _, _, rfl⟩ := store_eq_some.mp hs
  rfl

theorem store_heapOK {h h1 : Heap} {p : Nat} {i : Nat} {x : Nat}
    (hs : store h p i x = some h1) (ok : HeapOK h) : HeapOK h1 := by
  have hal := store_allocated hs
  have hnx := store_next hs
  refine ⟨?_, by rw [hnx]; exact ok.2.1, ?_⟩
  · cases hm : h1.mem NULL with
    | none => rfl
    | some n => exact absurd ((hal NULL).mp ⟨n, hm⟩) (not_allocated_null ok)
  · intro a ha
    cases hm : h1.mem a with
    | none => rfl
    | some n =>
      have := allocated_lt ok ((hal a).mp ⟨n, hm⟩)
      rw [hnx] at ha
      omega

theorem load_store_same {h h1 : Heap} {p : Nat} {i : Nat} {x : Nat}
    (hs : store h p i x = some h1) : load h1 p i = some x := by
  obtain ⟨n, _, hi, rfl⟩ := store_eq_some.mp hs
  simp [load, hi]

theorem load_store_other {h h1 : Heap} {p : Nat} {i : Nat} {x : Nat}
    (hs : store h p i x = some h1) (q : Nat) (j : Nat) (hne : q ≠ p ∨ j ≠ i) :
    load h1 q j = load h q j := by
  obtain ⟨n, hp, hi, rfl⟩ := store_eq_some.mp hs
  unfold load
  by_cases hq : q = p
  · subst hq
    have hj : j ≠ i := by
      rcases hne with h | h
      · exact absurd rfl h
      · exact h
    simp [hp, hj]
  · simp [hq]

theorem typed_store {h h1 : Heap} {dep : Nat → Nat} {p : Nat} {i : Nat} {x : Nat}
    (hs : store h p i x = some h1) (ty : Typed h dep)
    (hx : ∀ d, dep p = d + 1 → x = NULL ∨ (allocated h x ∧ dep x = d)) : Typed h1 dep := by
  have hal := store_allocated hs
  obtain ⟨n, hp, _, rfl⟩ := store_eq_some.mp hs
  intro a n1 d hm hd j hj
  by_cases hap : a = p
  · subst hap
    simp only [if_true] at hm
    have hn1 : n1 = fun j => if j = i then x else n j := (Option.some.inj hm).symm
    subst hn1
    by_cases hji : j = i
    · simp only [hji, if_true]
      rcases hx d hd with h0 | ⟨h1, h2⟩
      · exact Or.inl h0
      · exact Or.inr ⟨(hal x).mpr h1, h2⟩
    · simp only [hji, if_false]
      rcases ty a n d hp hd j hj with h0 | ⟨h1, h2⟩
      · exact Or.inl h0
      · exact Or.inr ⟨(hal _).mpr h1, h2⟩
  · simp only [hap, if_false] at hm
    rcases ty a n1 d hm hd j hj with h0 | ⟨h1, h2⟩
    · exact Or.inl h0
    · exact Or.inr ⟨(hal _).mpr h1, h2⟩

theorem malloc_mem (h : Heap) (a : Nat) :
    (GC_MALLOC h).1.mem a = if a = h.next then some (fun _ => NULL) else h.mem a := rfl

theorem malloc_snd (h : Heap) : (GC_MALLOC h).2 = h.next := rfl

theorem malloc_heapOK {h : Heap} (ok : HeapOK h) : HeapOK (GC_MALLOC h).1 := by
  refine ⟨?_, Nat.succ_pos _, ?_⟩
  · rw [malloc_mem]
    have : NULL ≠ h.next := by
      have := ok.2.1
      unfold NULL
      omega
    simp [this, ok.1]
  · intro a ha
    rw [malloc_mem]
    have h1 : h.next + 1 ≤ a := ha
    have : a ≠ h.next := by omega
    simp [this]
    exact ok.2.2 a (by omega)

theorem malloc_extends {h : Heap} (ok : HeapOK h) (dep : Nat → Nat) (d : Nat) :
    Extends h (GC_MALLOC h).1 dep (Function.update dep h.next d) := by
  intro a ha
  have hlt := allocated_lt ok ha
  have hne : a ≠ h.next := by omega
  obtain ⟨n, hn⟩ := ha
  refine ⟨⟨n, ?_⟩, ?_⟩
  · rw [malloc_mem]
    simp [hne, hn]
  · simp [Function.update, hne]

theorem malloc_allocated (h : Heap) : allocated (GC_MALLOC h).1 h.next :=
  ⟨fun _ => NULL, by rw [malloc_mem]; simp⟩

theorem typed_malloc {h : Heap} (ok : HeapOK h) {dep : Nat → Nat} (ty : Typed h dep) (d : Nat) :
    Typed (GC_MALLOC h).1 (Function.update dep h.next d) := by
  intro a n e hm he j hj
  rw [malloc_mem] at hm
  by_cases ha : a = h.next
  · subst ha
    simp only [if_true] at hm
    have : n = fun _ => NULL := (Option.some.inj hm).symm
    subst this
    exact Or.inl rfl
  · simp only [ha, if_false] at hm
    have he1 : dep a = e + 1 := by simpa [Function.update, ha] using he
    rcases ty a n e hm he1 j hj with h0 | ⟨h1, h2⟩
    · exact Or.inl h0
    · have := malloc_extends ok dep d _ h1
      exact Or.inr ⟨this.1, this.2.trans h2⟩

theorem node_copy_eq_some {h h1 : Heap} {p q : Nat} :
    node_copy h p = some (h1, q) ↔ ∃ n, h.mem p = some n ∧ q = h.next ∧
      h1 = { mem := fun a => if a = h.next then some n else h.mem a, next := h.next + 1 } := by
  unfold node_copy
  cases hp : h.mem p with
  | none => simp
  | some n =>
    simp only [GC_MALLOC, Option.some.injEq, Prod.mk.injEq, exists_eq_left']
    constructor
    · rintro ⟨rfl, rfl⟩
      refine ⟨rfl, ?_⟩
      congr 1
      funext a
      by_cases ha : a = h.next <;> simp [ha]
    · rintro ⟨rfl, rfl⟩
      refine ⟨?_, rfl⟩
      congr 1
      funext a
      by_cases ha : a = h.next <;> simp [ha]

/-- What `node_copy` guarantees on a sound, typed heap. -/
theorem node_copy_spec {h : Heap} (ok : HeapOK h) {dep : Nat → Nat} (ty : Typed h dep)
    {p : Nat} (hp : allocated h p) :
    ∃ h1 q, node_copy h p = some (h1, q) ∧ HeapOK h1 ∧
      Typed h1 (Function.update dep q (dep p)) ∧
      Extends h h1 dep (Function.update dep q (dep p)) ∧ allocated h1 q ∧
      (∀ i, load h1 q i = load h p i) ∧
      (∀ a i, allocated h a → load h1 a i = load h a i) := by
  obtain ⟨n, hn⟩ := hp
  refine ⟨_, _, node_copy_eq_some.mpr ⟨n, hn, rfl, rfl⟩, ?_, ?_, ?_, ?_, ?_, ?_⟩
  · refine ⟨?_, Nat.succ_pos _, ?_⟩
    · have : NULL ≠ h.next := by
        have := ok.2.1
        unfold NULL
        omega
      simp [this, ok.1]
    · intro a ha
      have h1 : h.next + 1 ≤ a := ha
      have : a ≠ h.next := by omega
      simp [this]
      exact ok.2.2 a (by omega)
  · intro a n1 e hm he j hj
    have key : ∀ c, allocated h c → allocated
        { mem := fun a => if a = h.next then some n else h.mem a, next := h.next + 1 } c ∧
        Function.update dep h.next (dep p) c = dep c := by
      intro c hc
      have hlt := allocated_lt ok hc
      have hne : c ≠ h.next := by omega
      obtain ⟨m, hm⟩ := hc
      exact ⟨⟨m, by simp [hne, hm]⟩, by simp [Function.update, hne]⟩
    by_cases ha : a = h.next
    · subst ha
      simp only [if_true] at hm
      have : n1 = n := (Option.some.inj hm).symm
      subst this
      have he1 : dep p = e + 1 := by simpa [Function.update] using he
      rcases ty p n1 e hn he1 j hj with h0 | ⟨h1, h2⟩
      · exact Or.inl h0
      · exact Or.inr ⟨(key _ h1).1, (key _ h1).2.trans h2⟩
    · simp only [ha, if_false] at hm
      have he1 : dep a = e + 1 := by simpa [Function.update, ha] using he
      rcases ty a n1 e hm he1 j hj with h0 | ⟨h1, h2⟩
      · exact Or.inl h0
      · exact Or.inr ⟨(key _ h1).1, (key _ h1).2.trans h2⟩
  · intro c hc
    have hlt := allocated_lt ok hc
    have hne : c ≠ h.next := by omega
    obtain ⟨m, hm⟩ := hc
    exact ⟨⟨m, by simp [hne, hm]⟩, by simp [Function.update, hne]⟩
  · exact ⟨n, by simp⟩
  · intro i
    simp [load, hn]
  · intro a i ha
    have hlt := allocated_lt ok ha
    have hne : a ≠ h.next := by omega
    simp [load, hne]

end PVector

namespace PVector

/-! ### The representation invariant is kept by every operation -/

theorem vector_copy_spec {h : Heap} {v : Vector} {dep : Nat → Nat} (inv : Inv h v dep) :
    ∃ h1 hd dep1, vector_copy h v = some (h1, { v with head := hd }) ∧
      Inv h1 { v with head := hd } dep1 ∧ Extends h h1 dep dep1 ∧
      (∀ a i, allocated h a → load h1 a i = load h a i) := by
  obtain ⟨h1, q, hc, ok1, ty1, ext1, hq, _, hld⟩ :=
    node_copy_spec inv.ok inv.typed inv.head_alloc
  refine ⟨h1, q, _, ?_, ⟨ok1, ty1, hq, ?_, (ext1 _ inv.tail_alloc).1, ?_, inv.tc_le,
    inv.tc_count, inv.levels_pos⟩, ext1, hld⟩
  · simp [vector_copy, hc]
  · simp [Function.update, inv.head_dep]
  · exact (ext1 _ inv.tail_alloc).2.trans inv.tail_dep

theorem level_sub_bits (n : Nat) : BITS * (n + 1) - BITS = 0 ↔ n = 0 := by
  unfold BITS
  omega

/-- The descent of `vector_append_tail` never fails on a typed heap, and keeps
the heap typed. -/
theorem append_tail_loop_spec (tail idx : Nat) :
    ∀ (n : Nat) (h : Heap) (prev : Nat) (dep : Nat → Nat), HeapOK h → Typed h dep →
      allocated h prev → dep prev = n → allocated h tail → dep tail = 0 →
      ∃ h1 dep1, append_tail_loop tail idx n h prev = some h1 ∧ HeapOK h1 ∧ Typed h1 dep1 ∧
        Extends h h1 dep dep1 := by
  intro n
  induction n with
  | zero =>
    intro h prev dep ok ty _ _ _ _
    exact ⟨h, dep, rfl, ok, ty, extends_refl h dep⟩
  | succ n ih =>
    intro h prev dep ok ty hprev hdep htail htd
    obtain ⟨nd, hnd⟩ := hprev
    have hi := and_mask_lt (idx >>> (BITS * (n + 1)))
    have hload := load_of_mem hnd hi
    unfold append_tail_loop
    simp only [hload, Option.bind_eq_bind, Option.some_bind]
    by_cases hcur : nd ((idx >>> (BITS * (n + 1))) &&& MASK) = NULL
    · by_cases hn : n = 0
      · subst hn
        obtain ⟨h1, hs⟩ := store_of_mem hnd hi tail
        refine ⟨h1, dep, ?_, store_heapOK hs ok, ?_, ?_⟩
        · have hlev : BITS * (0 + 1) - BITS = 0 := by decide
          simp only [hcur, hlev, and_self, if_true, hs]
        · refine typed_store hs ty (fun d hd => Or.inr ⟨htail, ?_⟩)
          rw [hdep] at hd
          omega
        · intro a ha
          exact ⟨(store_allocated hs a).mpr ha, rfl⟩
      · have hlev : ¬ (BITS * (n + 1) - BITS = 0) := by
          rw [level_sub_bits]
          exact hn
        simp only [hcur, hlev, and_false, if_false, if_true, true_and, node_new]
        have ok1 := malloc_heapOK ok
        have ty1 := typed_malloc ok ty n
        have ext1 := malloc_extends ok dep n
        have hprev1 := (ext1 prev ⟨nd, hnd⟩)
        obtain ⟨nd1, hnd1⟩ := hprev1.1
        obtain ⟨h2, hs⟩ := store_of_mem hnd1 hi h.next
        have hc1 : allocated (GC_MALLOC h).1 h.next := malloc_allocated h
        have ty2 : Typed h2 (Function.update dep h.next n) := by
          refine typed_store hs ty1 (fun d hd => Or.inr ⟨hc1, ?_⟩)
          rw [hprev1.2, hdep] at hd
          simp [Function.update]
          omega
        have ext2 : Extends (GC_MALLOC h).1 h2 (Function.update dep h.next n)
            (Function.update dep h.next n) :=
          fun a ha => ⟨(store_allocated hs a).mpr ha, rfl⟩
        obtain ⟨h3, dep3, hl, ok3, ty3, ext3⟩ := ih h2 h.next (Function.update dep h.next n)
          (store_heapOK hs ok1) ty2 ((store_allocated hs _).mpr hc1) (by simp [Function.update])
          (ext2 _ (ext1 _ htail).1).1 ((ext1 _ htail).2.trans htd)
        refine ⟨h3, dep3, ?_, ok3, ty3, extends_trans ext1 (extends_trans ext2 ext3)⟩
        show (match GC_MALLOC h with
          | (h1, c) => (store h1 prev ((idx >>> (BITS * (n + 1))) &&& MASK) c).bind
              fun h2 => append_tail_loop tail idx n h2 c) = some h3
        simp [GC_MALLOC] at hs hl ⊢
        simp [hs, hl]
    · have hty := ty prev nd n hnd hdep _ hi
      rcases hty with h0 | ⟨hal, hd⟩
      · exact absurd h0 hcur
      · obtain ⟨h3, dep3, hl, ok3, ty3, ext3⟩ := ih h _ dep ok ty hal hd htail htd
        refine ⟨h3, dep3, ?_, ok3, ty3, ext3⟩
        simp [hcur, hl]

end PVector

namespace PVector

/-- `vector_append_tail` never fails on a vector that satisfies the invariant and
has a full tail; the result satisfies the invariant with an empty tail. -/
theorem vector_append_tail_spec {h : Heap} {v : Vector} {dep : Nat → Nat} (inv : Inv h v dep)
    (hfull : v.tail_count = WIDTH) :
    ∃ h1 v1 dep1, vector_append_tail h v = some (h1, v1) ∧ Inv h1 v1 dep1 ∧
      v1.tail_count = 0 ∧ v1.count = v.count := by
  obtain ⟨k, hk⟩ := inv.tc_count
  have hcnt : ∃ k1, v.count = WIDTH * k1 + 0 := ⟨k + 1, by rw [hk, hfull]; ring⟩
  -- what is left to do once the root for the descent is fixed
  have finish : ∀ (h2 : Heap) (hd lv : Nat) (dep2 : Nat → Nat), HeapOK h2 → Typed h2 dep2 →
      allocated h2 hd → dep2 hd = lv → Extends h h2 dep dep2 → 1 ≤ lv →
      ∃ h3 dep1, append_tail_loop v.tail (v.count - v.tail_count) lv h2 hd = some h3 ∧
        Inv (GC_MALLOC h3).1
          { v with head := hd, levels := lv, tail := h3.next, tail_count := 0 } dep1 := by
    intro h2 hd lv dep2 ok2 ty2 hhd hdd ext2 hlv
    obtain ⟨h3, dep3, hl, ok3, ty3, ext3⟩ := append_tail_loop_spec v.tail
      (v.count - v.tail_count) lv h2 hd dep2 ok2 ty2 hhd hdd (ext2 _ inv.tail_alloc).1
      ((ext2 _ inv.tail_alloc).2.trans inv.tail_dep)
    have ext4 := malloc_extends ok3 dep3 0
    have hhd4 := ext4 _ (ext3 _ hhd).1
    exact ⟨h3, _, hl, malloc_heapOK ok3, typed_malloc ok3 ty3 0, hhd4.1,
      hhd4.2.trans ((ext3 _ hhd).2.trans hdd), malloc_allocated h3, by simp [Function.update],
      Nat.zero_le _, hcnt, hlv⟩
  by_cases hcap : v.count = 1 <<< (BITS * (v.levels + 1))
  · have ok1 := malloc_heapOK inv.ok
    have ty1 := typed_malloc inv.ok inv.typed (v.levels + 1)
    have ext1 := malloc_extends inv.ok dep (v.levels + 1)
    obtain ⟨nd1, hnd1⟩ := malloc_allocated h
    obtain ⟨h2, hs⟩ := store_of_mem hnd1 (show 0 < WIDTH by decide) v.head
    have ty2 : Typed h2 (Function.update dep h.next (v.levels + 1)) := by
      refine typed_store hs ty1 (fun d hd => Or.inr ⟨(ext1 _ inv.head_alloc).1, ?_⟩)
      rw [(ext1 _ inv.head_alloc).2, inv.head_dep]
      simp [Function.update] at hd
      omega
    obtain ⟨h3, dep1, hl, inv1⟩ := finish h2 h.next (v.levels + 1) _ (store_heapOK hs ok1) ty2
      ((store_allocated hs _).mpr ⟨nd1, hnd1⟩) (by simp [Function.update])
      (extends_trans ext1 (fun a ha => ⟨(store_allocated hs a).mpr ha, rfl⟩)) (by omega)
    refine ⟨_, _, dep1, ?_, inv1, rfl, rfl⟩
    simp [vector_append_tail, ← hcap, node_new, malloc_snd, hs, hl]
  · obtain ⟨h3, dep1, hl, inv1⟩ := finish h v.head v.levels dep inv.ok inv.typed inv.head_alloc
      inv.head_dep (extends_refl h dep) inv.levels_pos
    refine ⟨_, _, dep1, ?_, inv1, rfl, rfl⟩
    simp [vector_append_tail, hcap, node_new, malloc_snd, hl]

end PVector

namespace PVector

/-- What `pop_from_head` does when it returns: no node is allocated or freed,
the typing is kept, the detached block becomes the tail, and an interior node
that is handed back has a first child. -/
theorem pop_from_head_spec (idx : Nat) :
    ∀ (n : Nat) (h : Heap) (vec : Vector) (node : Nat) (dep : Nat → Nat) (h1 : Heap)
      (vec1 : Vector) (r : Nat), HeapOK h → Typed h dep → allocated h node → dep node = n →
      pop_from_head idx n h vec node = some (h1, vec1, r) →
      HeapOK h1 ∧ Typed h1 dep ∧ (∀ a, allocated h1 a ↔ allocated h a) ∧
        (r = NULL ∨ r = node) ∧
        vec1 = { vec with tail := vec1.tail, tail_count := WIDTH } ∧
        (vec1.tail = NULL ∨ (allocated h1 vec1.tail ∧ dep vec1.tail = 0)) ∧
        (2 ≤ n → r = node → ∃ c0, load h1 node 0 = some c0 ∧ c0 ≠ NULL) := by
  intro n
  induction n with
  | zero =>
    intro h vec node dep h1 vec1 r _ _ _ _ hp
    simp [pop_from_head] at hp
  | succ n ih =>
    intro h vec node dep h1 vec1 r ok ty hnode hdep hp
    obtain ⟨nd, hnd⟩ := hnode
    have hi := and_mask_lt (idx >>> (BITS * (n + 1)))
    have hload := load_of_mem hnd hi
    have hty := ty node nd n hnd hdep _ hi
    unfold pop_from_head at hp
    simp only [hload, Option.bind_eq_bind, Option.some_bind, level_sub_bits] at hp
    by_cases hn : n = 0
    · subst hn
      simp only [if_true, Option.bind_eq_some] at hp
      obtain ⟨h2, hs, c0, hc0, hp⟩ := hp
      have ok2 := store_heapOK hs ok
      have ty2 : Typed h2 dep := typed_store hs ty (fun _ _ => Or.inl rfl)
      have hal := store_allocated hs
      have hres : h1 = h2 ∧ vec1 = { vec with
          tail := nd ((idx >>> (BITS * (0 + 1))) &&& MASK), tail_count := WIDTH } ∧
          (r = NULL ∨ r = node) := by
        split at hp
        · simp only [Option.some.injEq, Prod.mk.injEq] at hp
          exact ⟨hp.1.symm, hp.2.1.symm, Or.inl hp.2.2.symm⟩
        · simp only [Option.some.injEq, Prod.mk.injEq] at hp
          exact ⟨hp.1.symm, hp.2.1.symm, Or.inr hp.2.2.symm⟩
      obtain ⟨rfl, hv, hr⟩ := hres
      refine ⟨ok2, ty2, hal, hr, ?_, ?_, fun h2n => absurd h2n (by omega)⟩
      · rw [hv]
      · rw [hv]
        rcases hty with h0 | ⟨ha, hd⟩
        · exact Or.inl h0
        · exact Or.inr ⟨(hal _).mpr ha, hd⟩
    · simp only [hn, if_false, Option.bind_eq_some] at hp
      obtain ⟨⟨h2, vec2, r2⟩, hrec, h3, hs, c0, hc0, hp⟩ := hp
      rcases hty with h0 | ⟨ha, hd⟩
      · -- the child is NULL: the recursive call dereferences it
        exfalso
        rw [h0] at hrec
        obtain ⟨m, hm⟩ := Nat.exists_eq_succ_of_ne_zero hn
        subst hm
        unfold pop_from_head at hrec
        have hnone : ∀ i, load h NULL i = none := by
          intro i
          simp [load, ok.1]
        simp [hnone] at hrec
      · obtain ⟨ok2, ty2, hal2, hr2, hv2, ht2, _⟩ := ih h vec _ dep h2 vec2 r2 ok ty ha hd hrec
        have hnode2 : allocated h2 node := (hal2 node).mpr ⟨nd, hnd⟩
        have ty3 : Typed h3 dep := by
          refine typed_store hs ty2 (fun d hd1 => ?_)
          rcases hr2 with h0 | h1
          · exact Or.inl h0
          · refine Or.inr ⟨?_, ?_⟩
            · rw [h1]
              exact (hal2 _).mpr ha
            · rw [h1, hd]
              rw [hdep] at hd1
              omega
        have hal3 := store_allocated hs
        have hres : h1 = h3 ∧ vec1 = vec2 ∧ ((r = NULL) ∨ (r = node ∧ c0 ≠ NULL)) := by
          split at hp
          · simp only [Option.some.injEq, Prod.mk.injEq] at hp
            exact ⟨hp.1.symm, hp.2.1.symm, Or.inl hp.2.2.symm⟩
          · rename_i hne
            simp only [Option.some.injEq, Prod.mk.injEq] at hp
            exact ⟨hp.1.symm, hp.2.1.symm, Or.inr ⟨hp.2.2.symm, hne⟩⟩
        obtain ⟨rfl, rfl, hr⟩ := hres
        refine ⟨store_heapOK hs ok2, ty3, fun a => (hal3 a).trans (hal2 a), ?_, hv2, ?_, ?_⟩
        · rcases hr with h0 | ⟨h1, _⟩
          · exact Or.inl h0
          · exact Or.inr h1
        · rcases ht2 with h0 | ⟨h1, h2⟩
          · exact Or.inl h0
          · exact Or.inr ⟨(hal3 _).mpr h1, h2⟩
        · intro _ hrn
          rcases hr with h0 | ⟨_, hne⟩
          · exfalso
            rw [hrn] at h0
            exact not_allocated_null ok (h0 ▸ ⟨nd, hnd⟩)
          · exact ⟨c0, hc0, hne⟩

end PVector

namespace PVector

theorem store_allocated_target {h h1 : Heap} {p : Nat} {i : Nat} {x : Nat}
    (hs : store h p i x = some h1) : allocated h p := by
  obtain ⟨n, hp, _, _⟩ := store_eq_some.mp hs
  exact ⟨n, hp⟩

theorem load_null {h : Heap} (ok : HeapOK h) (i : Nat) : load h NULL i = none := by
  simp [load, ok.1]

/-- What `vector_pop_from_head` guarantees when it returns. -/
theorem vector_pop_from_head_spec {h : Heap} {v : Vector} {dep : Nat → Nat} (inv : Inv h v dep)
    {h1 : Heap} {v1 : Vector} (hp : vector_pop_from_head h v = some (h1, v1)) :
    HeapOK h1 ∧ Typed h1 dep ∧ (∀ a, allocated h1 a ↔ allocated h a) ∧
      allocated h1 v1.head ∧ dep v1.head = v1.levels ∧ 1 ≤ v1.levels ∧
      v1.tail_count = WIDTH ∧ v1.count = v.count ∧
      (v1.tail = NULL ∨ (allocated h1 v1.tail ∧ dep v1.tail = 0)) := by
  unfold vector_pop_from_head at hp
  simp only [Option.bind_eq_bind, Option.bind_eq_some] at hp
  obtain ⟨⟨h2, v2, r⟩, hrec, c1, hc1, hp⟩ := hp
  simp only at hc1 hp
  obtain ⟨ok2, ty2, hal2, hr, hv2, ht2, hc0⟩ := pop_from_head_spec (v.count - 1) v.levels h v
    v.head dep h2 v2 r inv.ok inv.typed inv.head_alloc inv.head_dep hrec
  have hrn : r = v.head := by
    rcases hr with h0 | h1
    · rw [h0, load_null ok2] at hc1
      cases hc1
    · exact h1
  subst hrn
  have hlev : v2.levels = v.levels := by rw [hv2]
  have hcnt : v2.count = v.count := by rw [hv2]
  have htc : v2.tail_count = WIDTH := by rw [hv2]
  have hhead2 : allocated h2 v.head := (hal2 _).mpr inv.head_alloc
  split at hp
  · rename_i hcond
    simp only [Option.bind_eq_some] at hp
    obtain ⟨c0, hl0, hp⟩ := hp
    simp only [Option.some.injEq, Prod.mk.injEq] at hp
    obtain ⟨rfl, rfl⟩ := hp
    have h2l : 2 ≤ v.levels := by
      have := hcond.2
      omega
    obtain ⟨c0', hl0', hne⟩ := hc0 h2l rfl
    rw [hl0] at hl0'
    have hcc : c0 = c0' := Option.some.inj hl0'
    subst hcc
    obtain ⟨nd, hnd, hi, hnd0⟩ := load_eq_some.mp hl0
    obtain ⟨d, hd⟩ : ∃ d, v.levels = d + 1 := ⟨v.levels - 1, by omega⟩
    have hty := ty2 v.head nd d hnd (inv.head_dep.trans hd) 0 hi
    rw [hnd0] at hty
    rcases hty with h0 | ⟨ha, hd0⟩
    · exact absurd h0 hne
    · refine ⟨ok2, ty2, hal2, ha, ?_, ?_, htc, hcnt, ht2⟩
      · simp only [hd0, hlev, hd]
        omega
      · simp only [hlev]
        omega
  · simp only [Option.some.injEq, Prod.mk.injEq] at hp
    obtain ⟨rfl, rfl⟩ := hp
    exact ⟨ok2, ty2, hal2, hhead2, by simp only [hlev]; exact inv.head_dep,
      by simp only [hlev]; exact inv.levels_pos, htc, hcnt, ht2⟩

/-- The descent of `vector_get` and `vector_set` on a typed heap ends at
`NULL` or at a block of elements. -/
theorem descend_spec (idx : Nat) {dep : Nat → Nat} :
    ∀ (n : Nat) (h : Heap) (p q : Nat), HeapOK h → Typed h dep → allocated h p → dep p = n →
      descend idx n h p = some q → q = NULL ∨ (allocated h q ∧ dep q = 0) := by
  intro n
  induction n with
  | zero =>
    intro h p q _ _ hp hd hq
    simp only [descend, Option.some.injEq] at hq
    subst hq
    exact Or.inr ⟨hp, hd⟩
  | succ n ih =>
    intro h p q ok ty hp hd hq
    obtain ⟨nd, hnd⟩ := hp
    have hi := and_mask_lt (idx >>> (BITS * (n + 1)))
    unfold descend at hq
    simp only [load_of_mem hnd hi, Option.bind_eq_bind, Option.some_bind] at hq
    rcases ty p nd n hnd hd _ hi with h0 | ⟨ha, hd1⟩
    · rw [h0] at hq
      cases n with
      | zero =>
        simp only [descend, Option.some.injEq] at hq
        exact Or.inl hq.symm
      | succ m =>
        unfold descend at hq
        simp [load_null ok] at hq
    · exact ih h _ q ok ty ha hd1 hq

end PVector

namespace PVector

/-- `vector_push` never fails on a vector that satisfies the invariant; the new
element is the last used slot of the new tail. -/
theorem vector_push_spec {h : Heap} {v : Vector} {dep : Nat → Nat} (inv : Inv h v dep)
    (x : Nat) :
    ∃ h1 v1 dep1, vector_push h v x = some (h1, v1) ∧ Inv h1 v1 dep1 ∧
      v1.count = v.count + 1 ∧ 1 ≤ v1.tail_count ∧
      load h1 v1.tail (v1.tail_count - 1) = some x := by
  obtain ⟨h1, hd, dep1, hc, inv1, _, _⟩ := vector_copy_spec inv
  -- the final write into the tail
  have finish : ∀ (h2 : Heap) (v2 : Vector) (dep2 : Nat → Nat), Inv h2 v2 dep2 →
      v2.tail_count < WIDTH → v2.count = v.count →
      ∃ h3, store h2 v2.tail v2.tail_count x = some h3 ∧
        Inv h3 { v2 with count := v2.count + 1, tail_count := v2.tail_count + 1 } dep2 ∧
        v2.count + 1 = v.count + 1 ∧ 1 ≤ v2.tail_count + 1 ∧
        load h3 v2.tail (v2.tail_count + 1 - 1) = some x := by
    intro h2 v2 dep2 inv2 hlt hcnt
    obtain ⟨nd, hnd⟩ := inv2.tail_alloc
    obtain ⟨h3, hs⟩ := store_of_mem hnd hlt x
    obtain ⟨k, hk⟩ := inv2.tc_count
    refine ⟨h3, hs, ⟨store_heapOK hs inv2.ok, ?_, (store_allocated hs _).mpr inv2.head_alloc,
      inv2.head_dep, (store_allocated hs _).mpr inv2.tail_alloc, inv2.tail_dep, ?_, ⟨k, ?_⟩,
      inv2.levels_pos⟩, by omega, by omega, ?_⟩
    · refine typed_store hs inv2.typed (fun d hd1 => ?_)
      rw [inv2.tail_dep] at hd1
      omega
    · show v2.tail_count + 1 ≤ WIDTH
      omega
    · show v2.count + 1 = WIDTH * k + (v2.tail_count + 1)
      omega
    · rw [Nat.add_sub_cancel]
      exact load_store_same hs
  by_cases htc : v.tail_count = WIDTH
  · obtain ⟨h2, v2, dep2, ha, inv2, h0, hcnt⟩ := vector_append_tail_spec inv1 htc
    obtain ⟨h3, hs, inv3, r1, r2, r3⟩ := finish h2 v2 dep2 inv2 (by rw [h0]; decide) hcnt
    refine ⟨h3, _, dep2, ?_, inv3, r1, r2, r3⟩
    unfold vector_push
    simp only [hc, Option.bind_eq_bind, Option.some_bind]
    rw [if_pos htc, ha]
    simp only [Option.some_bind]
    rw [hs]
    rfl
  · have hlt : v.tail_count < WIDTH := by
      have := inv.tc_le
      omega
    obtain ⟨h3, hs, inv3, r1, r2, r3⟩ := finish h1 _ dep1 inv1 hlt rfl
    refine ⟨h3, _, dep1, ?_, inv3, r1, r2, r3⟩
    unfold vector_push
    simp only [hc, Option.bind_eq_bind, Option.some_bind]
    rw [if_neg htc]
    have hs1 : store h1 v.tail v.tail_count x = some h3 := hs
    rw [hs1]
    rfl

/-- `vector_pop` keeps the invariant whenever it returns. -/
theorem vector_pop_inv {h : Heap} {v : Vector} {dep : Nat → Nat} (inv : Inv h v dep)
    {h1 : Heap} {v1 : Vector} (hp : vector_pop h v = some (h1, v1)) : ∃ dep1, Inv h1 v1 dep1 := by
  unfold vector_pop at hp
  by_cases hz : v.count = 0
  · simp only [hz, if_true, Option.some.injEq, Prod.mk.injEq] at hp
    obtain ⟨rfl, rfl⟩ := hp
    exact ⟨dep, inv⟩
  · obtain ⟨hc1, hd, dep1, hc, inv1, _, _⟩ := vector_copy_spec inv
    simp only [hz, if_false, hc, Option.bind_eq_bind, Option.some_bind] at hp
    obtain ⟨k, hk⟩ := inv.tc_count
    by_cases htc : v.tail_count = 0
    · rw [if_pos htc] at hp
      simp only [Option.bind_eq_some] at hp
      obtain ⟨⟨h2, v2⟩, hpf, h3, hs, hp⟩ := hp
      simp only [Option.some.injEq, Prod.mk.injEq] at hp
      obtain ⟨rfl, rfl⟩ := hp
      obtain ⟨ok2, ty2, _, hha, hhd, hlv, htc2, hcnt2, ht2⟩ := vector_pop_from_head_spec inv1 hpf
      have hta : allocated h2 v2.tail := store_allocated_target hs
      have htd : dep1 v2.tail = 0 := by
        rcases ht2 with h0 | ⟨_, hd0⟩
        · rw [h0] at hta
          exact absurd hta (not_allocated_null ok2)
        · exact hd0
      have hk1 : 1 ≤ k := by
        rcases Nat.eq_zero_or_pos k with h0 | h0
        · rw [h0, htc] at hk
          exact absurd hk hz
        · exact h0
      have hW : WIDTH = 32 := by decide
      refine ⟨dep1, store_heapOK hs ok2, ?_, (store_allocated hs _).mpr hha, hhd,
        (store_allocated hs _).mpr hta, htd, ?_, ⟨k - 1, ?_⟩, hlv⟩
      · refine typed_store hs ty2 (fun d hd1 => ?_)
        rw [htd] at hd1
        omega
      · show v2.tail_count - 1 ≤ WIDTH
        omega
      · show v2.count - 1 = WIDTH * (k - 1) + (v2.tail_count - 1)
        have hc3 : v2.count = v.count := hcnt2
        rw [hc3, htc2, hk, htc, hW]
        omega
    · rw [if_neg htc] at hp
      simp only [Option.some_bind, Option.bind_eq_some] at hp
      obtain ⟨h3, hs, hp⟩ := hp
      simp only [Option.some.injEq, Prod.mk.injEq] at hp
      obtain ⟨rfl, rfl⟩ := hp
      refine ⟨dep1, store_heapOK hs inv1.ok, ?_, (store_allocated hs _).mpr inv1.head_alloc,
        inv1.head_dep, (store_allocated hs _).mpr inv1.tail_alloc, inv1.tail_dep, ?_, ⟨k, ?_⟩,
        inv1.levels_pos⟩
      · refine typed_store hs inv1.typed (fun d hd1 => ?_)
        rw [inv1.tail_dep] at hd1
        omega
      · have := inv.tc_le
        show v.tail_count - 1 ≤ WIDTH
        omega
      · show v.count - 1 = WIDTH * k + (v.tail_count - 1)
        omega

/-- `vector_set` keeps the invariant whenever it returns. -/
theorem vector_set_inv {h : Heap} {v : Vector} {dep : Nat → Nat} (inv : Inv h v dep)
    {idx : Int} {x : Nat} {h1 : Heap} {v1 : Vector}
    (hp : vector_set h v idx x = some (h1, v1)) : ∃ dep1, Inv h1 v1 dep1 := by
  unfold vector_set at hp
  by_cases hb : idx < 0 ∨ idx ≥ v.count
  · simp only [hb, if_true, Option.some.injEq, Prod.mk.injEq] at hp
    obtain ⟨rfl, rfl⟩ := hp
    exact ⟨dep, inv⟩
  · obtain ⟨hc1, hd, dep1, hc, inv1, ext1, _⟩ := vector_copy_spec inv
    simp only [hb, if_false, hc, Option.bind_eq_bind, Option.some_bind] at hp
    by_cases ht : idx.toNat ≥ v.count - v.tail_count
    · simp only [ht, if_true, Option.bind_eq_some] at hp
      obtain ⟨⟨h2, t⟩, hcp, h3, hs, hp⟩ := hp
      simp only [Option.some.injEq, Prod.mk.injEq] at hp
      obtain ⟨rfl, rfl⟩ := hp
      obtain ⟨h2', q, hcp', ok2, ty2, ext2, hq, _, _⟩ :=
        node_copy_spec inv1.ok inv1.typed inv1.tail_alloc
      have htl : ({ v with head := hd } : Vector).tail = v.tail := rfl
      rw [htl] at hcp'
      rw [hcp] at hcp'
      simp only [Option.some.injEq, Prod.mk.injEq] at hcp'
      obtain ⟨rfl, rfl⟩ := hcp'
      have hqd : Function.update dep1 t (dep1 v.tail) t = 0 := by
        simp only [Function.update_same]
        exact inv1.tail_dep
      refine ⟨_, store_heapOK hs ok2, ?_, (store_allocated hs _).mpr (ext2 _ inv1.head_alloc).1,
        (ext2 _ inv1.head_alloc).2.trans inv1.head_dep, (store_allocated hs _).mpr hq, hqd,
        inv.tc_le, inv.tc_count, inv.levels_pos⟩
      refine typed_store hs ty2 (fun d hd1 => ?_)
      rw [hqd] at hd1
      omega
    · have hlv : v.levels ≠ 0 := by
        have := inv.levels_pos
        omega
      simp only [ht, if_false, hlv, Option.bind_eq_some] at hp
      obtain ⟨cur, hdsc, h2, hs, hp⟩ := hp
      simp only [Option.some.injEq, Prod.mk.injEq] at hp
      obtain ⟨rfl, rfl⟩ := hp
      have hcur := descend_spec idx.toNat v.levels hc1 hd cur inv1.ok inv1.typed inv1.head_alloc
        inv1.head_dep hdsc
      have hca : allocated hc1 cur := store_allocated_target hs
      have hcd : dep1 cur = 0 := by
        rcases hcur with h0 | ⟨_, hd0⟩
        · rw [h0] at hca
          exact absurd hca (not_allocated_null inv1.ok)
        · exact hd0
      refine ⟨dep1, store_heapOK hs inv1.ok, ?_, (store_allocated hs _).mpr inv1.head_alloc,
        inv1.head_dep, (store_allocated hs _).mpr inv1.tail_alloc, inv1.tail_dep, inv1.tc_le,
        inv1.tc_count, inv1.levels_pos⟩
      refine typed_store hs inv1.typed (fun d hd1 => ?_)
      rw [hcd] at hd1
      omega

theorem vector_make_inv : ∃ dep, Inv (vector_make Heap.empty).1 (vector_make Heap.empty).2 dep := by
  have ok0 := heapOK_empty
  have ty0 : Typed Heap.empty (fun _ => 0) := by
    intro a n d hm
    cases hm
  have ok1 := malloc_heapOK ok0
  have ty1 := typed_malloc ok0 ty0 1
  have ext2 := malloc_extends ok1 (Function.update (fun _ => 0) Heap.empty.next 1) 0
  have h1a := ext2 _ (malloc_allocated Heap.empty)
  refine ⟨_, malloc_heapOK ok1, typed_malloc ok1 ty1 0, h1a.1, ?_,
    malloc_allocated (GC_MALLOC Heap.empty).1, ?_, Nat.zero_le _, ⟨0, rfl⟩, le_refl 1⟩
  · exact h1a.2.trans (by simp [Function.update, vector_make, node_new, malloc_snd])
  · show Function.update _ (GC_MALLOC Heap.empty).1.next 0 (GC_MALLOC Heap.empty).1.next = 0
    simp [Function.update]

/-- Every vector built through the API satisfies the representation invariant. -/
theorem reach_inv {h : Heap} {v : Vector} (hr : Reach h v) : ∃ dep, Inv h v dep := by
  induction hr with
  | make => exact vector_make_inv
  | push data _ hp ih =>
    obtain ⟨dep, inv⟩ := ih
    obtain ⟨h2, v2, dep2, hp2, inv2, _⟩ := vector_push_spec inv data
    rw [hp] at hp2
    simp only [Option.some.injEq, Prod.mk.injEq] at hp2
    obtain ⟨rfl, rfl⟩ := hp2
    exact ⟨dep2, inv2⟩
  | pop _ hp ih =>
    obtain ⟨dep, inv⟩ := ih
    exact vector_pop_inv inv hp
  | set idx data _ hp ih =>
    obtain ⟨dep, inv⟩ := ih
    exact vector_set_inv inv hp

end PVector

namespace PVector

theorem vector_reach_run : ∀ (p : List Op) (s s1 : Heap × Vector), Reach s.1 s.2 → run p s = some s1 →
    Reach s1.1 s1.2 := by
  intro p
  induction p with
  | nil =>
    intro s s1 hr h
    simp only [run, Option.some.injEq] at h
    subst h
    exact hr
  | cons op ops ih =>
    intro s s1 hr h
    simp only [run, Option.bind_eq_bind, Option.bind_eq_some] at h
    obtain ⟨s2, hop, hrest⟩ := h
    refine ih s2 s1 ?_ hrest
    cases op with
    | push data => exact Reach.push data hr hop
    | pop => exact Reach.pop hr hop
    | set idx data => exact Reach.set idx data hr hop

theorem reach_run_fresh {p : List Op} {s : Heap × Vector} (h : run_fresh p = some s) :
    Reach s.1 s.2 :=
  vector_reach_run p _ s Reach.make h

set_option maxRecDepth 1000000

/-- C5 fails on the code: after the program `full_trie_ops` the vector `v` has
1056 elements and `vector_get(v, 1024)` is `1025`, the value pushed at that
index; `vector_push(v, 2002)` returns a vector whose element at index 1024 is
`1`, the value of index 0.  The full tail (indices 1024..1055) was dropped. -/
theorem vector_push_drops_full_tail :
    ∃ h v h1 v1, Reach h v ∧ vector_count v = 1056 ∧
      vector_push h v 2002 = some (h1, v1) ∧
      vector_get h v 1024 = some 1025 ∧ vector_get h1 v1 1024 = some 1 := by
  have hc : PHashmap.returns (run_fresh full_trie_ops) (fun s =>
      PHashmap.returns (vector_push s.1 s.2 2002) (fun s1 =>
        decide (vector_count s.2 = 1056) && decide (vector_get s.1 s.2 1024 = some 1025)
          && decide (vector_get s1.1 s1.2 1024 = some 1))) = true := by decide!
  obtain ⟨s, hs, hP⟩ := PHashmap.exists_of_returns hc
  obtain ⟨s1, hs1, hQ⟩ := PHashmap.exists_of_returns hP
  simp only [Bool.and_eq_true, decide_eq_true_eq] at hQ
  exact ⟨s.1, s.2, s1.1, s1.2, reach_run_fresh hs, hQ.1.1, hs1, hQ.1.2, hQ.2⟩

/-- C7 fails on the code: for the vector `v` built by `full_trie_ops`
(`vector_count(v) = 1056 > 0`, element 1024 is `1025`),
`vector_pop(vector_push(v, 2002))` has element `1` at index 1024. -/
theorem vector_pop_push_differs :
    ∃ h v h1 v1 h2 v2, Reach h v ∧ vector_count v = 1056 ∧
      vector_push h v 2002 = some (h1, v1) ∧ vector_pop h1 v1 = some (h2, v2) ∧
      vector_count v2 = 1056 ∧
      vector_get h v 1024 = some 1025 ∧ vector_get h2 v2 1024 = some 1 := by
  have hc : PHashmap.returns (run_fresh full_trie_ops) (fun s =>
      PHashmap.returns (vector_push s.1 s.2 2002) (fun s1 =>
        PHashmap.returns (vector_pop s1.1 s1.2) (fun s2 =>
          decide (vector_count s.2 = 1056) && decide (vector_count s2.2 = 1056)
            && decide (vector_get s.1 s.2 1024 = some 1025)
            && decide (vector_get s2.1 s2.2 1024 = some 1)))) = true := by decide!
  obtain ⟨s, hs, hP⟩ := PHashmap.exists_of_returns hc
  obtain ⟨s1, hs1, hP1⟩ := PHashmap.exists_of_returns hP
  obtain ⟨s2, hs2, hQ⟩ := PHashmap.exists_of_returns hP1
  simp only [Bool.and_eq_true, decide_eq_true_eq] at hQ
  exact ⟨s.1, s.2, s1.1, s1.2, s2.1, s2.2, reach_run_fresh hs, hQ.1.1.1, hs1, hs2, hQ.1.1.2,
    hQ.1.2, hQ.2⟩

/-- C8 fails on the code: let `v` be the vector built by `full_trie_ops`
followed by a push and a pop (`vector_count(v) = 1056`, element 5 is `6`).
`vector_pop(v)` returns a vector with 1055 elements on which
`vector_get(., 5)` dereferences `NULL`: the pop has detached block 0 of the
trie instead of the dropped block 32. -/
theorem vector_pop_detaches_wrong_block :
    ∃ h v h1 v1, Reach h v ∧ vector_count v = 1056 ∧ vector_pop h v = some (h1, v1) ∧
      vector_count v1 = 1055 ∧ vector_get h v 5 = some 6 ∧ vector_get h1 v1 5 = none := by
  have hc : PHashmap.returns (run_fresh (full_trie_ops ++ [Op.push 2002, Op.pop])) (fun s =>
      PHashmap.returns (vector_pop s.1 s.2) (fun s1 =>
        decide (vector_count s.2 = 1056) && decide (vector_count s1.2 = 1055)
          && decide (vector_get s.1 s.2 5 = some 6)
          && decide (vector_get s1.1 s1.2 5 = none))) = true := by decide!
  obtain ⟨s, hs, hP⟩ := PHashmap.exists_of_returns hc
  obtain ⟨s1, hs1, hQ⟩ := PHashmap.exists_of_returns hP
  simp only [Bool.and_eq_true, decide_eq_true_eq] at hQ
  exact ⟨s.1, s.2, s1.1, s1.2, reach_run_fresh hs, hQ.1.1.1, hs1, hQ.1.1.2, hQ.1.2, hQ.2⟩

/-- C9 fails on the code: let `v` be the vector built by `full_trie_ops`
followed by a push and two pops (`vector_count(v) = 1055`).  Index 5 is in
range, and `vector_set(v, 5, 9)` dereferences `NULL`. -/
theorem vector_set_null_block :
    ∃ h v, Reach h v ∧ vector_count v = 1055 ∧ vector_set h v 5 9 = none := by
  have hc : PHashmap.returns (run_fresh (full_trie_ops ++ [Op.push 2002, Op.pop, Op.pop])) (fun s =>
      decide (vector_count s.2 = 1055) && (vector_set s.1 s.2 5 9).isNone) = true := by
    decide!
  obtain ⟨s, hs, hQ⟩ := PHashmap.exists_of_returns hc
  simp only [Bool.and_eq_true, decide_eq_true_eq, Option.isNone_iff_eq_none] at hQ
  exact ⟨s.1, s.2, reach_run_fresh hs, hQ.1, hQ.2⟩

/-- C10 fails on the code: let `v` be the vector built by `full_trie_ops`
followed by a push (`vector_count(v) = 1057`).  `vector_get(v, 1024)` is `1`,
and after `vector_set(v, 0, 7777)` the element at index 1024 is `7777`:
indices 0 and 1024 are served by the same slot. -/
theorem vector_set_changes_other_index :
    ∃ h v h1 v1, Reach h v ∧ vector_count v = 1057 ∧
      vector_set h v 0 7777 = some (h1, v1) ∧
      vector_get h v 1024 = some 1 ∧ vector_get h1 v1 1024 = some 7777 := by
  have hc : PHashmap.returns (run_fresh (full_trie_ops ++ [Op.push 2002])) (fun s =>
      PHashmap.returns (vector_set s.1 s.2 0 7777) (fun s1 =>
        decide (vector_count s.2 = 1057) && decide (vector_get s.1 s.2 1024 = some 1)
          && decide (vector_get s1.1 s1.2 1024 = some 7777))) = true := by decide!
  obtain ⟨s, hs, hP⟩ := PHashmap.exists_of_returns hc
  obtain ⟨s1, hs1, hQ⟩ := PHashmap.exists_of_returns hP
  simp only [Bool.and_eq_true, decide_eq_true_eq] at hQ
  exact ⟨s.1, s.2, s1.1, s1.2, reach_run_fresh hs, hQ.1.1, hs1, hQ.1.2, hQ.2⟩

end PVector

namespace PVector

/-! ### Persistence of the vector -/

/-- C11 fails on the code: let `v` be the vector of the four elements 10, 11,
12, 13 (all in the tail).  After `w = vector_pop(v)` has been computed,
`vector_get(v, 3)` on the vector the caller still holds returns `NULL` instead
of `13`: the pop has cleared the slot in the tail node that `v` and `w` share. -/
theorem vector_pop_clears_shared_tail :
    ∃ h v h1 w, Reach h v ∧ vector_count v = 4 ∧ vector_pop h v = some (h1, w) ∧
      vector_get h v 3 = some 13 ∧ vector_get h1 v 3 = some NULL := by
  have hc : PHashmap.returns (run_fresh [Op.push 10, Op.push 11, Op.push 12, Op.push 13])
      (fun s => PHashmap.returns (vector_pop s.1 s.2) (fun s1 =>
        decide (vector_count s.2 = 4) && decide (vector_get s.1 s.2 3 = some 13)
          && decide (vector_get s1.1 s.2 3 = some NULL))) = true := by decide!
  obtain ⟨s, hs, hP⟩ := PHashmap.exists_of_returns hc
  obtain ⟨s1, hs1, hQ⟩ := PHashmap.exists_of_returns hP
  simp only [Bool.and_eq_true, decide_eq_true_eq] at hQ
  exact ⟨s.1, s.2, s1.1, s1.2, reach_run_fresh hs, hQ.1.1, hs1, hQ.1.2, hQ.2⟩

/-- C12 fails on the code: let `v` be the vector of the two elements 10, 11.
After `v1 = vector_push(v, 1)` and then `v2 = vector_push(v, 2)` from the same
`v`, `vector_get(v1, 2)` returns `2` instead of `1`: both pushes write slot 2
of the tail node that `v`, `v1` and `v2` share. -/
theorem vector_push_overwrites_shared_tail :
    ∃ h v h1 v1 h2 v2, Reach h v ∧ vector_count v = 2 ∧
      vector_push h v 1 = some (h1, v1) ∧ vector_push h1 v 2 = some (h2, v2) ∧
      vector_get h1 v1 2 = some 1 ∧ vector_get h2 v1 2 = some 2 ∧
      vector_get h2 v2 2 = some 2 := by
  have hc : PHashmap.returns (run_fresh [Op.push 10, Op.push 11])
      (fun s => PHashmap.returns (vector_push s.1 s.2 1) (fun s1 =>
        PHashmap.returns (vector_push s1.1 s.2 2) (fun s2 =>
          decide (vector_count s.2 = 2) && decide (vector_get s1.1 s1.2 2 = some 1)
            && decide (vector_get s2.1 s1.2 2 = some 2)
            && decide (vector_get s2.1 s2.2 2 = some 2)))) = true := by decide!
  obtain ⟨s, hs, hP⟩ := PHashmap.exists_of_returns hc
  obtain ⟨s1, hs1, hP1⟩ := PHashmap.exists_of_returns hP
  obtain ⟨s2, hs2, hQ⟩ := PHashmap.exists_of_returns hP1
  simp only [Bool.and_eq_true, decide_eq_true_eq] at hQ
  exact ⟨s.1, s.2, s1.1, s1.2, s2.1, s2.2, reach_run_fresh hs, hQ.1.1.1, hs1, hs2, hQ.1.1.2,
    hQ.1.2, hQ.2⟩

/-- C13 fails on the code: let `v` be the vector of the 33 elements 1, ..., 33
(`tail_count = 1`, so index 0 is in the trie body).  After
`w = vector_set(v, 0, 99)` has been computed, `vector_get(v, 0)` returns `99`
instead of `1`: only the root node is copied, and the leaf block, which `v`
and `w` share, is overwritten. -/
theorem vector_set_overwrites_shared_block :
    ∃ h v h1 w, Reach h v ∧ vector_count v = 33 ∧ v.tail_count = 1 ∧
      vector_set h v 0 99 = some (h1, w) ∧
      vector_get h v 0 = some 1 ∧ vector_get h1 v 0 = some 99 := by
  have hc : PHashmap.returns (run_fresh ((List.range 33).map (fun i => Op.push (i + 1))))
      (fun s => PHashmap.returns (vector_set s.1 s.2 0 99) (fun s1 =>
        decide (vector_count s.2 = 33) && decide (s.2.tail_count = 1)
          && decide (vector_get s.1 s.2 0 = some 1)
          && decide (vector_get s1.1 s.2 0 = some 99))) = true := by decide!
  obtain ⟨s, hs, hP⟩ := PHashmap.exists_of_returns hc
  obtain ⟨s1, hs1, hQ⟩ := PHashmap.exists_of_returns hP
  simp only [Bool.and_eq_true, decide_eq_true_eq] at hQ
  exact ⟨s.1, s.2, s1.1, s1.2, reach_run_fresh hs, hQ.1.1.1, hQ.1.1.2, hs1, hQ.1.2, hQ.2⟩

end PVector

namespace PVector

/-! ### Out-of-range indices -/

/-- C19: for every reachable vector `v` and every integer `i` with `i < 0` or
`i >= vector_count(v)`, `vector_get(v, i)` returns `NULL` and
`vector_set(v, i, x)` returns `v` itself: the same header, with nothing
allocated or written in the heap. -/
theorem vector_out_of_range {h : Heap} {v : Vector} (_hr : Reach h v) (i : Int) (x : Nat)
    (hi : i < 0 ∨ i ≥ vector_count v) :
    vector_get h v i = some NULL ∧ vector_set h v i x = some (h, v) := by
  unfold vector_count at hi
  unfold vector_get vector_set
  rw [if_pos hi, if_pos hi]
  exact ⟨rfl, rfl⟩

/-- C19 on the vector of the four elements 10, 11, 12, 13 at the index 4, its
count. -/
theorem vector_out_of_range_witness :
    ∃ s, run_fresh [Op.push 10, Op.push 11, Op.push 12, Op.push 13] = some s ∧ Reach s.1 s.2 ∧
      ((4 : Int) < 0 ∨ (4 : Int) ≥ vector_count s.2) ∧
      vector_get s.1 s.2 4 = some NULL ∧ vector_set s.1 s.2 4 99 = some (s.1, s.2) := by
  have hc : PHashmap.returns (run_fresh [Op.push 10, Op.push 11, Op.push 12, Op.push 13])
      (fun s => decide (vector_count s.2 = 4)) = true := by decide!
  obtain ⟨s, hs, hQ⟩ := PHashmap.exists_of_returns hc
  simp only [decide_eq_true_eq] at hQ
  have hi : (4 : Int) < 0 ∨ (4 : Int) ≥ vector_count s.2 := by
    rw [hQ]
    exact Or.inr (le_refl _)
  exact ⟨s, hs, reach_run_fresh hs, hi, vector_out_of_range (reach_run_fresh hs) 4 99 hi⟩

end PVector

namespace PHashmap

theorem children_entries_append : ∀ (xs ys : List Node),
    children_entries (xs ++ ys) = children_entries xs ++ children_entries ys := by
  intro xs
  induction xs with
  | nil => intro ys; simp [children_entries]
  | cons x xs ih =>
    intro ys
    rw [List.cons_append, children_entries, children_entries, ih, List.append_assoc]

theorem mem_children_entries {cs : List Node} {c : Cell} (h : c ∈ children_entries cs) :
    ∃ (i : Nat) (child : Node), cs[i]? = some child ∧ c ∈ node_entries child := by
  induction cs with
  | nil => simp [children_entries] at h
  | cons x xs ih =>
    simp only [children_entries, List.mem_append] at h
    rcases h with h | h
    · exact ⟨0, x, List.getElem?_cons_zero, h⟩
    · obtain ⟨i, child, hi, hc⟩ := ih h
      exact ⟨i + 1, child, by simpa using hi, hc⟩

theorem mem_entries_take {cs : List Node} {c : Cell} {n : Nat}
    (h : c ∈ children_entries (cs.take n)) :
    ∃ (i : Nat) (child : Node), i < n ∧ cs[i]? = some child ∧ c ∈ node_entries child := by
  obtain ⟨i, child, hi, hc⟩ := mem_children_entries h
  rw [List.getElem?_take] at hi
  by_cases hlt : i < n
  · rw [if_pos hlt] at hi
    exact ⟨i, child, hlt, hi, hc⟩
  · rw [if_neg hlt] at hi
    cases hi

theorem mem_entries_drop {cs : List Node} {c : Cell} {n : Nat}
    (h : c ∈ children_entries (cs.drop n)) :
    ∃ (i : Nat) (child : Node), n ≤ i ∧ cs[i]? = some child ∧ c ∈ node_entries child := by
  obtain ⟨i, child, hi, hc⟩ := mem_children_entries h
  rw [List.getElem?_drop] at hi
  exact ⟨n + i, child, Nat.le_add_right _ _, hi, hc⟩

/-- A child array split around the child at index `i`. -/
theorem split_at {cs : List Node} {i : Nat} {c : Node} (h : cs[i]? = some c) :
    cs = cs.take i ++ c :: cs.drop (i + 1) := by
  induction cs generalizing i with
  | nil => simp at h
  | cons x xs ih =>
    cases i with
    | zero =>
      simp only [List.getElem?_cons_zero, Option.some.injEq] at h
      simp [h]
    | succ j =>
      simp only [List.getElem?_cons_succ] at h
      simp only [List.take_succ_cons, List.drop_succ_cons, List.cons_append]
      rw [← ih h]

theorem set_split {cs : List Node} {i : Nat} {c : Node} (h : cs[i]? = some c) (c1 : Node) :
    cs.set i c1 = cs.take i ++ c1 :: cs.drop (i + 1) := by
  induction cs generalizing i with
  | nil => simp at h
  | cons x xs ih =>
    cases i with
    | zero => simp
    | succ j =>
      simp only [List.getElem?_cons_succ] at h
      simp only [List.set_cons_succ, List.take_succ_cons, List.drop_succ_cons, List.cons_append]
      rw [ih h]

end PHashmap

namespace PHashmap

/-- Every index below the rank at `t` is the rank of a set bit below `t`. -/
theorem exists_slot_of_rank (bitmap : Nat) :
    ∀ (t i : Nat), i < rank bitmap t → ∃ s, s < t ∧ bitmap.testBit s = true ∧ rank bitmap s = i := by
  intro t
  induction t with
  | zero =>
    intro i hi
    rw [rank_zero] at hi
    exact absurd hi (Nat.not_lt_zero _)
  | succ t ih =>
    intro i hi
    rw [rank_succ] at hi
    by_cases hlt : i < rank bitmap t
    · obtain ⟨s, hs, hb, hr⟩ := ih i hlt
      exact ⟨s, Nat.lt_succ_of_lt hs, hb, hr⟩
    · by_cases hb : bitmap.testBit t = true
      · rw [if_pos hb] at hi
        exact ⟨t, Nat.lt_succ_self t, hb, by omega⟩
      · rw [if_neg hb] at hi
        omega

theorem mask_testBit (x j i : Nat) :
    (mask x j).testBit i = (decide (i < 5) && x.testBit (5 * j + i)) := by
  unfold mask BITS_PER_LEVEL
  have h31 : (0x01f : Nat) = 2 ^ 5 - 1 := by decide
  rw [Nat.testBit_and, Nat.testBit_shiftRight, h31, Nat.testBit_two_pow_sub_one, Bool.and_comm]

/-- Every slot of a node at `level` lies on the path of some hash that shares
the path above. -/
theorem exists_path_hash (p level : Nat) {s : Nat} (hs : s < 32) :
    ∃ q, agree level q p ∧ mask q level = s := by
  refine ⟨(p &&& (2 ^ (5 * level) - 1)) ||| (s <<< (5 * level)), ?_, ?_⟩
  · intro j hj
    apply Nat.eq_of_testBit_eq
    intro i
    rw [mask_testBit, mask_testBit]
    by_cases hi : i < 5
    · have h1 : 5 * j + i < 5 * level := by omega
      have h2 : ¬ 5 * j + i ≥ 5 * level := by omega
      simp only [hi, decide_True, Bool.true_and, Nat.testBit_or, Nat.testBit_and,
        Nat.testBit_two_pow_sub_one, h1, Bool.and_true, Nat.testBit_shiftLeft, h2,
        decide_False, Bool.false_and, Bool.or_false]
    · simp only [hi, decide_False, Bool.false_and]
  · apply Nat.eq_of_testBit_eq
    intro i
    rw [mask_testBit]
    by_cases hi : i < 5
    · have h1 : ¬ 5 * level + i < 5 * level := by omega
      have h2 : 5 * level + i ≥ 5 * level := by omega
      simp only [hi, decide_True, Bool.true_and, Nat.testBit_or, Nat.testBit_and,
        Nat.testBit_two_pow_sub_one, h1, decide_False, Bool.and_false, Nat.testBit_shiftLeft, h2,
        Nat.add_sub_cancel_left, Bool.false_or]
    · have h5 : s < 2 ^ i := by
        have : 2 ^ 5 ≤ 2 ^ i := Nat.pow_le_pow_right (by decide) (by omega)
        omega
      simp only [hi, decide_False, Bool.false_and]
      exact (Nat.testBit_eq_false_of_lt h5).symm

/-- The cells below a well-formed node carry the hash of their key, and this
hash follows the path of the node. -/
theorem wf_entries {hashf : Nat → Nat} {eq_key : Nat → Nat → Bool} {level p : Nat} {n : Node}
    (h : WF hashf eq_key level p n) :
    ∀ c ∈ node_entries n, c.hash = hashf c.key % 2 ^ HASH_BITS ∧ agree level c.hash p := by
  induction h with
  | leaf hh ha =>
    intro c hc
    simp only [node_entries, List.mem_singleton] at hc
    rw [hc]
    exact ⟨hh, ha⟩
  | hash_collision hc hp =>
    intro c hcm
    exact hc c hcm
  | bitmap_indexed hl hb hlen hch ih =>
    rename_i level p bitmap cs
    intro c hc
    rw [node_entries] at hc
    obtain ⟨i, child, hi, hcc⟩ := mem_children_entries hc
    have hilt : i < rank bitmap 32 := by
      rw [← popcount_eq_rank, ← hlen]
      exact (List.getElem?_eq_some_iff.mp hi).1
    obtain ⟨s, hs, hbit, hr⟩ := exists_slot_of_rank bitmap 32 i hilt
    obtain ⟨q, hq, hm⟩ := exists_path_hash p level hs
    rw [← hr] at hi
    have := ih s hs hbit child hi q hq hm c hcc
    exact ⟨this.1, agree_trans (agree_of_succ this.2) hq⟩

/-- In a well-formed bitmap-indexed node, a cell below the child at index `i`
has a hash whose slot is a set bit of rank `i`. -/
theorem wf_child_slot {hashf : Nat → Nat} {eq_key : Nat → Nat → Bool} {level p bitmap : Nat}
    {cs : List Node} (h : WF hashf eq_key level p (.bitmap_indexed bitmap cs)) {i : Nat}
    {child : Node} (hi : cs[i]? = some child) {c : Cell} (hc : c ∈ node_entries child) :
    c.hash = hashf c.key % 2 ^ HASH_BITS ∧ bitmap.testBit (mask c.hash level) = true ∧
      rank bitmap (mask c.hash level) = i := by
  cases h with
  | bitmap_indexed hl hb hlen hch =>
    have hilt : i < rank bitmap 32 := by
      rw [← popcount_eq_rank, ← hlen]
      exact (List.getElem?_eq_some_iff.mp hi).1
    obtain ⟨s, hs, hbit, hr⟩ := exists_slot_of_rank bitmap 32 i hilt
    obtain ⟨q, hq, hm⟩ := exists_path_hash p level hs
    rw [← hr] at hi
    have hw := wf_entries (hch s hs hbit child hi q hq hm) c hc
    have hms : mask c.hash level = s := by
      rw [← hm]
      exact hw.2 level (Nat.lt_succ_self level)
    rw [hms]
    exact ⟨hw.1, hbit, hr⟩

/-- In a well-formed bitmap-indexed node, no cell off the lookup path of `key`
has a key equal to `key`. -/
theorem wf_off_path {hashf : Nat → Nat} {eq_key : Nat → Nat → Bool} (ops : KeyOps hashf eq_key)
    {level p bitmap : Nat} {cs : List Node}
    (h : WF hashf eq_key level p (.bitmap_indexed bitmap cs)) (key : Nat) {i : Nat}
    {child : Node} (hi : cs[i]? = some child)
    (hoff : bitmap.testBit (mask (hashf key % 2 ^ HASH_BITS) level) = true →
      i ≠ rank bitmap (mask (hashf key % 2 ^ HASH_BITS) level))
    {c : Cell} (hc : c ∈ node_entries child) : eq_key c.key key = false := by
  obtain ⟨hh, hbit, hr⟩ := wf_child_slot h hi hc
  by_contra hne
  have he : eq_key c.key key = true := by simpa using hne
  have hhash : c.hash = hashf key % 2 ^ HASH_BITS := by
    rw [hh, hash_of_eq ops he]
  rw [hhash] at hbit hr
  exact hoff hbit hr.symm

end PHashmap

namespace PHashmap

/-! ### The entries after `assoc` -/

theorem entries_insert (cs : List Node) (i : Nat) (c : Node) :
    (children_entries (cs.take i ++ c :: cs.drop i)).Perm (node_entries c ++ children_entries cs) := by
  rw [children_entries_append, children_entries]
  have h : children_entries cs = children_entries (cs.take i) ++ children_entries (cs.drop i) := by
    rw [← children_entries_append, List.take_append_drop]
  rw [h]
  exact List.perm_append_comm_assoc _ _ _

theorem entries_split {cs : List Node} {i : Nat} {c : Node} (h : cs[i]? = some c) :
    children_entries cs =
      children_entries (cs.take i) ++ (node_entries c ++ children_entries (cs.drop (i + 1))) := by
  conv_lhs => rw [split_at h]
  rw [children_entries_append, children_entries]

theorem entries_set {cs : List Node} {i : Nat} {c : Node} (h : cs[i]? = some c) (c1 : Node) :
    children_entries (cs.set i c1) =
      children_entries (cs.take i) ++ (node_entries c1 ++ children_entries (cs.drop (i + 1))) := by
  rw [set_split h, children_entries_append, children_entries]

/-- The entries of a chain after `hash_collision_assoc`. -/
theorem hash_collision_assoc_entries {hashf : Nat → Nat} {eq_key : Nat → Nat → Bool}
    (ops : KeyOps hashf eq_key) (eq_val : Nat → Nat → Bool) {cells : List Cell}
    (key val hash : Nat) (hp : cells.Pairwise (fun a b => eq_key a.key b.key = false)) :
    AssocEntries eq_key eq_val key val hash cells
      (node_entries (hash_collision_assoc cells key val hash eq_key eq_val).1)
      (hash_collision_assoc cells key val hash eq_key eq_val).2 := by
  obtain ⟨hsplit, hpre, hsuf⟩ := chain_find_spec eq_key key cells
  unfold hash_collision_assoc
  cases hfind : chain_find eq_key key cells with
  | mk pre suf =>
  rw [hfind] at hsplit hpre hsuf
  simp only at hsplit hpre hsuf
  cases suf with
  | nil =>
    rw [List.append_nil] at hsplit
    subst hsplit
    exact Or.inr (Or.inr ⟨rfl, hpre, List.Perm.refl _⟩)
  | cons c next =>
    have hck : eq_key c.key key = true := hsuf c next rfl
    have hcm : c ∈ cells := by
      rw [hsplit]
      exact List.mem_append_right _ (List.mem_cons_self _ _)
    by_cases hsame : (eq_key c.key key && eq_val c.val val) = true
    · simp only [hsame, if_true, node_entries]
      simp only [Bool.and_eq_true] at hsame
      exact Or.inl ⟨rfl, rfl, c, hcm, hsame.1, hsame.2⟩
    · have hv : eq_val c.val val = false := by
        simp only [hck, Bool.true_and] at hsame
        simpa using hsame
      have hperm0 : (pre ++ c :: next).Perm (c :: (pre ++ next)) := List.perm_middle
      have hp1 : (c :: (pre ++ next)).Pairwise (fun a b => eq_key a.key b.key = false) := by
        rw [hsplit] at hp
        exact (hperm0.pairwise_iff (fun {a b} h => pairwise_symm ops a b h)).mp hp
      rw [List.pairwise_cons] at hp1
      have hrest : ∀ x ∈ pre ++ next, eq_key x.key key = false := by
        intro x hx
        by_contra hne
        have hxk : eq_key x.key key = true := by simpa using hne
        have h1 := hp1.1 x hx
        rw [ops.trans _ _ _ hck (ops.symm _ _ hxk)] at h1
        cases h1
      have hperm1 : (pre.reverse ++ ({ key := key, val := val, hash := hash } : Cell) :: next).Perm
          (({ key := key, val := val, hash := hash } : Cell) :: (pre ++ next)) :=
        List.perm_middle.trans (List.Perm.cons _ (List.Perm.append_right _ (List.reverse_perm _)))
      have hperm2 : cells.Perm (c :: (pre ++ next)) := by
        rw [hsplit]
        exact hperm0
      simp only [hsame, Bool.false_eq_true, if_false]
      clear hperm0 hp1 hcm hsuf hpre hsplit hfind
      cases pre with
      | nil =>
        exact Or.inr (Or.inl ⟨rfl, c, [] ++ next, hck, hv, hperm2, hperm1, hrest⟩)
      | cons x rest =>
        refine Or.inr (Or.inl ⟨rfl, c, (x :: rest) ++ next, hck, hv, hperm2, ?_, hrest⟩)
        simp only [node_entries, chain_copy_eq]
        exact hperm1

theorem perm_frame {a : Cell} {es rest : List Cell} (h : es.Perm (a :: rest)) (xs ys : List Cell) :
    (xs ++ (es ++ ys)).Perm (a :: (xs ++ (rest ++ ys))) := by
  have h1 : (xs ++ (es ++ ys)).Perm (xs ++ (a :: (rest ++ ys))) :=
    List.Perm.append_left xs (List.Perm.append_right ys h)
  exact h1.trans List.perm_middle

/-- Entries off the path of `key` do not matter to `AssocEntries`. -/
theorem assocEntries_frame {eq_key eq_val : Nat → Nat → Bool} {key val hash : Nat}
    {es es1 : List Cell} {r : Nat} (h : AssocEntries eq_key eq_val key val hash es es1 r)
    {xs ys : List Cell} (hx : ∀ x ∈ xs, eq_key x.key key = false)
    (hy : ∀ x ∈ ys, eq_key x.key key = false) :
    AssocEntries eq_key eq_val key val hash (xs ++ (es ++ ys)) (xs ++ (es1 ++ ys)) r := by
  rcases h with ⟨hr, he, c, hc, hk, hv⟩ | ⟨hr, c, rest, hk, hv, hp, hp1, hrest⟩ | ⟨hr, hn, hp⟩
  · refine Or.inl ⟨hr, by rw [he], c, ?_, hk, hv⟩
    exact List.mem_append_right _ (List.mem_append_left _ hc)
  · refine Or.inr (Or.inl ⟨hr, c, xs ++ (rest ++ ys), hk, hv, perm_frame hp xs ys,
      perm_frame hp1 xs ys, ?_⟩)
    intro x hxm
    simp only [List.mem_append] at hxm
    rcases hxm with h1 | h1 | h1
    · exact hx x h1
    · exact hrest x h1
    · exact hy x h1
  · refine Or.inr (Or.inr ⟨hr, ?_, perm_frame hp xs ys⟩)
    intro x hxm
    simp only [List.mem_append] at hxm
    rcases hxm with h1 | h1 | h1
    · exact hx x h1
    · exact hn x h1
    · exact hy x h1

end PHashmap

namespace PHashmap

/-- The entries of a node after `node_assoc`, by its result. -/
theorem node_assoc_entries {hashf : Nat → Nat} {eq_key : Nat → Nat → Bool}
    (ops : KeyOps hashf eq_key) (eq_val : Nat → Nat → Bool) (key val : Nat) :
    ∀ (fuel level : Nat) (n : Node), WF hashf eq_key level (hashf key % 2 ^ HASH_BITS) n →
      ∀ (n1 : Node) (r : Nat),
        node_assoc key val (hashf key % 2 ^ HASH_BITS) eq_key eq_val fuel n level = some (n1, r) →
        AssocEntries eq_key eq_val key val (hashf key % 2 ^ HASH_BITS) (node_entries n)
          (node_entries n1) r := by
  intro fuel
  induction fuel with
  | zero =>
    intro level n _ n1 r h
    rw [node_assoc] at h
    cases h
  | succ fuel ih =>
    intro level n hwf n1 r h
    cases hwf with
    | hash_collision hc hp =>
      rename_i cells
      rw [node_assoc] at h
      simp only [Option.some.injEq] at h
      have h1 := hash_collision_assoc_entries ops eq_val key val (hashf key % 2 ^ HASH_BITS) hp
      rw [h] at h1
      exact h1
    | leaf hh ha =>
      rename_i k0 v0 h0
      rw [node_assoc] at h
      unfold leaf_assoc at h
      by_cases hhash : h0 = hashf key % 2 ^ HASH_BITS
      · have hnh : ¬ h0 ≠ hashf key % 2 ^ HASH_BITS := fun h => h hhash
        rw [if_neg hnh] at h
        by_cases hk0 : eq_key k0 key = true
        · by_cases hv0 : eq_val v0 val = true
          · simp only [hk0, hv0, Bool.and_self, if_true, Option.some.injEq, Prod.mk.injEq] at h
            rw [← h.1, ← h.2]
            exact Or.inl ⟨rfl, rfl, _, List.mem_singleton.mpr rfl, hk0, hv0⟩
          · have hv0' : eq_val v0 val = false := by simpa using hv0
            simp only [hk0, hv0', Bool.and_false, Bool.false_eq_true, if_false, if_true,
              Option.some.injEq, Prod.mk.injEq] at h
            rw [← h.1, ← h.2]
            exact Or.inr (Or.inl ⟨rfl, { key := k0, val := v0, hash := h0 }, [], hk0, hv0',
              List.Perm.refl _, List.Perm.refl _, fun x hx => by cases hx⟩)
        · have hk0' : eq_key k0 key = false := by simpa using hk0
          simp only [hk0', Bool.false_and, Bool.false_eq_true, if_false, Option.some.injEq,
            Prod.mk.injEq] at h
          rw [← h.1, ← h.2]
          refine Or.inr (Or.inr ⟨rfl, ?_, List.Perm.refl _⟩)
          intro x hx
          simp only [node_entries, List.mem_singleton] at hx
          rw [hx]
          exact hk0'
      · rw [if_pos hhash] at h
        have hl : level ≤ 6 := by
          apply level_le_of_ne _ _ ha hhash
          · rw [hh]
            exact Nat.mod_lt _ (by decide)
          · exact Nat.mod_lt _ (by decide)
        have hold : eq_key k0 key = false := by
          by_contra hne
          have he : eq_key k0 key = true := by simpa using hne
          exact hhash (by rw [hh, hash_of_eq ops he])
        by_cases hbits : mask h0 level = mask (hashf key % 2 ^ HASH_BITS) level
        · have hbp : ¬ bitpos h0 level ≠ bitpos (hashf key % 2 ^ HASH_BITS) level := by
            rw [bitpos_eq, bitpos_eq, hbits]
            exact fun h => h rfl
          rw [if_neg hbp, bitpos_eq] at h
          have hwfp : WF hashf eq_key level (hashf key % 2 ^ HASH_BITS)
              (.bitmap_indexed (0 ||| 2 ^ mask h0 level) [.leaf k0 v0 h0]) := wf_singleton hl hh ha
          have := ih level _ hwfp n1 r h
          simpa [node_entries, children_entries] using this
        · have hbp : bitpos h0 level ≠ bitpos (hashf key % 2 ^ HASH_BITS) level := by
            rw [bitpos_eq, bitpos_eq]
            intro h
            exact hbits (Nat.pow_right_injective (Nat.le_refl 2) h)
          rw [if_pos hbp] at h
          simp only at h
          rw [leaf_split_eq k0 v0 h0 key val _ level hbits] at h
          simp only [Option.some.injEq, Prod.mk.injEq] at h
          rw [← h.1, ← h.2]
          refine Or.inr (Or.inr ⟨rfl, ?_, ?_⟩)
          · intro x hx
            simp only [node_entries, List.mem_singleton] at hx
            rw [hx]
            exact hold
          · rw [node_entries]
            have := entries_insert [Node.leaf k0 v0 h0]
              (rank (0 ||| 2 ^ mask h0 level) (mask (hashf key % 2 ^ HASH_BITS) level))
              (Node.leaf key val (hashf key % 2 ^ HASH_BITS))
            simpa [node_entries, children_entries] using this
    | bitmap_indexed hl hb hlen hch =>
      rename_i bitmap cs
      have hwf : WF hashf eq_key level (hashf key % 2 ^ HASH_BITS) (.bitmap_indexed bitmap cs) :=
        WF.bitmap_indexed hl hb hlen hch
      have hs := mask_lt (hashf key % 2 ^ HASH_BITS) level
      rw [node_assoc] at h
      unfold bitmap_indexed_assoc at h
      simp only [bitpos_eq, bit_index_eq_rank _ (Nat.le_of_lt hs)] at h
      by_cases hbit : bitmap.testBit (mask (hashf key % 2 ^ HASH_BITS) level) = true
      · rw [if_pos ((and_two_pow_ne_zero _ _).mpr hbit)] at h
        obtain ⟨c, hc⟩ := wf_child_exists hlen hs hbit
        have hwfc := hch _ hs hbit c hc _ (agree_refl _ _) rfl
        rw [hc] at h
        simp only at h
        have hx : ∀ x ∈ children_entries (cs.take (rank bitmap
            (mask (hashf key % 2 ^ HASH_BITS) level))), eq_key x.key key = false := by
          intro x hxm
          obtain ⟨i, child, hi, hci, hxc⟩ := mem_entries_take hxm
          exact wf_off_path ops hwf key hci (fun _ => Nat.ne_of_lt hi) hxc
        have hy : ∀ x ∈ children_entries (cs.drop (rank bitmap
            (mask (hashf key % 2 ^ HASH_BITS) level) + 1)), eq_key x.key key = false := by
          intro x hxm
          obtain ⟨i, child, hi, hci, hxc⟩ := mem_entries_drop hxm
          exact wf_off_path ops hwf key hci (fun _ => Nat.ne_of_gt hi) hxc
        cases hn : node_assoc key val (hashf key % 2 ^ HASH_BITS) eq_key eq_val fuel c
            (level + 1) with
        | none =>
          rw [hn] at h
          cases h
        | some res =>
          obtain ⟨c1, r1⟩ := res
          rw [hn] at h
          simp only at h
          have hchild := ih (level + 1) c hwfc c1 r1 hn
          have hframe := assocEntries_frame hchild hx hy
          rw [← entries_split hc, ← entries_set hc] at hframe
          by_cases hr : r1 = UNCHANGED
          · have hnr : ¬ r1 ≠ UNCHANGED := fun h => h hr
            rw [if_neg hnr] at h
            simp only [Option.some.injEq, Prod.mk.injEq] at h
            rw [← h.1, ← h.2]
            rcases hframe with ⟨_, _, c0, hc0, hk, hv⟩ | ⟨hu, _⟩ | ⟨hu, _⟩
            · exact Or.inl ⟨hr, rfl, c0, hc0, hk, hv⟩
            · rw [hr] at hu
              cases hu
            · rw [hr] at hu
              cases hu
          · rw [if_pos hr] at h
            simp only [Option.some.injEq, Prod.mk.injEq] at h
            have htake : cs.take (popcount bitmap) = cs := by
              rw [← hlen]
              exact List.take_length cs
            rw [htake] at h
            rw [← h.1, ← h.2]
            exact hframe
      · have hbit' : bitmap.testBit (mask (hashf key % 2 ^ HASH_BITS) level) = false := by
          simpa using hbit
        rw [if_neg (fun h => hbit ((and_two_pow_ne_zero _ _).mp h))] at h
        have hdrop : (cs.drop (rank bitmap (mask (hashf key % 2 ^ HASH_BITS) level))).take
            (popcount (bitmap ||| 2 ^ mask (hashf key % 2 ^ HASH_BITS) level) -
              rank bitmap (mask (hashf key % 2 ^ HASH_BITS) level)) =
            cs.drop (rank bitmap (mask (hashf key % 2 ^ HASH_BITS) level)) := by
          apply List.take_of_length_le
          rw [List.length_drop, hlen, popcount_eq_rank, popcount_eq_rank, rank_or _ _ hbit']
          omega
        rw [hdrop] at h
        simp only [Option.some.injEq, Prod.mk.injEq] at h
        rw [← h.1, ← h.2]
        refine Or.inr (Or.inr ⟨rfl, ?_, ?_⟩)
        · intro x hxm
          rw [node_entries] at hxm
          obtain ⟨i, child, hci, hxc⟩ := mem_children_entries hxm
          exact wf_off_path ops hwf key hci (fun hb1 => absurd hb1 hbit) hxc
        · rw [node_entries, node_entries]
          have := entries_insert cs (rank bitmap (mask (hashf key % 2 ^ HASH_BITS) level))
            (Node.leaf key val (hashf key % 2 ^ HASH_BITS))
          simpa [node_entries] using this

end PHashmap

namespace PHashmap

/-! ### The entries after `dissoc` -/

theorem entries_remove {cs : List Node} {i : Nat} {c : Node} (_h : cs[i]? = some c) :
    children_entries (cs.take i ++ cs.drop (i + 1)) =
      children_entries (cs.take i) ++ ([] ++ children_entries (cs.drop (i + 1))) := by
  rw [children_entries_append, List.nil_append]

/-- The entries of a chain after `hash_collision_dissoc`. -/
theorem hash_collision_dissoc_entries {hashf : Nat → Nat} {eq_key : Nat → Nat → Bool}
    (ops : KeyOps hashf eq_key) {cells : List Cell} (key : Nat)
    (hp : cells.Pairwise (fun a b => eq_key a.key b.key = false)) :
    DissocEntries eq_key key cells (entries_opt (hash_collision_dissoc eq_key cells key).1)
      (hash_collision_dissoc eq_key cells key).2 := by
  obtain ⟨hsplit, hpre, hsuf⟩ := chain_find_spec eq_key key cells
  unfold hash_collision_dissoc
  cases hfind : chain_find eq_key key cells with
  | mk pre suf =>
  rw [hfind] at hsplit hpre hsuf
  simp only at hsplit hpre hsuf
  cases suf with
  | nil =>
    rw [List.append_nil] at hsplit
    subst hsplit
    clear hfind hsuf hp
    rcases cells with _ | ⟨a, _ | ⟨b, l⟩⟩ <;> exact Or.inl ⟨rfl, hpre⟩
  | cons c next =>
    have hck : eq_key c.key key = true := hsuf c next rfl
    have hperm0 : (pre ++ c :: next).Perm (c :: (pre ++ next)) := List.perm_middle
    have hp1 : (c :: (pre ++ next)).Pairwise (fun a b => eq_key a.key b.key = false) := by
      rw [hsplit] at hp
      exact (hperm0.pairwise_iff (fun {a b} h => pairwise_symm ops a b h)).mp hp
    rw [List.pairwise_cons] at hp1
    have hrest : ∀ x ∈ pre ++ next, eq_key x.key key = false := by
      intro x hx
      by_contra hne
      have hxk : eq_key x.key key = true := by simpa using hne
      have h1 := hp1.1 x hx
      rw [ops.trans _ _ _ hck (ops.symm _ _ hxk)] at h1
      cases h1
    have hperm2 : cells.Perm (c :: (pre ++ next)) := by
      rw [hsplit]
      exact hperm0
    have key_step : ∀ (m : Option Node), (entries_opt m).Perm (pre ++ next) →
        DissocEntries eq_key key cells (entries_opt m) REMOVED := by
      intro m hm
      refine Or.inr ⟨rfl, c, hck, hperm2.trans (List.Perm.cons c hm.symm), ?_⟩
      intro x hx
      exact hrest x (hm.mem_iff.mp hx)
    have hcopy : ∀ l : List Cell, (chain_copy next l).Perm (l ++ next) := by
      intro l
      rw [chain_copy_eq]
      exact List.Perm.append_right _ (List.reverse_perm _)
    clear hperm2 hrest hp1 hperm0 hfind hsuf hpre hsplit
    cases pre with
    | nil =>
      cases next with
      | nil => exact key_step none (List.Perm.refl _)
      | cons n rest =>
        cases rest with
        | nil => exact key_step (some (.leaf n.key n.val n.hash)) (List.Perm.refl _)
        | cons m rest => exact key_step (some (.hash_collision (n :: m :: rest))) (List.Perm.refl _)
    | cons f pre1 =>
      cases pre1 with
      | nil =>
        cases next with
        | nil => exact key_step (some (.leaf f.key f.val f.hash)) (List.Perm.refl _)
        | cons n rest => exact key_step (some (.hash_collision _)) (hcopy _)
      | cons g pre2 => exact key_step (some (.hash_collision _)) (hcopy _)

/-- Entries off the path of `key` do not matter to `DissocEntries`. -/
theorem dissocEntries_frame {eq_key : Nat → Nat → Bool} {key : Nat}
    {es es1 : List Cell} {r : Nat} (h : DissocEntries eq_key key es es1 r)
    {xs ys : List Cell} (hx : ∀ x ∈ xs, eq_key x.key key = false)
    (hy : ∀ x ∈ ys, eq_key x.key key = false) :
    DissocEntries eq_key key (xs ++ (es ++ ys)) (xs ++ (es1 ++ ys)) r := by
  rcases h with ⟨hr, hn⟩ | ⟨hr, c, hk, hp, hn⟩
  · refine Or.inl ⟨hr, ?_⟩
    intro x hxm
    simp only [List.mem_append] at hxm
    rcases hxm with h1 | h1 | h1
    · exact hx x h1
    · exact hn x h1
    · exact hy x h1
  · refine Or.inr ⟨hr, c, hk, perm_frame hp xs ys, ?_⟩
    intro x hxm
    simp only [List.mem_append] at hxm
    rcases hxm with h1 | h1 | h1
    · exact hx x h1
    · exact hn x h1
    · exact hy x h1

/-- The entries left by `node_dissoc`, by its result. -/
theorem node_dissoc_entries {hashf : Nat → Nat} {eq_key : Nat → Nat → Bool}
    (ops : KeyOps hashf eq_key) (key : Nat) {level p : Nat} {n : Node}
    (hwf : WF hashf eq_key level p n) :
    agree level (hashf key % 2 ^ HASH_BITS) p →
    ∀ (n1 : Option Node) (r : Nat),
      node_dissoc eq_key key (hashf key % 2 ^ HASH_BITS) n level = some (n1, r) →
      DissocEntries eq_key key (node_entries n) (entries_opt n1) r := by
  induction hwf with
  | leaf hh ha =>
    rename_i level p k0 v0 h0
    intro _ n1 r h
    rw [node_dissoc] at h
    unfold leaf_dissoc at h
    by_cases hk0 : eq_key k0 key = true
    · rw [if_pos hk0] at h
      simp only [Option.some.injEq, Prod.mk.injEq] at h
      rw [← h.1, ← h.2]
      exact Or.inr ⟨rfl, { key := k0, val := v0, hash := h0 }, hk0, List.Perm.refl _,
        fun x hx => by cases hx⟩
    · rw [if_neg hk0] at h
      simp only [Option.some.injEq, Prod.mk.injEq] at h
      rw [← h.2]
      refine Or.inl ⟨rfl, ?_⟩
      intro x hx
      simp only [node_entries, List.mem_singleton] at hx
      rw [hx]
      simpa using hk0
  | hash_collision hc hp =>
    rename_i level p cells
    intro _ n1 r h
    rw [node_dissoc] at h
    simp only [Option.some.injEq] at h
    have h1 := hash_collision_dissoc_entries ops key hp
    rw [h] at h1
    exact h1
  | bitmap_indexed hl hb hlen hch ih =>
    rename_i level p bitmap cs
    intro hpath n1 r h
    have hwfn : WF hashf eq_key level (hashf key % 2 ^ HASH_BITS) (.bitmap_indexed bitmap cs) :=
      wf_agree (WF.bitmap_indexed hl hb hlen hch) _ (agree_symm hpath)
    have hs := mask_lt (hashf key % 2 ^ HASH_BITS) level
    rw [node_dissoc] at h
    simp only [bitpos_eq, bit_index_eq_rank _ (Nat.le_of_lt hs), child_dissoc_eq] at h
    by_cases hbit : bitmap.testBit (mask (hashf key % 2 ^ HASH_BITS) level) = true
    · rw [if_pos ((and_two_pow_ne_zero _ _).mpr hbit)] at h
      obtain ⟨c, hc⟩ := wf_child_exists hlen hs hbit
      rw [hc] at h
      simp only at h
      have hx : ∀ x ∈ children_entries (cs.take (rank bitmap
          (mask (hashf key % 2 ^ HASH_BITS) level))), eq_key x.key key = false := by
        intro x hxm
        obtain ⟨i, child, hi, hci, hxc⟩ := mem_entries_take hxm
        exact wf_off_path ops hwfn key hci (fun _ => Nat.ne_of_lt hi) hxc
      have hy : ∀ x ∈ children_entries (cs.drop (rank bitmap
          (mask (hashf key % 2 ^ HASH_BITS) level) + 1)), eq_key x.key key = false := by
        intro x hxm
        obtain ⟨i, child, hi, hci, hxc⟩ := mem_entries_drop hxm
        exact wf_off_path ops hwfn key hci (fun _ => Nat.ne_of_gt hi) hxc
      cases hn : node_dissoc eq_key key (hashf key % 2 ^ HASH_BITS) c (level + 1) with
      | none =>
        rw [hn] at h
        cases h
      | some res =>
        obtain ⟨c1, r1⟩ := res
        rw [hn] at h
        simp only at h
        have hchild := ih _ hs hbit c hc _ hpath rfl (agree_refl _ _) c1 r1 hn
        have hframe := dissocEntries_frame hchild hx hy
        rw [← entries_split hc] at hframe
        have htake : cs.take (popcount bitmap) = cs := by
          rw [← hlen]
          exact List.take_length cs
        by_cases hr : r1 = UNCHANGED
        · have hnr : ¬ r1 ≠ UNCHANGED := fun h => h hr
          rw [if_neg hnr] at h
          simp only [Option.some.injEq, Prod.mk.injEq] at h
          rw [← h.2]
          rcases hframe with ⟨_, hnone⟩ | ⟨hu, _⟩
          · exact Or.inl ⟨hr, hnone⟩
          · rw [hr] at hu
            cases hu
        · rw [if_pos hr] at h
          cases c1 with
          | some d =>
            simp only [Option.some.injEq, Prod.mk.injEq] at h
            rw [htake] at h
            rw [← h.1, ← h.2]
            simp only [entries_opt] at hframe ⊢
            simp only [node_entries]
            rw [entries_set hc]
            exact hframe
          | none =>
            have hdrop : (cs.drop (rank bitmap (mask (hashf key % 2 ^ HASH_BITS) level) + 1)).take
                (popcount (bitmap &&& ((2 ^ HASH_BITS - 1) ^^^
                  2 ^ mask (hashf key % 2 ^ HASH_BITS) level)) -
                  rank bitmap (mask (hashf key % 2 ^ HASH_BITS) level)) =
                cs.drop (rank bitmap (mask (hashf key % 2 ^ HASH_BITS) level) + 1) := by
              apply List.take_of_length_le
              have hrk := rank_clear bitmap _ hb hbit 32
              rw [if_pos hs] at hrk
              rw [List.length_drop, hlen, popcount_eq_rank, popcount_eq_rank, ← hrk]
              omega
            simp only [entries_opt] at hframe
            by_cases hz : bitmap &&& ((2 ^ HASH_BITS - 1) ^^^
                2 ^ mask (hashf key % 2 ^ HASH_BITS) level) = 0
            · simp only [hz, if_true, Option.some.injEq, Prod.mk.injEq] at h
              rw [← h.1, ← h.2]
              -- the node had one child only
              have hlen1 : cs.length = 1 := by
                have hrk := rank_clear bitmap _ hb hbit 32
                rw [if_pos hs, hz] at hrk
                rw [hlen, popcount_eq_rank, ← hrk, rank_zero_bitmap]
              have hidx0 : rank bitmap (mask (hashf key % 2 ^ HASH_BITS) level) = 0 := by
                have := (List.getElem?_eq_some_iff.mp hc).1
                omega
              rw [hidx0] at hframe
              have hd : cs.drop (0 + 1) = [] := List.drop_of_length_le (by omega)
              rw [hd] at hframe
              simpa [entries_opt, children_entries] using hframe
            · simp only [hz, if_false, hdrop, Option.some.injEq, Prod.mk.injEq] at h
              rw [← h.1, ← h.2]
              simp only [entries_opt, node_entries]
              rw [entries_remove hc]
              exact hframe
    · rw [if_neg (fun h => hbit ((and_two_pow_ne_zero _ _).mp h))] at h
      simp only [Option.some.injEq, Prod.mk.injEq] at h
      rw [← h.2]
      refine Or.inl ⟨rfl, ?_⟩
      intro x hxm
      simp only [node_entries] at hxm
      obtain ⟨i, child, hci, hxc⟩ := mem_children_entries hxm
      exact wf_off_path ops hwfn key hci (fun hb1 => absurd hb1 hbit) hxc

end PHashmap

namespace PHashmap

/-! ### Entries and count of a map -/

/-- The entries and the count of the map that `hashmap_assoc` returns. -/
theorem hashmap_assoc_entries {hashf : Nat → Nat} {eq_key eq_val : Nat → Nat → Bool}
    (ops : KeyOps hashf eq_key) {map map1 : Hashmap} (hm : MapWF hashf eq_key eq_val map)
    {key val fuel : Nat} (h : hashmap_assoc fuel map key val = some map1) :
    ∃ r, AssocEntries eq_key eq_val key val (hashf key % 2 ^ HASH_BITS) (hashmap_entries map)
        (hashmap_entries map1) r ∧
      map1.count = map.count + (if r = ADDED then 1 else 0) ∧ (r = UNCHANGED → map1 = map) := by
  obtain ⟨hh, hk, hv, hroot⟩ := hm
  unfold hashmap_assoc at h
  cases hr : map.root with
  | none =>
    rw [hr] at h
    simp only [ADDED, UNCHANGED, ne_eq, one_ne_zero, not_false_eq_true, if_true,
      Option.some.injEq] at h
    refine ⟨ADDED, Or.inr (Or.inr ⟨rfl, ?_, ?_⟩), ?_, fun h => absurd h (by decide)⟩
    · intro x hx
      simp only [hashmap_entries, hr, entries_opt] at hx
      cases hx
    · rw [← h]
      simp only [hashmap_entries, hr, entries_opt, node_entries, Hashmap.hash_of, hh]
      exact List.Perm.refl _
    · rw [← h]
      simp
  | some root =>
    rw [hr] at h
    simp only at h
    have hwf := wf_level_zero (hroot root hr) (hashf key % 2 ^ HASH_BITS)
    cases hn : node_assoc key val (map.hash_of key) map.eq_key map.eq_val fuel root 0 with
    | none =>
      rw [hn] at h
      cases h
    | some res =>
      obtain ⟨n1, r⟩ := res
      rw [hn] at h
      simp only at h
      simp only [Hashmap.hash_of, hh, hk, hv] at hn
      have he := node_assoc_entries ops eq_val key val fuel 0 root hwf n1 r hn
      by_cases hru : r = UNCHANGED
      · have hnr : ¬ r ≠ UNCHANGED := fun h => h hru
        rw [if_neg hnr] at h
        simp only [Option.some.injEq] at h
        refine ⟨r, ?_, ?_, fun _ => h.symm⟩
        · rw [← h]
          simp only [hashmap_entries, hr, entries_opt]
          rcases he with ⟨_, _, c0, hc0, hk0, hv0⟩ | ⟨hu, _⟩ | ⟨hu, _⟩
          · exact Or.inl ⟨hru, rfl, c0, hc0, hk0, hv0⟩
          · rw [hru] at hu
            cases hu
          · rw [hru] at hu
            cases hu
        · rw [← h, hru]
          simp [UNCHANGED, ADDED]
      · rw [if_pos hru] at h
        simp only [Option.some.injEq] at h
        refine ⟨r, ?_, ?_, fun h => absurd h hru⟩
        · rw [← h]
          simp only [hashmap_entries, hr, entries_opt]
          exact he
        · rw [← h]

/-- The entries and the count of the map that `hashmap_dissoc` returns. -/
theorem hashmap_dissoc_entries {hashf : Nat → Nat} {eq_key eq_val : Nat → Nat → Bool}
    (ops : KeyOps hashf eq_key) {map map1 : Hashmap} (hm : MapWF hashf eq_key eq_val map)
    {key : Nat} (h : hashmap_dissoc map key = some map1) :
    ∃ r, DissocEntries eq_key key (hashmap_entries map)
        (if r = UNCHANGED then hashmap_entries map else hashmap_entries map1) r ∧
      map1.count = map.count - (if r = REMOVED then 1 else 0) ∧ (r = UNCHANGED → map1 = map) := by
  obtain ⟨hh, hk, hv, hroot⟩ := hm
  unfold hashmap_dissoc at h
  cases hr : map.root with
  | none =>
    rw [hr] at h
    simp only [Option.some.injEq] at h
    refine ⟨UNCHANGED, Or.inl ⟨rfl, ?_⟩, ?_, fun _ => h.symm⟩
    · intro x hx
      simp only [hashmap_entries, hr, entries_opt] at hx
      cases hx
    · rw [← h]
      simp [UNCHANGED, REMOVED]
  | some root =>
    rw [hr] at h
    simp only at h
    have hwf := hroot root hr
    cases hn : node_dissoc map.eq_key key (map.hash_of key) root 0 with
    | none =>
      rw [hn] at h
      cases h
    | some res =>
      obtain ⟨n1, r⟩ := res
      rw [hn] at h
      simp only at h
      simp only [Hashmap.hash_of, hh, hk] at hn
      have he := node_dissoc_entries ops key hwf (fun _ hj => absurd hj (Nat.not_lt_zero _))
        n1 r hn
      by_cases hru : r = UNCHANGED
      · have hnr : ¬ r ≠ UNCHANGED := fun h => h hru
        rw [if_neg hnr] at h
        simp only [Option.some.injEq] at h
        refine ⟨r, ?_, ?_, fun _ => h.symm⟩
        · rw [if_pos hru]
          simp only [hashmap_entries, hr, entries_opt]
          rcases he with ⟨_, hnone⟩ | ⟨hu, _⟩
          · exact Or.inl ⟨hru, hnone⟩
          · rw [hru] at hu
            cases hu
        · rw [← h, hru]
          simp [UNCHANGED, REMOVED]
      · rw [if_pos hru] at h
        simp only [Option.some.injEq] at h
        refine ⟨r, ?_, ?_, fun h => absurd h hru⟩
        · rw [if_neg hru, ← h]
          simp only [hashmap_entries, hr]
          exact he
        · rw [← h]

/-- After `hashmap_dissoc` every entry is an entry of the input map, and none
has the removed key. -/
theorem hashmap_dissoc_sub {hashf : Nat → Nat} {eq_key eq_val : Nat → Nat → Bool}
    (ops : KeyOps hashf eq_key) {map map1 : Hashmap} (hm : MapWF hashf eq_key eq_val map)
    {key : Nat} (h : hashmap_dissoc map key = some map1) :
    ∀ c ∈ hashmap_entries map1, c ∈ hashmap_entries map ∧ eq_key c.key key = false := by
  obtain ⟨r, he, _, hun⟩ := hashmap_dissoc_entries ops hm h
  rcases he with ⟨hr, hnone⟩ | ⟨hr, c0, _, hp, hn⟩
  · rw [hun hr]
    exact fun c hc => ⟨hc, hnone c hc⟩
  · have hne : ¬ r = UNCHANGED := by
      rw [hr]
      decide
    rw [if_neg hne] at hp hn
    exact fun c hc => ⟨hp.mem_iff.mpr (List.mem_cons_of_mem _ hc), hn c hc⟩

/-- In every map built through the API the count field is the number of
entries. -/
theorem reach_count {hashf : Nat → Nat} {eq_key eq_val : Nat → Nat → Bool}
    (ops : KeyOps hashf eq_key) {map : Hashmap} (hr : Reach hashf eq_key eq_val map) :
    CountOK map := by
  induction hr with
  | make str => rfl
  | assoc fuel key val hprev h ih =>
    obtain ⟨r, he, hc, hun⟩ := hashmap_assoc_entries ops (reach_wf ops hprev) h
    unfold CountOK at ih ⊢
    rcases he with ⟨hr, _, _⟩ | ⟨hr, c, rest, _, _, hp, hp1, _⟩ | ⟨hr, _, hp⟩
    · rw [hun hr]
      exact ih
    · rw [hc, ih, hp1.length_eq, hp.length_eq, hr]
      simp [UPDATED, ADDED]
    · rw [hc, ih, hp.length_eq, hr]
      simp
  | dissoc key hprev h ih =>
    obtain ⟨r, he, hc, hun⟩ := hashmap_dissoc_entries ops (reach_wf ops hprev) h
    unfold CountOK at ih ⊢
    rcases he with ⟨hr, _⟩ | ⟨hr, c, _, hp, _⟩
    · rw [hun hr]
      exact ih
    · have hne : ¬ r = UNCHANGED := by
        rw [hr]
        decide
      rw [if_neg hne] at hp
      rw [hc, ih, hp.length_eq, hr]
      simp

end PHashmap

namespace PHashmap

/-- The result of `hashmap_assoc`, read off the entries of the input map. -/
theorem hashmap_assoc_cases {hashf : Nat → Nat} {eq_key eq_val : Nat → Nat → Bool}
    (ops : KeyOps hashf eq_key) {map map1 : Hashmap} (hm : MapWF hashf eq_key eq_val map)
    {key val fuel : Nat} (h : hashmap_assoc fuel map key val = some map1) :
    (has_key map key → map1.count = map.count) ∧
      (¬ has_key map key → map1.count = map.count + 1) ∧
      ((∃ c ∈ hashmap_entries map, eq_key c.key key = true ∧ eq_val c.val val = true) →
        map1 = map) := by
  obtain ⟨r, he, hc, hun⟩ := hashmap_assoc_entries ops hm h
  have hk := hm.eq_key_eq
  unfold has_key
  rw [hk]
  rcases he with ⟨hr, _, c, hcm, hck, _⟩ | ⟨hr, c, rest, hck, hcv, hp, _, hrest⟩ | ⟨hr, hn, _⟩
  · refine ⟨fun _ => by rw [hun hr], fun hno => absurd ⟨c, hcm, hck⟩ hno, fun _ => hun hr⟩
  · have hcm : c ∈ hashmap_entries map := hp.mem_iff.mpr (List.mem_cons_self _ _)
    refine ⟨fun _ => ?_, fun hno => absurd ⟨c, hcm, hck⟩ hno, ?_⟩
    · rw [hc, hr]
      simp [UPDATED, ADDED]
    · rintro ⟨x, hxm, hxk, hxv⟩
      exfalso
      rcases List.mem_cons.mp (hp.mem_iff.mp hxm) with h1 | h1
      · rw [h1, hcv] at hxv
        cases hxv
      · rw [hrest x h1] at hxk
        cases hxk
  · refine ⟨?_, fun _ => ?_, ?_⟩
    · rintro ⟨x, hxm, hxk⟩
      rw [hn x hxm] at hxk
      cases hxk
    · rw [hc, hr]
      simp
    · rintro ⟨x, hxm, hxk, _⟩
      rw [hn x hxm] at hxk
      cases hxk

/-- The result of `hashmap_dissoc`, read off the entries of the input map. -/
theorem hashmap_dissoc_cases {hashf : Nat → Nat} {eq_key eq_val : Nat → Nat → Bool}
    (ops : KeyOps hashf eq_key) {map map1 : Hashmap} (hm : MapWF hashf eq_key eq_val map)
    {key : Nat} (h : hashmap_dissoc map key = some map1) :
    (has_key map key → map1.count = map.count - 1) ∧ (¬ has_key map key → map1 = map) := by
  obtain ⟨r, he, hc, hun⟩ := hashmap_dissoc_entries ops hm h
  have hk := hm.eq_key_eq
  unfold has_key
  rw [hk]
  rcases he with ⟨hr, hn⟩ | ⟨hr, c, hck, hp, _⟩
  · refine ⟨?_, fun _ => hun hr⟩
    rintro ⟨x, hxm, hxk⟩
    rw [hn x hxm] at hxk
    cases hxk
  · have hcm : c ∈ hashmap_entries map := hp.mem_iff.mpr (List.mem_cons_self _ _)
    refine ⟨fun _ => ?_, fun hno => absurd ⟨c, hcm, hck⟩ hno⟩
    rw [hc, hr]
    simp

/-- Removing a list of keys that covers every entry leaves a map with count 0. -/
theorem hashmap_dissoc_all {hashf : Nat → Nat} {eq_key eq_val : Nat → Nat → Bool}
    (ops : KeyOps hashf eq_key) (fuel : Nat) :
    ∀ (ks : List Nat) (map : Hashmap), Reach hashf eq_key eq_val map →
      (∀ c ∈ hashmap_entries map, ∃ k ∈ ks, eq_key c.key k = true) →
      ∃ map1, run fuel (ks.map Op.dissoc) map = some map1 ∧ hashmap_count map1 = 0 := by
  intro ks
  induction ks with
  | nil =>
    intro map hr hcov
    refine ⟨map, rfl, ?_⟩
    have hcnt := reach_count ops hr
    unfold CountOK at hcnt
    unfold hashmap_count
    rw [hcnt]
    cases hE : hashmap_entries map with
    | nil => rfl
    | cons c rest =>
      obtain ⟨k, hk, _⟩ := hcov c (by rw [hE]; exact List.mem_cons_self _ _)
      cases hk
  | cons k0 ks ih =>
    intro map hr hcov
    obtain ⟨map1, h1, _, _⟩ := hashmap_dissoc_spec ops (reach_wf ops hr) k0
    have hsub := hashmap_dissoc_sub ops (reach_wf ops hr) h1
    have hcov1 : ∀ c ∈ hashmap_entries map1, ∃ k ∈ ks, eq_key c.key k = true := by
      intro c hc
      obtain ⟨hcm, hne⟩ := hsub c hc
      obtain ⟨k, hk, hck⟩ := hcov c hcm
      rcases List.mem_cons.mp hk with h2 | h2
      · rw [h2, hne] at hck
        cases hck
      · exact ⟨k, h2, hck⟩
    obtain ⟨map2, h2, hz⟩ := ih map1 (Reach.dissoc k0 hr h1) hcov1
    refine ⟨map2, ?_, hz⟩
    simp only [List.map_cons, run, Op.apply, h1]
    exact h2

/-! ### The count laws -/

/-- C15: for every reachable map (key equality an equivalence relation that the
hash respects), every key and value, `hashmap_assoc` returns (given 15 or more
units of fuel) a map whose count is the count of the input map plus one if no
entry of the input map has a key equal to the given one, and the count of the
input map if one has. -/
theorem hashmap_count_assoc {hashf : Nat → Nat} {eq_key eq_val : Nat → Nat → Bool}
    (ops : KeyOps hashf eq_key) {map : Hashmap} (hr : Reach hashf eq_key eq_val map)
    (key val : Nat) {fuel : Nat} (hf : 15 ≤ fuel) :
    ∃ map1, hashmap_assoc fuel map key val = some map1 ∧
      (¬ has_key map key → hashmap_count map1 = hashmap_count map + 1) ∧
      (has_key map key → hashmap_count map1 = hashmap_count map) := by
  obtain ⟨map1, h1, _, _⟩ := hashmap_assoc_spec ops (reach_wf ops hr) key val hf
  obtain ⟨hin, hout, _⟩ := hashmap_assoc_cases ops (reach_wf ops hr) h1
  exact ⟨map1, h1, hout, hin⟩

/-- C15 on the map built by `mod4_ops` (count 6) and the new key 17, which
joins a collision chain. -/
theorem hashmap_count_assoc_witness :
    KeyOps (fun k => k % 4) (fun a b => a == b) ∧ 15 ≤ 15 ∧
      ∃ map, run 15 mod4_ops mod4_map = some map ∧
        Reach (fun k => k % 4) (fun a b => a == b) (fun a b => a == b) map ∧
        ∃ map1, hashmap_assoc 15 map 17 170 = some map1 ∧
          (¬ has_key map 17 → hashmap_count map1 = hashmap_count map + 1) ∧
          (has_key map 17 → hashmap_count map1 = hashmap_count map) := by
  have hc : returns (run 15 mod4_ops mod4_map) (fun _ => true) = true := by decide!
  obtain ⟨map, hm, _⟩ := exists_of_returns hc
  exact ⟨mod4_keyOps, Nat.le_refl 15, map, hm, mod4_reach hm,
    hashmap_count_assoc mod4_keyOps (mod4_reach hm) 17 170 (Nat.le_refl 15)⟩

/-- C16: for every reachable map (key equality an equivalence relation that the
hash respects) and every key, `hashmap_dissoc` returns a map whose count is the
count of the input map minus one if an entry of the input map has a key equal
to the given one, and the count of the input map otherwise; and removing, in
the order of any list, keys that cover every entry of the map leaves a map
with count 0. -/
theorem hashmap_count_dissoc {hashf : Nat → Nat} {eq_key eq_val : Nat → Nat → Bool}
    (ops : KeyOps hashf eq_key) {map : Hashmap} (hr : Reach hashf eq_key eq_val map)
    (key : Nat) :
    (∃ map1, hashmap_dissoc map key = some map1 ∧
      (has_key map key → hashmap_count map1 = hashmap_count map - 1) ∧
      (¬ has_key map key → hashmap_count map1 = hashmap_count map)) ∧
    ∀ (ks : List Nat) (fuel : Nat),
      (∀ c ∈ hashmap_entries map, ∃ k ∈ ks, eq_key c.key k = true) →
      ∃ map1, run fuel (ks.map Op.dissoc) map = some map1 ∧ hashmap_count map1 = 0 := by
  constructor
  · obtain ⟨map1, h1, _, _⟩ := hashmap_dissoc_spec ops (reach_wf ops hr) key
    obtain ⟨hin, hout⟩ := hashmap_dissoc_cases ops (reach_wf ops hr) h1
    exact ⟨map1, h1, hin, fun hno => by rw [hout hno]⟩
  · intro ks fuel hcov
    exact hashmap_dissoc_all ops fuel ks map hr hcov

/-- C16 on the map built by `mod4_ops` and the key 13, which sits in the middle
of a collision chain. -/
theorem hashmap_count_dissoc_witness :
    KeyOps (fun k => k % 4) (fun a b => a == b) ∧
      ∃ map, run 15 mod4_ops mod4_map = some map ∧
        Reach (fun k => k % 4) (fun a b => a == b) (fun a b => a == b) map ∧
        (∃ map1, hashmap_dissoc map 13 = some map1 ∧
          (has_key map 13 → hashmap_count map1 = hashmap_count map - 1) ∧
          (¬ has_key map 13 → hashmap_count map1 = hashmap_count map)) ∧
        ∀ (ks : List Nat) (fuel : Nat),
          (∀ c ∈ hashmap_entries map, ∃ k ∈ ks, (fun a b : Nat => a == b) c.key k = true) →
          ∃ map1, run fuel (ks.map Op.dissoc) map = some map1 ∧ hashmap_count map1 = 0 := by
  have hc : returns (run 15 mod4_ops mod4_map) (fun _ => true) = true := by decide!
  obtain ⟨map, hm, _⟩ := exists_of_returns hc
  exact ⟨mod4_keyOps, map, hm, mod4_reach hm,
    hashmap_count_dissoc mod4_keyOps (mod4_reach hm) 13⟩

end PHashmap

namespace PHashmapMem

open PHashmap (NULL UNCHANGED ADDED UPDATED REMOVED HASH_BITS popcount mask bitpos bit_index)

/-! ### Heaps -/

theorem alloc_mem (h : Heap) (o : Obj) (a : Nat) :
    (alloc h o).1.mem a = if a = h.next then some o else h.mem a := rfl

theorem alloc_next (h : Heap) (o : Obj) : (alloc h o).1.next = h.next + 1 := rfl

theorem alloc_snd (h : Heap) (o : Obj) : (alloc h o).2 = h.next := rfl

theorem write_mem (h : Heap) (p : Nat) (o : Obj) (a : Nat) :
    (write h p o).mem a = if a = p then some o else h.mem a := rfl

theorem write_next (h : Heap) (p : Nat) (o : Obj) : (write h p o).next = h.next := rfl

theorem mem_heapOK_empty : HeapOK Heap.empty :=
  ⟨rfl, Nat.lt_succ_self 0, fun _ _ => rfl⟩

theorem mem_lt_next {h : Heap} (ok : HeapOK h) {p : Nat} {o : Obj} (hp : h.mem p = some o) :
    p < h.next := by
  by_contra hge
  rw [ok.2.2 p (Nat.le_of_not_lt hge)] at hp
  cases hp

theorem mem_ne_null {h : Heap} (ok : HeapOK h) {p : Nat} {o : Obj} (hp : h.mem p = some o) :
    p ≠ NULL := by
  intro he
  rw [he, ok.1] at hp
  cases hp

theorem heapOK_alloc {h : Heap} (ok : HeapOK h) (o : Obj) : HeapOK (alloc h o).1 := by
  refine ⟨?_, ?_, ?_⟩
  · rw [alloc_mem, if_neg (by have := ok.2.1; unfold NULL; omega)]
    exact ok.1
  · rw [alloc_next]
    omega
  · intro a ha
    rw [alloc_next] at ha
    rw [alloc_mem, if_neg (by omega)]
    exact ok.2.2 a (by omega)

theorem heapOK_write {h : Heap} (ok : HeapOK h) {p : Nat} {o0 : Obj} (hp : h.mem p = some o0)
    (o : Obj) : HeapOK (write h p o) := by
  have hlt := mem_lt_next ok hp
  have hne := mem_ne_null ok hp
  refine ⟨?_, ok.2.1, ?_⟩
  · rw [write_mem, if_neg (fun e => hne e.symm)]
    exact ok.1
  · intro a ha
    rw [write_next] at ha
    rw [write_mem, if_neg (by omega)]
    exact ok.2.2 a ha

theorem frame_refl (h : Heap) : Frame h h := ⟨Nat.le_refl _, fun _ _ => rfl⟩

theorem frame_trans {h h1 h2 : Heap} (a : Frame h h1) (b : Frame h1 h2) : Frame h h2 :=
  ⟨Nat.le_trans a.1 b.1, fun x hx => (b.2 x (Nat.lt_of_lt_of_le hx a.1)).trans (a.2 x hx)⟩

theorem frame_alloc (h : Heap) (o : Obj) : Frame h (alloc h o).1 := by
  refine ⟨Nat.le_succ _, fun a ha => ?_⟩
  rw [alloc_mem, if_neg (by omega)]

/-- A write to a block allocated after `h0` keeps the frame of `h0`. -/
theorem frame_write {h0 h : Heap} (f : Frame h0 h) {p : Nat} (hp : h0.next ≤ p) (o : Obj) :
    Frame h0 (write h p o) := by
  refine ⟨f.1, fun a ha => ?_⟩
  rw [write_mem, if_neg (by omega)]
  exact f.2 a ha

theorem frame_mem {h h1 : Heap} (ok : HeapOK h) (f : Frame h h1) {a : Nat} {o : Obj}
    (ha : h.mem a = some o) : h1.mem a = some o := by
  rw [f.2 a (mem_lt_next ok ha)]
  exact ha

/-! ### Representation -/

theorem repChain_frame {h h1 : Heap} (ok : HeapOK h) (f : Frame h h1) :
    ∀ (cells : List PHashmap.Cell) (p : Nat), RepChain h p cells → RepChain h1 p cells := by
  intro cells
  induction cells with
  | nil =>
    intro p hp
    exact hp
  | cons c rest ih =>
    intro p hp
    obtain ⟨next, hm, hr⟩ := hp
    exact ⟨next, frame_mem ok f hm, ih next hr⟩

theorem rep_frame {h h1 : Heap} (ok : HeapOK h) (f : Frame h h1) {p : Nat} {n : PHashmap.Node}
    (hr : Rep h p n) : Rep h1 p n := by
  induction hr with
  | leaf hm => exact Rep.leaf (frame_mem ok f hm)
  | hash_collision hne hc => exact Rep.hash_collision hne (repChain_frame ok f _ _ hc)
  | bitmap_indexed hm ha hlen hrep ih =>
    exact Rep.bitmap_indexed (frame_mem ok f hm) (frame_mem ok f ha) hlen ih

theorem repOpt_frame {h h1 : Heap} (ok : HeapOK h) (f : Frame h h1) {p : Nat}
    {n : Option PHashmap.Node} (hr : RepOpt h p n) : RepOpt h1 p n := by
  cases n with
  | none => exact hr
  | some n => exact rep_frame ok f hr

theorem repMap_frame {h h1 : Heap} (ok : HeapOK h) (f : Frame h h1) {m : Nat}
    {map : PHashmap.Hashmap} (hr : RepMap h m map) : RepMap h1 m map := by
  obtain ⟨root, hm, hroot⟩ := hr
  exact ⟨root, frame_mem ok f hm, repOpt_frame ok f hroot⟩

/-- The address of a node is allocated. -/
theorem rep_mem {h : Heap} {p : Nat} {n : PHashmap.Node} (hr : Rep h p n) :
    ∃ o, h.mem p = some o := by
  cases hr with
  | leaf hm => exact ⟨_, hm⟩
  | hash_collision hne hc =>
    rename_i cells
    cases cells with
    | nil => exact absurd rfl hne
    | cons c rest =>
      obtain ⟨next, hm, _⟩ := hc
      exact ⟨_, hm⟩
  | bitmap_indexed hm _ _ _ => exact ⟨_, hm⟩

/-! ### Child arrays -/

theorem copy_slots_length (d : List Nat) (doff : Nat) (s : List Nat) (soff n : Nat) :
    (copy_slots d doff s soff n).length = d.length := by
  unfold copy_slots
  rw [List.length_map, List.length_range]

theorem copy_slots_getElem? (d : List Nat) (doff : Nat) (s : List Nat) (soff n j : Nat) :
    (copy_slots d doff s soff n)[j]? =
      if j < d.length then
        some (if doff ≤ j ∧ j - doff < n then s.getD (soff + (j - doff)) (d.getD j NULL)
          else d.getD j NULL)
      else none := by
  unfold copy_slots
  rw [List.getElem?_map]
  by_cases hj : j < d.length
  · rw [List.getElem?_range hj, if_pos hj]
    rfl
  · rw [if_neg hj, List.getElem?_eq_none (by rw [List.length_range]; omega)]
    rfl

end PHashmapMem

namespace PHashmapMem

open PHashmap (NULL UNCHANGED ADDED UPDATED REMOVED HASH_BITS popcount mask bitpos bit_index)

theorem slots_getElem?_insert (cs : List Nat) (x : Nat) {idx : Nat} (h : idx ≤ cs.length)
    (j : Nat) :
    (cs.take idx ++ x :: cs.drop idx)[j]? =
      if j < idx then cs[j]? else if j = idx then some x else cs[j - 1]? := by
  have hl : (cs.take idx).length = idx := by
    rw [List.length_take]
    omega
  by_cases h1 : j < idx
  · rw [if_pos h1, List.getElem?_append_left (by omega), List.getElem?_take_of_lt h1]
  · rw [if_neg h1, List.getElem?_append_right (by omega), hl]
    by_cases h2 : j = idx
    · subst h2
      simp
    · rw [if_neg h2]
      have h3 : j - idx = (j - idx - 1) + 1 := by omega
      rw [h3, List.getElem?_cons_succ, List.getElem?_drop]
      congr 1
      omega

theorem slots_getElem?_remove (cs : List Nat) (idx j : Nat) :
    (cs.take idx ++ cs.drop (idx + 1))[j]? = if j < idx then cs[j]? else cs[j + 1]? := by
  rw [← List.eraseIdx_eq_take_drop_succ, List.getElem?_eraseIdx]

theorem getD_replicate_null (n j : Nat) : (List.replicate n NULL).getD j NULL = NULL := by
  rw [List.getD_eq_getElem?_getD, List.getElem?_replicate]
  by_cases h : j < n
  · simp [h]
  · simp [h]

theorem getD_of_lt (s : List Nat) {j : Nat} (h : j < s.length) (d : Nat) :
    s.getD j d = s[j] := by
  rw [List.getD_eq_getElem?_getD, List.getElem?_eq_getElem h]
  rfl

/-- Copying a whole array into a fresh one of the same length. -/
theorem copy_slots_full (s : List Nat) :
    copy_slots (List.replicate s.length NULL) 0 s 0 s.length = s := by
  apply List.ext_getElem?
  intro j
  rw [copy_slots_getElem?, List.length_replicate]
  by_cases hj : j < s.length
  · rw [if_pos hj, if_pos ⟨Nat.zero_le _, by omega⟩, Nat.zero_add, Nat.sub_zero, getD_of_lt s hj,
      List.getElem?_eq_getElem hj]
  · rw [if_neg hj, List.getElem?_eq_none (by omega)]

/-- The two copies and the assignment with which `bitmap_indexed_assoc`
fills the array of a node with one more child. -/
theorem copy_slots_insert (s : List Nat) {idx : Nat} (hidx : idx ≤ s.length) (n x : Nat)
    (hn : s.length - idx ≤ n) :
    (copy_slots (copy_slots (List.replicate (s.length + 1) NULL) 0 s 0 idx) (idx + 1) s idx
      n).set idx x = s.take idx ++ x :: s.drop idx := by
  apply List.ext_getElem?
  intro j
  rw [slots_getElem?_insert s x hidx, List.getElem?_set, copy_slots_length, copy_slots_length,
    List.length_replicate, copy_slots_getElem?, copy_slots_length, List.length_replicate]
  by_cases hji : idx = j
  · subst hji
    have h1 : idx < s.length + 1 := by omega
    simp [h1]
  · rw [if_neg hji]
    by_cases hlt : j < idx
    · have h1 : j < s.length + 1 := by omega
      have h2 : ¬ (idx + 1 ≤ j ∧ j - (idx + 1) < n) := by omega
      rw [if_pos h1, if_neg h2, if_pos hlt, List.getD_eq_getElem?_getD, copy_slots_getElem?,
        List.length_replicate, if_pos h1, if_pos ⟨Nat.zero_le _, by omega⟩, Nat.zero_add,
        Nat.sub_zero, getD_of_lt s (by omega : j < s.length),
        List.getElem?_eq_getElem (by omega : j < s.length)]
      rfl
    · have h0 : ¬ j = idx := fun e => hji e.symm
      rw [if_neg hlt, if_neg h0]
      by_cases hj : j < s.length + 1
      · have h2 : idx + 1 ≤ j ∧ j - (idx + 1) < n := by omega
        have h3 : idx + (j - (idx + 1)) = j - 1 := by omega
        rw [if_pos hj, if_pos h2, h3, getD_of_lt s (by omega : j - 1 < s.length),
          List.getElem?_eq_getElem (by omega : j - 1 < s.length)]
      · rw [if_neg hj, List.getElem?_eq_none (by omega)]

/-- The two copies with which `bitmap_indexed_dissoc` fills the array of a
node with one child fewer. -/
theorem copy_slots_remove (s : List Nat) {idx : Nat} (hidx : idx < s.length) (n : Nat)
    (hn : s.length - 1 - idx ≤ n) :
    copy_slots (copy_slots (List.replicate (s.length - 1) NULL) 0 s 0 idx) idx s (idx + 1) n =
      s.take idx ++ s.drop (idx + 1) := by
  apply List.ext_getElem?
  intro j
  rw [slots_getElem?_remove, copy_slots_getElem?, copy_slots_length, List.length_replicate]
  by_cases hj : j < s.length - 1
  · rw [if_pos hj]
    by_cases hlt : j < idx
    · have h2 : ¬ (idx ≤ j ∧ j - idx < n) := by omega
      rw [if_neg h2, if_pos hlt, List.getD_eq_getElem?_getD, copy_slots_getElem?,
        List.length_replicate, if_pos hj, if_pos ⟨Nat.zero_le _, by omega⟩, Nat.zero_add,
        Nat.sub_zero, getD_of_lt s (by omega : j < s.length),
        List.getElem?_eq_getElem (by omega : j < s.length)]
      rfl
    · have h2 : idx ≤ j ∧ j - idx < n := by omega
      have h3 : idx + 1 + (j - idx) = j + 1 := by omega
      rw [if_pos h2, if_neg hlt, h3, getD_of_lt s (by omega : j + 1 < s.length),
        List.getElem?_eq_getElem (by omega : j + 1 < s.length)]
  · rw [if_neg hj]
    by_cases hlt : j < idx
    · omega
    · rw [if_neg hlt, List.getElem?_eq_none (by omega)]

end PHashmapMem

namespace PHashmapMem

open PHashmap (NULL UNCHANGED ADDED UPDATED REMOVED HASH_BITS popcount mask bitpos bit_index)

/-! ### `get` in memory -/

theorem hash_collision_get_sim {h : Heap} (ok : HeapOK h) (eq_key : Nat → Nat → Bool)
    (key : Nat) :
    ∀ (cells : List PHashmap.Cell) (p F : Nat), RepChain h p cells → cells.length + 1 ≤ F →
      hash_collision_get eq_key key F h p =
        some (PHashmap.hash_collision_get eq_key key cells) := by
  intro cells
  induction cells with
  | nil =>
    intro p F hp hF
    obtain ⟨F1, rfl⟩ : ∃ F1, F = F1 + 1 := ⟨F - 1, by omega⟩
    have hp0 : p = NULL := hp
    rw [hash_collision_get, if_pos hp0]
    rfl
  | cons c rest ih =>
    intro p F hp hF
    obtain ⟨F1, rfl⟩ : ∃ F1, F = F1 + 1 := ⟨F - 1, by omega⟩
    obtain ⟨next, hm, hr⟩ := hp
    rw [hash_collision_get, if_neg (mem_ne_null ok hm), hm]
    simp only [PHashmap.hash_collision_get]
    by_cases hk : eq_key c.key key = true
    · rw [if_pos hk, if_pos hk]
    · rw [if_neg hk, if_neg hk]
      exact ih next F1 hr (by simp only [List.length_cons] at hF; omega)

/-- The entries below a child are entries of the node. -/
theorem entries_child_le {cs : List PHashmap.Node} {i : Nat} {c : PHashmap.Node}
    (hc : cs[i]? = some c) :
    (PHashmap.node_entries c).length ≤ (PHashmap.children_entries cs).length := by
  rw [PHashmap.entries_split hc, List.length_append, List.length_append]
  omega

/-- Looking a key up in memory gives what looking it up in the node gives. -/
theorem node_get_sim {hashf : Nat → Nat} {eq_key : Nat → Nat → Bool} {h : Heap} (ok : HeapOK h)
    (key hash : Nat) {p : Nat} {n : PHashmap.Node} (hr : Rep h p n) :
    ∀ (level q F : Nat), PHashmap.WF hashf eq_key level q n →
      PHashmap.need n level + (PHashmap.node_entries n).length + 1 ≤ F →
      node_get eq_key key hash F h p level = PHashmap.node_get eq_key key hash n level := by
  induction hr with
  | leaf hm =>
    intro level q F _ hF
    obtain ⟨F1, rfl⟩ : ∃ F1, F = F1 + 1 := ⟨F - 1, by omega⟩
    rw [node_get, hm, PHashmap.node_get]
    rfl
  | hash_collision hne hc =>
    rename_i p cells
    intro level q F _ hF
    obtain ⟨F1, rfl⟩ : ∃ F1, F = F1 + 1 := ⟨F - 1, by omega⟩
    simp only [PHashmap.need, PHashmap.node_entries] at hF
    have hsim := hash_collision_get_sim ok eq_key key cells p F1 hc (by omega)
    cases cells with
    | nil => exact absurd rfl hne
    | cons c rest =>
      obtain ⟨next, hm, _⟩ := hc
      rw [node_get, hm]
      simp only
      rw [hsim, PHashmap.node_get]
  | bitmap_indexed hm ha hlen hrep ih =>
    rename_i p bitmap a ps cs
    intro level q F hwf hF
    obtain ⟨F1, rfl⟩ : ∃ F1, F = F1 + 1 := ⟨F - 1, by omega⟩
    cases hwf with
    | bitmap_indexed hl hb hlen2 hch =>
    have hs := PHashmap.mask_lt hash level
    rw [node_get, hm, PHashmap.node_get_bitmap]
    simp only [PHashmap.bitpos_eq, PHashmap.bit_index_eq_rank _ (Nat.le_of_lt hs)]
    by_cases hbit : bitmap.testBit (mask hash level) = true
    · rw [if_pos ((PHashmap.and_two_pow_ne_zero _ _).mpr hbit), if_pos hbit]
      obtain ⟨c, hc⟩ := PHashmap.wf_child_exists hlen2 hs hbit
      have hlt : PHashmap.rank bitmap (mask hash level) < ps.length := by
        rw [hlen]
        exact (List.getElem?_eq_some_iff.mp hc).1
      have hq : ps[PHashmap.rank bitmap (mask hash level)]? =
          some ps[PHashmap.rank bitmap (mask hash level)] := List.getElem?_eq_getElem hlt
      have hgc : get_child h a (PHashmap.rank bitmap (mask hash level)) =
          some ps[PHashmap.rank bitmap (mask hash level)] := by
        rw [get_child, ha]
        exact hq
      rw [hgc, hc]
      simp only
      obtain ⟨q1, hq1, hm1⟩ := PHashmap.exists_path_hash q level hs
      have hwfc := hch _ hs hbit c hc q1 hq1 hm1
      have hneed := PHashmap.need_le c (level + 1)
      have hent := entries_child_le hc
      simp only [PHashmap.need, PHashmap.node_entries] at hF
      exact ih _ _ c hq hc (level + 1) q1 F1 hwfc (by omega)
    · rw [if_neg (fun hx => hbit ((PHashmap.and_two_pow_ne_zero _ _).mp hx)), if_neg hbit]

end PHashmapMem

namespace PHashmapMem

open PHashmap (NULL UNCHANGED ADDED UPDATED REMOVED HASH_BITS popcount mask bitpos bit_index)

/-! ### Collision chains in memory -/

theorem repSeg_frame {h h1 : Heap} (ok : HeapOK h) (f : Frame h h1) :
    ∀ (cells : List PHashmap.Cell) (p q : Nat), RepSeg h p q cells → RepSeg h1 p q cells := by
  intro cells
  induction cells with
  | nil =>
    intro p q hp
    exact hp
  | cons c rest ih =>
    intro p q hp
    obtain ⟨next, hm, hr⟩ := hp
    exact ⟨next, frame_mem ok f hm, ih next q hr⟩

/-- The first loop finds the cell that `chain_find` on the list finds. -/
theorem chain_find_sim {h : Heap} (ok : HeapOK h) (eq_key : Nat → Nat → Bool) (key : Nat) :
    ∀ (cells : List PHashmap.Cell) (p F : Nat), RepChain h p cells → cells.length + 1 ≤ F →
      ∃ node, chain_find eq_key key F h p = some node ∧
        RepSeg h p node (PHashmap.chain_find eq_key key cells).1 ∧
        RepChain h node (PHashmap.chain_find eq_key key cells).2 := by
  intro cells
  induction cells with
  | nil =>
    intro p F hp hF
    obtain ⟨F1, rfl⟩ : ∃ F1, F = F1 + 1 := ⟨F - 1, by omega⟩
    have hp0 : p = NULL := hp
    refine ⟨NULL, by rw [chain_find, if_pos hp0], ?_, rfl⟩
    exact hp0
  | cons c rest ih =>
    intro p F hp hF
    obtain ⟨F1, rfl⟩ : ∃ F1, F = F1 + 1 := ⟨F - 1, by omega⟩
    obtain ⟨next, hm, hr⟩ := hp
    rw [chain_find, if_neg (mem_ne_null ok hm), hm]
    simp only [PHashmap.chain_find]
    by_cases hk : eq_key c.key key = true
    · rw [if_pos hk, if_pos hk]
      exact ⟨p, rfl, rfl, next, hm, hr⟩
    · rw [if_neg hk, if_neg hk]
      obtain ⟨node, h1, h2, h3⟩ := ih next F1 hr (by simp only [List.length_cons] at hF; omega)
      exact ⟨node, h1, ⟨next, hm, h2⟩, h3⟩

/-- The copy loop builds, in fresh cells, the reversed prefix in front of the
chain it is given. -/
theorem chain_copy_sim {h0 : Heap} (ok0 : HeapOK h0) (eq_key : Nat → Nat → Bool) (key node : Nat)
    (hnode : node = NULL ∨ ∃ k v hs nx, h0.mem node = some (.hash_collision k v hs nx) ∧
      eq_key k key = true) :
    ∀ (pre : List PHashmap.Cell) (h : Heap) (prev curr copy F : Nat) (acc : List PHashmap.Cell),
      HeapOK h → Frame h0 h → RepSeg h0 curr node pre →
      (∀ c ∈ pre, eq_key c.key key = false) → RepChain h prev acc → pre.length + 1 ≤ F →
      ∃ h1 r, chain_copy node F h prev curr copy = some (h1, r) ∧ HeapOK h1 ∧ Frame h h1 ∧
        (pre = [] → r = copy ∧ h1 = h) ∧ (pre ≠ [] → RepChain h1 r (pre.reverse ++ acc)) := by
  intro pre
  induction pre with
  | nil =>
    intro h prev curr copy F acc ok f hseg _ _ hF
    obtain ⟨F1, rfl⟩ : ∃ F1, F = F1 + 1 := ⟨F - 1, by omega⟩
    have hc : curr = node := hseg
    exact ⟨h, copy, by rw [chain_copy, if_pos hc], ok, frame_refl h, fun _ => ⟨rfl, rfl⟩,
      fun hne => absurd rfl hne⟩
  | cons c rest ih =>
    intro h prev curr copy F acc ok f hseg hpre hacc hF
    obtain ⟨F1, rfl⟩ : ∃ F1, F = F1 + 1 := ⟨F - 1, by omega⟩
    obtain ⟨next, hm, hr⟩ := hseg
    have hck : eq_key c.key key = false := hpre c (List.mem_cons_self _ _)
    have hne : curr ≠ node := by
      intro e
      rcases hnode with hn | ⟨k, v, hs, nx, hmn, hkn⟩
      · rw [e, hn, ok0.1] at hm
        cases hm
      · rw [e, hmn] at hm
        simp only [Option.some.injEq, Obj.hash_collision.injEq] at hm
        rw [hm.1, hck] at hkn
        cases hkn
    have hm1 : h.mem curr = some (.hash_collision c.key c.val c.hash next) := frame_mem ok0 f hm
    have hfresh : (alloc h (.hash_collision c.key c.val c.hash NULL)).1.mem h.next =
        some (.hash_collision c.key c.val c.hash NULL) := by
      rw [alloc_mem, if_pos rfl]
    have hset : set_next (alloc h (.hash_collision c.key c.val c.hash NULL)).1 h.next prev =
        some (write (alloc h (.hash_collision c.key c.val c.hash NULL)).1 h.next
          (.hash_collision c.key c.val c.hash prev)) := by
      rw [set_next, hfresh]
    have oka := heapOK_alloc ok (.hash_collision c.key c.val c.hash NULL)
    have ok2 := heapOK_write oka hfresh (.hash_collision c.key c.val c.hash prev)
    have f2 : Frame h (write (alloc h (.hash_collision c.key c.val c.hash NULL)).1 h.next
        (.hash_collision c.key c.val c.hash prev)) :=
      frame_write (frame_alloc h _) (Nat.le_refl _) _
    have hacc2 : RepChain (write (alloc h (.hash_collision c.key c.val c.hash NULL)).1 h.next
        (.hash_collision c.key c.val c.hash prev)) h.next (c :: acc) :=
      ⟨prev, by rw [write_mem, if_pos rfl], repChain_frame ok f2 _ _ hacc⟩
    obtain ⟨h1, r, hrun, ok1, f1, hnil, hcons⟩ := ih _ h.next next h.next F1 (c :: acc) ok2
      (frame_trans f f2) hr (fun x hx => hpre x (List.mem_cons_of_mem _ hx)) hacc2
      (by simp only [List.length_cons] at hF; omega)
    refine ⟨h1, r, ?_, ok1, frame_trans f2 f1, fun e => (by cases e), fun _ => ?_⟩
    · rw [chain_copy, if_neg hne, hm1]
      simp only [new_hash_collision_node, alloc_snd]
      rw [hset]
      exact hrun
    · rw [List.reverse_cons, List.append_assoc, List.singleton_append]
      by_cases hrest : rest = []
      · obtain ⟨hr1, hh1⟩ := hnil hrest
        subst hrest
        rw [hr1, hh1]
        exact hacc2
      · exact hcons hrest

end PHashmapMem

namespace PHashmapMem

open PHashmap (NULL UNCHANGED ADDED UPDATED REMOVED HASH_BITS popcount mask bitpos bit_index)

/-- `hash_collision_assoc` in memory builds the chain that `hash_collision_assoc`
on the list of cells gives, in fresh cells. -/
theorem hash_collision_assoc_sim {h : Heap} (ok : HeapOK h) {p : Nat}
    {cells : List PHashmap.Cell} (hne : cells ≠ []) (hc : RepChain h p cells)
    (key val hash : Nat) (eq_key eq_val : Nat → Nat → Bool) {F : Nat}
    (hF : cells.length + 1 ≤ F) :
    ∃ h1 p1, hash_collision_assoc F h p key val hash eq_key eq_val =
        some (h1, p1, (PHashmap.hash_collision_assoc cells key val hash eq_key eq_val).2) ∧
      HeapOK h1 ∧ Frame h h1 ∧
      Rep h1 p1 (PHashmap.hash_collision_assoc cells key val hash eq_key eq_val).1 ∧
      ((PHashmap.hash_collision_assoc cells key val hash eq_key eq_val).2 = UNCHANGED →
        h1 = h ∧ p1 = p) := by
  obtain ⟨node, hfind, hseg, hsuf⟩ := chain_find_sim ok eq_key key cells p F hc hF
  obtain ⟨hsplit, hpre, hkeq⟩ := PHashmap.chain_find_spec eq_key key cells
  unfold hash_collision_assoc PHashmap.hash_collision_assoc
  rw [hfind]
  cases hfc : PHashmap.chain_find eq_key key cells with
  | mk pre suf =>
  rw [hfc] at hseg hsuf hsplit hpre hkeq
  simp only at hseg hsuf hsplit hpre hkeq
  have hfresh : ∀ nx, (alloc h (.hash_collision key val hash NULL)).1.mem h.next =
      some (.hash_collision key val hash NULL) ∧
      set_next (alloc h (.hash_collision key val hash NULL)).1 h.next nx =
        some (write (alloc h (.hash_collision key val hash NULL)).1 h.next
          (.hash_collision key val hash nx)) := by
    intro nx
    have h1 : (alloc h (.hash_collision key val hash NULL)).1.mem h.next =
        some (.hash_collision key val hash NULL) := by rw [alloc_mem, if_pos rfl]
    exact ⟨h1, by rw [set_next, h1]⟩
  have oka := heapOK_alloc ok (.hash_collision key val hash NULL)
  have ok2 : ∀ nx, HeapOK (write (alloc h (.hash_collision key val hash NULL)).1 h.next
      (.hash_collision key val hash nx)) := fun nx => heapOK_write oka (hfresh nx).1 _
  have f2 : ∀ nx, Frame h (write (alloc h (.hash_collision key val hash NULL)).1 h.next
      (.hash_collision key val hash nx)) :=
    fun nx => frame_write (frame_alloc h _) (Nat.le_refl _) _
  cases suf with
  | nil =>
    have hn : node = NULL := hsuf
    simp only [hn, if_true, new_hash_collision_node, alloc_snd, (hfresh p).2]
    refine ⟨_, _, rfl, ok2 p, f2 p, ?_, fun e => absurd e (by decide)⟩
    exact Rep.hash_collision (List.cons_ne_nil _ _)
      ⟨p, by rw [write_mem, if_pos rfl], repChain_frame ok (f2 p) _ _ hc⟩
  | cons c next =>
    obtain ⟨nx, hmn, hnext⟩ := hsuf
    have hck : eq_key c.key key = true := hkeq c next rfl
    have hnn : node ≠ NULL := mem_ne_null ok hmn
    simp only [if_neg hnn, hmn]
    by_cases hsame : (eq_key c.key key && eq_val c.val val) = true
    · simp only [hsame, if_true]
      exact ⟨h, p, rfl, ok, frame_refl h, Rep.hash_collision hne hc, fun _ => ⟨rfl, rfl⟩⟩
    · simp only [hsame, Bool.false_eq_true, if_false, new_hash_collision_node, alloc_snd,
        (hfresh nx).2]
      have hnew : RepChain (write (alloc h (.hash_collision key val hash NULL)).1 h.next
          (.hash_collision key val hash nx)) h.next
          (({ key := key, val := val, hash := hash } : PHashmap.Cell) :: next) :=
        ⟨nx, by rw [write_mem, if_pos rfl], repChain_frame ok (f2 nx) _ _ hnext⟩
      cases pre with
      | nil =>
        have hpn : p = node := hseg
        simp only [hpn, if_true]
        exact ⟨_, _, rfl, ok2 nx, f2 nx, Rep.hash_collision (List.cons_ne_nil _ _) hnew,
          fun e => absurd e (by decide)⟩
      | cons x rest =>
        obtain ⟨xn, hmx, hrest⟩ := hseg
        have hxk : eq_key x.key key = false := hpre x (List.mem_cons_self _ _)
        have hnp : node ≠ p := by
          intro e
          rw [e, hmx] at hmn
          simp only [Option.some.injEq, Obj.hash_collision.injEq] at hmn
          rw [hmn.1, hck] at hxk
          cases hxk
        have hlen : (x :: rest).length + 1 ≤ F := by
          have : cells.length = (x :: rest).length + (c :: next).length := by
            rw [hsplit, List.length_append]
          simp only [List.length_cons] at this ⊢
          omega
        obtain ⟨h3, r, hrun, ok3, f3, _, hcons⟩ := chain_copy_sim ok eq_key key node
          (Or.inr ⟨c.key, c.val, c.hash, nx, hmn, hck⟩) (x :: rest) _ h.next p NULL F
          (({ key := key, val := val, hash := hash } : PHashmap.Cell) :: next) (ok2 nx) (f2 nx)
          ⟨xn, hmx, hrest⟩ hpre hnew hlen
        simp only [if_neg hnp, hrun]
        refine ⟨h3, r, rfl, ok3, frame_trans (f2 nx) f3, ?_, fun e => absurd e (by decide)⟩
        have hrep := hcons (List.cons_ne_nil _ _)
        rw [PHashmap.chain_copy_eq]
        refine Rep.hash_collision ?_ hrep
        simp

end PHashmapMem

namespace PHashmapMem

open PHashmap (NULL UNCHANGED ADDED UPDATED REMOVED HASH_BITS popcount mask bitpos bit_index)

/-! ### Reads and writes that succeed -/

theorem get_bitmap_eq {h : Heap} {p b a : Nat} (hm : h.mem p = some (.bitmap_indexed b a)) :
    get_bitmap h p = some b := by
  rw [get_bitmap, hm]

theorem get_children_eq {h : Heap} {p b a : Nat} (hm : h.mem p = some (.bitmap_indexed b a)) :
    get_children h p = some a := by
  rw [get_children, hm]

theorem get_child_eq {h : Heap} {a : Nat} {ps : List Nat} (hm : h.mem a = some (.children ps))
    (i : Nat) : get_child h a i = ps[i]? := by
  rw [get_child, hm]

theorem set_bitmap_eq {h : Heap} {p b a : Nat} (hm : h.mem p = some (.bitmap_indexed b a))
    (b1 : Nat) : set_bitmap h p b1 = some (write h p (.bitmap_indexed b1 a)) := by
  rw [set_bitmap, hm]

theorem set_children_eq {h : Heap} {p b a : Nat} (hm : h.mem p = some (.bitmap_indexed b a))
    (a1 : Nat) : set_children h p a1 = some (write h p (.bitmap_indexed b a1)) := by
  rw [set_children, hm]

theorem set_child_eq {h : Heap} {a : Nat} {ps : List Nat} (hm : h.mem a = some (.children ps))
    {i : Nat} (hi : i < ps.length) (x : Nat) :
    set_child h a i x = some (write h a (.children (ps.set i x))) := by
  rw [set_child, hm]
  simp only [hi, if_true]

theorem memcpy_eq {h : Heap} {d s : Nat} {ds ss : List Nat} (hd : h.mem d = some (.children ds))
    (hs : h.mem s = some (.children ss)) (doff soff n : Nat) :
    memcpy h d doff s soff n = some (write h d (.children (copy_slots ds doff ss soff n))) := by
  rw [memcpy, hd, hs]

theorem copy_bitmap_eq {h : Heap} {p b a : Nat} (hm : h.mem p = some (.bitmap_indexed b a)) :
    copy_bitmap_indexed_node h p = some (alloc h (.bitmap_indexed b a)) := by
  rw [copy_bitmap_indexed_node, hm]

/-- A write leaves the other blocks as they are. -/
theorem write_mem_ne (h : Heap) {p a : Nat} (o : Obj) (hne : a ≠ p) :
    (write h p o).mem a = h.mem a := by
  rw [write_mem, if_neg hne]

theorem write_mem_self (h : Heap) (p : Nat) (o : Obj) : (write h p o).mem p = some o := by
  rw [write_mem, if_pos rfl]

theorem alloc_mem_self (h : Heap) (o : Obj) : (alloc h o).1.mem h.next = some o := by
  rw [alloc_mem, if_pos rfl]

theorem alloc_mem_old {h : Heap} (ok : HeapOK h) {a : Nat} {o0 : Obj} (ha : h.mem a = some o0)
    (o : Obj) : (alloc h o).1.mem a = some o0 := by
  rw [alloc_mem, if_neg (Nat.ne_of_lt (mem_lt_next ok ha))]
  exact ha

/-- The block of `bitmap_indexed_assoc` that copies a node and its child array
and replaces one child. -/
theorem replace_block_sim {h1 : Heap} (ok1 : HeapOK h1) {p b a : Nat} {ps : List Nat}
    (hm : h1.mem p = some (.bitmap_indexed b a)) (ha : h1.mem a = some (.children ps))
    (hpop : popcount b = ps.length) {idx : Nat} (hidx : idx < ps.length) (new result : Nat) :
    ∃ h6, (do
        let (h2, copy) ← copy_bitmap_indexed_node h1 p
        let b ← get_bitmap h2 p
        let nodes := popcount b
        let (h3, arr) := GC_MALLOC h2 nodes
        let h4 ← set_children h3 copy arr
        let dst ← get_children h4 copy
        let src ← get_children h4 p
        let h5 ← memcpy h4 dst 0 src 0 nodes
        let h6 ← set_child h5 dst idx new
        some (h6, copy, result) : Option (Heap × Nat × Nat)) = some (h6, h1.next, result) ∧
      HeapOK h6 ∧ Frame h1 h6 ∧ h6.mem h1.next = some (.bitmap_indexed b (h1.next + 1)) ∧
      h6.mem (h1.next + 1) = some (.children (ps.set idx new)) := by
  have hplt := mem_lt_next ok1 hm
  have halt := mem_lt_next ok1 ha
  -- the copy of the node
  have e1 := copy_bitmap_eq hm
  have ok2 := heapOK_alloc ok1 (.bitmap_indexed b a)
  have m2c : (alloc h1 (.bitmap_indexed b a)).1.mem h1.next = some (.bitmap_indexed b a) :=
    alloc_mem_self _ _
  have m2p := alloc_mem_old ok1 hm (.bitmap_indexed b a)
  have m2a := alloc_mem_old ok1 ha (.bitmap_indexed b a)
  have e2 := get_bitmap_eq m2p
  -- the fresh array
  have ok3 := heapOK_alloc ok2 (.children (List.replicate (popcount b) NULL))
  have m3r : (alloc (alloc h1 (.bitmap_indexed b a)).1
      (.children (List.replicate (popcount b) NULL))).1.mem (h1.next + 1) =
      some (.children (List.replicate (popcount b) NULL)) := alloc_mem_self _ _
  have m3c := alloc_mem_old ok2 m2c (.children (List.replicate (popcount b) NULL))
  have m3p := alloc_mem_old ok2 m2p (.children (List.replicate (popcount b) NULL))
  have m3a := alloc_mem_old ok2 m2a (.children (List.replicate (popcount b) NULL))
  have e4 := set_children_eq m3c (h1.next + 1)
  have ok4 := heapOK_write ok3 m3c (.bitmap_indexed b (h1.next + 1))
  have m4c := write_mem_self (alloc (alloc h1 (.bitmap_indexed b a)).1
    (.children (List.replicate (popcount b) NULL))).1 h1.next (.bitmap_indexed b (h1.next + 1))
  have m4r := (write_mem_ne (alloc (alloc h1 (.bitmap_indexed b a)).1
    (.children (List.replicate (popcount b) NULL))).1 (.bitmap_indexed b (h1.next + 1))
    (Nat.succ_ne_self h1.next)).trans m3r
  have m4p := (write_mem_ne (alloc (alloc h1 (.bitmap_indexed b a)).1
    (.children (List.replicate (popcount b) NULL))).1 (.bitmap_indexed b (h1.next + 1))
    (Nat.ne_of_lt hplt)).trans m3p
  have m4a := (write_mem_ne (alloc (alloc h1 (.bitmap_indexed b a)).1
    (.children (List.replicate (popcount b) NULL))).1 (.bitmap_indexed b (h1.next + 1))
    (Nat.ne_of_lt halt)).trans m3a
  have e5 := get_children_eq m4c
  have e6 := get_children_eq m4p
  have e7 := memcpy_eq m4r m4a 0 0 (popcount b)
  have ok5 := heapOK_write ok4 m4r (.children (copy_slots (List.replicate (popcount b) NULL) 0 ps 0
    (popcount b)))
  have hfull : copy_slots (List.replicate (popcount b) NULL) 0 ps 0 (popcount b) = ps := by
    rw [hpop]
    exact copy_slots_full ps
  rw [hfull] at e7 ok5
  have m5r := write_mem_self (write (alloc (alloc h1 (.bitmap_indexed b a)).1
    (.children (List.replicate (popcount b) NULL))).1 h1.next (.bitmap_indexed b (h1.next + 1)))
    (h1.next + 1) (.children ps)
  have m5c := (write_mem_ne (write (alloc (alloc h1 (.bitmap_indexed b a)).1
    (.children (List.replicate (popcount b) NULL))).1 h1.next (.bitmap_indexed b (h1.next + 1)))
    (.children ps) (Nat.succ_ne_self h1.next).symm).trans m4c
  have e8 := set_child_eq m5r hidx new
  have ok6 := heapOK_write ok5 m5r (.children (ps.set idx new))
  refine ⟨_, ?_, ok6, ?_, ?_, write_mem_self _ _ _⟩
  · simp only [e1, e2, e4, e5, e6, e7, e8, GC_MALLOC, alloc_snd, alloc_next, Option.bind_eq_bind,
      Option.some_bind]
  · exact frame_write (frame_write (frame_write (frame_trans (frame_alloc _ _) (frame_alloc _ _))
      (Nat.le_refl _) _) (Nat.le_succ _) _) (Nat.le_succ _) _
  · exact (write_mem_ne _ _ (Nat.succ_ne_self h1.next).symm).trans m5c

end PHashmapMem

namespace PHashmapMem

open PHashmap (NULL UNCHANGED ADDED UPDATED REMOVED HASH_BITS popcount mask bitpos bit_index)

/-! ### Steps of a computation in memory -/

theorem alloc_spec {h : Heap} (ok : HeapOK h) (o : Obj) :
    ∃ h1, alloc h o = (h1, h.next) ∧ HeapOK h1 ∧ h1.next = h.next + 1 ∧
      h1.mem h.next = some o ∧ ∀ x, x ≠ h.next → h1.mem x = h.mem x :=
  ⟨(alloc h o).1, rfl, heapOK_alloc ok o, rfl, alloc_mem_self h o,
    fun x hx => by rw [alloc_mem, if_neg hx]⟩

theorem write_spec {h : Heap} (ok : HeapOK h) {p : Nat} {o0 : Obj} (hm : h.mem p = some o0)
    (o : Obj) :
    HeapOK (write h p o) ∧ (write h p o).next = h.next ∧ (write h p o).mem p = some o ∧
      ∀ x, x ≠ p → (write h p o).mem x = h.mem x :=
  ⟨heapOK_write ok hm o, rfl, write_mem_self h p o, fun _ hx => write_mem_ne h o hx⟩

theorem set_bitmap_spec {h : Heap} (ok : HeapOK h) {p b a : Nat}
    (hm : h.mem p = some (.bitmap_indexed b a)) (b1 : Nat) :
    ∃ h1, set_bitmap h p b1 = some h1 ∧ HeapOK h1 ∧ h1.next = h.next ∧
      h1.mem p = some (.bitmap_indexed b1 a) ∧ ∀ x, x ≠ p → h1.mem x = h.mem x :=
  ⟨_, set_bitmap_eq hm b1, write_spec ok hm _⟩

theorem set_children_spec {h : Heap} (ok : HeapOK h) {p b a : Nat}
    (hm : h.mem p = some (.bitmap_indexed b a)) (a1 : Nat) :
    ∃ h1, set_children h p a1 = some h1 ∧ HeapOK h1 ∧ h1.next = h.next ∧
      h1.mem p = some (.bitmap_indexed b a1) ∧ ∀ x, x ≠ p → h1.mem x = h.mem x :=
  ⟨_, set_children_eq hm a1, write_spec ok hm _⟩

theorem set_child_spec {h : Heap} (ok : HeapOK h) {a : Nat} {ps : List Nat}
    (hm : h.mem a = some (.children ps)) {i : Nat} (hi : i < ps.length) (x : Nat) :
    ∃ h1, set_child h a i x = some h1 ∧ HeapOK h1 ∧ h1.next = h.next ∧
      h1.mem a = some (.children (ps.set i x)) ∧ ∀ y, y ≠ a → h1.mem y = h.mem y :=
  ⟨_, set_child_eq hm hi x, write_spec ok hm _⟩

theorem memcpy_spec {h : Heap} (ok : HeapOK h) {d s : Nat} {ds ss : List Nat}
    (hd : h.mem d = some (.children ds)) (hs : h.mem s = some (.children ss))
    (doff soff n : Nat) :
    ∃ h1, memcpy h d doff s soff n = some h1 ∧ HeapOK h1 ∧ h1.next = h.next ∧
      h1.mem d = some (.children (copy_slots ds doff ss soff n)) ∧
      ∀ y, y ≠ d → h1.mem y = h.mem y :=
  ⟨_, memcpy_eq hd hs doff soff n, write_spec ok hd _⟩

theorem set_next_spec {h : Heap} (ok : HeapOK h) {p k v hs nx : Nat}
    (hm : h.mem p = some (.hash_collision k v hs nx)) (nx1 : Nat) :
    ∃ h1, set_next h p nx1 = some h1 ∧ HeapOK h1 ∧ h1.next = h.next ∧
      h1.mem p = some (.hash_collision k v hs nx1) ∧ ∀ x, x ≠ p → h1.mem x = h.mem x := by
  refine ⟨_, ?_, write_spec ok hm _⟩
  rw [set_next, hm]

/-- A heap that differs from `h` only at addresses that `h0` has not allocated
keeps the frame of `h0`. -/
theorem frame_step {h0 h h1 : Heap} (f : Frame h0 h) (hn : h.next ≤ h1.next) {p : Nat}
    (hp : h0.next ≤ p) (hmem : ∀ x, x ≠ p → h1.mem x = h.mem x) : Frame h0 h1 :=
  ⟨Nat.le_trans f.1 hn, fun a ha => (hmem a (by omega)).trans (f.2 a ha)⟩

/-- The block of `bitmap_indexed_assoc` that copies a node and its child array
with a new leaf inserted. -/
theorem insert_block_sim {h : Heap} (ok : HeapOK h) {p b a : Nat} {ps : List Nat}
    (hm : h.mem p = some (.bitmap_indexed b a)) (ha : h.mem a = some (.children ps))
    (bit : Nat) (hpop : popcount (b ||| bit) = ps.length + 1) {idx : Nat} (hidx : idx ≤ ps.length)
    (key val hash : Nat) :
    ∃ h8, (do
        let (h1, new) ← copy_bitmap_indexed_node h p
        let b0 ← get_bitmap h1 new
        let h2 ← set_bitmap h1 new (b0 ||| bit)
        let b1 ← get_bitmap h2 new
        let nodes := popcount b1
        let (h3, arr) := GC_MALLOC h2 nodes
        let h4 ← set_children h3 new arr
        let dst ← get_children h4 new
        let src ← get_children h4 p
        let h5 ← memcpy h4 dst 0 src 0 idx
        let h6 ← memcpy h5 dst (idx + 1) src idx (nodes - idx)
        let (h7, leaf) := new_leaf_node h6 key val hash
        let h8 ← set_child h7 dst idx leaf
        some (h8, new, ADDED) : Option (Heap × Nat × Nat)) = some (h8, h.next, ADDED) ∧
      HeapOK h8 ∧ Frame h h8 ∧ h8.mem h.next = some (.bitmap_indexed (b ||| bit) (h.next + 1)) ∧
      h8.mem (h.next + 1) =
        some (.children (ps.take idx ++ (h.next + 2) :: ps.drop idx)) ∧
      h8.mem (h.next + 2) = some (.leaf key val hash) := by
  have hplt := mem_lt_next ok hm
  have halt := mem_lt_next ok ha
  obtain ⟨h1, e1, ok1, n1, m1, o1⟩ := alloc_spec ok (.bitmap_indexed b a)
  have f1 : Frame h h1 := frame_step (frame_refl h) (by omega) (Nat.le_refl _) o1
  obtain ⟨h2, e2, ok2, n2, m2, o2⟩ := set_bitmap_spec ok1 m1 (b ||| bit)
  have f2 : Frame h h2 := frame_step f1 (by omega) (Nat.le_refl _) o2
  obtain ⟨h3, e3, ok3, n3, m3, o3⟩ :=
    alloc_spec ok2 (.children (List.replicate (popcount (b ||| bit)) NULL))
  have f3 : Frame h h3 := frame_step f2 (by omega) (by omega : h.next ≤ h2.next) o3
  have m3n : h3.mem h.next = some (.bitmap_indexed (b ||| bit) a) := by
    rw [o3 _ (by omega)]
    exact m2
  obtain ⟨h4, e4, ok4, n4, m4, o4⟩ := set_children_spec ok3 m3n (h.next + 1)
  have f4 : Frame h h4 := frame_step f3 (by omega) (Nat.le_refl _) o4
  have m4p : h4.mem p = some (.bitmap_indexed b a) := frame_mem ok f4 hm
  have m4a : h4.mem a = some (.children ps) := frame_mem ok f4 ha
  have m4r : h4.mem (h.next + 1) =
      some (.children (List.replicate (popcount (b ||| bit)) NULL)) := by
    rw [o4 _ (by omega), ← n1, ← n2]
    exact m3
  obtain ⟨h5, e5, ok5, n5, m5, o5⟩ := memcpy_spec ok4 m4r m4a 0 0 idx
  have f5 : Frame h h5 := frame_step f4 (by omega) (Nat.le_succ _) o5
  have m5a : h5.mem a = some (.children ps) := frame_mem ok f5 ha
  obtain ⟨h6, e6, ok6, n6, m6, o6⟩ :=
    memcpy_spec ok5 m5 m5a (idx + 1) idx (popcount (b ||| bit) - idx)
  have f6 : Frame h h6 := frame_step f5 (by omega) (Nat.le_succ _) o6
  obtain ⟨h7, e7, ok7, n7, m7, o7⟩ := alloc_spec ok6 (.leaf key val hash)
  have f7 : Frame h h7 := frame_step f6 (by omega) (by omega : h.next ≤ h6.next) o7
  have hn6 : h6.next = h.next + 2 := by omega
  have m7r : h7.mem (h.next + 1) = some (.children (copy_slots
      (copy_slots (List.replicate (popcount (b ||| bit)) NULL) 0 ps 0 idx) (idx + 1) ps idx
      (popcount (b ||| bit) - idx))) := by
    rw [o7 _ (by omega)]
    exact m6
  have hlen : idx < (copy_slots
      (copy_slots (List.replicate (popcount (b ||| bit)) NULL) 0 ps 0 idx) (idx + 1) ps idx
      (popcount (b ||| bit) - idx)).length := by
    rw [copy_slots_length, copy_slots_length, List.length_replicate]
    omega
  obtain ⟨h8, e8, ok8, n8, m8, o8⟩ := set_child_spec ok7 m7r hlen h6.next
  have f8 : Frame h h8 := frame_step f7 (by omega) (Nat.le_succ _) o8
  have hfin : (copy_slots (copy_slots (List.replicate (popcount (b ||| bit)) NULL) 0 ps 0 idx)
      (idx + 1) ps idx (popcount (b ||| bit) - idx)).set idx h6.next =
      ps.take idx ++ (h.next + 2) :: ps.drop idx := by
    rw [hpop, hn6]
    exact copy_slots_insert ps hidx _ _ (by omega)
  rw [hfin] at m8
  refine ⟨h8, ?_, ok8, f8, ?_, m8, ?_⟩
  · have g1 : copy_bitmap_indexed_node h p = some (h1, h.next) := by
      rw [copy_bitmap_eq hm, e1]
    have g2 : get_bitmap h1 h.next = some b := get_bitmap_eq m1
    have g3 : get_bitmap h2 h.next = some (b ||| bit) := get_bitmap_eq m2
    have g4 : GC_MALLOC h2 (popcount (b ||| bit)) = (h3, h.next + 1) := by
      rw [GC_MALLOC, e3, n2, n1]
    have g5 : get_children h4 h.next = some (h.next + 1) := get_children_eq m4
    have g6 : get_children h4 p = some a := get_children_eq m4p
    have g7 : new_leaf_node h6 key val hash = (h7, h6.next) := by
      rw [new_leaf_node, e7]
    simp only [g1, g2, e2, g3, g4, e4, g5, g6, e5, e6, g7, e8, Option.bind_eq_bind,
      Option.some_bind]
  · rw [o8 _ (by omega), o7 _ (by omega), o6 _ (by omega), o5 _ (by omega)]
    exact m4
  · rw [o8 _ (by omega), ← hn6]
    exact m7

end PHashmapMem

namespace PHashmapMem

open PHashmap (NULL UNCHANGED ADDED UPDATED REMOVED HASH_BITS popcount mask bitpos bit_index)

/-! ### `leaf_assoc` in memory -/

theorem rep_children_one {h : Heap} {q : Nat} {c : PHashmap.Node} (hq : Rep h q c) :
    ∀ (i x : Nat) (d : PHashmap.Node), [q][i]? = some x → [c][i]? = some d → Rep h x d := by
  intro i x d hx hd
  cases i with
  | zero =>
    simp only [List.getElem?_cons_zero, Option.some.injEq] at hx hd
    rw [← hx, ← hd]
    exact hq
  | succ j => simp at hx

theorem rep_children_two {h : Heap} {q0 q1 : Nat} {c0 c1 : PHashmap.Node} (h0 : Rep h q0 c0)
    (h1 : Rep h q1 c1) :
    ∀ (i x : Nat) (d : PHashmap.Node), [q0, q1][i]? = some x → [c0, c1][i]? = some d →
      Rep h x d := by
  intro i x d hx hd
  cases i with
  | zero =>
    simp only [List.getElem?_cons_zero, Option.some.injEq] at hx hd
    rw [← hx, ← hd]
    exact h0
  | succ j =>
    simp only [List.getElem?_cons_succ] at hx hd
    exact rep_children_one h1 j x d hx hd

/-- `leaf_assoc` on a leaf whose hash takes another slot than the new one:
a fresh two-child node. -/
theorem leaf_split_sim {h : Heap} (ok : HeapOK h) {p k0 v0 h0 : Nat}
    (hm : h.mem p = some (.leaf k0 v0 h0)) (level key val hash : Nat)
    (eq_key eq_val : Nat → Nat → Bool)
    (assoc : Heap → Nat → Nat → Option (Heap × Nat × Nat))
    (hne : mask h0 level ≠ mask hash level) :
    ∃ h8, leaf_assoc assoc h p level key val hash eq_key eq_val = some (h8, h.next, ADDED) ∧
      HeapOK h8 ∧ Frame h h8 ∧
      Rep h8 h.next (.bitmap_indexed ((0 ||| 2 ^ mask h0 level) ||| 2 ^ mask hash level)
        (([PHashmap.Node.leaf k0 v0 h0] : List PHashmap.Node).take
            (PHashmap.rank (0 ||| 2 ^ mask h0 level) (mask hash level)) ++
          PHashmap.Node.leaf key val hash ::
          ([PHashmap.Node.leaf k0 v0 h0] : List PHashmap.Node).drop
            (PHashmap.rank (0 ||| 2 ^ mask h0 level) (mask hash level)))) := by
  have hplt := mem_lt_next ok hm
  have hhash : h0 ≠ hash := fun e => hne (by rw [e])
  have hbp : bitpos h0 level ≠ bitpos hash level := by
    rw [PHashmap.bitpos_eq, PHashmap.bitpos_eq]
    intro e
    exact hne (Nat.pow_right_injective (Nat.le_refl 2) e)
  have ha := PHashmap.mask_lt h0 level
  have hb := PHashmap.mask_lt hash level
  have hz : (0 : Nat).testBit (mask h0 level) = false := Nat.zero_testBit _
  have hab : (0 ||| 2 ^ mask h0 level).testBit (mask hash level) = false := by
    rw [PHashmap.testBit_or_two_pow, Nat.zero_testBit]
    simp [hne]
  obtain ⟨h1, e1, ok1, n1, m1, o1⟩ := alloc_spec ok (.bitmap_indexed 0 NULL)
  have f1 : Frame h h1 := frame_step (frame_refl h) (by omega) (Nat.le_refl _) o1
  obtain ⟨h2, e2, ok2, n2, m2, o2⟩ := alloc_spec ok1 (.children (List.replicate 2 NULL))
  have f2 : Frame h h2 := frame_step f1 (by omega) (by omega : h.next ≤ h1.next) o2
  have m2p : h2.mem h.next = some (.bitmap_indexed 0 NULL) := by
    rw [o2 _ (by omega)]
    exact m1
  obtain ⟨h3, e3, ok3, n3, m3, o3⟩ := set_children_spec ok2 m2p (h.next + 1)
  have f3 : Frame h h3 := frame_step f2 (by omega) (Nat.le_refl _) o3
  obtain ⟨h4, e4, ok4, n4, m4, o4⟩ := set_bitmap_spec ok3 m3 (0 ||| bitpos h0 level)
  have f4 : Frame h h4 := frame_step f3 (by omega) (Nat.le_refl _) o4
  obtain ⟨h5, e5, ok5, n5, m5, o5⟩ :=
    set_bitmap_spec ok4 m4 ((0 ||| bitpos h0 level) ||| bitpos hash level)
  have f5 : Frame h h5 := frame_step f4 (by omega) (Nat.le_refl _) o5
  obtain ⟨h6, e6, ok6, n6, m6, o6⟩ := alloc_spec ok5 (.leaf key val hash)
  have f6 : Frame h h6 := frame_step f5 (by omega) (by omega : h.next ≤ h5.next) o6
  have hn5 : h5.next = h.next + 2 := by omega
  have m6p : h6.mem h.next =
      some (.bitmap_indexed ((0 ||| bitpos h0 level) ||| bitpos hash level) (h.next + 1)) := by
    rw [o6 _ (by omega)]
    exact m5
  have m6r : h6.mem (h.next + 1) = some (.children (List.replicate 2 NULL)) := by
    rw [o6 _ (by omega), o5 _ (by omega), o4 _ (by omega), o3 _ (by omega), ← n1]
    exact m2
  -- the two indices
  have hidx : (mask h0 level < mask hash level ∧
        bit_index ((0 ||| bitpos h0 level) ||| bitpos hash level) (bitpos h0 level) = 0 ∧
        bit_index ((0 ||| bitpos h0 level) ||| bitpos hash level) (bitpos hash level) = 1 ∧
        PHashmap.rank (0 ||| 2 ^ mask h0 level) (mask hash level) = 1) ∨
      (mask hash level < mask h0 level ∧
        bit_index ((0 ||| bitpos h0 level) ||| bitpos hash level) (bitpos h0 level) = 1 ∧
        bit_index ((0 ||| bitpos h0 level) ||| bitpos hash level) (bitpos hash level) = 0 ∧
        PHashmap.rank (0 ||| 2 ^ mask h0 level) (mask hash level) = 0) := by
    rw [PHashmap.bitpos_eq, PHashmap.bitpos_eq, PHashmap.bit_index_eq_rank _ (Nat.le_of_lt ha),
      PHashmap.bit_index_eq_rank _ (Nat.le_of_lt hb), PHashmap.rank_or _ _ hab,
      PHashmap.rank_or _ _ hab, PHashmap.rank_or 0 _ hz, PHashmap.rank_or 0 _ hz,
      PHashmap.rank_zero_bitmap, PHashmap.rank_zero_bitmap]
    rcases Nat.lt_or_gt_of_ne hne with hlt | hlt
    · have hx : ¬ mask hash level < mask h0 level := by omega
      exact Or.inl ⟨hlt, by simp [hx], by simp [hlt], by simp [hlt]⟩
    · have hx : ¬ mask h0 level < mask hash level := by omega
      exact Or.inr ⟨hlt, by simp [hlt], by simp [hx], by simp [hx]⟩
  have g1 : new_bitmap_indexed_node h = (h1, h.next) := by
    rw [new_bitmap_indexed_node, e1]
  have g2 : GC_MALLOC h1 2 = (h2, h.next + 1) := by
    rw [GC_MALLOC, e2, n1]
  have g3 : get_bitmap h3 h.next = some 0 := get_bitmap_eq m3
  have g4 : get_bitmap h4 h.next = some (0 ||| bitpos h0 level) := get_bitmap_eq m4
  have g5 : get_bitmap h5 h.next = some ((0 ||| bitpos h0 level) ||| bitpos hash level) :=
    get_bitmap_eq m5
  have g6 : new_leaf_node h5 key val hash = (h6, h.next + 2) := by
    rw [new_leaf_node, e6, hn5]
  have g7 : get_children h6 h.next = some (h.next + 1) := get_children_eq m6p
  have hold : Rep h (p) (.leaf k0 v0 h0) := Rep.leaf hm
  rw [leaf_assoc, hm]
  simp only [if_pos hhash, if_pos hbp, g1, g2, e3, g3, e4, g4, e5, g5, g6, g7, Option.bind_eq_bind,
    Option.some_bind]
  rcases hidx with ⟨_, i0, i1, hr⟩ | ⟨_, i0, i1, hr⟩
  · rw [i0, i1, hr]
    obtain ⟨h7, e7, ok7, n7, m7, o7⟩ := set_child_spec ok6 m6r (by simp : 0 < (List.replicate 2
      NULL).length) p
    have f7 : Frame h h7 := frame_step f6 (by omega) (Nat.le_succ _) o7
    obtain ⟨h8, e8, ok8, n8, m8, o8⟩ := set_child_spec ok7 m7 (by simp : 1 < ((List.replicate 2
      NULL).set 0 p).length) (h.next + 2)
    have f8 : Frame h h8 := frame_step f7 (by omega) (Nat.le_succ _) o8
    simp only [e7, e8, Option.some_bind]
    refine ⟨h8, rfl, ok8, f8, ?_⟩
    have m8p : h8.mem h.next =
        some (.bitmap_indexed ((0 ||| bitpos h0 level) ||| bitpos hash level) (h.next + 1)) := by
      rw [o8 _ (by omega), o7 _ (by omega)]
      exact m6p
    have m8l : h8.mem (h.next + 2) = some (.leaf key val hash) := by
      rw [o8 _ (by omega), o7 _ (by omega), ← hn5]
      exact m6
    rw [PHashmap.bitpos_eq, PHashmap.bitpos_eq] at m8p
    refine Rep.bitmap_indexed m8p m8 (by simp) ?_
    exact rep_children_two (rep_frame ok f8 hold) (Rep.leaf m8l)
  · rw [i0, i1, hr]
    obtain ⟨h7, e7, ok7, n7, m7, o7⟩ := set_child_spec ok6 m6r (by simp : 1 < (List.replicate 2
      NULL).length) p
    have f7 : Frame h h7 := frame_step f6 (by omega) (Nat.le_succ _) o7
    obtain ⟨h8, e8, ok8, n8, m8, o8⟩ := set_child_spec ok7 m7 (by simp : 0 < ((List.replicate 2
      NULL).set 1 p).length) (h.next + 2)
    have f8 : Frame h h8 := frame_step f7 (by omega) (Nat.le_succ _) o8
    simp only [e7, e8, Option.some_bind]
    refine ⟨h8, rfl, ok8, f8, ?_⟩
    have m8p : h8.mem h.next =
        some (.bitmap_indexed ((0 ||| bitpos h0 level) ||| bitpos hash level) (h.next + 1)) := by
      rw [o8 _ (by omega), o7 _ (by omega)]
      exact m6p
    have m8l : h8.mem (h.next + 2) = some (.leaf key val hash) := by
      rw [o8 _ (by omega), o7 _ (by omega), ← hn5]
      exact m6
    rw [PHashmap.bitpos_eq, PHashmap.bitpos_eq] at m8p
    refine Rep.bitmap_indexed m8p m8 (by simp) ?_
    exact rep_children_two (Rep.leaf m8l) (rep_frame ok f8 hold)

/-- `leaf_assoc` on a leaf whose hash differs from the new one but takes the
same slot: a fresh one-child node, on which `assoc` is called again. -/
theorem leaf_single_sim {h : Heap} (ok : HeapOK h) {p k0 v0 h0 : Nat}
    (hm : h.mem p = some (.leaf k0 v0 h0)) (level key val hash : Nat)
    (eq_key eq_val : Nat → Nat → Bool)
    (assoc : Heap → Nat → Nat → Option (Heap × Nat × Nat))
    (hhash : h0 ≠ hash) (heq : mask h0 level = mask hash level) :
    ∃ h5, leaf_assoc assoc h p level key val hash eq_key eq_val = assoc h5 h.next level ∧
      HeapOK h5 ∧ Frame h h5 ∧
      Rep h5 h.next (.bitmap_indexed (0 ||| 2 ^ mask h0 level) [PHashmap.Node.leaf k0 v0 h0]) := by
  have hplt := mem_lt_next ok hm
  have hbp : ¬ bitpos h0 level ≠ bitpos hash level := by
    rw [PHashmap.bitpos_eq, PHashmap.bitpos_eq, heq]
    exact fun e => e rfl
  obtain ⟨h1, e1, ok1, n1, m1, o1⟩ := alloc_spec ok (.bitmap_indexed 0 NULL)
  have f1 : Frame h h1 := frame_step (frame_refl h) (by omega) (Nat.le_refl _) o1
  obtain ⟨h2, e2, ok2, n2, m2, o2⟩ := alloc_spec ok1 (.children (List.replicate 1 NULL))
  have f2 : Frame h h2 := frame_step f1 (by omega) (by omega : h.next ≤ h1.next) o2
  have m2p : h2.mem h.next = some (.bitmap_indexed 0 NULL) := by
    rw [o2 _ (by omega)]
    exact m1
  obtain ⟨h3, e3, ok3, n3, m3, o3⟩ := set_children_spec ok2 m2p (h.next + 1)
  have f3 : Frame h h3 := frame_step f2 (by omega) (Nat.le_refl _) o3
  obtain ⟨h4, e4, ok4, n4, m4, o4⟩ := set_bitmap_spec ok3 m3 (0 ||| bitpos h0 level)
  have f4 : Frame h h4 := frame_step f3 (by omega) (Nat.le_refl _) o4
  have m4r : h4.mem (h.next + 1) = some (.children (List.replicate 1 NULL)) := by
    rw [o4 _ (by omega), o3 _ (by omega), ← n1]
    exact m2
  obtain ⟨h5, e5, ok5, n5, m5, o5⟩ := set_child_spec ok4 m4r (by simp : 0 < (List.replicate 1
    NULL).length) p
  have f5 : Frame h h5 := frame_step f4 (by omega) (Nat.le_succ _) o5
  have g1 : new_bitmap_indexed_node h = (h1, h.next) := by
    rw [new_bitmap_indexed_node, e1]
  have g2 : GC_MALLOC h1 1 = (h2, h.next + 1) := by
    rw [GC_MALLOC, e2, n1]
  have g3 : get_bitmap h3 h.next = some 0 := get_bitmap_eq m3
  have g4 : get_children h4 h.next = some (h.next + 1) := get_children_eq m4
  refine ⟨h5, ?_, ok5, f5, ?_⟩
  · rw [leaf_assoc, hm]
    simp only [if_pos hhash, if_neg hbp, g1, g2, e3, g3, e4, g4, e5, Option.bind_eq_bind,
      Option.some_bind]
  · have m5p : h5.mem h.next = some (.bitmap_indexed (0 ||| bitpos h0 level) (h.next + 1)) := by
      rw [o5 _ (by omega)]
      exact m4
    rw [PHashmap.bitpos_eq] at m5p
    refine Rep.bitmap_indexed m5p m5 (by simp) ?_
    exact rep_children_one (rep_frame ok f5 (Rep.leaf hm))

end PHashmapMem

namespace PHashmapMem

open PHashmap (NULL UNCHANGED ADDED UPDATED REMOVED HASH_BITS popcount mask bitpos bit_index)

/-! ### `assoc` in memory -/

/-- The children of a node with one child replaced. -/
theorem rep_children_set {h : Heap} {ps : List Nat} {cs : List PHashmap.Node}
    (hrep : ∀ (i q : Nat) (c : PHashmap.Node), ps[i]? = some q → cs[i]? = some c → Rep h q c)
    {idx q1 : Nat} {c1 : PHashmap.Node} (h1 : Rep h q1 c1) :
    ∀ (i q : Nat) (c : PHashmap.Node), (ps.set idx q1)[i]? = some q →
      (cs.set idx c1)[i]? = some c → Rep h q c := by
  intro i q c hq hc
  by_cases hi : idx = i
  · subst hi
    rw [List.getElem?_set_self' ] at hq hc
    cases hp : ps[idx]? with
    | none => rw [hp] at hq; cases hq
    | some x =>
      cases hcs : cs[idx]? with
      | none => rw [hcs] at hc; cases hc
      | some y =>
        rw [hp] at hq
        rw [hcs] at hc
        rw [← Option.some.inj hq, ← Option.some.inj hc]
        exact h1
  · rw [List.getElem?_set_ne hi] at hq hc
    exact hrep i q c hq hc

/-- The children of a node with one child inserted. -/
theorem rep_children_insert {h : Heap} {ps : List Nat} {cs : List PHashmap.Node}
    (hlen : ps.length = cs.length)
    (hrep : ∀ (i q : Nat) (c : PHashmap.Node), ps[i]? = some q → cs[i]? = some c → Rep h q c)
    {idx q1 : Nat} (hidx : idx ≤ ps.length) {c1 : PHashmap.Node} (h1 : Rep h q1 c1) :
    ∀ (i q : Nat) (c : PHashmap.Node), (ps.take idx ++ q1 :: ps.drop idx)[i]? = some q →
      (cs.take idx ++ c1 :: cs.drop idx)[i]? = some c → Rep h q c := by
  intro i q c hq hc
  rw [slots_getElem?_insert ps q1 hidx] at hq
  rw [PHashmap.getElem?_insert cs c1 (by omega)] at hc
  by_cases hlt : i < idx
  · rw [if_pos hlt] at hq hc
    exact hrep i q c hq hc
  · rw [if_neg hlt] at hq hc
    by_cases he : i = idx
    · rw [if_pos he] at hq hc
      rw [← Option.some.inj hq, ← Option.some.inj hc]
      exact h1
    · rw [if_neg he] at hq hc
      exact hrep (i - 1) q c hq hc

/-- `node_assoc` in memory does what `node_assoc` on the node does: it returns
the same result code and a pointer to the node returned there, built in fresh
blocks, and with `UNCHANGED` it returns its argument without touching the heap. -/
theorem node_assoc_sim {hashf : Nat → Nat} {eq_key : Nat → Nat → Bool}
    (ops : PHashmap.KeyOps hashf eq_key) (eq_val : Nat → Nat → Bool) (key val : Nat) :
    ∀ (fuel level : Nat) (n : PHashmap.Node),
      PHashmap.WF hashf eq_key level (hashf key % 2 ^ HASH_BITS) n →
      ∀ (n1 : PHashmap.Node) (r : Nat),
        PHashmap.node_assoc key val (hashf key % 2 ^ HASH_BITS) eq_key eq_val fuel n level =
          some (n1, r) →
        ∀ (h : Heap) (p F : Nat), HeapOK h → Rep h p n →
          PHashmap.need n level + (PHashmap.node_entries n).length + 1 ≤ F →
          ∃ h1 p1, node_assoc key val (hashf key % 2 ^ HASH_BITS) eq_key eq_val F h p level =
              some (h1, p1, r) ∧
            HeapOK h1 ∧ Frame h h1 ∧ Rep h1 p1 n1 ∧ (r = UNCHANGED → h1 = h ∧ p1 = p) := by
  intro fuel
  induction fuel with
  | zero =>
    intro level n _ n1 r ht
    rw [PHashmap.node_assoc] at ht
    cases ht
  | succ fuel ih =>
    intro level n hwf n1 r ht h p F ok hrep hF
    obtain ⟨F1, rfl⟩ : ∃ F1, F = F1 + 1 := ⟨F - 1, by omega⟩
    have hent := PHashmap.node_assoc_entries ops eq_val key val (fuel + 1) level n hwf n1 r ht
    cases hwf with
    | hash_collision hc hp =>
      rename_i cells
      cases hrep with
      | hash_collision hne hchain =>
      rw [PHashmap.node_assoc] at ht
      simp only [Option.some.injEq] at ht
      simp only [PHashmap.need, PHashmap.node_entries] at hF
      obtain ⟨h1, p1, hrun, ok1, f1, hrep1, hun⟩ := hash_collision_assoc_sim ok hne hchain key val
        (hashf key % 2 ^ HASH_BITS) eq_key eq_val (by omega : cells.length + 1 ≤ F1)
      rw [ht] at hrun hrep1 hun
      refine ⟨h1, p1, ?_, ok1, f1, hrep1, hun⟩
      cases cells with
      | nil => exact absurd rfl hne
      | cons c rest =>
        obtain ⟨next, hm, _⟩ := hchain
        rw [node_assoc, hm]
        exact hrun
    | leaf hh ha =>
      rename_i k0 v0 h0
      cases hrep with
      | leaf hm =>
      rw [PHashmap.node_assoc] at ht
      unfold PHashmap.leaf_assoc at ht
      rw [node_assoc, hm]
      simp only
      by_cases hhash : h0 = hashf key % 2 ^ HASH_BITS
      · have hnh : ¬ h0 ≠ hashf key % 2 ^ HASH_BITS := fun e => e hhash
        rw [if_neg hnh] at ht
        rw [leaf_assoc, hm]
        simp only [if_neg hnh]
        by_cases hk0 : eq_key k0 key = true
        · by_cases hv0 : eq_val v0 val = true
          · simp only [hk0, hv0, Bool.and_self, if_true, Option.some.injEq, Prod.mk.injEq] at ht
            simp only [hk0, hv0, Bool.and_self, if_true]
            rw [← ht.1, ← ht.2]
            exact ⟨h, p, rfl, ok, frame_refl h, Rep.leaf hm, fun _ => ⟨rfl, rfl⟩⟩
          · have hv0' : eq_val v0 val = false := by simpa using hv0
            simp only [hk0, hv0', Bool.and_false, Bool.false_eq_true, if_false, if_true,
              Option.some.injEq, Prod.mk.injEq] at ht
            simp only [hk0, hv0', Bool.and_false, Bool.false_eq_true, if_false, if_true]
            rw [← ht.1, ← ht.2]
            obtain ⟨h1, e1, ok1, n1, m1, o1⟩ :=
              alloc_spec ok (.leaf key val (hashf key % 2 ^ HASH_BITS))
            have f1 : Frame h h1 := frame_step (frame_refl h) (by omega) (Nat.le_refl _) o1
            refine ⟨h1, h.next, ?_, ok1, f1, Rep.leaf m1, fun e => absurd e (by decide)⟩
            rw [new_leaf_node, e1]
        · have hk0' : eq_key k0 key = false := by simpa using hk0
          simp only [hk0', Bool.false_and, Bool.false_eq_true, if_false, Option.some.injEq,
            Prod.mk.injEq] at ht
          simp only [hk0', Bool.false_and, Bool.false_eq_true, if_false]
          rw [← ht.1, ← ht.2]
          obtain ⟨h1, e1, ok1, n1, m1, o1⟩ := alloc_spec ok (.hash_collision k0 v0 h0 NULL)
          have f1 : Frame h h1 := frame_step (frame_refl h) (by omega) (Nat.le_refl _) o1
          obtain ⟨h2, e2, ok2, n2, m2, o2⟩ :=
            alloc_spec ok1 (.hash_collision key val (hashf key % 2 ^ HASH_BITS) NULL)
          have f2 : Frame h h2 := frame_step f1 (by omega) (by omega : h.next ≤ h1.next) o2
          obtain ⟨h3, e3, ok3, n3, m3, o3⟩ := set_next_spec ok2 m2 h.next
          have f3 : Frame h h3 := frame_step f2 (by omega) (by omega : h.next ≤ h1.next) o3
          have m3o : h3.mem h.next = some (.hash_collision k0 v0 h0 NULL) := by
            rw [o3 _ (by omega), o2 _ (by omega)]
            exact m1
          refine ⟨h3, h1.next, ?_, ok3, f3, ?_, fun e => absurd e (by decide)⟩
          · simp only [new_hash_collision_node, e1, e2, e3, Option.bind_eq_bind, Option.some_bind]
          · exact Rep.hash_collision (List.cons_ne_nil _ _) ⟨h.next, m3, NULL, m3o, rfl⟩
      · rw [if_pos hhash] at ht
        have hl : level ≤ 6 := by
          apply PHashmap.level_le_of_ne _ _ ha hhash
          · rw [hh]
            exact Nat.mod_lt _ (by decide)
          · exact Nat.mod_lt _ (by decide)
        have hold : eq_key k0 key = false := by
          by_contra hne
          have he : eq_key k0 key = true := by simpa using hne
          exact hhash (by rw [hh, PHashmap.hash_of_eq ops he])
        have hru : r ≠ UNCHANGED := by
          intro e
          rcases hent with ⟨_, _, c, hcm, hck, _⟩ | ⟨hu, _⟩ | ⟨hu, _⟩
          · simp only [PHashmap.node_entries, List.mem_singleton] at hcm
            rw [hcm, hold] at hck
            cases hck
          · rw [e] at hu
            cases hu
          · rw [e] at hu
            cases hu
        by_cases hbits : mask h0 level = mask (hashf key % 2 ^ HASH_BITS) level
        · have hbp : ¬ bitpos h0 level ≠ bitpos (hashf key % 2 ^ HASH_BITS) level := by
            rw [PHashmap.bitpos_eq, PHashmap.bitpos_eq, hbits]
            exact fun e => e rfl
          rw [if_neg hbp, PHashmap.bitpos_eq] at ht
          have hwfp : PHashmap.WF hashf eq_key level (hashf key % 2 ^ HASH_BITS)
              (.bitmap_indexed (0 ||| 2 ^ mask h0 level) [.leaf k0 v0 h0]) :=
            PHashmap.wf_singleton hl hh ha
          obtain ⟨h5, e5, ok5, f5, hrep5⟩ := leaf_single_sim ok hm level key val
            (hashf key % 2 ^ HASH_BITS) eq_key eq_val
            (node_assoc key val (hashf key % 2 ^ HASH_BITS) eq_key eq_val F1) hhash hbits
          have hF5 : PHashmap.need (.bitmap_indexed (0 ||| 2 ^ mask h0 level) [.leaf k0 v0 h0])
              level + (PHashmap.node_entries
                (.bitmap_indexed (0 ||| 2 ^ mask h0 level) [.leaf k0 v0 h0])).length + 1 ≤ F1 := by
            simp only [PHashmap.need, PHashmap.node_entries, PHashmap.children_entries,
              List.length_append, List.length_cons, List.length_nil] at hF ⊢
            omega
          obtain ⟨h6, p6, hrun, ok6, f6, hrep6, _⟩ := ih level _ hwfp n1 r ht h5 h.next F1 ok5
            hrep5 hF5
          rw [e5]
          exact ⟨h6, p6, hrun, ok6, frame_trans f5 f6, hrep6, fun e => absurd e hru⟩
        · have hbp : bitpos h0 level ≠ bitpos (hashf key % 2 ^ HASH_BITS) level := by
            rw [PHashmap.bitpos_eq, PHashmap.bitpos_eq]
            intro e
            exact hbits (Nat.pow_right_injective (Nat.le_refl 2) e)
          rw [if_pos hbp] at ht
          simp only at ht
          rw [PHashmap.leaf_split_eq k0 v0 h0 key val _ level hbits] at ht
          simp only [Option.some.injEq, Prod.mk.injEq] at ht
          obtain ⟨h8, e8, ok8, f8, hrep8⟩ := leaf_split_sim ok hm level key val
            (hashf key % 2 ^ HASH_BITS) eq_key eq_val
            (node_assoc key val (hashf key % 2 ^ HASH_BITS) eq_key eq_val F1) hbits
          rw [← ht.1, ← ht.2]
          exact ⟨h8, h.next, e8, ok8, f8, hrep8, fun e => absurd e (by decide)⟩
    | bitmap_indexed hl hb hlen hch =>
      rename_i bitmap cs
      cases hrep with
      | bitmap_indexed hm ha hplen hchild =>
      rename_i a ps
      have hs := PHashmap.mask_lt (hashf key % 2 ^ HASH_BITS) level
      rw [PHashmap.node_assoc] at ht
      unfold PHashmap.bitmap_indexed_assoc at ht
      simp only [PHashmap.bitpos_eq, PHashmap.bit_index_eq_rank _ (Nat.le_of_lt hs)] at ht
      rw [node_assoc, hm]
      simp only
      rw [bitmap_indexed_assoc]
      simp only [get_bitmap_eq hm, Option.bind_eq_bind, Option.some_bind, PHashmap.bitpos_eq,
        PHashmap.bit_index_eq_rank _ (Nat.le_of_lt hs)]
      by_cases hbit : bitmap.testBit (mask (hashf key % 2 ^ HASH_BITS) level) = true
      · rw [if_pos ((PHashmap.and_two_pow_ne_zero _ _).mpr hbit)] at ht
        rw [if_pos ((PHashmap.and_two_pow_ne_zero _ _).mpr hbit)]
        obtain ⟨c, hc⟩ := PHashmap.wf_child_exists hlen hs hbit
        have hwfc := hch _ hs hbit c hc _ (PHashmap.agree_refl _ _) rfl
        rw [hc] at ht
        simp only at ht
        have hlt : PHashmap.rank bitmap (mask (hashf key % 2 ^ HASH_BITS) level) < ps.length := by
          rw [hplen]
          exact (List.getElem?_eq_some_iff.mp hc).1
        have hq : ps[PHashmap.rank bitmap (mask (hashf key % 2 ^ HASH_BITS) level)]? =
            some ps[PHashmap.rank bitmap (mask (hashf key % 2 ^ HASH_BITS) level)] :=
          List.getElem?_eq_getElem hlt
        simp only [get_children_eq hm, get_child_eq ha, hq, Option.some_bind]
        cases hn : PHashmap.node_assoc key val (hashf key % 2 ^ HASH_BITS) eq_key eq_val fuel c
            (level + 1) with
        | none =>
          rw [hn] at ht
          cases ht
        | some res =>
          obtain ⟨c1, r1⟩ := res
          rw [hn] at ht
          simp only at ht
          have hneed := PHashmap.need_le c (level + 1)
          have hentc := entries_child_le hc
          simp only [PHashmap.need, PHashmap.node_entries] at hF
          obtain ⟨h1, q1, hrun, ok1, f1, hrep1, hun⟩ := ih (level + 1) c hwfc c1 r1 hn h _ F1 ok
            (hchild _ _ c hq hc) (by omega)
          rw [hrun]
          simp only [Option.some_bind]
          by_cases hr : r1 = UNCHANGED
          · have hnr : ¬ r1 ≠ UNCHANGED := fun e => e hr
            rw [if_neg hnr] at ht
            simp only [Option.some.injEq, Prod.mk.injEq] at ht
            rw [if_neg hnr]
            obtain ⟨hh1, _⟩ := hun hr
            rw [← ht.1, ← ht.2, hh1]
            exact ⟨h, p, rfl, ok, frame_refl h, Rep.bitmap_indexed hm ha hplen hchild,
              fun _ => ⟨rfl, rfl⟩⟩
          · rw [if_pos hr] at ht
            simp only [Option.some.injEq, Prod.mk.injEq] at ht
            rw [if_pos hr]
            have htake : cs.take (popcount bitmap) = cs := by
              rw [← hlen]
              exact List.take_length cs
            rw [htake] at ht
            have hm1 := frame_mem ok f1 hm
            have ha1 := frame_mem ok f1 ha
            obtain ⟨h6, e6, ok6, f6, m6p, m6a⟩ := replace_block_sim ok1 hm1 ha1
              (by rw [← hlen, hplen]) hlt q1 r1
            simp only [Option.bind_eq_bind] at e6
            rw [e6, ← ht.1, ← ht.2]
            refine ⟨h6, h1.next, rfl, ok6, frame_trans f1 f6, ?_, fun e => absurd e hr⟩
            refine Rep.bitmap_indexed m6p m6a (by simp [hplen]) ?_
            exact rep_children_set
              (fun i q d hq1 hd => rep_frame ok (frame_trans f1 f6) (hchild i q d hq1 hd))
              (rep_frame ok1 f6 hrep1)
      · have hbit' : bitmap.testBit (mask (hashf key % 2 ^ HASH_BITS) level) = false := by
          simpa using hbit
        rw [if_neg (fun e => hbit ((PHashmap.and_two_pow_ne_zero _ _).mp e))] at ht
        rw [if_neg (fun e => hbit ((PHashmap.and_two_pow_ne_zero _ _).mp e))]
        have hdrop : (cs.drop (PHashmap.rank bitmap (mask (hashf key % 2 ^ HASH_BITS) level))).take
            (popcount (bitmap ||| 2 ^ mask (hashf key % 2 ^ HASH_BITS) level) -
              PHashmap.rank bitmap (mask (hashf key % 2 ^ HASH_BITS) level)) =
            cs.drop (PHashmap.rank bitmap (mask (hashf key % 2 ^ HASH_BITS) level)) := by
          apply List.take_of_length_le
          rw [List.length_drop, hlen, PHashmap.popcount_eq_rank, PHashmap.popcount_eq_rank,
            PHashmap.rank_or _ _ hbit']
          omega
        rw [hdrop] at ht
        simp only [Option.some.injEq, Prod.mk.injEq] at ht
        have hpop : popcount (bitmap ||| 2 ^ mask (hashf key % 2 ^ HASH_BITS) level) =
            ps.length + 1 := by
          rw [hplen, hlen, PHashmap.popcount_eq_rank, PHashmap.popcount_eq_rank,
            PHashmap.rank_or _ _ hbit', if_pos hs]
        have hidx : PHashmap.rank bitmap (mask (hashf key % 2 ^ HASH_BITS) level) ≤ ps.length := by
          rw [hplen, hlen]
          exact PHashmap.rank_mono bitmap (Nat.le_of_lt hs)
        obtain ⟨h8, e8, ok8, f8, m8p, m8a, m8l⟩ := insert_block_sim ok hm ha _ hpop hidx key val
          (hashf key % 2 ^ HASH_BITS)
        simp only [Option.bind_eq_bind] at e8
        rw [e8, ← ht.1, ← ht.2]
        refine ⟨h8, h.next, rfl, ok8, f8, ?_, fun e => absurd e (by decide)⟩
        refine Rep.bitmap_indexed m8p m8a ?_ ?_
        · rw [PHashmap.length_insert cs _ (by omega), List.length_append, List.length_cons,
            List.length_take, List.length_drop]
          omega
        · exact rep_children_insert hplen
            (fun i q d hq1 hd => rep_frame ok f8 (hchild i q d hq1 hd)) hidx (Rep.leaf m8l)

end PHashmapMem

namespace PHashmapMem

open PHashmap (NULL UNCHANGED ADDED UPDATED REMOVED HASH_BITS popcount mask bitpos bit_index)

/-! ### `dissoc` in memory -/

theorem get_next_eq {h : Heap} {p k v hs nx : Nat} (hm : h.mem p = some (.hash_collision k v hs nx)) :
    get_next h p = some nx := by
  rw [get_next, hm]

/-- `hash_collision_dissoc` in memory returns what `hash_collision_dissoc` on
the list of cells gives, built in fresh blocks. -/
theorem hash_collision_dissoc_sim {h : Heap} (ok : HeapOK h) {p : Nat}
    {cells : List PHashmap.Cell} (hc : RepChain h p cells)
    (key : Nat) (eq_key : Nat → Nat → Bool) {F : Nat} (hF : cells.length + 1 ≤ F) :
    ∃ h1 p1, hash_collision_dissoc F h p key eq_key =
        some (h1, p1, (PHashmap.hash_collision_dissoc eq_key cells key).2) ∧
      HeapOK h1 ∧ Frame h h1 ∧
      ((PHashmap.hash_collision_dissoc eq_key cells key).2 ≠ UNCHANGED →
        RepOpt h1 p1 (PHashmap.hash_collision_dissoc eq_key cells key).1) ∧
      ((PHashmap.hash_collision_dissoc eq_key cells key).2 = UNCHANGED → h1 = h) := by
  obtain ⟨node, hfind, hseg, hsuf⟩ := chain_find_sim ok eq_key key cells p F hc hF
  obtain ⟨hsplit, hpre, hkeq⟩ := PHashmap.chain_find_spec eq_key key cells
  unfold hash_collision_dissoc PHashmap.hash_collision_dissoc
  simp only [hfind, Option.bind_eq_bind, Option.some_bind]
  cases hfc : PHashmap.chain_find eq_key key cells with
  | mk pre suf =>
  rw [hfc] at hseg hsuf hsplit hpre hkeq
  simp only at hseg hsuf hsplit hpre hkeq
  cases suf with
  | nil =>
    have hn : node = NULL := hsuf
    simp only [hn, if_true]
    exact ⟨h, NULL, rfl, ok, frame_refl h, fun e => absurd rfl e, fun _ => rfl⟩
  | cons c next =>
    obtain ⟨nx, hmn, hnext⟩ := hsuf
    have hck : eq_key c.key key = true := hkeq c next rfl
    have hnn : node ≠ NULL := mem_ne_null ok hmn
    have hlen : cells.length = pre.length + (next.length + 1) := by
      rw [hsplit, List.length_append, List.length_cons]
    simp only [if_neg hnn, get_next_eq hmn, Option.some_bind]
    have hne : REMOVED ≠ UNCHANGED := by decide
    cases pre with
    | nil =>
      have hpn : p = node := hseg
      subst hpn
      cases next with
      | nil =>
        have hnx : nx = NULL := hnext
        subst hnx
        simp only [ne_eq, not_true_eq_false, and_false, if_false, Option.some_bind,
          Bool.false_eq_true, get_next_eq hmn, and_true, if_neg hnn, if_true]
        exact ⟨h, NULL, rfl, ok, frame_refl h, fun _ => rfl, fun e => absurd e hne⟩
      | cons n rest =>
        obtain ⟨nn, hmx, hrest⟩ := hnext
        have hnxn : nx ≠ NULL := mem_ne_null ok hmx
        simp only [ne_eq, hnxn, not_false_eq_true, and_self, if_true, get_next_eq hmx,
          Option.some_bind]
        cases rest with
        | nil =>
          have hnn0 : nn = NULL := hrest
          subst hnn0
          simp only [decide_True, if_true, hmx]
          obtain ⟨h1, e1, ok1, n1, m1, o1⟩ := alloc_spec ok (.leaf n.key n.val n.hash)
          have f1 : Frame h h1 := frame_step (frame_refl h) (by omega) (Nat.le_refl _) o1
          refine ⟨h1, h.next, ?_, ok1, f1, fun _ => Rep.leaf m1, fun e => absurd e hne⟩
          simp only [new_leaf_node, e1]
        | cons m rest2 =>
          obtain ⟨mn, hmm, _⟩ := hrest
          have hnn1 : nn ≠ NULL := mem_ne_null ok hmm
          simp only [hnn1, decide_False, Bool.false_eq_true, if_false, get_next_eq hmn,
            Option.some_bind, hnxn, and_false, if_true]
          exact ⟨h, nx, rfl, ok, frame_refl h,
            fun _ => Rep.hash_collision (List.cons_ne_nil _ _) ⟨nn, hmx, mn, hmm, by assumption⟩,
            fun e => absurd e hne⟩
    | cons f pre1 =>
      obtain ⟨fn, hmf, hseg1⟩ := hseg
      have hfk : eq_key f.key key = false := hpre f (List.mem_cons_self _ _)
      have hnp : node ≠ p := by
        intro e
        rw [e, hmf] at hmn
        simp only [Option.some.injEq, Obj.hash_collision.injEq] at hmn
        rw [hmn.1, hck] at hfk
        cases hfk
      simp only [hnp, false_and, if_false, Option.some_bind, Bool.false_eq_true,
        get_next_eq hmf]
      have hcopy : ∀ (hfn : ¬ (node = fn ∧ nx = NULL)),
          ∃ h1 p1, (if node = fn ∧ nx = NULL then
              match h.mem p with
              | some (Obj.hash_collision k v hash _) =>
                some ((new_leaf_node h k v hash).1, (new_leaf_node h k v hash).2, REMOVED)
              | _ => none
            else (chain_copy node F h nx p NULL).bind fun x => some (x.1, x.2, REMOVED)) =
              some (h1, p1, REMOVED) ∧ HeapOK h1 ∧ Frame h h1 ∧
              RepOpt h1 p1 (some (.hash_collision ((f :: pre1).reverse ++ next))) := by
        intro hfn
        obtain ⟨h3, r, hrun, ok3, f3, _, hcons⟩ := chain_copy_sim ok eq_key key node
          (Or.inr ⟨c.key, c.val, c.hash, nx, hmn, hck⟩) (f :: pre1) h nx p NULL F next ok
          (frame_refl h) ⟨fn, hmf, hseg1⟩ hpre hnext
          (by simp only [List.length_cons] at hlen ⊢; omega)
        refine ⟨h3, r, ?_, ok3, f3, ?_⟩
        · rw [if_neg hfn, hrun]
          rfl
        · exact Rep.hash_collision (by simp) (hcons (List.cons_ne_nil _ _))
      cases pre1 with
      | nil =>
        have hfn : fn = node := hseg1
        cases next with
        | nil =>
          have hnx : nx = NULL := hnext
          simp only [hfn, hnx, and_self, if_true, hmf]
          obtain ⟨h1, e1, ok1, n1, m1, o1⟩ := alloc_spec ok (.leaf f.key f.val f.hash)
          have f1 : Frame h h1 := frame_step (frame_refl h) (by omega) (Nat.le_refl _) o1
          refine ⟨h1, h.next, ?_, ok1, f1, fun _ => Rep.leaf m1, fun e => absurd e hne⟩
          simp only [new_leaf_node, e1]
        | cons n rest =>
          obtain ⟨nn, hmx, _⟩ := hnext
          have hnxn : nx ≠ NULL := mem_ne_null ok hmx
          obtain ⟨h1, p1, e1, ok1, f1, hrep⟩ := hcopy (fun e => hnxn e.2)
          refine ⟨h1, p1, e1, ok1, f1, fun _ => ?_, fun e => absurd e hne⟩
          show RepOpt h1 p1 (some (.hash_collision (PHashmap.chain_copy (n :: rest) [f])))
          rw [PHashmap.chain_copy_eq]
          exact hrep
      | cons g pre2 =>
        obtain ⟨gn, hmg, _⟩ := hseg1
        have hgk : eq_key g.key key = false :=
          hpre g (List.mem_cons_of_mem _ (List.mem_cons_self _ _))
        have hnf : node ≠ fn := by
          intro e
          rw [e, hmg] at hmn
          simp only [Option.some.injEq, Obj.hash_collision.injEq] at hmn
          rw [hmn.1, hck] at hgk
          cases hgk
        obtain ⟨h1, p1, e1, ok1, f1, hrep⟩ := hcopy (fun e => hnf e.1)
        rw [← PHashmap.chain_copy_eq] at hrep
        clear hcopy hlen hfc hsplit hkeq hpre
        cases next with
        | nil => exact ⟨h1, p1, e1, ok1, f1, fun _ => hrep, fun e => absurd e hne⟩
        | cons n rest => exact ⟨h1, p1, e1, ok1, f1, fun _ => hrep, fun e => absurd e hne⟩

end PHashmapMem

namespace PHashmapMem

open PHashmap (NULL UNCHANGED ADDED UPDATED REMOVED HASH_BITS popcount mask bitpos bit_index)

/-- The block of `bitmap_indexed_dissoc` that copies the node when the new
child is `NULL`: the bit is cleared and, unless no bit is left, the child
array is copied without the child. -/
theorem remove_block_sim {h1 : Heap} (ok1 : HeapOK h1) {p b a : Nat} {ps : List Nat}
    (hm : h1.mem p = some (.bitmap_indexed b a)) (ha : h1.mem a = some (.children ps))
    (bit : Nat) (hpop : popcount (b &&& ((2 ^ HASH_BITS - 1) ^^^ bit)) = ps.length - 1)
    {idx : Nat} (hidx : idx < ps.length) (result : Nat) :
    ∃ h7 p7, (do
        let (h2, copy) ← copy_bitmap_indexed_node h1 p
        if NULL = NULL then do
          let b0 ← get_bitmap h2 copy
          let h3 ← set_bitmap h2 copy (b0 &&& ((2 ^ HASH_BITS - 1) ^^^ bit))
          let b1 ← get_bitmap h3 copy
          if b1 = 0 then some (h3, NULL, result)
          else do
            let nodes := popcount b1
            let (h4, arr) := GC_MALLOC h3 nodes
            let h5 ← set_children h4 copy arr
            let dst ← get_children h5 copy
            let src ← get_children h5 p
            let h6 ← memcpy h5 dst 0 src 0 idx
            let h7 ← memcpy h6 dst idx src (idx + 1) (nodes - idx)
            some (h7, copy, result)
        else do
          let b ← get_bitmap h2 copy
          let nodes := popcount b
          let (h3, arr) := GC_MALLOC h2 nodes
          let h4 ← set_children h3 copy arr
          let dst ← get_children h4 copy
          let src ← get_children h4 p
          let h5 ← memcpy h4 dst 0 src 0 nodes
          let h6 ← set_child h5 dst idx NULL
          some (h6, copy, result) : Option (Heap × Nat × Nat)) = some (h7, p7, result) ∧
      HeapOK h7 ∧ Frame h1 h7 ∧
      (b &&& ((2 ^ HASH_BITS - 1) ^^^ bit) = 0 → p7 = NULL) ∧
      (b &&& ((2 ^ HASH_BITS - 1) ^^^ bit) ≠ 0 → p7 = h1.next ∧
        h7.mem h1.next =
          some (.bitmap_indexed (b &&& ((2 ^ HASH_BITS - 1) ^^^ bit)) (h1.next + 1)) ∧
        h7.mem (h1.next + 1) = some (.children (ps.take idx ++ ps.drop (idx + 1)))) := by
  have hplt := mem_lt_next ok1 hm
  have halt := mem_lt_next ok1 ha
  obtain ⟨h2, e2, ok2, n2, m2, o2⟩ := alloc_spec ok1 (.bitmap_indexed b a)
  have f2 : Frame h1 h2 := frame_step (frame_refl h1) (by omega) (Nat.le_refl _) o2
  obtain ⟨h3, e3, ok3, n3, m3, o3⟩ :=
    set_bitmap_spec ok2 m2 (b &&& ((2 ^ HASH_BITS - 1) ^^^ bit))
  have f3 : Frame h1 h3 := frame_step f2 (by omega) (Nat.le_refl _) o3
  have g1 : copy_bitmap_indexed_node h1 p = some (h2, h1.next) := by
    rw [copy_bitmap_eq hm, e2]
  have g2 : get_bitmap h2 h1.next = some b := get_bitmap_eq m2
  have g3 : get_bitmap h3 h1.next = some (b &&& ((2 ^ HASH_BITS - 1) ^^^ bit)) :=
    get_bitmap_eq m3
  by_cases hz : b &&& ((2 ^ HASH_BITS - 1) ^^^ bit) = 0
  · refine ⟨h3, NULL, ?_, ok3, f3, fun _ => rfl, fun e => absurd hz e⟩
    rw [hz] at e3 g3
    simp only [g1, g2, e3, g3, hz, if_true, Option.bind_eq_bind, Option.some_bind]
  · obtain ⟨h4, e4, ok4, n4, m4, o4⟩ := alloc_spec ok3
      (.children (List.replicate (popcount (b &&& ((2 ^ HASH_BITS - 1) ^^^ bit))) NULL))
    have f4 : Frame h1 h4 := frame_step f3 (by omega) (by omega : h1.next ≤ h3.next) o4
    have m4c : h4.mem h1.next =
        some (.bitmap_indexed (b &&& ((2 ^ HASH_BITS - 1) ^^^ bit)) a) := by
      rw [o4 _ (by omega)]
      exact m3
    obtain ⟨h5, e5, ok5, n5, m5, o5⟩ := set_children_spec ok4 m4c (h1.next + 1)
    have f5 : Frame h1 h5 := frame_step f4 (by omega) (Nat.le_refl _) o5
    have m5p : h5.mem p = some (.bitmap_indexed b a) := frame_mem ok1 f5 hm
    have m5a : h5.mem a = some (.children ps) := frame_mem ok1 f5 ha
    have m5r : h5.mem (h1.next + 1) = some (.children
        (List.replicate (popcount (b &&& ((2 ^ HASH_BITS - 1) ^^^ bit))) NULL)) := by
      rw [o5 _ (by omega), ← n2, ← n3]
      exact m4
    obtain ⟨h6, e6, ok6, n6, m6, o6⟩ := memcpy_spec ok5 m5r m5a 0 0 idx
    have f6 : Frame h1 h6 := frame_step f5 (by omega) (Nat.le_succ _) o6
    have m6a : h6.mem a = some (.children ps) := frame_mem ok1 f6 ha
    obtain ⟨h7, e7, ok7, n7, m7, o7⟩ := memcpy_spec ok6 m6 m6a idx (idx + 1)
      (popcount (b &&& ((2 ^ HASH_BITS - 1) ^^^ bit)) - idx)
    have f7 : Frame h1 h7 := frame_step f6 (by omega) (Nat.le_succ _) o7
    have hfin : copy_slots (copy_slots
        (List.replicate (popcount (b &&& ((2 ^ HASH_BITS - 1) ^^^ bit))) NULL) 0 ps 0 idx) idx ps
        (idx + 1) (popcount (b &&& ((2 ^ HASH_BITS - 1) ^^^ bit)) - idx) =
        ps.take idx ++ ps.drop (idx + 1) := by
      rw [hpop]
      exact copy_slots_remove ps hidx _ (by omega)
    rw [hfin] at m7
    refine ⟨h7, h1.next, ?_, ok7, f7, fun e => absurd e hz, fun _ => ⟨rfl, ?_, m7⟩⟩
    · have g4 : GC_MALLOC h3 (popcount (b &&& ((2 ^ HASH_BITS - 1) ^^^ bit))) =
          (h4, h1.next + 1) := by
        rw [GC_MALLOC, e4, n3, n2]
      have g5 : get_children h5 h1.next = some (h1.next + 1) := get_children_eq m5
      have g6 : get_children h5 p = some a := get_children_eq m5p
      simp only [g1, g2, e3, g3, hz, if_false, if_true, g4, e5, g5, g6, e6, e7,
        Option.bind_eq_bind, Option.some_bind]
    · rw [o7 _ (by omega), o6 _ (by omega)]
      exact m5

/-- The block of `bitmap_indexed_dissoc` that copies the node and its child
array and replaces one child, when the new child is not `NULL`. -/
theorem dissoc_replace_block_sim {h1 : Heap} (ok1 : HeapOK h1) {p b a : Nat} {ps : List Nat}
    (hm : h1.mem p = some (.bitmap_indexed b a)) (ha : h1.mem a = some (.children ps))
    (bit : Nat) (hpop : popcount b = ps.length) {idx : Nat} (hidx : idx < ps.length)
    {new : Nat} (hnew : new ≠ NULL) (result : Nat) :
    ∃ h6, (do
        let (h2, copy) ← copy_bitmap_indexed_node h1 p
        if new = NULL then do
          let b0 ← get_bitmap h2 copy
          let h3 ← set_bitmap h2 copy (b0 &&& ((2 ^ HASH_BITS - 1) ^^^ bit))
          let b1 ← get_bitmap h3 copy
          if b1 = 0 then some (h3, NULL, result)
          else do
            let nodes := popcount b1
            let (h4, arr) := GC_MALLOC h3 nodes
            let h5 ← set_children h4 copy arr
            let dst ← get_children h5 copy
            let src ← get_children h5 p
            let h6 ← memcpy h5 dst 0 src 0 idx
            let h7 ← memcpy h6 dst idx src (idx + 1) (nodes - idx)
            some (h7, copy, result)
        else do
          let b ← get_bitmap h2 copy
          let nodes := popcount b
          let (h3, arr) := GC_MALLOC h2 nodes
          let h4 ← set_children h3 copy arr
          let dst ← get_children h4 copy
          let src ← get_children h4 p
          let h5 ← memcpy h4 dst 0 src 0 nodes
          let h6 ← set_child h5 dst idx new
          some (h6, copy, result) : Option (Heap × Nat × Nat)) = some (h6, h1.next, result) ∧
      HeapOK h6 ∧ Frame h1 h6 ∧ h6.mem h1.next = some (.bitmap_indexed b (h1.next + 1)) ∧
      h6.mem (h1.next + 1) = some (.children (ps.set idx new)) := by
  have hplt := mem_lt_next ok1 hm
  have halt := mem_lt_next ok1 ha
  obtain ⟨h2, e2, ok2, n2, m2, o2⟩ := alloc_spec ok1 (.bitmap_indexed b a)
  have f2 : Frame h1 h2 := frame_step (frame_refl h1) (by omega) (Nat.le_refl _) o2
  obtain ⟨h3, e3, ok3, n3, m3, o3⟩ :=
    alloc_spec ok2 (.children (List.replicate (popcount b) NULL))
  have f3 : Frame h1 h3 := frame_step f2 (by omega) (by omega : h1.next ≤ h2.next) o3
  have m3c : h3.mem h1.next = some (.bitmap_indexed b a) := by
    rw [o3 _ (by omega)]
    exact m2
  obtain ⟨h4, e4, ok4, n4, m4, o4⟩ := set_children_spec ok3 m3c (h1.next + 1)
  have f4 : Frame h1 h4 := frame_step f3 (by omega) (Nat.le_refl _) o4
  have m4p : h4.mem p = some (.bitmap_indexed b a) := frame_mem ok1 f4 hm
  have m4a : h4.mem a = some (.children ps) := frame_mem ok1 f4 ha
  have m4r : h4.mem (h1.next + 1) = some (.children (List.replicate (popcount b) NULL)) := by
    rw [o4 _ (by omega), ← n2]
    exact m3
  obtain ⟨h5, e5, ok5, n5, m5, o5⟩ := memcpy_spec ok4 m4r m4a 0 0 (popcount b)
  have f5 : Frame h1 h5 := frame_step f4 (by omega) (Nat.le_succ _) o5
  have hfull : copy_slots (List.replicate (popcount b) NULL) 0 ps 0 (popcount b) = ps := by
    rw [hpop]
    exact copy_slots_full ps
  rw [hfull] at m5
  obtain ⟨h6, e6, ok6, n6, m6, o6⟩ := set_child_spec ok5 m5 hidx new
  have f6 : Frame h1 h6 := frame_step f5 (by omega) (Nat.le_succ _) o6
  refine ⟨h6, ?_, ok6, f6, ?_, m6⟩
  · have g1 : copy_bitmap_indexed_node h1 p = some (h2, h1.next) := by
      rw [copy_bitmap_eq hm, e2]
    have g2 : get_bitmap h2 h1.next = some b := get_bitmap_eq m2
    have g3 : GC_MALLOC h2 (popcount b) = (h3, h1.next + 1) := by
      rw [GC_MALLOC, e3, n2]
    have g5 : get_children h4 h1.next = some (h1.next + 1) := get_children_eq m4
    have g6 : get_children h4 p = some a := get_children_eq m4p
    simp only [g1, g2, g3, e4, g5, g6, e5, e6, if_neg hnew, Option.bind_eq_bind,
      Option.some_bind]
  · rw [o6 _ (by omega), o5 _ (by omega)]
    exact m4

end PHashmapMem

namespace PHashmapMem

open PHashmap (NULL UNCHANGED ADDED UPDATED REMOVED HASH_BITS popcount mask bitpos bit_index)

/-- The children of a node with one child taken out. -/
theorem rep_children_remove {h : Heap} {ps : List Nat} {cs : List PHashmap.Node}
    (hrep : ∀ (i q : Nat) (c : PHashmap.Node), ps[i]? = some q → cs[i]? = some c → Rep h q c)
    (idx : Nat) :
    ∀ (i q : Nat) (c : PHashmap.Node), (ps.take idx ++ ps.drop (idx + 1))[i]? = some q →
      (cs.take idx ++ cs.drop (idx + 1))[i]? = some c → Rep h q c := by
  intro i q c hq hc
  rw [slots_getElem?_remove] at hq
  rw [PHashmap.getElem?_remove] at hc
  by_cases hlt : i < idx
  · rw [if_pos hlt] at hq hc
    exact hrep i q c hq hc
  · rw [if_neg hlt] at hq hc
    exact hrep (i + 1) q c hq hc

/-- `node_dissoc` in memory does what `node_dissoc` on the node does: it
returns the same result code; unless that is `UNCHANGED` it returns a pointer
to the node returned there (`NULL` for none), built in fresh blocks; with
`UNCHANGED` it leaves the heap untouched. -/
theorem node_dissoc_sim {hashf : Nat → Nat} {eq_key : Nat → Nat → Bool} (key : Nat)
    {level q : Nat} {n : PHashmap.Node} (hwf : PHashmap.WF hashf eq_key level q n) :
    PHashmap.agree level (hashf key % 2 ^ HASH_BITS) q →
    ∀ (n1 : Option PHashmap.Node) (r : Nat),
      PHashmap.node_dissoc eq_key key (hashf key % 2 ^ HASH_BITS) n level = some (n1, r) →
      ∀ (h : Heap) (p F : Nat), HeapOK h → Rep h p n →
        PHashmap.need n level + (PHashmap.node_entries n).length + 1 ≤ F →
        ∃ h1 p1, node_dissoc eq_key key (hashf key % 2 ^ HASH_BITS) F h p level =
            some (h1, p1, r) ∧
          HeapOK h1 ∧ Frame h h1 ∧ (r ≠ UNCHANGED → RepOpt h1 p1 n1) ∧
          (r = UNCHANGED → h1 = h) := by
  induction hwf with
  | leaf hh ha =>
    rename_i level q k0 v0 h0
    intro _ n1 r ht h p F ok hrep hF
    obtain ⟨F1, rfl⟩ : ∃ F1, F = F1 + 1 := ⟨F - 1, by omega⟩
    cases hrep with
    | leaf hm =>
    rw [PHashmap.node_dissoc] at ht
    unfold PHashmap.leaf_dissoc at ht
    rw [node_dissoc, hm]
    simp only
    rw [leaf_dissoc, hm]
    simp only
    by_cases hk0 : eq_key k0 key = true
    · rw [if_pos hk0] at ht
      simp only [Option.some.injEq, Prod.mk.injEq] at ht
      rw [if_pos hk0, ← ht.1, ← ht.2]
      exact ⟨h, NULL, rfl, ok, frame_refl h, fun _ => rfl, fun e => absurd e (by decide)⟩
    · rw [if_neg hk0] at ht
      simp only [Option.some.injEq, Prod.mk.injEq] at ht
      rw [if_neg hk0, ← ht.2]
      exact ⟨h, p, rfl, ok, frame_refl h, fun e => absurd rfl e, fun _ => rfl⟩
  | hash_collision hc hp =>
    rename_i level q cells
    intro _ n1 r ht h p F ok hrep hF
    obtain ⟨F1, rfl⟩ : ∃ F1, F = F1 + 1 := ⟨F - 1, by omega⟩
    cases hrep with
    | hash_collision hne hchain =>
    rw [PHashmap.node_dissoc] at ht
    simp only [Option.some.injEq] at ht
    simp only [PHashmap.need, PHashmap.node_entries] at hF
    obtain ⟨h1, p1, hrun, ok1, f1, hrep1, hun⟩ := hash_collision_dissoc_sim ok hchain key eq_key
      (by omega : cells.length + 1 ≤ F1)
    rw [ht] at hrun hrep1 hun
    refine ⟨h1, p1, ?_, ok1, f1, hrep1, hun⟩
    cases cells with
    | nil => exact absurd rfl hne
    | cons c rest =>
      obtain ⟨next, hm, _⟩ := hchain
      rw [node_dissoc, hm]
      exact hrun
  | bitmap_indexed hl hb hlen hch ih =>
    rename_i level q bitmap cs
    intro hpath n1 r ht h p F ok hrep hF
    obtain ⟨F1, rfl⟩ : ∃ F1, F = F1 + 1 := ⟨F - 1, by omega⟩
    cases hrep with
    | bitmap_indexed hm ha hplen hchild =>
    rename_i a ps
    have hs := PHashmap.mask_lt (hashf key % 2 ^ HASH_BITS) level
    rw [PHashmap.node_dissoc] at ht
    simp only [PHashmap.bitpos_eq, PHashmap.bit_index_eq_rank _ (Nat.le_of_lt hs),
      PHashmap.child_dissoc_eq] at ht
    rw [node_dissoc, hm]
    simp only
    rw [bitmap_indexed_dissoc]
    simp only [get_bitmap_eq hm, Option.bind_eq_bind, Option.some_bind, PHashmap.bitpos_eq,
      PHashmap.bit_index_eq_rank _ (Nat.le_of_lt hs)]
    by_cases hbit : bitmap.testBit (mask (hashf key % 2 ^ HASH_BITS) level) = true
    · rw [if_pos ((PHashmap.and_two_pow_ne_zero _ _).mpr hbit)] at ht
      rw [if_pos ((PHashmap.and_two_pow_ne_zero _ _).mpr hbit)]
      obtain ⟨c, hc⟩ := PHashmap.wf_child_exists hlen hs hbit
      rw [hc] at ht
      simp only at ht
      have hlt : PHashmap.rank bitmap (mask (hashf key % 2 ^ HASH_BITS) level) < ps.length := by
        rw [hplen]
        exact (List.getElem?_eq_some_iff.mp hc).1
      have hq : ps[PHashmap.rank bitmap (mask (hashf key % 2 ^ HASH_BITS) level)]? =
          some ps[PHashmap.rank bitmap (mask (hashf key % 2 ^ HASH_BITS) level)] :=
        List.getElem?_eq_getElem hlt
      simp only [get_children_eq hm, get_child_eq ha, hq, Option.some_bind]
      cases hn : PHashmap.node_dissoc eq_key key (hashf key % 2 ^ HASH_BITS) c (level + 1) with
      | none =>
        rw [hn] at ht
        cases ht
      | some res =>
        obtain ⟨c1, r1⟩ := res
        rw [hn] at ht
        simp only at ht
        have hneed := PHashmap.need_le c (level + 1)
        have hentc := entries_child_le hc
        simp only [PHashmap.need, PHashmap.node_entries] at hF
        obtain ⟨h1, q1, hrun, ok1, f1, hrep1, hun⟩ := ih _ hs hbit c hc _ hpath rfl
          (PHashmap.agree_refl _ _) c1 r1 hn h _ F1 ok (hchild _ _ c hq hc) (by omega)
        rw [hrun]
        simp only [Option.some_bind]
        by_cases hr : r1 = UNCHANGED
        · have hnr : ¬ r1 ≠ UNCHANGED := fun e => e hr
          rw [if_neg hnr] at ht
          simp only [Option.some.injEq, Prod.mk.injEq] at ht
          rw [if_neg hnr, ← ht.2, hun hr]
          exact ⟨h, p, rfl, ok, frame_refl h, fun e => absurd hr e, fun _ => rfl⟩
        · rw [if_pos hr] at ht
          rw [if_pos hr]
          have hm1 := frame_mem ok f1 hm
          have ha1 := frame_mem ok f1 ha
          have hrepc := hrep1 hr
          cases c1 with
          | some d =>
            simp only [Option.some.injEq, Prod.mk.injEq] at ht
            have htake : cs.take (popcount bitmap) = cs := by
              rw [← hlen]
              exact List.take_length cs
            rw [htake] at ht
            have hrd : Rep h1 q1 d := hrepc
            obtain ⟨o, ho⟩ := rep_mem hrd
            have hq1 : q1 ≠ NULL := mem_ne_null ok1 ho
            obtain ⟨h6, e6, ok6, f6, m6p, m6a⟩ := dissoc_replace_block_sim ok1 hm1 ha1
              (2 ^ mask (hashf key % 2 ^ HASH_BITS) level) (by rw [← hlen, hplen]) hlt hq1 r1
            simp only [Option.bind_eq_bind] at e6
            rw [e6, ← ht.1, ← ht.2]
            refine ⟨h6, h1.next, rfl, ok6, frame_trans f1 f6, fun _ => ?_, fun e => absurd e hr⟩
            refine Rep.bitmap_indexed m6p m6a (by simp [hplen]) ?_
            exact rep_children_set
              (fun i x y hx hy => rep_frame ok (frame_trans f1 f6) (hchild i x y hx hy))
              (rep_frame ok1 f6 hrd)
          | none =>
            have hq1 : q1 = NULL := hrepc
            subst hq1
            have hrk := PHashmap.rank_clear bitmap _ hb hbit 32
            rw [if_pos hs] at hrk
            have hpop : popcount (bitmap &&& ((2 ^ HASH_BITS - 1) ^^^
                2 ^ mask (hashf key % 2 ^ HASH_BITS) level)) = ps.length - 1 := by
              rw [hplen, hlen, PHashmap.popcount_eq_rank, PHashmap.popcount_eq_rank, ← hrk]
              rfl
            obtain ⟨h7, p7, e7, ok7, f7, hz7, hnz7⟩ := remove_block_sim ok1 hm1 ha1
              (2 ^ mask (hashf key % 2 ^ HASH_BITS) level) hpop hlt r1
            simp only [Option.bind_eq_bind, if_true] at e7
            simp only [if_true]
            rw [e7]
            have hdrop : (cs.drop (PHashmap.rank bitmap
                (mask (hashf key % 2 ^ HASH_BITS) level) + 1)).take
                (popcount (bitmap &&& ((2 ^ HASH_BITS - 1) ^^^
                  2 ^ mask (hashf key % 2 ^ HASH_BITS) level)) -
                  PHashmap.rank bitmap (mask (hashf key % 2 ^ HASH_BITS) level)) =
                cs.drop (PHashmap.rank bitmap (mask (hashf key % 2 ^ HASH_BITS) level) + 1) := by
              apply List.take_of_length_le
              rw [List.length_drop, hlen, PHashmap.popcount_eq_rank, PHashmap.popcount_eq_rank,
                ← hrk]
              omega
            by_cases hz : bitmap &&& ((2 ^ HASH_BITS - 1) ^^^
                2 ^ mask (hashf key % 2 ^ HASH_BITS) level) = 0
            · simp only [hz, if_true, Option.some.injEq, Prod.mk.injEq] at ht
              rw [← ht.1, ← ht.2]
              refine ⟨h7, p7, rfl, ok7, frame_trans f1 f7, fun _ => ?_, fun e => absurd e hr⟩
              exact hz7 hz
            · simp only [hz, if_false, hdrop, Option.some.injEq, Prod.mk.injEq] at ht
              obtain ⟨hp7, m7p, m7a⟩ := hnz7 hz
              rw [← ht.1, ← ht.2, hp7]
              refine ⟨h7, h1.next, rfl, ok7, frame_trans f1 f7, fun _ => ?_, fun e => absurd e hr⟩
              refine Rep.bitmap_indexed m7p m7a ?_ ?_
              · rw [PHashmap.length_remove cs (by omega), List.length_append, List.length_take,
                  List.length_drop]
                omega
              · exact rep_children_remove
                  (fun i x y hx hy => rep_frame ok (frame_trans f1 f7) (hchild i x y hx hy)) _
    · rw [if_neg (fun e => hbit ((PHashmap.and_two_pow_ne_zero _ _).mp e))] at ht
      rw [if_neg (fun e => hbit ((PHashmap.and_two_pow_ne_zero _ _).mp e))]
      simp only [Option.some.injEq, Prod.mk.injEq] at ht
      rw [← ht.2]
      exact ⟨h, p, rfl, ok, frame_refl h, fun e => absurd rfl e, fun _ => rfl⟩

end PHashmapMem

namespace PHashmapMem

open PHashmap (NULL UNCHANGED ADDED UPDATED REMOVED HASH_BITS popcount mask bitpos bit_index)

/-! ### More fuel does not change a result -/

theorem bind_mono_left {α β : Type} {x y : Option α} {k : α → Option β} {r : β}
    (h : (x >>= k) = some r) (hxy : ∀ a, x = some a → y = some a) : (y >>= k) = some r := by
  cases x with
  | none => cases h
  | some a =>
    rw [hxy a rfl]
    exact h

theorem bind_mono_right {α β : Type} {x : Option α} {f g : α → Option β} {r : β}
    (h : (x >>= f) = some r) (hfg : ∀ a, f a = some r → g a = some r) : (x >>= g) = some r := by
  cases x with
  | none => cases h
  | some a => exact hfg a h

theorem mem_chain_find_mono (eq_key : Nat → Nat → Bool) (key : Nat) :
    ∀ (fuel : Nat) (h : Heap) (node r : Nat), chain_find eq_key key fuel h node = some r →
      chain_find eq_key key (fuel + 1) h node = some r := by
  intro fuel
  induction fuel with
  | zero =>
    intro h node r hr
    simp [chain_find] at hr
  | succ fuel ih =>
    intro h node r hr
    rw [chain_find] at hr ⊢
    by_cases hn : node = NULL
    · rw [if_pos hn] at hr ⊢
      exact hr
    · rw [if_neg hn] at hr ⊢
      split at hr
      · rename_i k _ _ next hm
        by_cases hk : eq_key k key = true
        · rw [if_pos hk] at hr ⊢
          exact hr
        · rw [if_neg hk] at hr ⊢
          exact ih _ _ _ hr
      · cases hr

theorem mem_chain_copy_mono (node : Nat) :
    ∀ (fuel : Nat) (h : Heap) (prev curr copy : Nat) (r : Heap × Nat),
      chain_copy node fuel h prev curr copy = some r →
      chain_copy node (fuel + 1) h prev curr copy = some r := by
  intro fuel
  induction fuel with
  | zero =>
    intro h prev curr copy r hr
    simp [chain_copy] at hr
  | succ fuel ih =>
    intro h prev curr copy r hr
    rw [chain_copy] at hr ⊢
    by_cases hn : curr = node
    · rw [if_pos hn] at hr ⊢
      exact hr
    · rw [if_neg hn] at hr ⊢
      split at hr
      · rename_i k v hash next hm
        simp only at hr ⊢
        split at hr
        · cases hr
        · rename_i h2 hs
          exact ih _ _ _ _ _ hr
      · cases hr

theorem mem_hash_collision_assoc_mono (fuel : Nat) (h : Heap) (self key val hash : Nat)
    (eq_key eq_val : Nat → Nat → Bool) (r : Heap × Nat × Nat)
    (hr : hash_collision_assoc fuel h self key val hash eq_key eq_val = some r) :
    hash_collision_assoc (fuel + 1) h self key val hash eq_key eq_val = some r := by
  unfold hash_collision_assoc at hr ⊢
  split at hr
  · cases hr
  · rename_i node hf
    rw [mem_chain_find_mono _ _ _ _ _ _ hf]
    simp only at hr ⊢
    by_cases hn : node = NULL
    · rw [if_pos hn] at hr ⊢
      exact hr
    · rw [if_neg hn] at hr ⊢
      split at hr
      · rename_i k v _ next hm
        by_cases hk : (eq_key k key && eq_val v val) = true
        · rw [if_pos hk] at hr ⊢
          exact hr
        · rw [if_neg hk] at hr ⊢
          split at hr
          · cases hr
          · rename_i h2 hs
            by_cases hns : node = self
            · rw [if_pos hns] at hr ⊢
              exact hr
            · rw [if_neg hns] at hr ⊢
              split at hr
              · cases hr
              · rename_i h3 copy hc
                rw [mem_chain_copy_mono _ _ _ _ _ _ _ hc]
                exact hr
      · cases hr

theorem mem_leaf_assoc_mono {f g : Heap → Nat → Nat → Option (Heap × Nat × Nat)}
    (hfg : ∀ h p l r, f h p l = some r → g h p l = some r) (h : Heap)
    (self level key val hash : Nat) (eq_key eq_val : Nat → Nat → Bool) (r : Heap × Nat × Nat)
    (hr : leaf_assoc f h self level key val hash eq_key eq_val = some r) :
    leaf_assoc g h self level key val hash eq_key eq_val = some r := by
  unfold leaf_assoc at hr ⊢
  split at hr
  · rename_i k v nhash hm
    by_cases h1 : nhash ≠ hash
    · rw [if_pos h1] at hr ⊢
      simp only at hr ⊢
      by_cases h2 : bitpos nhash level ≠ bitpos hash level
      · rw [if_pos h2] at hr ⊢
        exact hr
      · rw [if_neg h2] at hr ⊢
        refine bind_mono_right hr (fun _ hr => ?_)
        refine bind_mono_right hr (fun _ hr => ?_)
        refine bind_mono_right hr (fun _ hr => ?_)
        refine bind_mono_right hr (fun _ hr => ?_)
        refine bind_mono_right hr (fun _ hr => ?_)
        exact hfg _ _ _ _ hr
    · rw [if_neg h1] at hr ⊢
      exact hr
  · cases hr

theorem mem_bitmap_indexed_assoc_mono {f g : Heap → Nat → Nat → Option (Heap × Nat × Nat)}
    (hfg : ∀ h p l r, f h p l = some r → g h p l = some r) (h : Heap)
    (self level key val hash : Nat) (r : Heap × Nat × Nat)
    (hr : bitmap_indexed_assoc f h self level key val hash = some r) :
    bitmap_indexed_assoc g h self level key val hash = some r := by
  unfold bitmap_indexed_assoc at hr ⊢
  refine bind_mono_right hr (fun bitmap hr => ?_)
  simp only at hr ⊢
  by_cases h1 : bitmap &&& bitpos hash level ≠ 0
  · rw [if_pos h1] at hr ⊢
    refine bind_mono_right hr (fun _ hr => ?_)
    refine bind_mono_right hr (fun _ hr => ?_)
    exact bind_mono_left hr (fun _ ha => hfg _ _ _ _ ha)
  · rw [if_neg h1] at hr ⊢
    exact hr

/-- More fuel does not change a result of `node_assoc`. -/
theorem mem_node_assoc_mono (key val hash : Nat) (eq_key eq_val : Nat → Nat → Bool) :
    ∀ (fuel : Nat) (h : Heap) (self level : Nat) (r : Heap × Nat × Nat),
      node_assoc key val hash eq_key eq_val fuel h self level = some r →
      node_assoc key val hash eq_key eq_val (fuel + 1) h self level = some r := by
  intro fuel
  induction fuel with
  | zero =>
    intro h self level r hr
    simp [node_assoc] at hr
  | succ fuel ih =>
    intro h self level r hr
    rw [node_assoc] at hr ⊢
    split at hr
    · rename_i hm
      exact mem_leaf_assoc_mono ih _ _ _ _ _ _ _ _ _ hr
    · rename_i hm
      exact mem_bitmap_indexed_assoc_mono ih _ _ _ _ _ _ _ hr
    · rename_i hm
      exact mem_hash_collision_assoc_mono _ _ _ _ _ _ _ _ _ hr
    · cases hr

theorem mem_node_assoc_mono_le (key val hash : Nat) (eq_key eq_val : Nat → Nat → Bool)
    {fuel fuel1 : Nat} (hle : fuel ≤ fuel1) (h : Heap) (self level : Nat) (r : Heap × Nat × Nat)
    (hr : node_assoc key val hash eq_key eq_val fuel h self level = some r) :
    node_assoc key val hash eq_key eq_val fuel1 h self level = some r := by
  induction hle with
  | refl => exact hr
  | step _ ih => exact mem_node_assoc_mono _ _ _ _ _ _ _ _ _ _ ih

theorem mem_hash_collision_dissoc_mono (fuel : Nat) (h : Heap) (self key : Nat)
    (eq_key : Nat → Nat → Bool) (r : Heap × Nat × Nat)
    (hr : hash_collision_dissoc fuel h self key eq_key = some r) :
    hash_collision_dissoc (fuel + 1) h self key eq_key = some r := by
  unfold hash_collision_dissoc at hr ⊢
  refine bind_mono_left ?_ (fun a ha => mem_chain_find_mono _ _ _ _ _ _ ha)
  refine bind_mono_right hr (fun node hr => ?_)
  by_cases hn : node = NULL
  · rw [if_pos hn] at hr ⊢
    exact hr
  · rw [if_neg hn] at hr ⊢
    refine bind_mono_right hr (fun next hr => ?_)
    dsimp only at hr ⊢
    by_cases hc : node = self ∧ next ≠ NULL
    · rw [if_pos hc] at hr ⊢
      refine bind_mono_right hr (fun nn hr => ?_)
      refine bind_mono_right hr (fun two hr => ?_)
      cases two with
      | true => exact hr
      | false =>
        simp only [Bool.false_eq_true, if_false] at hr ⊢
        refine bind_mono_right hr (fun hn hr => ?_)
        by_cases h1 : node = hn ∧ next = NULL
        · rw [if_pos h1] at hr ⊢
          exact hr
        · rw [if_neg h1] at hr ⊢
          by_cases h2 : node = self
          · rw [if_pos h2] at hr ⊢
            exact hr
          · rw [if_neg h2] at hr ⊢
            exact bind_mono_left hr (fun a ha => mem_chain_copy_mono _ _ _ _ _ _ _ ha)
    · rw [if_neg hc] at hr ⊢
      refine bind_mono_right hr (fun two hr => ?_)
      cases two with
      | true => exact hr
      | false =>
        simp only [Bool.false_eq_true, if_false] at hr ⊢
        refine bind_mono_right hr (fun hn hr => ?_)
        by_cases h1 : node = hn ∧ next = NULL
        · rw [if_pos h1] at hr ⊢
          exact hr
        · rw [if_neg h1] at hr ⊢
          by_cases h2 : node = self
          · rw [if_pos h2] at hr ⊢
            exact hr
          · rw [if_neg h2] at hr ⊢
            exact bind_mono_left hr (fun a ha => mem_chain_copy_mono _ _ _ _ _ _ _ ha)

theorem mem_bitmap_indexed_dissoc_mono {f g : Heap → Nat → Nat → Option (Heap × Nat × Nat)}
    (hfg : ∀ h p l r, f h p l = some r → g h p l = some r) (h : Heap)
    (self level hash : Nat) (r : Heap × Nat × Nat)
    (hr : bitmap_indexed_dissoc f h self level hash = some r) :
    bitmap_indexed_dissoc g h self level hash = some r := by
  unfold bitmap_indexed_dissoc at hr ⊢
  refine bind_mono_right hr (fun bitmap hr => ?_)
  simp only at hr ⊢
  by_cases h1 : bitmap &&& bitpos hash level ≠ 0
  · rw [if_pos h1] at hr ⊢
    refine bind_mono_right hr (fun _ hr => ?_)
    refine bind_mono_right hr (fun _ hr => ?_)
    exact bind_mono_left hr (fun _ ha => hfg _ _ _ _ ha)
  · rw [if_neg h1] at hr ⊢
    exact hr

/-- More fuel does not change a result of `node_dissoc`. -/
theorem mem_node_dissoc_mono (eq_key : Nat → Nat → Bool) (key hash : Nat) :
    ∀ (fuel : Nat) (h : Heap) (self level : Nat) (r : Heap × Nat × Nat),
      node_dissoc eq_key key hash fuel h self level = some r →
      node_dissoc eq_key key hash (fuel + 1) h self level = some r := by
  intro fuel
  induction fuel with
  | zero =>
    intro h self level r hr
    simp [node_dissoc] at hr
  | succ fuel ih =>
    intro h self level r hr
    rw [node_dissoc] at hr ⊢
    split at hr
    · rename_i hm
      exact hr
    · rename_i hm
      exact mem_bitmap_indexed_dissoc_mono ih _ _ _ _ _ hr
    · rename_i hm
      exact mem_hash_collision_dissoc_mono _ _ _ _ _ _ hr
    · cases hr

theorem mem_node_dissoc_mono_le (eq_key : Nat → Nat → Bool) (key hash : Nat)
    {fuel fuel1 : Nat} (hle : fuel ≤ fuel1) (h : Heap) (self level : Nat) (r : Heap × Nat × Nat)
    (hr : node_dissoc eq_key key hash fuel h self level = some r) :
    node_dissoc eq_key key hash fuel1 h self level = some r := by
  induction hle with
  | refl => exact hr
  | step _ ih => exact mem_node_dissoc_mono _ _ _ _ _ _ _ _ ih

/-- A result of `hashmap_assoc`, whatever the fuel, is the result with more
fuel. -/
theorem mem_hashmap_assoc_fuel {h : Heap} {map key val fuel : Nat} {r : Heap × Nat}
    (hr : hashmap_assoc fuel h map key val = some r) {fuel1 : Nat} (hle : fuel ≤ fuel1) :
    hashmap_assoc fuel1 h map key val = some r := by
  unfold hashmap_assoc at hr ⊢
  split at hr
  · rename_i hash eq_key eq_val _ root hm
    dsimp only at hr ⊢
    by_cases h0 : root = NULL
    · rw [if_pos h0] at hr ⊢
      exact hr
    · rw [if_neg h0] at hr ⊢
      exact bind_mono_left hr (fun a ha => mem_node_assoc_mono_le _ _ _ _ _ hle _ _ _ _ ha)
  · cases hr

/-- A result of `hashmap_dissoc`, whatever the fuel, is the result with more
fuel. -/
theorem mem_hashmap_dissoc_fuel {h : Heap} {map key fuel : Nat} {r : Heap × Nat}
    (hr : hashmap_dissoc fuel h map key = some r) {fuel1 : Nat} (hle : fuel ≤ fuel1) :
    hashmap_dissoc fuel1 h map key = some r := by
  unfold hashmap_dissoc at hr ⊢
  split at hr
  · rename_i hash eq_key _ _ root hm
    by_cases h0 : root = NULL
    · rw [if_pos h0] at hr ⊢
      exact hr
    · rw [if_neg h0] at hr ⊢
      exact bind_mono_left hr (fun a ha => mem_node_dissoc_mono_le _ _ _ hle _ _ _ _ ha)
  · cases hr

end PHashmapMem

namespace PHashmap

/-- `node_get` on a well-formed node returns. -/
theorem node_get_total {hashf : Nat → Nat} {eq_key : Nat → Nat → Bool} (key hash : Nat)
    {level p : Nat} {n : Node} (hwf : WF hashf eq_key level p n) :
    ∃ x, node_get eq_key key hash n level = some x := by
  induction hwf with
  | leaf hh ha => exact ⟨_, by rw [node_get]⟩
  | hash_collision hc hp => exact ⟨_, by rw [node_get]⟩
  | bitmap_indexed hl hb hlen hch ih =>
    rename_i level p bitmap cs
    rw [node_get_bitmap]
    by_cases hbit : bitmap.testBit (mask hash level) = true
    · rw [if_pos hbit]
      have hs := mask_lt hash level
      obtain ⟨c, hc⟩ := wf_child_exists hlen hs hbit
      obtain ⟨q, hq, hmq⟩ := exists_path_hash p level hs
      rw [hc]
      exact ih _ hs hbit c hc q hq hmq
    · rw [if_neg hbit]
      exact ⟨_, rfl⟩

/-- `hashmap_get` on a well-formed map returns. -/
theorem hashmap_get_total {hashf : Nat → Nat} {eq_key eq_val : Nat → Nat → Bool}
    {map : Hashmap} (hm : MapWF hashf eq_key eq_val map) (key : Nat) :
    ∃ x, hashmap_get map key = some x := by
  rw [hashmap_get]
  cases hr : map.root with
  | none => exact ⟨_, rfl⟩
  | some root =>
    simp only
    rw [hm.eq_key_eq]
    exact node_get_total key _ (hm.root_wf root hr)

/-- A Boolean test that no entry of the map has a key equal to `k`. -/
theorem not_has_key_of_all {map : Hashmap} {k : Nat}
    (h : (hashmap_entries map).all (fun c => !(map.eq_key c.key k)) = true) :
    ¬ has_key map k := by
  rintro ⟨c, hc, hk⟩
  have := List.all_eq_true.mp h c hc
  rw [hk] at this
  cases this

end PHashmap

namespace PHashmapMem

open PHashmap (NULL UNCHANGED ADDED UPDATED REMOVED HASH_BITS popcount mask bitpos bit_index)

/-! ### The map operations in memory -/

/-- The block of `hashmap_assoc` and `hashmap_dissoc` that builds the new
`struct Hashmap`. -/
theorem header_block_sim {h1 : Heap} (ok1 : HeapOK h1) {m : Nat} {hash : Nat → Nat}
    {eq_key eq_val : Nat → Nat → Bool} {count : Int} {root : Nat}
    (hm : h1.mem m = some (.hashmap hash eq_key eq_val count root)) (root1 : Nat) (d : Int) :
    ∃ h4, (do
        let (h2, new) ← copy_hashmap h1 m
        let h3 ← set_root h2 new root1
        let h4 ← add_count h3 new d
        some (h4, new) : Option (Heap × Nat)) = some (h4, h1.next) ∧
      HeapOK h4 ∧ Frame h1 h4 ∧
      h4.mem h1.next = some (.hashmap hash eq_key eq_val (count + d) root1) := by
  obtain ⟨h2, e2, ok2, n2, m2, o2⟩ := alloc_spec ok1 (.hashmap hash eq_key eq_val count root)
  have f2 : Frame h1 h2 := frame_step (frame_refl h1) (by omega) (Nat.le_refl _) o2
  have c2 : copy_hashmap h1 m = some (h2, h1.next) := by
    rw [copy_hashmap, hm]
    simp only [e2]
  obtain ⟨ok3, n3, m3, o3⟩ := write_spec ok2 m2 (.hashmap hash eq_key eq_val count root1)
  have f3 : Frame h1 (write h2 h1.next (.hashmap hash eq_key eq_val count root1)) :=
    frame_step f2 (by omega) (Nat.le_refl _) o3
  have c3 : set_root h2 h1.next root1 =
      some (write h2 h1.next (.hashmap hash eq_key eq_val count root1)) := by
    rw [set_root, m2]
  obtain ⟨ok4, n4, m4, o4⟩ := write_spec ok3 m3 (.hashmap hash eq_key eq_val (count + d) root1)
  have c4 : add_count (write h2 h1.next (.hashmap hash eq_key eq_val count root1)) h1.next d =
      some (write (write h2 h1.next (.hashmap hash eq_key eq_val count root1)) h1.next
        (.hashmap hash eq_key eq_val (count + d) root1)) := by
    rw [add_count, m3]
  refine ⟨_, ?_, ok4, frame_step f3 (by omega) (Nat.le_refl _) o4, m4⟩
  simp only [c2, c3, c4, Option.bind_eq_bind, Option.some_bind]

/-- `hashmap_get` in memory returns what `hashmap_get` on the map returns. -/
theorem hashmap_get_sim {hashf : Nat → Nat} {eq_key eq_val : Nat → Nat → Bool}
    {map : PHashmap.Hashmap} (hm : PHashmap.MapWF hashf eq_key eq_val map) {h : Heap} {m : Nat}
    (ok : HeapOK h) (hrep : RepMap h m map) (key : Nat) {F : Nat}
    (hF : (PHashmap.hashmap_entries map).length + 16 ≤ F) :
    hashmap_get F h m key = PHashmap.hashmap_get map key := by
  obtain ⟨hh, hk, hv, hroot⟩ := hm
  obtain ⟨root, hmem, hr⟩ := hrep
  rw [hashmap_get, hmem, PHashmap.hashmap_get]
  simp only
  cases hmr : map.root with
  | none =>
    rw [hmr] at hr
    have h0 : root = NULL := hr
    rw [if_pos h0]
  | some n =>
    rw [hmr] at hr
    have hrn : Rep h root n := hr
    obtain ⟨o, ho⟩ := rep_mem hrn
    rw [if_neg (mem_ne_null ok ho)]
    have hwf := hroot n hmr
    have hneed := PHashmap.need_le n 0
    simp only [PHashmap.hashmap_entries, hmr, PHashmap.entries_opt] at hF
    rw [hk]
    exact node_get_sim ok key _ hrn 0 0 F hwf (by omega)

/-- `hashmap_assoc` in memory does what `hashmap_assoc` on the map does: given
enough fuel it returns a map that holds the map returned there, built in fresh
blocks; when the result of the root is `UNCHANGED` it returns its argument and
leaves the heap as it is. -/
theorem hashmap_assoc_sim {hashf : Nat → Nat} {eq_key eq_val : Nat → Nat → Bool}
    (ops : PHashmap.KeyOps hashf eq_key) {map : PHashmap.Hashmap}
    (hm : PHashmap.MapWF hashf eq_key eq_val map) {h : Heap} {m : Nat} (ok : HeapOK h)
    (hrep : RepMap h m map) (key val : Nat) :
    ∃ map1 r, PHashmap.hashmap_assoc 15 map key val = some map1 ∧
      PHashmap.AssocEntries eq_key eq_val key val (hashf key % 2 ^ HASH_BITS)
        (PHashmap.hashmap_entries map) (PHashmap.hashmap_entries map1) r ∧
      (r = UNCHANGED → map1 = map) ∧
      ∀ F, (PHashmap.hashmap_entries map).length + 16 ≤ F →
        ∃ h1 m1, hashmap_assoc F h m key val = some (h1, m1) ∧ HeapOK h1 ∧ Frame h h1 ∧
          RepMap h1 m1 map1 ∧ (r = UNCHANGED → h1 = h ∧ m1 = m) := by
  obtain ⟨hh, hk, hv, hroot⟩ := hm
  obtain ⟨root, hmem, hr⟩ := hrep
  obtain ⟨mh, mk, mv, mc, mroot⟩ := map
  simp only at hh hk hv hroot hmem hr
  subst hh hk hv
  cases mroot with
  | none =>
    have h0 : root = NULL := hr
    refine ⟨PHashmap.Hashmap.mk mh mk mv (mc + 1)
      (some (.leaf key val (mh key % 2 ^ HASH_BITS))), ADDED, ?_,
      Or.inr (Or.inr ⟨rfl, fun x hx => absurd hx (List.not_mem_nil x), List.Perm.refl _⟩),
      fun e => absurd e (by decide), ?_⟩
    · simp [PHashmap.hashmap_assoc, PHashmap.Hashmap.hash_of, ADDED, UNCHANGED]
    · intro F _
      obtain ⟨h1, e1, ok1, n1, m1, o1⟩ := alloc_spec ok (.leaf key val (mh key % 2 ^ HASH_BITS))
      have f1 : Frame h h1 := frame_step (frame_refl h) (by omega) (Nat.le_refl _) o1
      obtain ⟨h4, e4, ok4, f4, m4⟩ := header_block_sim ok1 (frame_mem ok f1 hmem) h.next 1
      simp only [Option.bind_eq_bind] at e4
      refine ⟨h4, h1.next, ?_, ok4, frame_trans f1 f4, ⟨h.next, m4, ?_⟩,
        fun e => absurd e (by decide)⟩
      · rw [hashmap_assoc, hmem]
        simp only [if_pos h0, new_leaf_node, e1, Option.bind_eq_bind, Option.some_bind, ADDED,
          UNCHANGED, ne_eq, one_ne_zero, not_false_eq_true, if_true]
        exact e4
      · exact Rep.leaf (frame_mem ok1 f4 m1)
  | some n =>
    have hrn : Rep h root n := hr
    obtain ⟨o, ho⟩ := rep_mem hrn
    have hnz := mem_ne_null ok ho
    have hwf := PHashmap.wf_level_zero (hroot n rfl) (mh key % 2 ^ HASH_BITS)
    have hneed := PHashmap.need_le n 0
    obtain ⟨n1, r, hn, _⟩ := PHashmap.node_assoc_spec ops mv key val 15 0 n hwf (by omega)
    have hent := PHashmap.node_assoc_entries ops mv key val 15 0 n hwf n1 r hn
    by_cases hru : r = UNCHANGED
    · refine ⟨PHashmap.Hashmap.mk mh mk mv mc (some n), r, ?_,
        ?_, fun _ => rfl, ?_⟩
      · simp [PHashmap.hashmap_assoc, PHashmap.Hashmap.hash_of, hn, hru]
      · rcases hent with ⟨_, _, hc⟩ | ⟨e, _⟩ | ⟨e, _⟩
        · exact Or.inl ⟨hru, rfl, hc⟩
        · rw [hru] at e
          exact absurd e (by decide)
        · rw [hru] at e
          exact absurd e (by decide)
      · intro F hF
        simp only [PHashmap.hashmap_entries, PHashmap.entries_opt] at hF
        obtain ⟨h1, p1, hrun, ok1, f1, hrep1, hun⟩ := node_assoc_sim ops mv key val 15 0 n hwf
          n1 r hn h root F ok hrn (by omega)
        obtain ⟨e1, e2⟩ := hun hru
        subst e1
        refine ⟨h1, m, ?_, ok, frame_refl h1, ⟨root, hmem, hrn⟩, fun _ => ⟨rfl, rfl⟩⟩
        rw [hashmap_assoc, hmem]
        simp only [if_neg hnz, hrun, Option.bind_eq_bind, Option.some_bind, hru, ne_eq,
          not_true_eq_false, if_false]
    · refine ⟨PHashmap.Hashmap.mk mh mk mv (mc + (if r = ADDED then 1 else 0)) (some n1), r,
        ?_, hent,
        fun e => absurd e hru, ?_⟩
      · simp [PHashmap.hashmap_assoc, PHashmap.Hashmap.hash_of, hn, hru]
      · intro F hF
        simp only [PHashmap.hashmap_entries, PHashmap.entries_opt] at hF
        obtain ⟨h1, p1, hrun, ok1, f1, hrep1, hun⟩ := node_assoc_sim ops mv key val 15 0 n hwf
          n1 r hn h root F ok hrn (by omega)
        obtain ⟨h4, e4, ok4, f4, m4⟩ := header_block_sim ok1 (frame_mem ok f1 hmem) p1
          (if r = ADDED then 1 else 0)
        simp only [Option.bind_eq_bind] at e4
        refine ⟨h4, h1.next, ?_, ok4, frame_trans f1 f4, ⟨p1, m4, rep_frame ok1 f4 hrep1⟩,
          fun e => absurd e hru⟩
        rw [hashmap_assoc, hmem]
        simp only [if_neg hnz, hrun, Option.bind_eq_bind, Option.some_bind, ne_eq, hru,
          not_false_eq_true, if_true]
        exact e4

/-- `hashmap_dissoc` in memory does what `hashmap_dissoc` on the map does: given
enough fuel it returns a map that holds the map returned there, built in fresh
blocks; when the result of the root is `UNCHANGED`, and when the map is empty,
it returns its argument and leaves the heap as it is. -/
theorem hashmap_dissoc_sim {hashf : Nat → Nat} {eq_key eq_val : Nat → Nat → Bool}
    (ops : PHashmap.KeyOps hashf eq_key) {map : PHashmap.Hashmap}
    (hm : PHashmap.MapWF hashf eq_key eq_val map) {h : Heap} {m : Nat} (ok : HeapOK h)
    (hrep : RepMap h m map) (key : Nat) :
    ∃ map1 r, PHashmap.hashmap_dissoc map key = some map1 ∧
      PHashmap.DissocEntries eq_key key (PHashmap.hashmap_entries map)
        (PHashmap.hashmap_entries map1) r ∧
      (r = UNCHANGED → map1 = map) ∧
      ∀ F, (PHashmap.hashmap_entries map).length + 16 ≤ F →
        ∃ h1 m1, hashmap_dissoc F h m key = some (h1, m1) ∧ HeapOK h1 ∧ Frame h h1 ∧
          RepMap h1 m1 map1 ∧ (r = UNCHANGED → h1 = h ∧ m1 = m) := by
  obtain ⟨hh, hk, hv, hroot⟩ := hm
  obtain ⟨root, hmem, hr⟩ := hrep
  obtain ⟨mh, mk, mv, mc, mroot⟩ := map
  simp only at hh hk hv hroot hmem hr
  subst hh hk hv
  cases mroot with
  | none =>
    have h0 : root = NULL := hr
    refine ⟨PHashmap.Hashmap.mk mh mk mv mc none, UNCHANGED,
      rfl, Or.inl ⟨rfl, fun x hx => absurd hx (List.not_mem_nil x)⟩, fun _ => rfl, ?_⟩
    intro F _
    refine ⟨h, m, ?_, ok, frame_refl h, ⟨root, hmem, hr⟩, fun _ => ⟨rfl, rfl⟩⟩
    rw [hashmap_dissoc, hmem]
    simp only [if_pos h0]
  | some n =>
    have hrn : Rep h root n := hr
    obtain ⟨o, ho⟩ := rep_mem hrn
    have hnz := mem_ne_null ok ho
    have hwf := hroot n rfl
    have hag : PHashmap.agree 0 (mh key % 2 ^ HASH_BITS) 0 :=
      fun _ hj => absurd hj (Nat.not_lt_zero _)
    have hneed := PHashmap.need_le n 0
    obtain ⟨n1, r, hn, _⟩ := PHashmap.node_dissoc_spec ops key hwf hag
    have hent := PHashmap.node_dissoc_entries ops key hwf hag n1 r hn
    by_cases hru : r = UNCHANGED
    · refine ⟨PHashmap.Hashmap.mk mh mk mv mc (some n), r, ?_,
        ?_, fun _ => rfl, ?_⟩
      · simp [PHashmap.hashmap_dissoc, PHashmap.Hashmap.hash_of, hn, hru]
      · rcases hent with ⟨_, hc⟩ | ⟨e, _⟩
        · exact Or.inl ⟨hru, hc⟩
        · rw [hru] at e
          exact absurd e (by decide)
      · intro F hF
        simp only [PHashmap.hashmap_entries, PHashmap.entries_opt] at hF
        obtain ⟨h1, p1, hrun, ok1, f1, hrep1, hun⟩ := node_dissoc_sim key hwf hag n1 r hn h root
          F ok hrn (by omega)
        have e1 := hun hru
        subst e1
        refine ⟨h1, m, ?_, ok, frame_refl h1, ⟨root, hmem, hrn⟩, fun _ => ⟨rfl, rfl⟩⟩
        rw [hashmap_dissoc, hmem]
        simp only [if_neg hnz, hrun, Option.bind_eq_bind, Option.some_bind, hru, ne_eq,
          not_true_eq_false, if_false]
    · refine ⟨PHashmap.Hashmap.mk mh mk mv (mc - (if r = REMOVED then 1 else 0)) n1, r,
        ?_, hent,
        fun e => absurd e hru, ?_⟩
      · simp [PHashmap.hashmap_dissoc, PHashmap.Hashmap.hash_of, hn, hru]
      · intro F hF
        simp only [PHashmap.hashmap_entries, PHashmap.entries_opt] at hF
        obtain ⟨h1, p1, hrun, ok1, f1, hrep1, hun⟩ := node_dissoc_sim key hwf hag n1 r hn h root
          F ok hrn (by omega)
        obtain ⟨h4, e4, ok4, f4, m4⟩ := header_block_sim ok1 (frame_mem ok f1 hmem) p1
          (-(if r = REMOVED then 1 else 0))
        simp only [Option.bind_eq_bind] at e4
        refine ⟨h4, h1.next, ?_, ok4, frame_trans f1 f4,
          ⟨p1, m4, repOpt_frame ok1 f4 (hrep1 hru)⟩, fun e => absurd e hru⟩
        rw [hashmap_dissoc, hmem]
        simp only [if_neg hnz, hrun, Option.bind_eq_bind, Option.some_bind, ne_eq, hru,
          not_false_eq_true, if_true]
        exact e4

end PHashmapMem

namespace PHashmapMem

open PHashmap (NULL UNCHANGED ADDED UPDATED REMOVED HASH_BITS popcount mask bitpos bit_index)

/-! ### A block holds one node -/

theorem repChain_unique {h : Heap} (ok : HeapOK h) :
    ∀ (cells cells1 : List PHashmap.Cell) (p : Nat), RepChain h p cells → RepChain h p cells1 →
      cells = cells1 := by
  intro cells
  induction cells with
  | nil =>
    intro cells1 p hc hc1
    cases cells1 with
    | nil => rfl
    | cons c rest =>
      obtain ⟨next, hm, _⟩ := hc1
      have hp : p = NULL := hc
      exact absurd hp (mem_ne_null ok hm)
  | cons c rest ih =>
    intro cells1 p hc hc1
    obtain ⟨next, hm, hrest⟩ := hc
    cases cells1 with
    | nil =>
      have hp : p = NULL := hc1
      exact absurd hp (mem_ne_null ok hm)
    | cons c1 rest1 =>
      obtain ⟨next1, hm1, hrest1⟩ := hc1
      rw [hm] at hm1
      simp only [Option.some.injEq, Obj.hash_collision.injEq] at hm1
      obtain ⟨e1, e2, e3, e4⟩ := hm1
      subst e4
      rw [ih rest1 next hrest hrest1]
      cases c
      cases c1
      simp only at e1 e2 e3
      rw [e1, e2, e3]

theorem rep_unique {h : Heap} (ok : HeapOK h) {p : Nat} {n : PHashmap.Node} (hr : Rep h p n) :
    ∀ n1, Rep h p n1 → n = n1 := by
  induction hr with
  | leaf hm =>
    intro n1 h1
    cases h1 with
    | leaf hm1 =>
      rw [hm] at hm1
      simp only [Option.some.injEq, Obj.leaf.injEq] at hm1
      rw [hm1.1, hm1.2.1, hm1.2.2]
    | hash_collision hne hc =>
      rename_i cells
      cases cells with
      | nil => exact absurd rfl hne
      | cons c rest =>
        obtain ⟨next, hm1, _⟩ := hc
        rw [hm] at hm1
        cases hm1
    | bitmap_indexed hm1 _ _ _ =>
      rw [hm] at hm1
      cases hm1
  | hash_collision hne hc =>
    rename_i p cells
    intro n1 h1
    have hmem : ∃ k v hs nx, h.mem p = some (.hash_collision k v hs nx) := by
      cases cells with
      | nil => exact absurd rfl hne
      | cons c rest =>
        obtain ⟨next, hm, _⟩ := hc
        exact ⟨_, _, _, _, hm⟩
    obtain ⟨k, v, hs, nx, hm⟩ := hmem
    cases h1 with
    | leaf hm1 =>
      rw [hm] at hm1
      cases hm1
    | hash_collision hne1 hc1 => rw [repChain_unique ok _ _ _ hc hc1]
    | bitmap_indexed hm1 _ _ _ =>
      rw [hm] at hm1
      cases hm1
  | bitmap_indexed hm ha hlen hrep ih =>
    rename_i p bitmap a ps cs
    intro n1 h1
    cases h1 with
    | leaf hm1 =>
      rw [hm] at hm1
      cases hm1
    | hash_collision hne hc =>
      rename_i cells
      cases cells with
      | nil => exact absurd rfl hne
      | cons c rest =>
        obtain ⟨next, hm1, _⟩ := hc
        rw [hm] at hm1
        cases hm1
    | bitmap_indexed hm1 ha1 hlen1 hrep1 =>
      rename_i a1 ps1 cs1
      rw [hm] at hm1
      simp only [Option.some.injEq, Obj.bitmap_indexed.injEq] at hm1
      obtain ⟨e1, e2⟩ := hm1
      subst e1 e2
      rw [ha] at ha1
      simp only [Option.some.injEq, Obj.children.injEq] at ha1
      subst ha1
      have hcs : cs = cs1 := by
        apply List.ext_getElem (by omega)
        intro i hi hi1
        have hip : i < ps.length := by omega
        have hq : ps[i]? = some ps[i] := List.getElem?_eq_getElem hip
        exact ih i _ _ hq (List.getElem?_eq_getElem hi) _
          (hrep1 i _ _ hq (List.getElem?_eq_getElem hi1))
      rw [hcs]

/-- The block of a map holds one map. -/
theorem repMap_unique {h : Heap} (ok : HeapOK h) {m : Nat} {map map1 : PHashmap.Hashmap}
    (hr : RepMap h m map) (hr1 : RepMap h m map1) : map = map1 := by
  obtain ⟨root, hm, hrep⟩ := hr
  obtain ⟨root1, hm1, hrep1⟩ := hr1
  rw [hm] at hm1
  simp only [Option.some.injEq, Obj.hashmap.injEq] at hm1
  obtain ⟨e1, e2, e3, e4, e5⟩ := hm1
  subst e5
  obtain ⟨mh, mk, mv, mc, mroot⟩ := map
  obtain ⟨mh1, mk1, mv1, mc1, mroot1⟩ := map1
  simp only at e1 e2 e3 e4 hrep hrep1
  subst e1 e2 e3 e4
  have hroot : mroot = mroot1 := by
    cases mroot with
    | none =>
      cases mroot1 with
      | none => rfl
      | some n1 =>
        have h0 : root = NULL := hrep
        obtain ⟨o, ho⟩ := rep_mem (show Rep h root n1 from hrep1)
        exact absurd h0 (mem_ne_null ok ho)
    | some n =>
      cases mroot1 with
      | none =>
        have h0 : root = NULL := hrep1
        obtain ⟨o, ho⟩ := rep_mem (show Rep h root n from hrep)
        exact absurd h0 (mem_ne_null ok ho)
      | some n1 =>
        rw [rep_unique ok (show Rep h root n from hrep) n1 hrep1]
  rw [hroot]

/-! ### Programs -/

theorem assocEntries_length {eq_key eq_val : Nat → Nat → Bool} {key val hash : Nat}
    {es es1 : List PHashmap.Cell} {r : Nat}
    (he : PHashmap.AssocEntries eq_key eq_val key val hash es es1 r) :
    es1.length ≤ es.length + 1 := by
  rcases he with ⟨_, e, _⟩ | ⟨_, c, rest, _, _, hp, hp1, _⟩ | ⟨_, _, hp⟩
  · rw [e]
    omega
  · rw [hp1.length_eq, hp.length_eq]
    simp
  · rw [hp.length_eq]
    simp

theorem dissocEntries_length {eq_key : Nat → Nat → Bool} {key : Nat}
    {es es1 : List PHashmap.Cell} {r : Nat} (he : PHashmap.DissocEntries eq_key key es es1 r)
    (hun : r = UNCHANGED → es1 = es) : es1.length ≤ es.length := by
  rcases he with ⟨e, _⟩ | ⟨_, c, _, hp, _⟩
  · rw [hun e]
  · rw [hp.length_eq]
    simp

/-- With an entry for `key` whose value `eq_val` equates with `val`, the result
of an `assoc` is `UNCHANGED`. -/
theorem assocEntries_unchanged {eq_key eq_val : Nat → Nat → Bool} {key val hash : Nat}
    {es es1 : List PHashmap.Cell} {r : Nat}
    (he : PHashmap.AssocEntries eq_key eq_val key val hash es es1 r)
    (hc : ∃ c ∈ es, eq_key c.key key = true ∧ eq_val c.val val = true) : r = UNCHANGED := by
  obtain ⟨c, hces, hk, hv⟩ := hc
  rcases he with ⟨e, _⟩ | ⟨_, c1, rest, _, hv1, hp, _, hn⟩ | ⟨_, hn, _⟩
  · exact e
  · rcases List.mem_cons.mp (hp.mem_iff.mp hces) with e | hmem
    · rw [e, hv1] at hv
      cases hv
    · rw [hn c hmem] at hk
      cases hk
  · rw [hn c hces] at hk
    cases hk

/-- Without an entry for `key` the result of a `dissoc` is `UNCHANGED`. -/
theorem dissocEntries_unchanged {eq_key : Nat → Nat → Bool} {key : Nat}
    {es es1 : List PHashmap.Cell} {r : Nat} (he : PHashmap.DissocEntries eq_key key es es1 r)
    (hc : ¬ ∃ c ∈ es, eq_key c.key key = true) : r = UNCHANGED := by
  rcases he with ⟨e, _⟩ | ⟨_, c, hk, hp, _⟩
  · exact e
  · exact absurd ⟨c, hp.mem_iff.mpr (List.mem_cons_self c es1), hk⟩ hc

/-- Every map that a program holds is a block that holds a map built through
the API, in a sound heap. -/
theorem reach_rep {hashf : Nat → Nat} {eq_key eq_val : Nat → Nat → Bool}
    (ops : PHashmap.KeyOps hashf eq_key) {h : Heap} {m : Nat}
    (hr : Reach hashf eq_key eq_val h m) :
    HeapOK h ∧ ∃ map, RepMap h m map ∧ PHashmap.Reach hashf eq_key eq_val map := by
  induction hr with
  | make =>
    refine ⟨heapOK_alloc mem_heapOK_empty _, PHashmap.hashmap_make (fun _ => []) (some hashf)
      (some eq_key) (some eq_val), ⟨NULL, ?_, rfl⟩, PHashmap.Reach.make _⟩
    exact alloc_mem_self _ _
  | assoc fuel key val _ hcall ih =>
    obtain ⟨ok, map, hrep, hreach⟩ := ih
    obtain ⟨map1, r, ht, _, _, hsim⟩ :=
      hashmap_assoc_sim ops (PHashmap.reach_wf ops hreach) ok hrep key val
    obtain ⟨h2, m2, hrun, ok2, _, hrep2, _⟩ :=
      hsim (max fuel ((PHashmap.hashmap_entries map).length + 16)) (Nat.le_max_right _ _)
    rw [mem_hashmap_assoc_fuel hcall (Nat.le_max_left _ _)] at hrun
    simp only [Option.some.injEq, Prod.mk.injEq] at hrun
    rw [hrun.1, hrun.2]
    exact ⟨ok2, map1, hrep2, PHashmap.Reach.assoc 15 key val hreach ht⟩
  | dissoc fuel key _ hcall ih =>
    obtain ⟨ok, map, hrep, hreach⟩ := ih
    obtain ⟨map1, r, ht, _, _, hsim⟩ :=
      hashmap_dissoc_sim ops (PHashmap.reach_wf ops hreach) ok hrep key
    obtain ⟨h2, m2, hrun, ok2, _, hrep2, _⟩ :=
      hsim (max fuel ((PHashmap.hashmap_entries map).length + 16)) (Nat.le_max_right _ _)
    rw [mem_hashmap_dissoc_fuel hcall (Nat.le_max_left _ _)] at hrun
    simp only [Option.some.injEq, Prod.mk.injEq] at hrun
    rw [hrun.1, hrun.2]
    exact ⟨ok2, map1, hrep2, PHashmap.Reach.dissoc key hreach ht⟩
  | keep_assoc fuel key val _ _ hcall ihm ih =>
    obtain ⟨ok, map, hrep, hreach⟩ := ih
    obtain ⟨_, map0, hrep0, hreach0⟩ := ihm
    obtain ⟨map1, r, ht, _, _, hsim⟩ :=
      hashmap_assoc_sim ops (PHashmap.reach_wf ops hreach) ok hrep key val
    obtain ⟨h2, m2, hrun, ok2, f2, _, _⟩ :=
      hsim (max fuel ((PHashmap.hashmap_entries map).length + 16)) (Nat.le_max_right _ _)
    rw [mem_hashmap_assoc_fuel hcall (Nat.le_max_left _ _)] at hrun
    simp only [Option.some.injEq, Prod.mk.injEq] at hrun
    rw [hrun.1]
    exact ⟨ok2, map0, repMap_frame ok f2 hrep0, hreach0⟩
  | keep_dissoc fuel key _ _ hcall ihm ih =>
    obtain ⟨ok, map, hrep, hreach⟩ := ih
    obtain ⟨_, map0, hrep0, hreach0⟩ := ihm
    obtain ⟨map1, r, ht, _, _, hsim⟩ :=
      hashmap_dissoc_sim ops (PHashmap.reach_wf ops hreach) ok hrep key
    obtain ⟨h2, m2, hrun, ok2, f2, _, _⟩ :=
      hsim (max fuel ((PHashmap.hashmap_entries map).length + 16)) (Nat.le_max_right _ _)
    rw [mem_hashmap_dissoc_fuel hcall (Nat.le_max_left _ _)] at hrun
    simp only [Option.some.injEq, Prod.mk.injEq] at hrun
    rw [hrun.1]
    exact ⟨ok2, map0, repMap_frame ok f2 hrep0, hreach0⟩

/-- The result of a program on a reachable map is reachable. -/
theorem mem_reach_run {hashf : Nat → Nat} {eq_key eq_val : Nat → Nat → Bool} (fuel : Nat) :
    ∀ (p : List PHashmap.Op) (s s1 : Heap × Nat), Reach hashf eq_key eq_val s.1 s.2 →
      run fuel p s = some s1 → Reach hashf eq_key eq_val s1.1 s1.2 := by
  intro p
  induction p with
  | nil =>
    intro s s1 hr h
    simp only [run, Option.some.injEq] at h
    rw [← h]
    exact hr
  | cons op ops ih =>
    intro s s1 hr h
    rw [run] at h
    cases hop : apply fuel s op with
    | none =>
      rw [hop] at h
      cases h
    | some s2 =>
      rw [hop] at h
      refine ih s2 s1 ?_ h
      cases op with
      | assoc key val => exact Reach.assoc fuel key val hr hop
      | dissoc key => exact Reach.dissoc fuel key hr hop

/-- A program in memory does what the program on the map does. -/
theorem run_sim {hashf : Nat → Nat} {eq_key eq_val : Nat → Nat → Bool}
    (ops : PHashmap.KeyOps hashf eq_key) :
    ∀ (p : List PHashmap.Op) (map map1 : PHashmap.Hashmap) (h : Heap) (m F : Nat),
      PHashmap.Reach hashf eq_key eq_val map → HeapOK h → RepMap h m map →
      PHashmap.run 15 p map = some map1 →
      (PHashmap.hashmap_entries map).length + p.length + 16 ≤ F →
      ∃ s1, run F p (h, m) = some s1 ∧ RepMap s1.1 s1.2 map1 := by
  intro p
  induction p with
  | nil =>
    intro map map1 h m F _ _ hrep ht _
    simp only [PHashmap.run, Option.some.injEq] at ht
    rw [← ht]
    exact ⟨(h, m), rfl, hrep⟩
  | cons op rest ih =>
    intro map map1 h m F hreach ok hrep ht hF
    simp only [List.length_cons] at hF
    rw [PHashmap.run] at ht
    cases op with
    | assoc key val =>
      obtain ⟨map2, r, ht2, hent, _, hsim⟩ :=
        hashmap_assoc_sim ops (PHashmap.reach_wf ops hreach) ok hrep key val
      obtain ⟨h2, m2, hrun, ok2, _, hrep2, _⟩ := hsim F (by omega)
      have hlen := assocEntries_length hent
      simp only [PHashmap.Op.apply, ht2] at ht
      obtain ⟨s1, hs1, hr1⟩ := ih map2 map1 h2 m2 F (PHashmap.Reach.assoc 15 key val hreach ht2)
        ok2 hrep2 ht (by omega)
      refine ⟨s1, ?_, hr1⟩
      rw [run]
      simp only [apply, hrun]
      exact hs1
    | dissoc key =>
      obtain ⟨map2, r, ht2, hent, hun, hsim⟩ :=
        hashmap_dissoc_sim ops (PHashmap.reach_wf ops hreach) ok hrep key
      obtain ⟨h2, m2, hrun, ok2, _, hrep2, _⟩ := hsim F (by omega)
      have hlen := dissocEntries_length hent (fun e => by rw [hun e])
      simp only [PHashmap.Op.apply, ht2] at ht
      obtain ⟨s1, hs1, hr1⟩ := ih map2 map1 h2 m2 F (PHashmap.Reach.dissoc key hreach ht2)
        ok2 hrep2 ht (by omega)
      refine ⟨s1, ?_, hr1⟩
      rw [run]
      simp only [apply, hrun]
      exact hs1

end PHashmapMem

namespace PHashmapMem

open PHashmap (NULL UNCHANGED ADDED UPDATED REMOVED HASH_BITS popcount mask bitpos bit_index)

/-! ### Persistence and identity of the map -/

/-- A returned `hashmap_assoc` call leaves every block of the heap as it was. -/
theorem hashmap_assoc_frame {hashf : Nat → Nat} {eq_key eq_val : Nat → Nat → Bool}
    (ops : PHashmap.KeyOps hashf eq_key) {h : Heap} {m : Nat}
    (hr : Reach hashf eq_key eq_val h m) {F k v : Nat} {r : Heap × Nat}
    (hcall : hashmap_assoc F h m k v = some r) : Frame h r.1 := by
  obtain ⟨ok, map, hrep, hreach⟩ := reach_rep ops hr
  obtain ⟨map1, r1, _, _, _, hsim⟩ :=
    hashmap_assoc_sim ops (PHashmap.reach_wf ops hreach) ok hrep k v
  obtain ⟨h2, m2, hrun, _, f2, _, _⟩ :=
    hsim (max F ((PHashmap.hashmap_entries map).length + 16)) (Nat.le_max_right _ _)
  rw [mem_hashmap_assoc_fuel hcall (Nat.le_max_left _ _)] at hrun
  rw [Option.some.inj hrun]
  exact f2

/-- A returned `hashmap_dissoc` call leaves every block of the heap as it was. -/
theorem hashmap_dissoc_frame {hashf : Nat → Nat} {eq_key eq_val : Nat → Nat → Bool}
    (ops : PHashmap.KeyOps hashf eq_key) {h : Heap} {m : Nat}
    (hr : Reach hashf eq_key eq_val h m) {F k : Nat} {r : Heap × Nat}
    (hcall : hashmap_dissoc F h m k = some r) : Frame h r.1 := by
  obtain ⟨ok, map, hrep, hreach⟩ := reach_rep ops hr
  obtain ⟨map1, r1, _, _, _, hsim⟩ :=
    hashmap_dissoc_sim ops (PHashmap.reach_wf ops hreach) ok hrep k
  obtain ⟨h2, m2, hrun, _, f2, _, _⟩ :=
    hsim (max F ((PHashmap.hashmap_entries map).length + 16)) (Nat.le_max_right _ _)
  rw [mem_hashmap_dissoc_fuel hcall (Nat.le_max_left _ _)] at hrun
  rw [Option.some.inj hrun]
  exact f2

/-- The count field of a map in memory. -/
theorem hashmap_count_rep {h : Heap} {m : Nat} {map : PHashmap.Hashmap} (hrep : RepMap h m map) :
    hashmap_count h m = some map.count := by
  obtain ⟨root, hm, _⟩ := hrep
  rw [hashmap_count, hm]

/-- Persistence in the model whose `memcpy` does not represent what lies past
the end of an array, so that the insert path of `bitmap_indexed_assoc` stays
within its arrays.  For every map `m0` that a program holds (key equality an
equivalence relation that the hash respects) and all keys `k`, `k1` and every
value `v`:
a `hashmap_assoc` call on `m0` that returns leaves every allocated block of the
heap with the contents it had, and so does a `hashmap_dissoc` call; and given
enough fuel `m1 = hashmap_assoc(m0, k, v)` and `m2 = hashmap_dissoc(m1, k)`
return, after which every block allocated before has the contents it had, and
`hashmap_get(m0, k1)` and `hashmap_count(m0)` return what they returned
before. -/
theorem hashmap_persistent {hashf : Nat → Nat} {eq_key eq_val : Nat → Nat → Bool}
    (ops : PHashmap.KeyOps hashf eq_key) {h : Heap} {m0 : Nat}
    (hr : Reach hashf eq_key eq_val h m0) (k v k1 : Nat) :
    (∀ F r, hashmap_assoc F h m0 k v = some r → ∀ a o, h.mem a = some o → r.1.mem a = some o) ∧
    (∀ F r, hashmap_dissoc F h m0 k = some r → ∀ a o, h.mem a = some o → r.1.mem a = some o) ∧
    ∃ N, ∀ F, N ≤ F → ∃ h1 m1 h2 m2 x c,
      hashmap_assoc F h m0 k v = some (h1, m1) ∧ hashmap_dissoc F h1 m1 k = some (h2, m2) ∧
      (∀ a o, h.mem a = some o → h2.mem a = some o) ∧
      hashmap_get F h m0 k1 = some x ∧ hashmap_get F h1 m0 k1 = some x ∧
      hashmap_get F h2 m0 k1 = some x ∧
      hashmap_count h m0 = some c ∧ hashmap_count h1 m0 = some c ∧
      hashmap_count h2 m0 = some c := by
  obtain ⟨ok, map, hrep, hreach⟩ := reach_rep ops hr
  refine ⟨fun F r hcall a o ha => frame_mem ok (hashmap_assoc_frame ops hr hcall) ha,
    fun F r hcall a o ha => frame_mem ok (hashmap_dissoc_frame ops hr hcall) ha,
    (PHashmap.hashmap_entries map).length + 17, fun F hF => ?_⟩
  have hwf := PHashmap.reach_wf ops hreach
  obtain ⟨map1, r1, ht1, hent1, _, hsim1⟩ := hashmap_assoc_sim ops hwf ok hrep k v
  obtain ⟨h1, m1, hrun1, ok1, f1, hrep1, _⟩ := hsim1 F (by omega)
  have hreach1 := PHashmap.Reach.assoc 15 k v hreach ht1
  have hlen := assocEntries_length hent1
  obtain ⟨map2, r2, _, _, _, hsim2⟩ :=
    hashmap_dissoc_sim ops (PHashmap.reach_wf ops hreach1) ok1 hrep1 k
  obtain ⟨h2, m2, hrun2, ok2, f2, _, _⟩ := hsim2 F (by omega)
  obtain ⟨x, hx⟩ := PHashmap.hashmap_get_total hwf k1
  have g0 := hashmap_get_sim hwf ok hrep k1 (by omega : _ ≤ F)
  have g1 := hashmap_get_sim hwf ok1 (repMap_frame ok f1 hrep) k1 (by omega : _ ≤ F)
  have g2 := hashmap_get_sim hwf ok2 (repMap_frame ok (frame_trans f1 f2) hrep) k1
    (by omega : _ ≤ F)
  exact ⟨h1, m1, h2, m2, x, map.count, hrun1, hrun2,
    fun a o ha => frame_mem ok (frame_trans f1 f2) ha, g0.trans hx, g1.trans hx, g2.trans hx,
    hashmap_count_rep hrep, hashmap_count_rep (repMap_frame ok f1 hrep),
    hashmap_count_rep (repMap_frame ok (frame_trans f1 f2) hrep)⟩

/-- Persistence in the model on the map built by `mod4_ops`, with the key 9 of
a collision chain rebound and removed and the key 13 of the same chain read. -/
theorem hashmap_persistent_witness :
    PHashmap.KeyOps (fun k => k % 4) (fun a b => a == b) ∧
    ∃ s, run 40 PHashmap.mod4_ops mod4_map = some s ∧
      Reach (fun k => k % 4) (fun a b => a == b) (fun a b => a == b) s.1 s.2 ∧
      (∀ F r, hashmap_assoc F s.1 s.2 9 99 = some r →
        ∀ a o, s.1.mem a = some o → r.1.mem a = some o) ∧
      (∀ F r, hashmap_dissoc F s.1 s.2 9 = some r →
        ∀ a o, s.1.mem a = some o → r.1.mem a = some o) ∧
      ∃ N, ∀ F, N ≤ F → ∃ h1 m1 h2 m2 x c,
        hashmap_assoc F s.1 s.2 9 99 = some (h1, m1) ∧
        hashmap_dissoc F h1 m1 9 = some (h2, m2) ∧
        (∀ a o, s.1.mem a = some o → h2.mem a = some o) ∧
        hashmap_get F s.1 s.2 13 = some x ∧ hashmap_get F h1 s.2 13 = some x ∧
        hashmap_get F h2 s.2 13 = some x ∧
        hashmap_count s.1 s.2 = some c ∧ hashmap_count h1 s.2 = some c ∧
        hashmap_count h2 s.2 = some c := by
  have hc : PHashmap.returns (PHashmap.run 15 PHashmap.mod4_ops PHashmap.mod4_map)
      (fun _ => true) = true := by decide!
  obtain ⟨map, hm, _⟩ := PHashmap.exists_of_returns hc
  obtain ⟨s, hs, _⟩ := run_sim PHashmap.mod4_keyOps PHashmap.mod4_ops PHashmap.mod4_map map
    mod4_map.1 mod4_map.2 40 (PHashmap.Reach.make (fun _ => []))
    (heapOK_alloc mem_heapOK_empty _) ⟨NULL, alloc_mem_self _ _, rfl⟩ hm (by decide)
  have hreach := mem_reach_run 40 PHashmap.mod4_ops mod4_map s Reach.make hs
  exact ⟨PHashmap.mod4_keyOps, s, hs, hreach,
    hashmap_persistent PHashmap.mod4_keyOps hreach 9 99 13⟩

/-- C17: for every map `m` that a program holds (key equality an equivalence
relation that the hash respects), the empty map included, and every key `k`
without an entry in the map that `m` holds, `hashmap_dissoc(m, k)` given enough
fuel returns `m` itself and leaves the heap as it is, so that no header is
built and the root and the count are the same; and a call that returns,
whatever the fuel, returns that. -/
theorem hashmap_dissoc_absent {hashf : Nat → Nat} {eq_key eq_val : Nat → Nat → Bool}
    (ops : PHashmap.KeyOps hashf eq_key) {h : Heap} {m : Nat}
    (hr : Reach hashf eq_key eq_val h m) {map : PHashmap.Hashmap} (hrep : RepMap h m map)
    (k : Nat) (hk : ¬ PHashmap.has_key map k) :
    (∃ N, ∀ F, N ≤ F → hashmap_dissoc F h m k = some (h, m)) ∧
    ∀ F r, hashmap_dissoc F h m k = some r → r = (h, m) := by
  obtain ⟨ok, map0, hrep0, hreach⟩ := reach_rep ops hr
  have e := repMap_unique ok hrep0 hrep
  subst e
  have hwf := PHashmap.reach_wf ops hreach
  obtain ⟨map1, r, _, hent, _, hsim⟩ := hashmap_dissoc_sim ops hwf ok hrep k
  have hru : r = UNCHANGED := by
    refine dissocEntries_unchanged hent (fun hc => hk ?_)
    unfold PHashmap.has_key
    rw [hwf.eq_key_eq]
    exact hc
  have hall : ∀ F, (PHashmap.hashmap_entries map0).length + 16 ≤ F →
      hashmap_dissoc F h m k = some (h, m) := by
    intro F hF
    obtain ⟨h1, m1, hrun, _, _, _, hun⟩ := hsim F hF
    obtain ⟨e1, e2⟩ := hun hru
    rw [hrun, e1, e2]
  refine ⟨⟨_, hall⟩, fun F r hcall => ?_⟩
  have h1 := hall (max F ((PHashmap.hashmap_entries map0).length + 16)) (Nat.le_max_right _ _)
  rw [mem_hashmap_dissoc_fuel hcall (Nat.le_max_left _ _)] at h1
  exact Option.some.inj h1

/-- C17 on the map built by `mod4_ops` (keys 9, 13, 1, 6, 7, 3) and the key 5,
for which the search ends in the collision chain of the keys 9, 13, 1. -/
theorem hashmap_dissoc_absent_witness :
    PHashmap.KeyOps (fun k => k % 4) (fun a b => a == b) ∧
    ∃ s map, run 40 PHashmap.mod4_ops mod4_map = some s ∧
      Reach (fun k => k % 4) (fun a b => a == b) (fun a b => a == b) s.1 s.2 ∧
      RepMap s.1 s.2 map ∧ ¬ PHashmap.has_key map 5 ∧
      (∃ N, ∀ F, N ≤ F → hashmap_dissoc F s.1 s.2 5 = some (s.1, s.2)) ∧
      ∀ F r, hashmap_dissoc F s.1 s.2 5 = some r → r = (s.1, s.2) := by
  have hc : PHashmap.returns (PHashmap.run 15 PHashmap.mod4_ops PHashmap.mod4_map)
      (fun map => (PHashmap.hashmap_entries map).all (fun c => !(map.eq_key c.key 5))) =
      true := by decide!
  obtain ⟨map, hm, hall⟩ := PHashmap.exists_of_returns hc
  obtain ⟨s, hs, hrep⟩ := run_sim PHashmap.mod4_keyOps PHashmap.mod4_ops PHashmap.mod4_map map
    mod4_map.1 mod4_map.2 40 (PHashmap.Reach.make (fun _ => []))
    (heapOK_alloc mem_heapOK_empty _) ⟨NULL, alloc_mem_self _ _, rfl⟩ hm (by decide)
  have hreach := mem_reach_run 40 PHashmap.mod4_ops mod4_map s Reach.make hs
  exact ⟨PHashmap.mod4_keyOps, s, map, hs, hreach, hrep, PHashmap.not_has_key_of_all hall,
    hashmap_dissoc_absent PHashmap.mod4_keyOps hreach hrep 5 (PHashmap.not_has_key_of_all hall)⟩

/-- C18: for every map `m` that a program holds (key equality an equivalence
relation that the hash respects), holding a map with an entry whose key the
key equality equates with `k` and whose value the value equality equates with
`v`, `hashmap_assoc(m, k, v)` given enough fuel returns `m` itself and leaves
the heap as it is; and a call that returns, whatever the fuel, returns that. -/
theorem hashmap_assoc_same {hashf : Nat → Nat} {eq_key eq_val : Nat → Nat → Bool}
    (ops : PHashmap.KeyOps hashf eq_key) {h : Heap} {m : Nat}
    (hr : Reach hashf eq_key eq_val h m) {map : PHashmap.Hashmap} (hrep : RepMap h m map)
    (k v : Nat)
    (hkv : ∃ c ∈ PHashmap.hashmap_entries map,
      map.eq_key c.key k = true ∧ map.eq_val c.val v = true) :
    (∃ N, ∀ F, N ≤ F → hashmap_assoc F h m k v = some (h, m)) ∧
    ∀ F r, hashmap_assoc F h m k v = some r → r = (h, m) := by
  obtain ⟨ok, map0, hrep0, hreach⟩ := reach_rep ops hr
  have e := repMap_unique ok hrep0 hrep
  subst e
  have hwf := PHashmap.reach_wf ops hreach
  obtain ⟨map1, r, _, hent, _, hsim⟩ := hashmap_assoc_sim ops hwf ok hrep k v
  have hru : r = UNCHANGED := by
    refine assocEntries_unchanged hent ?_
    rw [hwf.eq_key_eq, hwf.eq_val_eq] at hkv
    exact hkv
  have hall : ∀ F, (PHashmap.hashmap_entries map0).length + 16 ≤ F →
      hashmap_assoc F h m k v = some (h, m) := by
    intro F hF
    obtain ⟨h1, m1, hrun, _, _, _, hun⟩ := hsim F hF
    obtain ⟨e1, e2⟩ := hun hru
    rw [hrun, e1, e2]
  refine ⟨⟨_, hall⟩, fun F r hcall => ?_⟩
  have h1 := hall (max F ((PHashmap.hashmap_entries map0).length + 16)) (Nat.le_max_right _ _)
  rw [mem_hashmap_assoc_fuel hcall (Nat.le_max_left _ _)] at h1
  exact Option.some.inj h1

/-- C18 on the map built by `mod4_ops`, in which the key 9, a cell of a
collision chain, has the value 91. -/
theorem hashmap_assoc_same_witness :
    PHashmap.KeyOps (fun k => k % 4) (fun a b => a == b) ∧
    ∃ s map, run 40 PHashmap.mod4_ops mod4_map = some s ∧
      Reach (fun k => k % 4) (fun a b => a == b) (fun a b => a == b) s.1 s.2 ∧
      RepMap s.1 s.2 map ∧
      (∃ c ∈ PHashmap.hashmap_entries map,
        map.eq_key c.key 9 = true ∧ map.eq_val c.val 91 = true) ∧
      (∃ N, ∀ F, N ≤ F → hashmap_assoc F s.1 s.2 9 91 = some (s.1, s.2)) ∧
      ∀ F r, hashmap_assoc F s.1 s.2 9 91 = some r → r = (s.1, s.2) := by
  have hc : PHashmap.returns (PHashmap.run 15 PHashmap.mod4_ops PHashmap.mod4_map)
      (fun map => (PHashmap.hashmap_entries map).any
        (fun c => map.eq_key c.key 9 && map.eq_val c.val 91)) = true := by decide!
  obtain ⟨map, hm, hany⟩ := PHashmap.exists_of_returns hc
  obtain ⟨s, hs, hrep⟩ := run_sim PHashmap.mod4_keyOps PHashmap.mod4_ops PHashmap.mod4_map map
    mod4_map.1 mod4_map.2 40 (PHashmap.Reach.make (fun _ => []))
    (heapOK_alloc mem_heapOK_empty _) ⟨NULL, alloc_mem_self _ _, rfl⟩ hm (by decide)
  have hreach := mem_reach_run 40 PHashmap.mod4_ops mod4_map s Reach.make hs
  have hkv : ∃ c ∈ PHashmap.hashmap_entries map,
      map.eq_key c.key 9 = true ∧ map.eq_val c.val 91 = true := by
    obtain ⟨c, hc1, hc2⟩ := List.any_eq_true.mp hany
    exact ⟨c, hc1, Bool.and_eq_true_iff.mp hc2⟩
  exact ⟨PHashmap.mod4_keyOps, s, map, hs, hreach, hrep, hkv,
    hashmap_assoc_same PHashmap.mod4_keyOps hreach hrep 9 91 hkv⟩

end PHashmapMem

namespace PVector

/-! ### Arithmetic of the trie paths -/

theorem WIDTH_eq : WIDTH = 32 := by decide

theorem shift_eq_div (x m : Nat) : x >>> (BITS * m) = x / WIDTH ^ m := by
  rw [Nat.shiftRight_eq_div_pow, WIDTH_eq, show BITS = 5 from rfl, Nat.pow_mul]

theorem and_mask_eq_mod (x : Nat) : x &&& MASK = x % WIDTH :=
  Nat.and_pow_two_sub_one_eq_mod x 5

theorem width_pow_pos (n : Nat) : 0 < WIDTH ^ n := Nat.pow_pos (by decide)

theorem width_pow_succ (n : Nat) : WIDTH ^ (n + 1) = WIDTH * WIDTH ^ n := by
  rw [Nat.pow_succ, Nat.mul_comm]

/-- The position of the node of depth `n` above block `q`, from the position
of its parent and its slot there. -/
theorem path_child (q n : Nat) :
    WIDTH * (q / WIDTH ^ (n + 1)) + q / WIDTH ^ n % WIDTH = q / WIDTH ^ n := by
  rw [Nat.pow_succ, ← Nat.div_div_eq_div_mul]
  exact Nat.div_add_mod _ _

theorem path_le (q n : Nat) : q / WIDTH ^ n * WIDTH ^ n ≤ q := Nat.div_mul_le_self q _

/-- A node that starts at block `B` lies on the path of block `B`. -/
theorem path_of_start {B j i n : Nat} (hi : i < WIDTH)
    (h : (WIDTH * j + i) * WIDTH ^ n = B) : B / WIDTH ^ (n + 1) = j ∧ B / WIDTH ^ n = WIDTH * j + i := by
  have hp := width_pow_pos n
  have h2 : B / WIDTH ^ n = WIDTH * j + i := by
    rw [← h]
    exact Nat.mul_div_cancel _ hp
  refine ⟨?_, h2⟩
  rw [Nat.pow_succ, ← Nat.div_div_eq_div_mul, h2, WIDTH_eq]
  rw [WIDTH_eq] at hi
  omega

theorem thr_le (B k d : Nat) : B ≤ thr B k d := by
  unfold thr
  split <;> omega

theorem thr_of_le {B k d : Nat} (h : d ≤ k) : thr B k d = B := by
  unfold thr
  rw [if_neg (by omega)]

theorem thr_of_lt {B k d : Nat} (h : k < d) : thr B k d = B + 1 := by
  unfold thr
  rw [if_pos h]

end PVector

namespace PVector

/-! ### Steps on the heap -/

theorem malloc_spec {h : Heap} (ok : HeapOK h) :
    ∃ h1, GC_MALLOC h = (h1, h.next) ∧ HeapOK h1 ∧ h1.next = h.next + 1 ∧
      h1.mem h.next = some (fun _ => NULL) ∧ ∀ a, a ≠ h.next → h1.mem a = h.mem a :=
  ⟨(GC_MALLOC h).1, rfl, malloc_heapOK ok, rfl, by rw [malloc_mem, if_pos rfl],
    fun a ha => by rw [malloc_mem, if_neg ha]⟩

theorem store_spec {h : Heap} (ok : HeapOK h) {p : Nat} {n : Node} (hm : h.mem p = some n)
    {i : Nat} (hi : i < WIDTH) (x : Nat) :
    ∃ h1, store h p i x = some h1 ∧ HeapOK h1 ∧ h1.next = h.next ∧
      h1.mem p = some (fun j => if j = i then x else n j) ∧ ∀ a, a ≠ p → h1.mem a = h.mem a := by
  have hs : store h p i x = some (Heap.mk
      (fun a => if a = p then some (fun j => if j = i then x else n j) else h.mem a) h.next) :=
    store_eq_some.mpr ⟨n, hm, hi, rfl⟩
  exact ⟨_, hs, store_heapOK hs ok, rfl, by simp, fun a ha => by simp [ha]⟩

theorem node_copy_step {h : Heap} (ok : HeapOK h) {p : Nat} {n : Node} (hm : h.mem p = some n) :
    ∃ h1, node_copy h p = some (h1, h.next) ∧ HeapOK h1 ∧ h1.next = h.next + 1 ∧
      h1.mem h.next = some n ∧ ∀ a, a ≠ h.next → h1.mem a = h.mem a := by
  have hs : node_copy h p = some (Heap.mk (fun a => if a = h.next then some n else h.mem a)
      (h.next + 1), h.next) := node_copy_eq_some.mpr ⟨n, hm, rfl, rfl⟩
  refine ⟨_, hs, ⟨?_, Nat.succ_pos _, fun a ha => ?_⟩, rfl, by simp, fun a ha => by simp [ha]⟩
  · have h0 := ok.2.1
    have hne : NULL ≠ h.next := by
      unfold NULL
      omega
    simp only [if_neg hne]
    exact ok.1
  · have hne : a ≠ h.next := by
      simp only at ha
      omega
    simp only [if_neg hne]
    exact ok.2.2 a (by simp only at ha; omega)

/-! ### The labelled trie -/

theorem lab_lt_next {h : Heap} {f : Nat → Nat} {lab : Nat → Option (Nat × Nat)}
    {levels head B k : Nat} (ok : HeapOK h) (L : Labelled h f lab levels head B k) {a : Nat}
    {x : Nat × Nat} (ha : lab a = some x) : a < h.next := by
  obtain ⟨n, hm, _⟩ := L.node a x.1 x.2 ha
  exact allocated_lt ok ⟨n, hm⟩

theorem lab_depth_le {h : Heap} {f : Nat → Nat} {lab : Nat → Option (Nat × Nat)}
    {levels head B k : Nat} (L : Labelled h f lab levels head B k) {a d j : Nat}
    (ha : lab a = some (d, j)) : d ≤ levels := by
  rcases L.place a d j ha with ⟨e, _⟩ | ⟨e, _⟩ <;> omega

/-- A child that has a label is not the root. -/
theorem lab_child_ne_head {h : Heap} {f : Nat → Nat} {lab : Nat → Option (Nat × Nat)}
    {levels head B k : Nat} (L : Labelled h f lab levels head B k) {a d j c e j1 : Nat}
    (ha : lab a = some (d, j)) (hd : d = e + 1) (hc : lab c = some (e, j1)) : c ≠ head := by
  intro hh
  rw [hh, L.head_lab] at hc
  have := lab_depth_le L ha
  simp only [Option.some.injEq, Prod.mk.injEq] at hc
  omega

/-- The trie after `vector_copy`: the copy of the root takes the place of the
root. -/
theorem labelled_copy {h h1 : Heap} {f : Nat → Nat} {lab lab1 : Nat → Option (Nat × Nat)}
    {levels head B : Nat} (ok : HeapOK h) (L : Labelled h f lab levels head B levels)
    {n0 : Node} (hm0 : h.mem head = some n0) (hnew : h1.mem h.next = some n0)
    (hold : ∀ a, a ≠ h.next → h1.mem a = h.mem a)
    (l1 : lab1 h.next = some (levels, 0)) (l2 : lab1 head = none)
    (l3 : ∀ a, a ≠ h.next → a ≠ head → lab1 a = lab a) :
    Labelled h1 f lab1 levels h.next B levels := by
  have hhead : head ≠ h.next := Nat.ne_of_lt (allocated_lt ok ⟨n0, hm0⟩)
  have key : ∀ a x, lab1 a = some x → a ≠ h.next → a ≠ head ∧ lab a = some x := by
    intro a x ha hne
    have hh : a ≠ head := by
      intro e
      rw [e, l2] at ha
      cases ha
    rw [l3 a hne hh] at ha
    exact ⟨hh, ha⟩
  have child : ∀ a d j e c j1, lab a = some (d, j) → d = e + 1 → lab c = some (e, j1) →
      lab1 c = some (e, j1) := by
    intro a d j e c j1 ha hd hc
    rw [l3 c (Nat.ne_of_lt (lab_lt_next ok L hc)) (lab_child_ne_head L ha hd hc)]
    exact hc
  refine ⟨l1, ?_, ?_, ?_⟩
  · intro a a1 x ha ha1
    by_cases e : a = h.next
    · by_cases e1 : a1 = h.next
      · rw [e, e1]
      · obtain ⟨hh, hl⟩ := key a1 x ha1 e1
        rw [e, l1] at ha
        rw [← Option.some.inj ha] at hl
        exact absurd (L.inj a1 head _ hl L.head_lab) hh
    · obtain ⟨hh, hl⟩ := key a x ha e
      by_cases e1 : a1 = h.next
      · rw [e1, l1] at ha1
        rw [← Option.some.inj ha1] at hl
        exact absurd (L.inj a head _ hl L.head_lab) hh
      · obtain ⟨_, hl1⟩ := key a1 x ha1 e1
        exact L.inj a a1 x hl hl1
  · intro a d j ha
    by_cases e : a = h.next
    · rw [e, l1] at ha
      simp only [Option.some.injEq, Prod.mk.injEq] at ha
      exact Or.inl ⟨ha.1.symm, ha.2.symm, e⟩
    · obtain ⟨hh, hl⟩ := key a _ ha e
      rcases L.place a d j hl with ⟨_, _, e1⟩ | hr
      · exact absurd e1 hh
      · exact Or.inr hr
  · intro a d j ha
    by_cases e : a = h.next
    · rw [e, l1] at ha
      simp only [Option.some.injEq, Prod.mk.injEq] at ha
      obtain ⟨n, hm, hleaf, hch⟩ := L.node head levels 0 L.head_lab
      rw [hm0] at hm
      rw [← Option.some.inj hm] at hleaf hch
      rw [e, ← ha.1, ← ha.2]
      refine ⟨n0, hnew, hleaf, fun e0 he i hi => ?_⟩
      have := hch e0 he i hi
      split at this
      · rename_i hc
        rw [if_pos hc]
        exact child head levels 0 e0 _ _ L.head_lab he this
      · rename_i hc
        rw [if_neg hc]
        exact this
    · obtain ⟨hh, hl⟩ := key a _ ha e
      obtain ⟨n, hm, hleaf, hch⟩ := L.node a d j hl
      refine ⟨n, by rw [hold a e]; exact hm, hleaf, fun e0 he i hi => ?_⟩
      have := hch e0 he i hi
      split at this
      · rename_i hc
        rw [if_pos hc]
        exact child a d j e0 _ _ hl he this
      · rename_i hc
        rw [if_neg hc]
        exact this

end PVector

namespace PVector

theorem thr_anti (B : Nat) {k k1 : Nat} (h : k1 ≤ k) (d : Nat) : thr B k d ≤ thr B k1 d := by
  unfold thr
  split <;> split <;> omega

/-- Writes outside the trie leave the trie as it is. -/
theorem labelled_mem_eq {h h1 : Heap} {f : Nat → Nat} {lab : Nat → Option (Nat × Nat)}
    {levels head B k : Nat} (L : Labelled h f lab levels head B k)
    (hmem : ∀ a x, lab a = some x → h1.mem a = h.mem a) : Labelled h1 f lab levels head B k := by
  refine ⟨L.head_lab, L.inj, L.place, fun a d j ha => ?_⟩
  obtain ⟨n, hm, hr⟩ := L.node a d j ha
  exact ⟨n, by rw [hmem a _ ha]; exact hm, hr⟩

/-- The loop of `vector_append_tail` steps down to a child that is there. -/
theorem labelled_descend {h : Heap} {f : Nat → Nat} {lab : Nat → Option (Nat × Nat)}
    {levels head B n : Nat} (L : Labelled h f lab levels head B (n + 1))
    (hlt : B / WIDTH ^ n * WIDTH ^ n < B) : Labelled h f lab levels head B n := by
  refine ⟨L.head_lab, L.inj, fun a d j ha => ?_, fun a d j ha => ?_⟩
  · rcases L.place a d j ha with hl | ⟨h1, h2⟩
    · exact Or.inl hl
    · exact Or.inr ⟨h1, Nat.lt_of_lt_of_le h2 (thr_anti B (Nat.le_succ n) _)⟩
  · obtain ⟨nd, hm, hleaf, hch⟩ := L.node a d j ha
    refine ⟨nd, hm, hleaf, fun e he i hi => ?_⟩
    have hold := hch e he i hi
    have hth : ((WIDTH * j + i) * WIDTH ^ e < thr B n d) ↔
        ((WIDTH * j + i) * WIDTH ^ e < thr B (n + 1) d) := by
      by_cases hd : d = n + 1
      · have hen : e = n := by omega
        rw [hd, thr_of_lt (Nat.lt_succ_self n), thr_of_le (Nat.le_refl _), hen]
        constructor
        · intro hlt1
          have hne : (WIDTH * j + i) * WIDTH ^ n ≠ B := by
            intro heq
            rw [(path_of_start hi heq).2, heq] at hlt
            exact Nat.lt_irrefl _ hlt
          omega
        · intro hlt1
          omega
      · unfold thr
        by_cases h1 : n < d
        · rw [if_pos h1, if_pos (by omega)]
        · rw [if_neg h1, if_neg (by omega)]
    by_cases hc : (WIDTH * j + i) * WIDTH ^ e < thr B n d
    · rw [if_pos hc]
      rw [if_pos (hth.mp hc)] at hold
      exact hold
    · rw [if_neg hc]
      rw [if_neg (fun x => hc (hth.mpr x))] at hold
      exact hold

/-- The loop of `vector_append_tail` puts a node in the empty slot on the path
of block `B`: the tail itself at depth 0, a fresh empty node above. -/
theorem labelled_insert {h h1 : Heap} {f : Nat → Nat} {lab lab1 : Nat → Option (Nat × Nat)}
    {levels head B n prev c : Nat} (L : Labelled h f lab levels head B (n + 1))
    (hprev : lab prev = some (n + 1, B / WIDTH ^ (n + 1)))
    (hfull : B / WIDTH ^ n * WIDTH ^ n = B) (hcl : lab c = none)
    {nc : Node} (hcm : h.mem c = some nc)
    (hc0 : n = 0 → ∀ i, i < WIDTH → nc i = f (WIDTH * B + i))
    (hc1 : n ≠ 0 → ∀ i, i < WIDTH → nc i = NULL)
    {np : Node} (hpm : h.mem prev = some np)
    (m1 : h1.mem prev = some (fun x => if x = B / WIDTH ^ n % WIDTH then c else np x))
    (m2 : ∀ a, a ≠ prev → h1.mem a = h.mem a)
    (l1 : lab1 c = some (n, B / WIDTH ^ n)) (l2 : ∀ a, a ≠ c → lab1 a = lab a) :
    Labelled h1 f lab1 levels head B n := by
  have hpc : prev ≠ c := by
    intro e
    rw [e, hcl] at hprev
    cases hprev
  have hnl : n + 1 ≤ levels := lab_depth_le L hprev
  have key : ∀ a x, lab1 a = some x → a ≠ c → lab a = some x := by
    intro a x ha hne
    rw [l2 a hne] at ha
    exact ha
  have keep : ∀ a x, lab a = some x → lab1 a = some x := by
    intro a x ha
    have hne : a ≠ c := by
      intro e
      rw [e, hcl] at ha
      cases ha
    rw [l2 a hne]
    exact ha
  have fresh : ∀ a, lab a = some (n, B / WIDTH ^ n) → False := by
    intro a ha
    rcases L.place a _ _ ha with ⟨e, _⟩ | ⟨_, e⟩
    · omega
    · rw [thr_of_le (Nat.le_refl _), hfull] at e
      exact Nat.lt_irrefl _ e
  refine ⟨keep _ _ L.head_lab, ?_, ?_, ?_⟩
  · intro a a1 x ha ha1
    by_cases e : a = c
    · by_cases e1 : a1 = c
      · rw [e, e1]
      · rw [e, l1] at ha
        have := key a1 x ha1 e1
        rw [← Option.some.inj ha] at this
        exact absurd this (fresh a1)
    · by_cases e1 : a1 = c
      · rw [e1, l1] at ha1
        have := key a x ha e
        rw [← Option.some.inj ha1] at this
        exact absurd this (fresh a)
      · exact L.inj a a1 x (key a x ha e) (key a1 x ha1 e1)
  · intro a d j ha
    by_cases e : a = c
    · rw [e, l1] at ha
      simp only [Option.some.injEq, Prod.mk.injEq] at ha
      refine Or.inr ⟨by omega, ?_⟩
      rw [← ha.1, ← ha.2, thr_of_lt (Nat.lt_succ_self n), hfull]
      exact Nat.lt_succ_self B
    · rcases L.place a d j (key a _ ha e) with hl | ⟨h1, h2⟩
      · exact Or.inl hl
      · exact Or.inr ⟨h1, Nat.lt_of_lt_of_le h2 (thr_anti B (Nat.le_succ n) _)⟩
  · intro a d j ha
    by_cases e : a = c
    · rw [e, l1] at ha
      simp only [Option.some.injEq, Prod.mk.injEq] at ha
      obtain ⟨hd, hj⟩ := ha
      subst hd hj
      rw [e]
      refine ⟨nc, by rw [m2 c (Ne.symm hpc)]; exact hcm, fun h0 i hi => ?_, fun e0 he i hi => ?_⟩
      · rw [hc0 h0 i hi, h0, Nat.pow_zero, Nat.div_one]
      · have hge : ¬ (WIDTH * (B / WIDTH ^ n) + i) * WIDTH ^ e0 < thr B n n := by
          rw [thr_of_le (Nat.le_refl _)]
          have h1 : WIDTH * (B / WIDTH ^ n) * WIDTH ^ e0 = B := by
            rw [Nat.mul_comm WIDTH, Nat.mul_assoc, ← width_pow_succ, ← he]
            exact hfull
          have h2 : WIDTH * (B / WIDTH ^ n) * WIDTH ^ e0 ≤
              (WIDTH * (B / WIDTH ^ n) + i) * WIDTH ^ e0 :=
            Nat.mul_le_mul_right _ (Nat.le_add_right _ _)
          omega
        rw [if_neg hge]
        exact hc1 (by omega) i hi
    · have hl := key a _ ha e
      obtain ⟨nd, hm, hleaf, hch⟩ := L.node a d j hl
      by_cases ep : a = prev
      · rw [ep] at hl hm
        rw [hprev] at hl
        simp only [Option.some.injEq, Prod.mk.injEq] at hl
        obtain ⟨hd, hj⟩ := hl
        rw [hpm] at hm
        have hnd := Option.some.inj hm
        subst hnd
        rw [ep]
        refine ⟨_, m1, fun h0 => by omega, fun e0 he i hi => ?_⟩
        have hen : e0 = n := by omega
        subst hen
        have hold := hch e0 he i hi
        rw [← hd, thr_of_lt (Nat.lt_succ_self e0)]
        rw [← hd, thr_of_le (Nat.le_refl _)] at hold
        by_cases hi0 : i = B / WIDTH ^ e0 % WIDTH
        · have hpath : WIDTH * j + i = B / WIDTH ^ e0 := by
            rw [← hj, hi0]
            exact path_child B e0
          rw [if_pos (by rw [hpath, hfull]; exact Nat.lt_succ_self B)]
          simp only [if_pos hi0]
          rw [hpath]
          exact l1
        · have hne : (WIDTH * j + i) * WIDTH ^ e0 ≠ B := by
            intro heq
            have h2 := (path_of_start hi heq).2
            rw [h2, WIDTH_eq] at hi0
            rw [WIDTH_eq] at hi
            omega
          simp only [if_neg hi0]
          by_cases hc : (WIDTH * j + i) * WIDTH ^ e0 < B
          · rw [if_pos hc] at hold
            rw [if_pos (by omega)]
            exact keep _ _ hold
          · rw [if_neg hc] at hold
            rw [if_neg (by omega)]
            exact hold
      · refine ⟨nd, by rw [m2 a ep]; exact hm, hleaf, fun e0 he i hi => ?_⟩
        have hold := hch e0 he i hi
        have hth : ((WIDTH * j + i) * WIDTH ^ e0 < thr B n d) ↔
            ((WIDTH * j + i) * WIDTH ^ e0 < thr B (n + 1) d) := by
          by_cases hd : d = n + 1
          · have hen : e0 = n := by omega
            rw [hd, thr_of_lt (Nat.lt_succ_self n), thr_of_le (Nat.le_refl _), hen]
            have hne : (WIDTH * j + i) * WIDTH ^ n ≠ B := by
              intro heq
              have h1 := (path_of_start hi heq).1
              rw [hd, ← h1] at hl
              exact ep (L.inj a prev _ hl hprev)
            omega
          · unfold thr
            by_cases h1 : n < d
            · rw [if_pos h1, if_pos (by omega)]
            · rw [if_neg h1, if_neg (by omega)]
        by_cases hc : (WIDTH * j + i) * WIDTH ^ e0 < thr B n d
        · rw [if_pos hc]
          rw [if_pos (hth.mp hc)] at hold
          exact keep _ _ hold
        · rw [if_neg hc]
          rw [if_neg (fun x => hc (hth.mpr x))] at hold
          exact hold

end PVector

namespace PVector

/-- The trie after `vector_append_tail` has put a new root above the root. -/
theorem labelled_grow {h h1 : Heap} {f : Nat → Nat} {lab lab1 : Nat → Option (Nat × Nat)}
    {levels head B r : Nat} (L : Labelled h f lab levels head B levels) (hB : 0 < B)
    (hcap : B < WIDTH ^ levels) (hrl : lab r = none)
    (m1 : h1.mem r = some (fun x => if x = 0 then head else NULL))
    (m2 : ∀ a, a ≠ r → h1.mem a = h.mem a)
    (l1 : lab1 r = some (levels + 1, 0)) (l2 : ∀ a, a ≠ r → lab1 a = lab a) :
    Labelled h1 f lab1 (levels + 1) r B (levels + 1) := by
  have key : ∀ a x, lab1 a = some x → a ≠ r → lab a = some x := by
    intro a x ha hne
    rw [l2 a hne] at ha
    exact ha
  have keep : ∀ a x, lab a = some x → lab1 a = some x := by
    intro a x ha
    have hne : a ≠ r := by
      intro e
      rw [e, hrl] at ha
      cases ha
    rw [l2 a hne]
    exact ha
  have fresh : ∀ a, lab a = some (levels + 1, 0) → False := by
    intro a ha
    have := lab_depth_le L ha
    omega
  refine ⟨l1, ?_, ?_, ?_⟩
  · intro a a1 x ha ha1
    by_cases e : a = r
    · by_cases e1 : a1 = r
      · rw [e, e1]
      · rw [e, l1] at ha
        have := key a1 x ha1 e1
        rw [← Option.some.inj ha] at this
        exact absurd this (fresh a1)
    · by_cases e1 : a1 = r
      · rw [e1, l1] at ha1
        have := key a x ha e
        rw [← Option.some.inj ha1] at this
        exact absurd this (fresh a)
      · exact L.inj a a1 x (key a x ha e) (key a1 x ha1 e1)
  · intro a d j ha
    by_cases e : a = r
    · rw [e, l1] at ha
      simp only [Option.some.injEq, Prod.mk.injEq] at ha
      exact Or.inl ⟨ha.1.symm, ha.2.symm, e⟩
    · have hl := key a _ ha e
      have hd := lab_depth_le L hl
      refine Or.inr ⟨by omega, ?_⟩
      rw [thr_of_le (by omega)]
      rcases L.place a d j hl with ⟨_, hj, _⟩ | ⟨h1, h2⟩
      · rw [hj, Nat.zero_mul]
        exact hB
      · rw [thr_of_le (by omega)] at h2
        exact h2
  · intro a d j ha
    by_cases e : a = r
    · rw [e, l1] at ha
      simp only [Option.some.injEq, Prod.mk.injEq] at ha
      obtain ⟨hd, hj⟩ := ha
      subst hd hj
      rw [e]
      refine ⟨_, m1, fun h0 => by omega, fun e0 he i hi => ?_⟩
      have hen : e0 = levels := by omega
      subst hen
      rw [thr_of_le (Nat.le_refl _), Nat.mul_zero, Nat.zero_add]
      by_cases hi0 : i = 0
      · rw [hi0, Nat.zero_mul, if_pos hB]
        simp only [if_true]
        exact keep _ _ L.head_lab
      · have hge : ¬ i * WIDTH ^ e0 < B := by
          have : 1 * WIDTH ^ e0 ≤ i * WIDTH ^ e0 := Nat.mul_le_mul_right _ (by omega)
          omega
        rw [if_neg hge]
        simp only [if_neg hi0]
    · have hl := key a _ ha e
      have hd := lab_depth_le L hl
      obtain ⟨nd, hm, hleaf, hch⟩ := L.node a d j hl
      refine ⟨nd, by rw [m2 a e]; exact hm, hleaf, fun e0 he i hi => ?_⟩
      have hold := hch e0 he i hi
      rw [thr_of_le hd] at hold
      rw [thr_of_le (by omega)]
      by_cases hc : (WIDTH * j + i) * WIDTH ^ e0 < B
      · rw [if_pos hc] at hold
        rw [if_pos hc]
        exact keep _ _ hold
      · rw [if_neg hc] at hold
        rw [if_neg hc]
        exact hold

/-- The trie after the loop of `vector_append_tail` holds one more block. -/
theorem labelled_finish {h : Heap} {f : Nat → Nat} {lab : Nat → Option (Nat × Nat)}
    {levels head B : Nat} (L : Labelled h f lab levels head B 0) :
    Labelled h f lab levels head (B + 1) levels := by
  refine ⟨L.head_lab, L.inj, fun a d j ha => ?_, fun a d j ha => ?_⟩
  · rcases L.place a d j ha with hl | ⟨h1, h2⟩
    · exact Or.inl hl
    · refine Or.inr ⟨h1, ?_⟩
      rw [thr_of_lt (Nat.succ_pos d)] at h2
      rw [thr_of_le (by omega)]
      exact h2
  · have hd := lab_depth_le L ha
    obtain ⟨nd, hm, hleaf, hch⟩ := L.node a d j ha
    refine ⟨nd, hm, hleaf, fun e he i hi => ?_⟩
    have hold := hch e he i hi
    rw [thr_of_lt (by omega)] at hold
    rw [thr_of_le hd]
    exact hold

theorem append_index (B n : Nat) :
    ((WIDTH * B) >>> (BITS * (n + 1))) &&& MASK = B / WIDTH ^ n % WIDTH := by
  rw [shift_eq_div, and_mask_eq_mod, width_pow_succ,
    Nat.mul_div_mul_left _ _ (show 0 < WIDTH by decide)]

/-- The loop of `vector_append_tail` puts the tail in the trie as block `B`. -/
theorem append_tail_loop_push {f : Nat → Nat} {tail B : Nat} {tn : Node}
    (htn : ∀ i, i < WIDTH → tn i = f (WIDTH * B + i)) :
    ∀ (n : Nat) (h : Heap) (lab : Nat → Option (Nat × Nat)) (levels head prev : Nat),
      HeapOK h → Labelled h f lab levels head B (n + 1) →
      lab prev = some (n + 1, B / WIDTH ^ (n + 1)) → lab tail = none → h.mem tail = some tn →
      ∃ h1 lab1, append_tail_loop tail (WIDTH * B) (n + 1) h prev = some h1 ∧ HeapOK h1 ∧
        Labelled h1 f lab1 levels head B 0 := by
  intro n
  induction n with
  | zero =>
    intro h lab levels head prev ok L hprev htl htm
    obtain ⟨np, hpm, _, hch⟩ := L.node prev _ _ hprev
    have hi : B / WIDTH ^ 0 % WIDTH < WIDTH := Nat.mod_lt _ (by decide)
    have hchild := hch 0 rfl _ hi
    rw [path_child B 0, thr_of_le (Nat.le_refl _)] at hchild
    have hfull : B / WIDTH ^ 0 * WIDTH ^ 0 = B := by simp
    rw [if_neg (by rw [hfull]; exact Nat.lt_irrefl B)] at hchild
    obtain ⟨h1, hs, ok1, _, m1, m2⟩ := store_spec ok hpm hi tail
    refine ⟨h1, fun a => if a = tail then some (0, B / WIDTH ^ 0) else lab a, ?_, ok1, ?_⟩
    · rw [append_tail_loop]
      simp only [append_index, load_of_mem hpm hi, Option.bind_eq_bind, Option.some_bind]
      rw [if_pos ⟨hchild, (level_sub_bits 0).mpr rfl⟩]
      exact hs
    · exact labelled_insert L hprev hfull htl htm (fun _ => htn) (fun e => absurd rfl e) hpm m1 m2
        (by simp) (fun a ha => by simp [ha])
  | succ n ih =>
    intro h lab levels head prev ok L hprev htl htm
    obtain ⟨np, hpm, _, hch⟩ := L.node prev _ _ hprev
    have hi : B / WIDTH ^ (n + 1) % WIDTH < WIDTH := Nat.mod_lt _ (by decide)
    have hchild := hch (n + 1) rfl _ hi
    rw [path_child B (n + 1), thr_of_le (Nat.le_refl _)] at hchild
    have hlev : ¬ (BITS * (n + 1 + 1) - BITS = 0) := by
      rw [level_sub_bits]
      omega
    by_cases hlt : B / WIDTH ^ (n + 1) * WIDTH ^ (n + 1) < B
    · rw [if_pos hlt] at hchild
      have hcur : np (B / WIDTH ^ (n + 1) % WIDTH) ≠ NULL := by
        intro e
        have := lab_lt_next ok L hchild
        obtain ⟨nc, hnc, _⟩ := L.node _ _ _ hchild
        rw [e, ok.1] at hnc
        cases hnc
      obtain ⟨h1, lab1, hl, ok1, L1⟩ := ih h lab levels head _ ok (labelled_descend L hlt) hchild
        htl htm
      refine ⟨h1, lab1, ?_, ok1, L1⟩
      rw [append_tail_loop]
      simp only [append_index, load_of_mem hpm hi, Option.bind_eq_bind, Option.some_bind]
      rw [if_neg (fun e => hcur e.1), if_neg hcur]
      exact hl
    · rw [if_neg hlt] at hchild
      have hfull : B / WIDTH ^ (n + 1) * WIDTH ^ (n + 1) = B :=
        Nat.le_antisymm (path_le B (n + 1)) (Nat.le_of_not_lt hlt)
      obtain ⟨hm, e1, okm, _, mc, mo⟩ := malloc_spec ok
      have hpl := lab_lt_next ok L hprev
      have htlt := allocated_lt ok ⟨tn, htm⟩
      have hcl : lab h.next = none := by
        cases hx : lab h.next with
        | none => rfl
        | some x => exact absurd (lab_lt_next ok L hx) (Nat.lt_irrefl _)
      have Lm : Labelled hm f lab levels head B (n + 1 + 1) :=
        labelled_mem_eq L (fun a x ha => mo a (Nat.ne_of_lt (lab_lt_next ok L ha)))
      have hpm1 : hm.mem prev = some np := by
        rw [mo prev (Nat.ne_of_lt hpl)]
        exact hpm
      obtain ⟨h2, hs, ok2, _, m1, m2⟩ := store_spec okm hpm1 hi h.next
      have L2 : Labelled h2 f (fun a => if a = h.next then some (n + 1, B / WIDTH ^ (n + 1))
          else lab a) levels head B (n + 1) :=
        labelled_insert Lm hprev hfull hcl mc (fun e => by omega) (fun _ _ _ => rfl) hpm1 m1 m2
          (by simp) (fun a ha => by simp [ha])
      have htp : tail ≠ prev := by
        intro e
        rw [e, hprev] at htl
        cases htl
      obtain ⟨h3, lab3, hl, ok3, L3⟩ := ih h2 _ levels head h.next ok2 L2 (by simp)
        (by simp only [if_neg (Nat.ne_of_lt htlt)]; exact htl)
        (by rw [m2 tail htp, mo tail (Nat.ne_of_lt htlt)]; exact htm)
      refine ⟨h3, lab3, ?_, ok3, L3⟩
      rw [append_tail_loop]
      simp only [append_index, load_of_mem hpm hi, Option.bind_eq_bind, Option.some_bind]
      rw [if_neg (fun e => hlev e.2), if_pos hchild]
      simp only [node_new, e1, hs, Option.some_bind]
      exact hl

end PVector

namespace PVector

/-! ### Pushes -/

theorem capacity_eq (m : Nat) : 1 <<< (BITS * m) = WIDTH ^ m := by
  rw [Nat.shiftLeft_eq, Nat.one_mul, WIDTH_eq, show BITS = 5 from rfl, Nat.pow_mul]

theorem lab_fresh {h : Heap} {f : Nat → Nat} {lab : Nat → Option (Nat × Nat)}
    {levels head B k : Nat} (ok : HeapOK h) (L : Labelled h f lab levels head B k) :
    lab h.next = none := by
  cases hx : lab h.next with
  | none => rfl
  | some x => exact absurd (lab_lt_next ok L hx) (Nat.lt_irrefl _)

/-- `vector_append_tail` on a vector with a full tail, built by pushes: the
tail becomes block `B` of the trie and the new tail is empty. -/
theorem vector_append_tail_push {h : Heap} {v : Vector} {f : Nat → Nat} {B : Nat}
    {lab : Nat → Option (Nat × Nat)} (inv : PushInv h v f B lab) (hfull : v.tail_count = WIDTH) :
    ∃ h1 v1 lab1, vector_append_tail h v = some (h1, v1) ∧ PushInv h1 v1 f (B + 1) lab1 ∧
      v1.tail_count = 0 ∧ v1.count = v.count := by
  obtain ⟨tn, htm, htn⟩ := inv.tail_mem
  rw [hfull] at htn
  have hcnt := inv.count_eq
  rw [hfull] at hcnt
  have hidx : v.count - v.tail_count = WIDTH * B := by
    rw [hfull]
    omega
  have hW := WIDTH_eq
  -- what is left to do once the root for the descent is fixed
  have finish : ∀ (h2 : Heap) (hd lv : Nat) (lab2 : Nat → Option (Nat × Nat)), HeapOK h2 →
      Labelled h2 f lab2 lv hd B lv → lab2 v.tail = none → h2.mem v.tail = some tn →
      B + 1 < WIDTH ^ lv → 1 ≤ lv → (lv = 1 ∨ WIDTH ^ lv ≤ WIDTH * (B + 1)) →
      ∃ h3 lab3, append_tail_loop v.tail (v.count - v.tail_count) lv h2 hd = some h3 ∧
        PushInv (GC_MALLOC h3).1
          { v with head := hd, levels := lv, tail := h3.next, tail_count := 0 } f (B + 1)
          lab3 := by
    intro h2 hd lv lab2 ok2 L2 htl2 htm2 hcap2 hlv hgr
    obtain ⟨n, rfl⟩ : ∃ n, lv = n + 1 := ⟨lv - 1, by omega⟩
    have hhd : lab2 hd = some (n + 1, B / WIDTH ^ (n + 1)) := by
      rw [Nat.div_eq_of_lt (by omega)]
      exact L2.head_lab
    obtain ⟨h3, lab3, hl, ok3, L3⟩ := append_tail_loop_push htn n h2 lab2 (n + 1) hd hd ok2 L2
      hhd htl2 htm2
    have L4 := labelled_finish L3
    rw [hidx]
    refine ⟨h3, lab3, hl, malloc_heapOK ok3, ?_, lab_fresh ok3 L3, ⟨fun _ => NULL, ?_, ?_⟩, ?_,
      Nat.zero_le _, hcap2, hlv, hgr⟩
    · exact labelled_mem_eq L4 (fun a x ha => by
        rw [malloc_mem, if_neg (Nat.ne_of_lt (lab_lt_next ok3 L3 ha))])
    · show (GC_MALLOC h3).1.mem h3.next = _
      rw [malloc_mem, if_pos rfl]
    · intro i hi
      exact absurd hi (Nat.not_lt_zero _)
    · show v.count = WIDTH * (B + 1) + 0
      rw [hW] at hcnt ⊢
      omega
  have hhl := lab_lt_next inv.ok inv.labelled inv.labelled.head_lab
  have htlt := allocated_lt inv.ok ⟨tn, htm⟩
  by_cases hcap : v.count = 1 <<< (BITS * (v.levels + 1))
  · have hcq := hcap
    rw [capacity_eq, width_pow_succ] at hcq
    have hBW : B + 1 = WIDTH ^ v.levels := by
      have h1 : WIDTH * (B + 1) = WIDTH * WIDTH ^ v.levels := by
        rw [← hcq, hcnt, Nat.mul_add, Nat.mul_one]
      exact Nat.eq_of_mul_eq_mul_left (by decide) h1
    have hB : 0 < B := by
      have : WIDTH ^ 1 ≤ WIDTH ^ v.levels := Nat.pow_le_pow_right (by decide) inv.levels_pos
      rw [Nat.pow_one] at this
      omega
    obtain ⟨hm, e1, okm, _, mc, mo⟩ := malloc_spec inv.ok
    obtain ⟨h2, hs, ok2, _, m1, m2⟩ := store_spec okm mc (show 0 < WIDTH by decide) v.head
    have Lm : Labelled hm f lab v.levels v.head B v.levels :=
      labelled_mem_eq inv.labelled
        (fun a x ha => mo a (Nat.ne_of_lt (lab_lt_next inv.ok inv.labelled ha)))
    have L2 : Labelled h2 f (fun a => if a = h.next then some (v.levels + 1, 0) else lab a)
        (v.levels + 1) h.next B (v.levels + 1) :=
      labelled_grow Lm hB inv.cap (lab_fresh inv.ok inv.labelled) m1 m2 (by simp)
        (fun a ha => by simp [ha])
    have hp := width_pow_pos v.levels
    obtain ⟨h3, lab3, hl, inv3⟩ := finish h2 h.next (v.levels + 1) _ ok2 L2
      (by simp only [if_neg (Nat.ne_of_lt htlt)]; exact inv.tail_lab)
      (by rw [m2 _ (Nat.ne_of_lt htlt), mo _ (Nat.ne_of_lt htlt)]; exact htm)
      (by rw [width_pow_succ, ← hBW, hW]; omega) (by omega)
      (Or.inr (by rw [width_pow_succ, ← hBW]))
    refine ⟨_, _, lab3, ?_, inv3, rfl, rfl⟩
    have e2 : GC_MALLOC h = (hm, h.next) := e1
    simp [vector_append_tail, ← hcap, node_new, e2, hs, hl, malloc_snd]
  · have hne : B + 1 ≠ WIDTH ^ v.levels := by
      intro e
      apply hcap
      rw [capacity_eq, width_pow_succ, ← e, hcnt, Nat.mul_add, Nat.mul_one]
    have hc := inv.cap
    obtain ⟨h3, lab3, hl, inv3⟩ := finish h v.head v.levels lab inv.ok inv.labelled inv.tail_lab
      htm (by omega) inv.levels_pos
      (by rcases inv.grown with e | e
          · exact Or.inl e
          · exact Or.inr (Nat.le_trans e (Nat.mul_le_mul_left _ (Nat.le_succ B))))
    refine ⟨_, _, lab3, ?_, inv3, rfl, rfl⟩
    simp [vector_append_tail, hcap, node_new, hl, malloc_snd]

/-- `vector_push` of the next element of `f` onto a vector built by pushes. -/
theorem vector_push_inv {h : Heap} {v : Vector} {f : Nat → Nat} {B : Nat}
    {lab : Nat → Option (Nat × Nat)} (inv : PushInv h v f B lab) :
    ∃ h1 v1 B1 lab1, vector_push h v (f v.count) = some (h1, v1) ∧ PushInv h1 v1 f B1 lab1 ∧
      v1.count = v.count + 1 ∧ 1 ≤ v1.tail_count := by
  have hW := WIDTH_eq
  obtain ⟨n0, hm0, _⟩ := inv.labelled.node v.head _ _ inv.labelled.head_lab
  obtain ⟨tn, htm, htn⟩ := inv.tail_mem
  have hhl := allocated_lt inv.ok ⟨n0, hm0⟩
  have htlt := allocated_lt inv.ok ⟨tn, htm⟩
  have hth : v.tail ≠ v.head := by
    intro e
    have := inv.tail_lab
    rw [e, inv.labelled.head_lab] at this
    cases this
  obtain ⟨h1, hc, ok1, _, mc, mo⟩ := node_copy_step inv.ok hm0
  have L1 : Labelled h1 f (fun a => if a = h.next then some (v.levels, 0)
      else if a = v.head then none else lab a) v.levels h.next B v.levels :=
    labelled_copy inv.ok inv.labelled hm0 mc mo (by simp)
      (by simp only [if_neg (Nat.ne_of_lt hhl), if_true])
      (fun a h1 h2 => by simp only [if_neg h1, if_neg h2])
  have inv1 : PushInv h1 { v with head := h.next } f B (fun a => if a = h.next then
      some (v.levels, 0) else if a = v.head then none else lab a) :=
    ⟨ok1, L1, by simp only [if_neg (Nat.ne_of_lt htlt), if_neg hth]; exact inv.tail_lab,
      ⟨tn, by rw [mo _ (Nat.ne_of_lt htlt)]; exact htm, htn⟩, inv.count_eq, inv.tc_le, inv.cap,
      inv.levels_pos, inv.grown⟩
  have hcopy : vector_copy h v = some (h1, { v with head := h.next }) := by
    simp [vector_copy, hc]
  -- the final write into the tail
  have finish : ∀ (h2 : Heap) (v2 : Vector) (B2 : Nat) (lab2 : Nat → Option (Nat × Nat)),
      PushInv h2 v2 f B2 lab2 → v2.tail_count < WIDTH → v2.count = v.count →
      ∃ h3, store h2 v2.tail v2.tail_count (f v.count) = some h3 ∧
        PushInv h3 { v2 with count := v2.count + 1, tail_count := v2.tail_count + 1 } f B2
          lab2 := by
    intro h2 v2 B2 lab2 inv2 hlt hcnt
    obtain ⟨tn2, htm2, htn2⟩ := inv2.tail_mem
    obtain ⟨h3, hs, ok3, _, m1, m2⟩ := store_spec inv2.ok htm2 hlt (f v.count)
    refine ⟨h3, hs, ok3, ?_, inv2.tail_lab, ⟨_, m1, ?_⟩, ?_, ?_, inv2.cap, inv2.levels_pos,
      inv2.grown⟩
    · refine labelled_mem_eq inv2.labelled (fun a x ha => m2 a ?_)
      intro e
      rw [e, inv2.tail_lab] at ha
      cases ha
    · intro i hi
      have hc2 := inv2.count_eq
      by_cases e : i = v2.tail_count
      · simp only [if_pos e]
        rw [e, ← hc2, hcnt]
      · simp only [if_neg e]
        exact htn2 i (by
          have : i < v2.tail_count + 1 := hi
          omega)
    · show v2.count + 1 = WIDTH * B2 + (v2.tail_count + 1)
      have := inv2.count_eq
      omega
    · show v2.tail_count + 1 ≤ WIDTH
      omega
  by_cases htc : v.tail_count = WIDTH
  · obtain ⟨h2, v2, lab2, ha, inv2, h0, hcnt⟩ := vector_append_tail_push inv1 htc
    obtain ⟨h3, hs, inv3⟩ := finish h2 v2 _ lab2 inv2 (by rw [h0]; decide) hcnt
    refine ⟨h3, _, _, lab2, ?_, inv3, by rw [← hcnt], Nat.le_add_left _ _⟩
    unfold vector_push
    simp only [hcopy, Option.bind_eq_bind, Option.some_bind]
    rw [if_pos htc, ha]
    simp only [Option.some_bind]
    rw [hs]
    rfl
  · have hlt : v.tail_count < WIDTH := by
      have := inv.tc_le
      omega
    obtain ⟨h3, hs, inv3⟩ := finish h1 _ _ _ inv1 hlt rfl
    refine ⟨h3, _, _, _, ?_, inv3, rfl, Nat.le_add_left _ _⟩
    unfold vector_push
    simp only [hcopy, Option.bind_eq_bind, Option.some_bind]
    rw [if_neg htc]
    have hs1 : store h1 v.tail v.tail_count (f v.count) = some h3 := hs
    rw [hs1]
    rfl

end PVector

namespace PVector

/-! ### Reading a vector built by pushes -/

/-- The fresh vector of `vector_make`. -/
theorem vector_make_push (f : Nat → Nat) :
    ∃ lab, PushInv (vector_make Heap.empty).1 (vector_make Heap.empty).2 f 0 lab ∧
      (vector_make Heap.empty).2.count = 0 := by
  have m1 : (vector_make Heap.empty).1.mem 1 = some (fun _ => NULL) := rfl
  have m2 : (vector_make Heap.empty).1.mem 2 = some (fun _ => NULL) := rfl
  refine ⟨fun a => if a = 1 then some (1, 0) else none,
    ⟨malloc_heapOK (malloc_heapOK heapOK_empty), ⟨rfl, ?_, ?_, ?_⟩, rfl, ⟨_, m2, ?_⟩, rfl,
      Nat.zero_le _, by decide, Nat.le_refl 1, Or.inl rfl⟩, rfl⟩
  · intro a a1 x ha ha1
    by_cases e : a = 1
    · by_cases e1 : a1 = 1
      · rw [e, e1]
      · simp only [if_neg e1] at ha1
        cases ha1
    · simp only [if_neg e] at ha
      cases ha
  · intro a d j ha
    by_cases e : a = 1
    · simp only [if_pos e, Option.some.injEq, Prod.mk.injEq] at ha
      exact Or.inl ⟨ha.1.symm, ha.2.symm, e⟩
    · simp only [if_neg e] at ha
      cases ha
  · intro a d j ha
    by_cases e : a = 1
    · simp only [if_pos e, Option.some.injEq, Prod.mk.injEq] at ha
      obtain ⟨hd, hj⟩ := ha
      rw [e]
      refine ⟨_, m1, fun h0 => by omega, fun e0 he i hi => ?_⟩
      have hthr : thr 0 (vector_make Heap.empty).2.levels d = 0 :=
        thr_of_le (show d ≤ 1 by omega)
      rw [hthr, if_neg (Nat.not_lt_zero _)]
    · simp only [if_neg e] at ha
      cases ha
  · intro i hi
    exact absurd hi (Nat.not_lt_zero _)

theorem descend_index (i n : Nat) :
    (i >>> (BITS * (n + 1))) &&& MASK = i / WIDTH / WIDTH ^ n % WIDTH := by
  rw [shift_eq_div, and_mask_eq_mod, width_pow_succ, Nat.div_div_eq_div_mul]

/-- The descent of `vector_get` ends at the block of the index. -/
theorem descend_push {h : Heap} {f : Nat → Nat} {lab : Nat → Option (Nat × Nat)}
    {levels head B i : Nat} (L : Labelled h f lab levels head B levels) (hi : i / WIDTH < B) :
    ∀ (n prev : Nat), lab prev = some (n, i / WIDTH / WIDTH ^ n) →
      ∃ p, descend i n h prev = some p ∧ lab p = some (0, i / WIDTH) := by
  intro n
  induction n with
  | zero =>
    intro prev hprev
    rw [Nat.pow_zero, Nat.div_one] at hprev
    exact ⟨prev, rfl, hprev⟩
  | succ n ih =>
    intro prev hprev
    obtain ⟨np, hpm, _, hch⟩ := L.node prev _ _ hprev
    have hx : i / WIDTH / WIDTH ^ n % WIDTH < WIDTH := Nat.mod_lt _ (by decide)
    have hchild := hch n rfl _ hx
    rw [path_child, thr_of_le (lab_depth_le L hprev)] at hchild
    rw [if_pos (Nat.lt_of_le_of_lt (path_le _ _) hi)] at hchild
    obtain ⟨p, hd, hp⟩ := ih _ hchild
    refine ⟨p, ?_, hp⟩
    rw [descend]
    simp only [descend_index, load_of_mem hpm hx, Option.bind_eq_bind, Option.some_bind]
    exact hd

/-- `vector_get` on a vector built by pushes of `f 0, f 1, ...` returns the
element pushed at the index. -/
theorem vector_get_push {h : Heap} {v : Vector} {f : Nat → Nat} {B : Nat}
    {lab : Nat → Option (Nat × Nat)} (inv : PushInv h v f B lab) {i : Nat} (hi : i < v.count) :
    vector_get h v (i : Int) = some (f i) := by
  have hW := WIDTH_eq
  have hcnt := inv.count_eq
  have htc := inv.tc_le
  unfold vector_get
  have hr : ¬ ((i : Int) < 0 ∨ (i : Int) ≥ v.count) := by omega
  rw [if_neg hr]
  simp only [Int.toNat_ofNat]
  have hoff : v.count - v.tail_count = WIDTH * B := by omega
  rw [hoff]
  by_cases ht : i ≥ WIDTH * B
  · rw [if_pos ht]
    obtain ⟨tn, htm, htn⟩ := inv.tail_mem
    have hlt : i - WIDTH * B < v.tail_count := by omega
    rw [load_of_mem htm (by omega), htn _ hlt]
    congr 2
    omega
  · rw [if_neg ht]
    have hq : i / WIDTH < B := by
      rw [hW] at ht ⊢
      omega
    have hhead : lab v.head = some (v.levels, i / WIDTH / WIDTH ^ v.levels) := by
      rw [Nat.div_eq_of_lt (Nat.lt_trans hq inv.cap)]
      exact inv.labelled.head_lab
    obtain ⟨p, hd, hp⟩ := descend_push inv.labelled hq v.levels v.head hhead
    obtain ⟨nd, hm, hleaf, _⟩ := inv.labelled.node p _ _ hp
    simp only [hd, Option.bind_eq_bind, Option.some_bind, and_mask_eq_mod]
    rw [load_of_mem hm (Nat.mod_lt _ (by decide)), hleaf rfl _ (Nat.mod_lt _ (by decide)),
      Nat.div_add_mod]

/-- A run of pushes of the next `n` elements of `f`. -/
theorem run_push (f : Nat → Nat) :
    ∀ (n : Nat) (h : Heap) (v : Vector) (B : Nat) (lab : Nat → Option (Nat × Nat)),
      PushInv h v f B lab →
      ∃ h1 v1 B1 lab1, run ((List.range' v.count n).map (fun i => Op.push (f i))) (h, v) =
          some (h1, v1) ∧ PushInv h1 v1 f B1 lab1 ∧ v1.count = v.count + n ∧
        (0 < n → 1 ≤ v1.tail_count) := by
  intro n
  induction n with
  | zero =>
    intro h v B lab inv
    exact ⟨h, v, B, lab, rfl, inv, rfl, fun e => absurd e (Nat.lt_irrefl 0)⟩
  | succ n ih =>
    intro h v B lab inv
    obtain ⟨h1, v1, B1, lab1, hp, inv1, hc1, ht1⟩ := vector_push_inv inv
    obtain ⟨h2, v2, B2, lab2, hr, inv2, hc2, ht2⟩ := ih h1 v1 B1 lab1 inv1
    refine ⟨h2, v2, B2, lab2, ?_, inv2, by omega, fun _ => ?_⟩
    · rw [List.range'_succ, List.map_cons, run]
      simp only [Op.apply, hp, Option.bind_eq_bind, Option.some_bind]
      rw [← hc1]
      exact hr
    · by_cases hn : 0 < n
      · exact ht2 hn
      · have h0 : n = 0 := by omega
        subst h0
        simp only [List.range'_zero, List.map_nil, run, Option.some.injEq, Prod.mk.injEq] at hr
        rw [← hr.2]
        exact ht1

theorem map_push_eq (xs : List Nat) :
    xs.map Op.push = (List.range' 0 xs.length).map (fun i => Op.push (xs.getD i 0)) := by
  apply List.ext_getElem
  · simp
  · intro i h1 h2
    simp only [List.getElem_map, List.getElem_range', Nat.zero_add, Nat.one_mul]
    rw [List.getD_eq_getElem _ _ (by simpa using h1)]

/-- C20: for every list `xs` of values, pushing `xs[0]`, ..., `xs[n-1]` in
order onto `vector_make()` returns a vector with `vector_count = n` in which
`vector_get(v, i)` is `xs[i]` for every `i < n`, so that every descent, across
every tail flush and every growth of the trie, ends in a block of elements;
for `n ≤ 2^30` the trie has at most 5 levels, so that the shift counts
`BITS * (levels + 1)` of `vector_append_tail` stay at or below 30 and the
capacity `1 << (BITS * (levels + 1))` is a value of type `int`. -/
theorem vector_push_all_get (xs : List Nat) :
    ∃ h v, run_fresh (xs.map Op.push) = some (h, v) ∧ vector_count v = xs.length ∧
      (∀ (i : Nat) (hi : i < xs.length), vector_get h v (i : Int) = some xs[i]) ∧
      (xs.length ≤ 2 ^ 30 → BITS * (v.levels + 1) ≤ 30 ∧
        1 <<< (BITS * (v.levels + 1)) < 2 ^ 31) := by
  obtain ⟨lab, inv, hc0⟩ := vector_make_push (fun i => xs.getD i 0)
  obtain ⟨h1, v1, B1, lab1, hr, inv1, hc1, ht1⟩ := run_push (fun i => xs.getD i 0) xs.length
    _ _ _ _ inv
  rw [hc0] at hr hc1
  rw [Nat.zero_add] at hc1
  have hlev : xs.length ≤ 2 ^ 30 → v1.levels ≤ 5 := by
    intro hn
    rcases inv1.grown with e | e
    · omega
    · by_contra hgt
      have h6 : WIDTH ^ 6 ≤ WIDTH ^ v1.levels := Nat.pow_le_pow_right (by decide) (by omega)
      have hW6 : WIDTH ^ 6 = 2 ^ 30 := by decide
      have hcnt := inv1.count_eq
      have hW := WIDTH_eq
      rw [hW] at e hcnt
      rw [hW6] at h6
      rw [hW] at h6
      by_cases h0 : xs.length = 0
      · omega
      · have := ht1 (by omega)
        omega
  refine ⟨h1, v1, ?_, hc1, fun i hi => ?_, fun hn => ?_⟩
  · rw [run_fresh, map_push_eq]
    exact hr
  · have hg := vector_get_push inv1 (show i < v1.count by rw [hc1]; exact hi)
    rw [hg]
    simp only [List.getD_eq_getElem _ _ hi]
  · have h5 := hlev hn
    refine ⟨by unfold BITS; omega, ?_⟩
    rw [capacity_eq]
    have h6 : WIDTH ^ (v1.levels + 1) ≤ WIDTH ^ 6 := Nat.pow_le_pow_right (by decide) (by omega)
    have hW6 : WIDTH ^ 6 = 2 ^ 30 := by decide
    omega

/-- C20 on the values `0 .. 1099`: the pushes cross 34 tail flushes and the
growth of the trie to two levels at 1024 elements. -/
theorem vector_push_all_get_witness :
    ∃ h v, run_fresh ((List.range 1100).map Op.push) = some (h, v) ∧
      vector_count v = (List.range 1100).length ∧
      (∀ (i : Nat) (hi : i < (List.range 1100).length),
        vector_get h v (i : Int) = some (List.range 1100)[i]) ∧
      ((List.range 1100).length ≤ 2 ^ 30 → BITS * (v.levels + 1) ≤ 30 ∧
        1 <<< (BITS * (v.levels + 1)) < 2 ^ 31) :=
  vector_push_all_get (List.range 1100)

end PVector

namespace PVector

/-! ### Pops after pushes -/

theorem pushInv_popInv {h : Heap} {v : Vector} {f : Nat → Nat} {B : Nat}
    {lab : Nat → Option (Nat × Nat)} (inv : PushInv h v f B lab) : PopInv h v f B lab :=
  ⟨inv.ok, inv.labelled, inv.tail_lab, inv.tail_mem, inv.count_eq, inv.tc_le,
    Nat.le_of_lt inv.cap, inv.levels_pos, inv.grown⟩

/-- A trie of `B + 1` blocks, before `pop_from_head` takes out block `B`. -/
theorem labelled_unfinish {h : Heap} {f : Nat → Nat} {lab : Nat → Option (Nat × Nat)}
    {levels head B : Nat} (L : Labelled h f lab levels head (B + 1) levels) :
    Labelled h f lab levels head B 0 := by
  refine ⟨L.head_lab, L.inj, fun a d j ha => ?_, fun a d j ha => ?_⟩
  · rcases L.place a d j ha with hl | ⟨h1, h2⟩
    · exact Or.inl hl
    · refine Or.inr ⟨h1, ?_⟩
      rw [thr_of_le (by omega)] at h2
      rw [thr_of_lt (Nat.succ_pos d)]
      exact h2
  · have hd := lab_depth_le L ha
    obtain ⟨nd, hm, hleaf, hch⟩ := L.node a d j ha
    refine ⟨nd, hm, hleaf, fun e he i hi => ?_⟩
    have hold := hch e he i hi
    rw [thr_of_le hd] at hold
    rw [thr_of_lt (by omega)]
    exact hold

theorem thr_succ_of_ne (B : Nat) {n d : Nat} (h : d ≠ n + 1) : thr B (n + 1) d = thr B n d := by
  unfold thr
  by_cases h1 : n < d
  · rw [if_pos h1, if_pos (by omega)]
  · rw [if_neg h1, if_neg (by omega)]

theorem path_parent {B n j i : Nat} (hi : i < WIDTH) (h : WIDTH * j + i = B / WIDTH ^ n) :
    B / WIDTH ^ (n + 1) = j ∧ i = B / WIDTH ^ n % WIDTH := by
  have hW := WIDTH_eq
  rw [Nat.pow_succ, ← Nat.div_div_eq_div_mul, ← h]
  rw [hW] at hi ⊢
  constructor <;> omega

/-- The step of `pop_from_head` at the node of depth `n + 1` on the path of
block `B`: the child of depth `n` stays if it still holds a block and is taken
out of the trie otherwise. -/
theorem labelled_remove {h h1 : Heap} {f : Nat → Nat} {lab lab1 : Nat → Option (Nat × Nat)}
    {levels head B n node c r : Nat} (L : Labelled h f lab levels head B n)
    (hnode : lab node = some (n + 1, B / WIDTH ^ (n + 1)))
    (hc : lab c = some (n, B / WIDTH ^ n))
    {np : Node} (hpm : h.mem node = some np)
    (hr : r = if B / WIDTH ^ n * WIDTH ^ n = B then NULL else c)
    (m1 : h1.mem node = some (fun x => if x = B / WIDTH ^ n % WIDTH then r else np x))
    (m2 : ∀ a, a ≠ node → h1.mem a = h.mem a)
    (l1 : B / WIDTH ^ n * WIDTH ^ n = B → lab1 c = none)
    (l2 : ∀ a, a ≠ c → lab1 a = lab a)
    (l3 : B / WIDTH ^ n * WIDTH ^ n < B → lab1 c = lab c) :
    Labelled h1 f lab1 levels head B (n + 1) := by
  have hnl : n + 1 ≤ levels := lab_depth_le L hnode
  have hple := path_le B n
  have sub : ∀ a x, lab1 a = some x → lab a = some x := by
    intro a x ha
    by_cases e : a = c
    · rw [e] at ha ⊢
      by_cases hd : B / WIDTH ^ n * WIDTH ^ n = B
      · rw [l1 hd] at ha
        cases ha
      · rw [l3 (by omega)] at ha
        exact ha
    · rw [l2 a e] at ha
      exact ha
  have keep : ∀ a x, lab a = some x → x ≠ (n, B / WIDTH ^ n) → lab1 a = some x := by
    intro a x ha hx
    have hne : a ≠ c := by
      intro e
      rw [e, hc] at ha
      exact hx (Option.some.inj ha).symm
    rw [l2 a hne]
    exact ha
  refine ⟨keep _ _ L.head_lab (by
    intro e
    simp only [Prod.mk.injEq] at e
    omega), fun a a1 x ha ha1 => L.inj a a1 x (sub _ _ ha) (sub _ _ ha1), ?_, ?_⟩
  · intro a d j ha
    have hl := sub _ _ ha
    rcases L.place a d j hl with hroot | ⟨h1, h2⟩
    · exact Or.inl hroot
    · refine Or.inr ⟨h1, ?_⟩
      by_cases hd : d = n
      · rw [hd] at h2 hl ha ⊢
        rw [thr_of_lt (Nat.lt_succ_self _)] at h2
        rw [thr_of_le (Nat.le_refl _)]
        by_contra hge
        have heq : j * WIDTH ^ n = B := by omega
        have hj : B / WIDTH ^ n = j := by
          rw [← heq]
          exact Nat.mul_div_cancel _ (width_pow_pos n)
        have hac : a = c := L.inj a c _ hl (by rw [← hj]; exact hc)
        have hdrop : B / WIDTH ^ n * WIDTH ^ n = B := by rw [hj]; exact heq
        rw [hac, l1 hdrop] at ha
        cases ha
      · rw [thr_succ_of_ne B (by omega)]
        exact h2
  · intro a d j ha
    have hl := sub _ _ ha
    obtain ⟨nd, hm, hleaf, hch⟩ := L.node a d j hl
    by_cases ep : a = node
    · rw [ep] at hl hm
      rw [hnode] at hl
      simp only [Option.some.injEq, Prod.mk.injEq] at hl
      obtain ⟨hd, hj⟩ := hl
      rw [hpm] at hm
      have hnd := Option.some.inj hm
      subst hnd
      rw [ep]
      refine ⟨_, m1, fun h0 => by omega, fun e0 he i hi => ?_⟩
      have hen : e0 = n := by omega
      subst hen
      have hold := hch e0 he i hi
      rw [← hd, thr_of_le (Nat.le_refl _)]
      rw [← hd, thr_of_lt (Nat.lt_succ_self e0)] at hold
      by_cases hi0 : i = B / WIDTH ^ e0 % WIDTH
      · have hpath : WIDTH * j + i = B / WIDTH ^ e0 := by
          rw [← hj, hi0]
          exact path_child B e0
        simp only [if_pos hi0]
        rw [hpath]
        by_cases hdrop : B / WIDTH ^ e0 * WIDTH ^ e0 = B
        · rw [if_neg (by omega), hr, if_pos hdrop]
        · have hlt : B / WIDTH ^ e0 * WIDTH ^ e0 < B := by omega
          rw [if_pos hlt, hr, if_neg hdrop, l3 hlt]
          exact hc
      · have hne : (WIDTH * j + i) * WIDTH ^ e0 ≠ B := by
          intro heq
          have h2 := (path_of_start hi heq).2
          exact hi0 (path_parent hi h2.symm).2
        simp only [if_neg hi0]
        by_cases hcnd : (WIDTH * j + i) * WIDTH ^ e0 < B
        · rw [if_pos hcnd]
          rw [if_pos (by omega)] at hold
          refine keep _ _ hold ?_
          intro e
          simp only [Prod.mk.injEq, true_and] at e
          exact hi0 (path_parent hi e).2
        · rw [if_neg hcnd]
          rw [if_neg (by omega)] at hold
          exact hold
    · refine ⟨nd, by rw [m2 a ep]; exact hm, hleaf, fun e0 he i hi => ?_⟩
      have hold := hch e0 he i hi
      have hth : ((WIDTH * j + i) * WIDTH ^ e0 < thr B (n + 1) d) ↔
          ((WIDTH * j + i) * WIDTH ^ e0 < thr B n d) := by
        by_cases hd : d = n + 1
        · have hen : e0 = n := by omega
          rw [hd, thr_of_lt (Nat.lt_succ_self n), thr_of_le (Nat.le_refl _), hen]
          have hne : (WIDTH * j + i) * WIDTH ^ n ≠ B := by
            intro heq
            have h1 := (path_of_start hi heq).1
            rw [hd, ← h1] at hl
            exact ep (L.inj a node _ hl hnode)
          omega
        · rw [thr_succ_of_ne B hd]
      by_cases hcnd : (WIDTH * j + i) * WIDTH ^ e0 < thr B (n + 1) d
      · rw [if_pos hcnd]
        rw [if_pos (hth.mp hcnd)] at hold
        refine keep _ _ hold ?_
        intro e
        simp only [Prod.mk.injEq] at e
        obtain ⟨e1, e2⟩ := e
        have h1 := (path_parent hi e2).1
        have hd : d = n + 1 := by omega
        rw [hd, ← h1] at hl
        exact ep (L.inj a node _ hl hnode)
      · rw [if_neg hcnd]
        rw [if_neg (fun x => hcnd (hth.mpr x))] at hold
        exact hold

end PVector

namespace PVector

/-- The trie after `vector_pop_from_head` has taken the only child of the root
as the new root. -/
theorem labelled_collapse {h : Heap} {f : Nat → Nat} {lab lab1 : Nat → Option (Nat × Nat)}
    {e head c0 B : Nat} (L : Labelled h f lab (e + 1) head B (e + 1))
    (hc0 : lab c0 = some (e, 0)) (hB : B ≤ WIDTH ^ e)
    (l1 : lab1 head = none) (l2 : ∀ a, a ≠ head → lab1 a = lab a) :
    Labelled h f lab1 e c0 B e := by
  have sub : ∀ a x, lab1 a = some x → lab a = some x ∧ a ≠ head := by
    intro a x ha
    have hne : a ≠ head := by
      intro e1
      rw [e1, l1] at ha
      cases ha
    rw [l2 a hne] at ha
    exact ⟨ha, hne⟩
  have keep : ∀ a d j, lab a = some (d, j) → d ≤ e → lab1 a = some (d, j) := by
    intro a d j ha hd
    have hne : a ≠ head := by
      intro e1
      rw [e1, L.head_lab] at ha
      simp only [Option.some.injEq, Prod.mk.injEq] at ha
      omega
    rw [l2 a hne]
    exact ha
  refine ⟨keep _ _ _ hc0 (Nat.le_refl _),
    fun a a1 x ha ha1 => L.inj a a1 x (sub _ _ ha).1 (sub _ _ ha1).1, ?_, ?_⟩
  · intro a d j ha
    obtain ⟨hl, hne⟩ := sub _ _ ha
    rcases L.place a d j hl with ⟨_, _, hroot⟩ | ⟨h1, h2⟩
    · exact absurd hroot hne
    · rw [thr_of_le (by omega)] at h2
      by_cases hd : d = e
      · rw [hd] at h2 hl ⊢
        have hj : j = 0 := by
          by_contra hj0
          have : 1 * WIDTH ^ e ≤ j * WIDTH ^ e := Nat.mul_le_mul_right _ (by omega)
          omega
        rw [hj] at hl ⊢
        exact Or.inl ⟨rfl, rfl, L.inj a c0 _ hl hc0⟩
      · refine Or.inr ⟨by omega, ?_⟩
        rw [thr_of_le (by omega)]
        exact h2
  · intro a d j ha
    obtain ⟨hl, hne⟩ := sub _ _ ha
    have hd1 := lab_depth_le L hl
    have hd : d ≤ e := by
      rcases L.place a d j hl with ⟨_, _, hroot⟩ | ⟨h1, _⟩
      · exact absurd hroot hne
      · omega
    obtain ⟨nd, hm, hleaf, hch⟩ := L.node a d j hl
    refine ⟨nd, hm, hleaf, fun e0 he i hi => ?_⟩
    have hold := hch e0 he i hi
    rw [thr_of_le hd1] at hold
    rw [thr_of_le hd]
    by_cases hc : (WIDTH * j + i) * WIDTH ^ e0 < B
    · rw [if_pos hc] at hold
      rw [if_pos hc]
      exact keep _ _ _ hold (by omega)
    · rw [if_neg hc] at hold
      rw [if_neg hc]
      exact hold

/-- Slot 0 of a node on the path of block `B` is empty when the node starts
at block `B`. -/
theorem labelled_slot0 {h : Heap} {f : Nat → Nat} {lab : Nat → Option (Nat × Nat)}
    {levels head B n node : Nat} (ok : HeapOK h) (L : Labelled h f lab levels head B (n + 1))
    (hnode : lab node = some (n + 1, B / WIDTH ^ (n + 1))) {nd : Node}
    (hm : h.mem node = some nd) :
    nd 0 = NULL ↔ B / WIDTH ^ (n + 1) * WIDTH ^ (n + 1) = B := by
  obtain ⟨nd1, hm1, _, hch⟩ := L.node node _ _ hnode
  rw [hm] at hm1
  have e := Option.some.inj hm1
  subst e
  have h0 := hch n rfl 0 (by decide)
  rw [thr_of_le (Nat.le_refl _), Nat.add_zero] at h0
  have hp := path_le B (n + 1)
  have heq : WIDTH * (B / WIDTH ^ (n + 1)) * WIDTH ^ n = B / WIDTH ^ (n + 1) * WIDTH ^ (n + 1) := by
    rw [width_pow_succ, Nat.mul_comm WIDTH (B / _), Nat.mul_assoc]
  rw [heq] at h0
  by_cases hc : B / WIDTH ^ (n + 1) * WIDTH ^ (n + 1) < B
  · rw [if_pos hc] at h0
    constructor
    · intro e0
      obtain ⟨nc, hnc, _⟩ := L.node _ _ _ h0
      rw [e0, ok.1] at hnc
      cases hnc
    · intro e0
      omega
  · rw [if_neg hc] at h0
    exact ⟨fun _ => by omega, fun _ => h0⟩

/-- The call of `pop_from_head` at the node of depth `n + 1` on the path of
the last block `B` of the trie: the block becomes the tail, and the nodes of
depth up to `n` that held no other block are taken out of the trie. -/
theorem pop_from_head_pop {f : Nat → Nat} {B idx : Nat} (hidx : idx / WIDTH = B) :
    ∀ (n : Nat) (h : Heap) (lab : Nat → Option (Nat × Nat)) (levels head : Nat) (vec : Vector)
      (node : Nat), HeapOK h → Labelled h f lab levels head B 0 → vec.levels = levels →
      lab node = some (n + 1, B / WIDTH ^ (n + 1)) →
      ∃ h1 lab1 t, pop_from_head idx (n + 1) h vec node =
          some (h1, { vec with tail := t, tail_count := WIDTH },
            if B / WIDTH ^ (n + 1) * WIDTH ^ (n + 1) = B ∧ levels > 1 then NULL else node) ∧
        HeapOK h1 ∧ Labelled h1 f lab1 levels head B (n + 1) ∧ lab1 t = none ∧
        (∃ tn, h1.mem t = some tn ∧ ∀ i, i < WIDTH → tn i = f (WIDTH * B + i)) ∧
        (∀ a d j, lab a = some (d, j) → n < d → lab1 a = some (d, j)) ∧ h1.next = h.next := by
  intro n
  induction n with
  | zero =>
    intro h lab levels head vec node ok L hlev hnode
    obtain ⟨np, hpm, _, hch⟩ := L.node node _ _ hnode
    have hi : B / WIDTH ^ 0 % WIDTH < WIDTH := Nat.mod_lt _ (by decide)
    have hchild := hch 0 rfl _ hi
    rw [path_child B 0, thr_of_lt (Nat.succ_pos 0)] at hchild
    have hfull : B / WIDTH ^ 0 * WIDTH ^ 0 = B := by simp
    rw [if_pos (by rw [hfull]; exact Nat.lt_succ_self B)] at hchild
    obtain ⟨tn, htm, htleaf, _⟩ := L.node _ _ _ hchild
    obtain ⟨h1, hs, ok1, hn1, m1, m2⟩ := store_spec ok hpm hi NULL
    have hct : np (B / WIDTH ^ 0 % WIDTH) ≠ node := by
      intro e
      rw [e, hnode] at hchild
      simp only [Option.some.injEq, Prod.mk.injEq] at hchild
      omega
    have L1 : Labelled h1 f (fun a => if a = np (B / WIDTH ^ 0 % WIDTH) then none else lab a)
        levels head B (0 + 1) :=
      labelled_remove L hnode hchild hpm (by rw [if_pos hfull]) m1 m2
        (fun _ => by simp only [if_true]) (fun a ha => by simp only [if_neg ha])
        (fun hlt => by omega)
    have hnode1 : (fun a => if a = np (B / WIDTH ^ 0 % WIDTH) then none else lab a) node =
        some (0 + 1, B / WIDTH ^ (0 + 1)) := by
      simp only [if_neg (Ne.symm hct)]
      exact hnode
    have hs0 := labelled_slot0 ok1 L1 hnode1 m1
    refine ⟨h1, _, np (B / WIDTH ^ 0 % WIDTH), ?_, ok1, L1, by simp, ⟨tn, ?_, ?_⟩, ?_, hn1⟩
    · rw [pop_from_head]
      simp only [descend_index, hidx, (level_sub_bits 0).mpr rfl, if_true, load_of_mem hpm hi,
        Option.bind_eq_bind, Option.some_bind, hs, load_of_mem m1 (show 0 < WIDTH by decide),
        hlev]
      by_cases hd : B / WIDTH ^ (0 + 1) * WIDTH ^ (0 + 1) = B
      · have h0 := hs0.mpr hd
        simp only at h0
        by_cases hl1 : levels > 1
        · rw [if_pos ⟨h0, hl1⟩, if_pos ⟨hd, hl1⟩]
        · rw [if_neg (fun x => hl1 x.2), if_neg (fun x => hl1 x.2)]
      · have h0 : ¬ _ := fun x => hd (hs0.mp x)
        simp only at h0
        rw [if_neg (fun x => h0 x.1), if_neg (fun x => hd x.1)]
    · rw [m2 _ hct]
      exact htm
    · intro i hi1
      rw [htleaf rfl i hi1, Nat.pow_zero, Nat.div_one]
    · intro a d j ha hd
      have hne : a ≠ np (B / WIDTH ^ 0 % WIDTH) := by
        intro e
        rw [e, hchild] at ha
        simp only [Option.some.injEq, Prod.mk.injEq] at ha
        omega
      simp only [if_neg hne]
      exact ha
  | succ n ih =>
    intro h lab levels head vec node ok L hlev hnode
    have hnl : n + 1 + 1 ≤ levels := lab_depth_le L hnode
    have hl1 : levels > 1 := by omega
    obtain ⟨np, hpm, _, hch⟩ := L.node node _ _ hnode
    have hi : B / WIDTH ^ (n + 1) % WIDTH < WIDTH := Nat.mod_lt _ (by decide)
    have hchild := hch (n + 1) rfl _ hi
    have hple := path_le B (n + 1)
    rw [path_child B (n + 1), thr_of_lt (Nat.succ_pos _), if_pos (by omega)] at hchild
    obtain ⟨h1, lab1, t, hp, ok1, L1, ht1, ⟨tn, htm, htn⟩, hkeep, hn1⟩ :=
      ih h lab levels head vec _ ok L hlev hchild
    have hnode1 := hkeep _ _ _ hnode (by omega)
    have hchild1 := hkeep _ _ _ hchild (Nat.lt_succ_self n)
    obtain ⟨np1, hpm1, _, _⟩ := L1.node node _ _ hnode1
    obtain ⟨h2, hs, ok2, hn2, m1, m2⟩ := store_spec ok1 hpm1 hi
      (if B / WIDTH ^ (n + 1) * WIDTH ^ (n + 1) = B then NULL
        else np (B / WIDTH ^ (n + 1) % WIDTH))
    have hcn : np (B / WIDTH ^ (n + 1) % WIDTH) ≠ node := by
      intro e
      rw [e, hnode] at hchild
      simp only [Option.some.injEq, Prod.mk.injEq] at hchild
      omega
    have L2 : Labelled h2 f (fun a => if a = np (B / WIDTH ^ (n + 1) % WIDTH) ∧
        B / WIDTH ^ (n + 1) * WIDTH ^ (n + 1) = B then none else lab1 a)
        levels head B (n + 1 + 1) :=
      labelled_remove L1 hnode1 hchild1 hpm1 rfl m1 m2
        (fun hd => by simp only [hd, and_self, if_true])
        (fun a ha => by simp only [if_neg (fun x : a = _ ∧ _ => ha x.1)]) (fun hlt => by
          have hd : ¬ B / WIDTH ^ (n + 1) * WIDTH ^ (n + 1) = B := by omega
          simp only [if_neg (fun x : _ ∧ _ => hd x.2)])
    have hnode2 : (fun a => if a = np (B / WIDTH ^ (n + 1) % WIDTH) ∧
        B / WIDTH ^ (n + 1) * WIDTH ^ (n + 1) = B then none else lab1 a) node =
        some (n + 1 + 1, B / WIDTH ^ (n + 1 + 1)) := by
      simp only [if_neg (fun x : node = _ ∧ _ => hcn x.1.symm)]
      exact hnode1
    have hs0 := labelled_slot0 ok2 L2 hnode2 m1
    have htn1 : t ≠ node := by
      intro e
      rw [e, hnode1] at ht1
      cases ht1
    have hlevne : ¬ (BITS * (n + 1 + 1) - BITS = 0) := by
      rw [level_sub_bits]
      omega
    refine ⟨h2, _, t, ?_, ok2, L2, ?_, ⟨tn, by rw [m2 t htn1]; exact htm, htn⟩, ?_,
      hn2.trans hn1⟩
    · rw [pop_from_head]
      simp only [descend_index, hidx, if_neg hlevne, load_of_mem hpm hi, Option.bind_eq_bind,
        Option.some_bind, hp]
      have hr : (if B / WIDTH ^ (n + 1) * WIDTH ^ (n + 1) = B ∧ levels > 1 then NULL
          else np (B / WIDTH ^ (n + 1) % WIDTH)) =
          (if B / WIDTH ^ (n + 1) * WIDTH ^ (n + 1) = B then NULL
            else np (B / WIDTH ^ (n + 1) % WIDTH)) := by
        by_cases hd : B / WIDTH ^ (n + 1) * WIDTH ^ (n + 1) = B
        · rw [if_pos ⟨hd, hl1⟩, if_pos hd]
        · rw [if_neg (fun x => hd x.1), if_neg hd]
      rw [hr]
      simp only [hs, Option.some_bind, load_of_mem m1 (show 0 < WIDTH by decide)]
      by_cases hd : B / WIDTH ^ (n + 1 + 1) * WIDTH ^ (n + 1 + 1) = B
      · have h0 := hs0.mpr hd
        simp only at h0
        rw [if_pos h0, if_pos ⟨hd, hl1⟩]
      · have h0 : ¬ _ := fun x => hd (hs0.mp x)
        simp only at h0
        rw [if_neg h0, if_neg (fun x => hd x.1)]
    · simp only [ht1, ite_self]
    · intro a d j ha hd
      have h1 := hkeep a d j ha (by omega)
      have hne : a ≠ np (B / WIDTH ^ (n + 1) % WIDTH) := by
        intro e
        rw [e, hchild] at ha
        simp only [Option.some.injEq, Prod.mk.injEq] at ha
        omega
      simp only [if_neg (fun x : a = _ ∧ _ => hne x.1)]
      exact h1

end PVector

namespace PVector

/-- `vector_pop_from_head` on a vector with an empty tail whose trie holds the
blocks `0 .. B`: block `B` becomes the tail, and a root left with one child is
taken away. -/
theorem vector_pop_from_head_pop {h : Heap} {v : Vector} {f : Nat → Nat} {B : Nat}
    {lab : Nat → Option (Nat × Nat)} (ok : HeapOK h)
    (L : Labelled h f lab v.levels v.head (B + 1) v.levels) (hcnt : v.count = WIDTH * (B + 1))
    (hcap : B + 1 ≤ WIDTH ^ v.levels) (hlv : 1 ≤ v.levels)
    (hgr : v.levels = 1 ∨ WIDTH ^ v.levels ≤ WIDTH * (B + 1)) :
    ∃ h1 v1 lab1, vector_pop_from_head h v = some (h1, v1) ∧ HeapOK h1 ∧
      Labelled h1 f lab1 v1.levels v1.head B v1.levels ∧ lab1 v1.tail = none ∧
      (∃ tn, h1.mem v1.tail = some tn ∧ ∀ i, i < WIDTH → tn i = f (WIDTH * B + i)) ∧
      v1.tail_count = WIDTH ∧ v1.count = v.count ∧ B ≤ WIDTH ^ v1.levels ∧ 1 ≤ v1.levels ∧
      (v1.levels = 1 ∨ WIDTH ^ v1.levels ≤ WIDTH * B) ∧ v1.levels ≤ v.levels := by
  have hW := WIDTH_eq
  obtain ⟨n, hn⟩ : ∃ n, v.levels = n + 1 := ⟨v.levels - 1, by omega⟩
  have hidx : (v.count - 1) / WIDTH = B := by
    rw [hcnt, hW]
    omega
  have hB0 : B / WIDTH ^ (n + 1) = 0 := Nat.div_eq_of_lt (by rw [← hn]; omega)
  have hhead : lab v.head = some (n + 1, B / WIDTH ^ (n + 1)) := by
    rw [hB0, ← hn]
    exact L.head_lab
  have hBpos : v.levels > 1 → 31 ≤ B := by
    intro h1
    rcases hgr with e | e
    · omega
    · have : WIDTH ^ 2 ≤ WIDTH ^ v.levels := Nat.pow_le_pow_right (by decide) h1
      rw [hW] at this e
      omega
  obtain ⟨h1, lab1, t, hp, ok1, L1, ht1, htm, hkeep, _⟩ :=
    pop_from_head_pop hidx n h lab v.levels v.head v v.head ok (labelled_unfinish L) rfl hhead
  have hr : (if B / WIDTH ^ (n + 1) * WIDTH ^ (n + 1) = B ∧ v.levels > 1 then NULL
      else v.head) = v.head := by
    rw [hB0, Nat.zero_mul]
    rw [if_neg]
    intro x
    have := hBpos x.2
    omega
  rw [hr, ← hn] at hp
  rw [← hn] at L1
  obtain ⟨np1, hpm1, _, hch⟩ := L1.node v.head _ _ L1.head_lab
  have hc1 := hch n hn 1 (by decide)
  have hc0 := hch n hn 0 (by decide)
  rw [thr_of_le (Nat.le_refl _), Nat.mul_zero, Nat.zero_add, Nat.one_mul] at hc1
  rw [thr_of_le (Nat.le_refl _), Nat.mul_zero, Nat.zero_add, Nat.zero_mul] at hc0
  have hp1 : WIDTH ^ v.levels = WIDTH * WIDTH ^ n := by rw [hn, width_pow_succ]
  by_cases hcol : np1 1 = NULL ∧ v.levels > 1
  · have hB := hBpos hcol.2
    have hle : B ≤ WIDTH ^ n := by
      by_contra hlt
      rw [if_pos (by omega)] at hc1
      obtain ⟨nc, hnc, _⟩ := L1.node _ _ _ hc1
      rw [hcol.1, ok1.1] at hnc
      cases hnc
    rw [if_pos (by omega)] at hc0
    have hn1 : 1 ≤ n := by omega
    have hpn : WIDTH ^ 1 ≤ WIDTH ^ n := Nat.pow_le_pow_right (by decide) hn1
    have hth : t ≠ v.head := by
      intro e
      rw [e, L1.head_lab] at ht1
      cases ht1
    have L2 : Labelled h1 f (fun a => if a = v.head then none else lab1 a) n (np1 0) B n := by
      rw [hn] at L1
      exact labelled_collapse L1 hc0 hle (by simp only [if_true])
        (fun a ha => by simp only [if_neg ha])
    refine ⟨h1, { v with tail := t, tail_count := WIDTH, head := np1 0, levels := n }, _, ?_,
      ok1, L2, by simp only [if_neg hth]; exact ht1, htm, rfl, rfl, hle, hn1, ?_,
      by show n ≤ v.levels; omega⟩
    · unfold vector_pop_from_head
      simp only [hp, Option.bind_eq_bind, Option.some_bind,
        load_of_mem hpm1 (show 1 < WIDTH by decide), load_of_mem hpm1 (show 0 < WIDTH by decide)]
      rw [if_pos hcol]
      simp only [Option.some.injEq, Prod.mk.injEq, true_and, Vector.mk.injEq, and_true]
      omega
    · show n = 1 ∨ WIDTH ^ n ≤ WIDTH * B
      right
      rcases hgr with e | e
      · omega
      · rw [hp1] at e
        rw [Nat.pow_one] at hpn
        rw [hW] at e hpn ⊢
        omega
  · refine ⟨h1, { v with tail := t, tail_count := WIDTH }, lab1, ?_, ok1, L1, ht1, htm, rfl,
      rfl, by show B ≤ WIDTH ^ v.levels; omega, hlv, ?_, Nat.le_refl _⟩
    · unfold vector_pop_from_head
      simp only [hp, Option.bind_eq_bind, Option.some_bind,
        load_of_mem hpm1 (show 1 < WIDTH by decide)]
      rw [if_neg hcol]
    · show v.levels = 1 ∨ WIDTH ^ v.levels ≤ WIDTH * B
      by_cases h1 : v.levels = 1
      · exact Or.inl h1
      · right
        have hlt : WIDTH ^ n < B := by
          by_contra hge
          rw [if_neg hge] at hc1
          exact hcol ⟨hc1, by omega⟩
        rw [hp1, hW]
        rw [hW] at hlt
        omega

/-- `vector_pop` on a vector built by pushes and pops. -/
theorem vector_pop_popInv {h : Heap} {v : Vector} {f : Nat → Nat} {B : Nat}
    {lab : Nat → Option (Nat × Nat)} (inv : PopInv h v f B lab) (hne : v.count ≠ 0) :
    ∃ h1 v1 B1 lab1, vector_pop h v = some (h1, v1) ∧ PopInv h1 v1 f B1 lab1 ∧
      v1.count = v.count - 1 ∧ v1.levels ≤ v.levels := by
  have hW := WIDTH_eq
  obtain ⟨n0, hm0, _⟩ := inv.labelled.node v.head _ _ inv.labelled.head_lab
  obtain ⟨tn, htm, htn⟩ := inv.tail_mem
  have hhl := allocated_lt inv.ok ⟨n0, hm0⟩
  have htlt := allocated_lt inv.ok ⟨tn, htm⟩
  have hth : v.tail ≠ v.head := by
    intro e
    have := inv.tail_lab
    rw [e, inv.labelled.head_lab] at this
    cases this
  obtain ⟨h1, hc, ok1, _, mc, mo⟩ := node_copy_step inv.ok hm0
  have L1 : Labelled h1 f (fun a => if a = h.next then some (v.levels, 0)
      else if a = v.head then none else lab a) v.levels h.next B v.levels :=
    labelled_copy inv.ok inv.labelled hm0 mc mo (by simp)
      (by simp only [if_neg (Nat.ne_of_lt hhl), if_true])
      (fun a h1 h2 => by simp only [if_neg h1, if_neg h2])
  have htl1 : (fun a => if a = h.next then some (v.levels, 0)
      else if a = v.head then none else lab a) v.tail = none := by
    simp only [if_neg (Nat.ne_of_lt htlt), if_neg hth]
    exact inv.tail_lab
  have htm1 : h1.mem v.tail = some tn := by
    rw [mo _ (Nat.ne_of_lt htlt)]
    exact htm
  have hcopy : vector_copy h v = some (h1, { v with head := h.next }) := by
    simp [vector_copy, hc]
  have hcnt := inv.count_eq
  -- the final write into the tail
  have finish : ∀ (h2 : Heap) (v2 : Vector) (B2 : Nat) (lab2 : Nat → Option (Nat × Nat)),
      PopInv h2 v2 f B2 lab2 → 0 < v2.tail_count → v2.count = v.count →
      ∃ h3, store h2 v2.tail (v2.tail_count - 1) NULL = some h3 ∧
        PopInv h3 { v2 with count := v2.count - 1, tail_count := v2.tail_count - 1 } f B2
          lab2 := by
    intro h2 v2 B2 lab2 inv2 hpos hc2
    obtain ⟨tn2, htm2, htn2⟩ := inv2.tail_mem
    have htc2 := inv2.tc_le
    obtain ⟨h3, hs, ok3, _, m1, m2⟩ := store_spec inv2.ok htm2
      (show v2.tail_count - 1 < WIDTH by omega) NULL
    refine ⟨h3, hs, ok3, ?_, inv2.tail_lab, ⟨_, m1, ?_⟩, ?_, ?_, inv2.cap, inv2.levels_pos,
      inv2.grown⟩
    · refine labelled_mem_eq inv2.labelled (fun a x ha => m2 a ?_)
      intro e
      rw [e, inv2.tail_lab] at ha
      cases ha
    · intro i hi
      have hi1 : i < v2.tail_count - 1 := hi
      have e : i ≠ v2.tail_count - 1 := by omega
      simp only [if_neg e]
      exact htn2 i (by omega)
    · show v2.count - 1 = WIDTH * B2 + (v2.tail_count - 1)
      have := inv2.count_eq
      omega
    · show v2.tail_count - 1 ≤ WIDTH
      omega
  by_cases htc : v.tail_count = 0
  · obtain ⟨B0, hB0⟩ : ∃ B0, B = B0 + 1 := ⟨B - 1, by
      rw [htc] at hcnt
      have : B ≠ 0 := by
        intro e
        rw [e] at hcnt
        omega
      omega⟩
    subst hB0
    have hc1 : v.count = WIDTH * (B0 + 1) := by rw [hcnt, htc]; rfl
    have L1c : Labelled h1 f (fun a => if a = h.next then some (v.levels, 0)
        else if a = v.head then none else lab a) (Vector.mk h.next v.count v.levels v.tail
        v.tail_count).levels (Vector.mk h.next v.count v.levels v.tail v.tail_count).head
        (B0 + 1) (Vector.mk h.next v.count v.levels v.tail v.tail_count).levels := L1
    obtain ⟨h2, v2, lab2, hp, ok2, L2, htl2, htm2, htc2, hcnt2, hcap2, hlv2, hgr2, hle2⟩ :=
      vector_pop_from_head_pop ok1 L1c hc1 inv.cap inv.levels_pos inv.grown
    have inv2 : PopInv h2 v2 f B0 lab2 := by
      obtain ⟨tn2, hm2, hn2⟩ := htm2
      refine ⟨ok2, L2, htl2, ⟨tn2, hm2, fun i hi => hn2 i (by omega)⟩, ?_, by omega, hcap2, hlv2,
        hgr2⟩
      rw [hcnt2, htc2]
      show v.count = _
      rw [hc1, hW]
      omega
    obtain ⟨h3, hs, inv3⟩ := finish h2 v2 _ lab2 inv2 (by rw [htc2]; decide) hcnt2
    refine ⟨h3, _, _, lab2, ?_, inv3, by show v2.count - 1 = _; rw [hcnt2], hle2⟩
    unfold vector_pop
    rw [if_neg hne]
    simp only [hcopy, Option.bind_eq_bind, Option.some_bind]
    rw [if_pos htc, hp]
    simp only [Option.some_bind]
    rw [hs]
    rfl
  · have inv1 : PopInv h1 { v with head := h.next } f B (fun a => if a = h.next then
        some (v.levels, 0) else if a = v.head then none else lab a) :=
      ⟨ok1, L1, htl1, ⟨tn, htm1, htn⟩, inv.count_eq, inv.tc_le, inv.cap, inv.levels_pos,
        inv.grown⟩
    obtain ⟨h3, hs, inv3⟩ := finish h1 _ _ _ inv1 (by show 0 < v.tail_count; omega) rfl
    refine ⟨h3, _, _, _, ?_, inv3, rfl, Nat.le_refl _⟩
    unfold vector_pop
    rw [if_neg hne]
    simp only [hcopy, Option.bind_eq_bind, Option.some_bind]
    rw [if_neg htc]
    have hs1 : store h1 v.tail (v.tail_count - 1) NULL = some h3 := hs
    rw [hs1]
    rfl

end PVector

namespace PVector

/-- `vector_get` on a vector built by pushes of `f 0, f 1, ...` and pops
returns the element pushed at the index. -/
theorem vector_get_pop {h : Heap} {v : Vector} {f : Nat → Nat} {B : Nat}
    {lab : Nat → Option (Nat × Nat)} (inv : PopInv h v f B lab) {i : Nat} (hi : i < v.count) :
    vector_get h v (i : Int) = some (f i) := by
  have hW := WIDTH_eq
  have hcnt := inv.count_eq
  have htc := inv.tc_le
  unfold vector_get
  have hr : ¬ ((i : Int) < 0 ∨ (i : Int) ≥ v.count) := by omega
  rw [if_neg hr]
  simp only [Int.toNat_ofNat]
  have hoff : v.count - v.tail_count = WIDTH * B := by omega
  rw [hoff]
  by_cases ht : i ≥ WIDTH * B
  · rw [if_pos ht]
    obtain ⟨tn, htm, htn⟩ := inv.tail_mem
    have hlt : i - WIDTH * B < v.tail_count := by omega
    rw [load_of_mem htm (by omega), htn _ hlt]
    congr 2
    omega
  · rw [if_neg ht]
    have hq : i / WIDTH < B := by
      rw [hW] at ht ⊢
      omega
    have hhead : lab v.head = some (v.levels, i / WIDTH / WIDTH ^ v.levels) := by
      rw [Nat.div_eq_of_lt (Nat.lt_of_lt_of_le hq inv.cap)]
      exact inv.labelled.head_lab
    obtain ⟨p, hd, hp⟩ := descend_push inv.labelled hq v.levels v.head hhead
    obtain ⟨nd, hm, hleaf, _⟩ := inv.labelled.node p _ _ hp
    simp only [hd, Option.bind_eq_bind, Option.some_bind, and_mask_eq_mod]
    rw [load_of_mem hm (Nat.mod_lt _ (by decide)), hleaf rfl _ (Nat.mod_lt _ (by decide)),
      Nat.div_add_mod]

/-- A run of `k` pops. -/
theorem run_pop (f : Nat → Nat) :
    ∀ (k : Nat) (h : Heap) (v : Vector) (B : Nat) (lab : Nat → Option (Nat × Nat)),
      PopInv h v f B lab → k ≤ v.count →
      ∃ h1 v1 B1 lab1, run (List.replicate k Op.pop) (h, v) = some (h1, v1) ∧
        PopInv h1 v1 f B1 lab1 ∧ v1.count = v.count - k ∧ v1.levels ≤ v.levels := by
  intro k
  induction k with
  | zero =>
    intro h v B lab inv _
    exact ⟨h, v, B, lab, rfl, inv, rfl, Nat.le_refl _⟩
  | succ k ih =>
    intro h v B lab inv hk
    obtain ⟨h1, v1, B1, lab1, hp, inv1, hc1, hl1⟩ := vector_pop_popInv inv (by omega)
    obtain ⟨h2, v2, B2, lab2, hr, inv2, hc2, hl2⟩ := ih h1 v1 B1 lab1 inv1 (by omega)
    refine ⟨h2, v2, B2, lab2, ?_, inv2, by omega, by omega⟩
    rw [List.replicate_succ, run]
    simp only [Op.apply, hp, Option.bind_eq_bind, Option.some_bind]
    exact hr

theorem run_append (p q : List Op) (s : Heap × Vector) :
    run (p ++ q) s = (run p s).bind (run q) := by
  induction p generalizing s with
  | nil => rfl
  | cons op p ih =>
    rw [List.cons_append, run, run]
    cases op.apply s with
    | none => rfl
    | some s1 => exact ih s1

/-- C21: for every list `xs` of `n` values and every `k ≤ n`, pushing the
elements of `xs` in order onto `vector_make()` and then calling `vector_pop`
`k` times returns a vector with `vector_count = n - k` in which
`vector_get(v, i)` is `xs[i]` for every `i < n - k`; for `k = n` the vector is
empty.  For `n ≤ 2^30` the trie has at most 5 levels, so that the shift counts
stay at or below 30. -/
theorem vector_push_pop_get (xs : List Nat) (k : Nat) (hk : k ≤ xs.length) :
    ∃ h v, run_fresh (xs.map Op.push ++ List.replicate k Op.pop) = some (h, v) ∧
      vector_count v = xs.length - k ∧
      (∀ (i : Nat) (x : Nat), i < xs.length - k → xs[i]? = some x →
        vector_get h v (i : Int) = some x) ∧
      (k = xs.length → vector_empty v = true) ∧
      (xs.length ≤ 2 ^ 30 → BITS * (v.levels + 1) ≤ 30) := by
  obtain ⟨lab, inv, hc0⟩ := vector_make_push (fun i => xs.getD i 0)
  obtain ⟨h1, v1, B1, lab1, hr, inv1, hc1, ht1⟩ := run_push (fun i => xs.getD i 0) xs.length
    _ _ _ _ inv
  rw [hc0] at hr hc1
  rw [Nat.zero_add] at hc1
  have hlev : xs.length ≤ 2 ^ 30 → v1.levels ≤ 5 := by
    intro hn
    rcases inv1.grown with e | e
    · omega
    · by_contra hgt
      have h6 : WIDTH ^ 6 ≤ WIDTH ^ v1.levels := Nat.pow_le_pow_right (by decide) (by omega)
      have hW6 : WIDTH ^ 6 = 2 ^ 30 := by decide
      have hcnt := inv1.count_eq
      have hW := WIDTH_eq
      rw [hW] at e hcnt
      rw [hW6] at h6
      rw [hW] at h6
      by_cases h0 : xs.length = 0
      · omega
      · have := ht1 (by omega)
        omega
  obtain ⟨h2, v2, B2, lab2, hr2, inv2, hc2, hl2⟩ := run_pop (fun i => xs.getD i 0) k h1 v1 B1
    lab1 (pushInv_popInv inv1) (by omega)
  refine ⟨h2, v2, ?_, by unfold vector_count; omega, fun i x hi hx => ?_, fun e => ?_,
    fun hn => ?_⟩
  · rw [run_fresh, run_append, map_push_eq, hr]
    exact hr2
  · have hg := vector_get_pop inv2 (show i < v2.count by omega)
    rw [hg]
    have hi1 : i < xs.length := by omega
    rw [List.getElem?_eq_getElem hi1] at hx
    simp only [List.getD_eq_getElem _ _ hi1]
    exact hx
  · have : v2.count = 0 := by omega
    simp [vector_empty, this]
  · have h5 := hlev hn
    unfold BITS
    omega

/-- C21 on the values `0 .. 1099` and 100 pops: the pops take block 33 and
then block 32 out of the trie, and with block 32 the root. -/
theorem vector_push_pop_get_witness :
    ∃ h v, run_fresh ((List.range 1100).map Op.push ++ List.replicate 100 Op.pop) =
        some (h, v) ∧
      vector_count v = (List.range 1100).length - 100 ∧
      (∀ (i : Nat) (x : Nat), i < (List.range 1100).length - 100 →
        (List.range 1100)[i]? = some x → vector_get h v (i : Int) = some x) ∧
      (100 = (List.range 1100).length → vector_empty v = true) ∧
      ((List.range 1100).length ≤ 2 ^ 30 → BITS * (v.levels + 1) ≤ 30) :=
  vector_push_pop_get (List.range 1100) 100 (by simp)

end PVector

namespace PHashmap

/-! ### The default hash -/

theorem hash_step_eq (h : Nat) (c : Int) :
    hash_step h c = (((h : Int) * 33 + c) % 2 ^ 32).toNat := by
  unfold hash_step HASH_BITS
  rw [Nat.shiftLeft_eq]
  congr 1
  push_cast
  omega

theorem hash_str_step (h : Nat) (c : Int) :
    (((((h <<< 5) + h : Nat) : Int) + c) % 2 ^ HASH_BITS).toNat = hash_step h c := by
  rw [hash_step_eq]
  unfold HASH_BITS
  rw [Nat.shiftLeft_eq]
  congr 1

/-- C27: `hash_str` is DJB2: the fold over the characters `c` of the string,
from `5381`, of `h := (h * 33 + c) mod 2^32`, where `c` is the `int` value of
the character; `hash_str` of the empty string is `5381`; the loop body
`((h << 5) + h) + c` in wrapping `unsigned int` arithmetic is `h * 33 + c`
modulo `2^32`; and `hashmap_make` without a hash function installs `hash_str`
on the string at the key. -/
theorem hash_str_djb2 :
    (∀ obj : List Int, hash_str obj =
      obj.foldl (fun h c => (((h : Int) * 33 + c) % 2 ^ 32).toNat) 5381) ∧
    hash_str [] = 5381 ∧
    (∀ (h : Nat) (c : Int), hash_step h c = (((h : Int) * 33 + c) % 2 ^ 32).toNat) ∧
    (∀ obj : List Int, hash_str obj = obj.foldl hash_step 5381) ∧
    (∀ (str : Nat → List Int) (eq_keys eq_vals : Option (Nat → Nat → Bool)) (key : Nat),
      (hashmap_make str none eq_keys eq_vals).hash key = hash_str (str key)) := by
  have hstep : (fun (hash : Nat) (c : Int) =>
      (((((hash <<< 5) + hash : Nat) : Int) + c) % 2 ^ HASH_BITS).toNat) = hash_step := by
    funext h c
    exact hash_str_step h c
  have hstep2 : hash_step = fun (h : Nat) (c : Int) => (((h : Int) * 33 + c) % 2 ^ 32).toNat := by
    funext h c
    exact hash_step_eq h c
  refine ⟨fun obj => ?_, rfl, hash_step_eq, fun obj => ?_, fun _ _ _ _ => rfl⟩
  · unfold hash_str
    rw [hstep, hstep2]
  · unfold hash_str
    rw [hstep]

end PHashmap

namespace PHashmap

/-! ### The visitors -/

theorem hash_collision_visit_eq {σ : Type} (fn : Nat → Nat → σ → σ) :
    ∀ (cells : List Cell) (acc : σ),
      hash_collision_visit fn cells acc = cells.foldl (fun a c => fn c.key c.val a) acc := by
  intro cells
  induction cells with
  | nil => intro acc; rfl
  | cons c rest ih =>
    intro acc
    rw [hash_collision_visit, List.foldl_cons]
    exact ih _

theorem children_visit_eq {σ : Type} (fn : Nat → Nat → σ → σ) :
    ∀ (cs : List Node),
      (∀ child ∈ cs, ∀ acc, node_visit fn child acc =
        some ((node_entries child).foldl (fun a c => fn c.key c.val a) acc)) →
      ∀ acc, children_visit fn cs cs.length acc =
        some ((children_entries cs).foldl (fun a c => fn c.key c.val a) acc) := by
  intro cs
  induction cs with
  | nil =>
    intro _ acc
    rw [List.length_nil, children_visit, children_entries, List.foldl_nil]
  | cons c rest ih =>
    intro h acc
    rw [List.length_cons, children_visit, h c (List.mem_cons_self c rest), children_entries,
      List.foldl_append]
    exact ih (fun child hc => h child (List.mem_cons_of_mem c hc)) _

/-- Every child of a well-formed bitmap-indexed node is well formed on some
path. -/
theorem wf_child_any {hashf : Nat → Nat} {eq_key : Nat → Nat → Bool} {level p bitmap : Nat}
    {cs : List Node} (h : WF hashf eq_key level p (.bitmap_indexed bitmap cs)) {i : Nat}
    {child : Node} (hi : cs[i]? = some child) : ∃ q, WF hashf eq_key (level + 1) q child := by
  cases h with
  | bitmap_indexed hl hb hlen hch =>
    have hilt : i < rank bitmap 32 := by
      rw [← popcount_eq_rank, ← hlen]
      exact (List.getElem?_eq_some_iff.mp hi).1
    obtain ⟨s, hs, hbit, hr⟩ := exists_slot_of_rank bitmap 32 i hilt
    obtain ⟨q, hq, hm⟩ := exists_path_hash p level hs
    rw [← hr] at hi
    exact ⟨q, hch s hs hbit child hi q hq hm⟩

/-- The visitor of a well-formed node calls `fn` on its entries in order. -/
theorem node_visit_eq {σ : Type} (fn : Nat → Nat → σ → σ) {hashf : Nat → Nat}
    {eq_key : Nat → Nat → Bool} {level p : Nat} {n : Node} (h : WF hashf eq_key level p n) :
    ∀ acc, node_visit fn n acc =
      some ((node_entries n).foldl (fun a c => fn c.key c.val a) acc) := by
  induction h with
  | leaf hh ha =>
    intro acc
    rfl
  | hash_collision hc hp =>
    intro acc
    rw [node_visit, hash_collision_visit_eq, node_entries]
  | bitmap_indexed hl hb hlen hch ih =>
    rename_i level p bitmap cs
    intro acc
    rw [node_visit, ← hlen, node_entries]
    refine children_visit_eq fn cs (fun child hc => ?_) acc
    obtain ⟨i, hi, hget⟩ := List.getElem_of_mem hc
    have hi1 : cs[i]? = some child := by
      rw [List.getElem?_eq_getElem hi, hget]
    have hilt : i < rank bitmap 32 := by
      rw [← popcount_eq_rank, ← hlen]
      exact hi
    obtain ⟨s, hs, hbit, hr⟩ := exists_slot_of_rank bitmap 32 i hilt
    obtain ⟨q, hq, hm⟩ := exists_path_hash p level hs
    rw [← hr] at hi1
    exact ih s hs hbit child hi1 q hq hm

/-! ### The entries of a well-formed node -/

theorem pairwise_children {R : Cell → Cell → Prop} :
    ∀ (cs : List Node),
      (∀ (i : Nat) (c : Node), cs[i]? = some c → (node_entries c).Pairwise R) →
      (∀ (i j : Nat) (ci cj : Node), i < j → cs[i]? = some ci → cs[j]? = some cj →
        ∀ a ∈ node_entries ci, ∀ b ∈ node_entries cj, R a b) →
      (children_entries cs).Pairwise R := by
  intro cs
  induction cs with
  | nil =>
    intro _ _
    rw [children_entries]
    exact List.Pairwise.nil
  | cons c rest ih =>
    intro h1 h2
    rw [children_entries, List.pairwise_append]
    refine ⟨h1 0 c List.getElem?_cons_zero, ih (fun i x hx => h1 (i + 1) x ?_)
      (fun i j ci cj hij hi hj => h2 (i + 1) (j + 1) ci cj (by omega) ?_ ?_), ?_⟩
    · rw [List.getElem?_cons_succ]
      exact hx
    · rw [List.getElem?_cons_succ]
      exact hi
    · rw [List.getElem?_cons_succ]
      exact hj
    · intro a ha b hb
      obtain ⟨j, cj, hj, hbj⟩ := mem_children_entries hb
      exact h2 0 (j + 1) c cj (Nat.succ_pos j) List.getElem?_cons_zero
        (by rw [List.getElem?_cons_succ]; exact hj) a ha b hbj

/-- The entries of two children of a node have different keys. -/
theorem wf_children_cross {hashf : Nat → Nat} {eq_key : Nat → Nat → Bool}
    (ops : KeyOps hashf eq_key) {level p bitmap : Nat} {cs : List Node}
    (h : WF hashf eq_key level p (.bitmap_indexed bitmap cs)) {i j : Nat} {ci cj : Node}
    (hij : i ≠ j) (hi : cs[i]? = some ci) (hj : cs[j]? = some cj) {a b : Cell}
    (ha : a ∈ node_entries ci) (hb : b ∈ node_entries cj) : eq_key a.key b.key = false := by
  obtain ⟨hh, _, hr⟩ := wf_child_slot h hj hb
  refine wf_off_path ops h b.key hi (fun _ => ?_) ha
  rw [← hh, hr]
  exact hij

/-- No two entries of a well-formed node have equal keys. -/
theorem wf_entries_pairwise {hashf : Nat → Nat} {eq_key : Nat → Nat → Bool}
    (ops : KeyOps hashf eq_key) {level p : Nat} {n : Node} (h : WF hashf eq_key level p n) :
    (node_entries n).Pairwise (fun a b => eq_key a.key b.key = false) := by
  induction h with
  | leaf hh ha =>
    rw [node_entries]
    exact List.pairwise_singleton _ _
  | hash_collision hc hp => exact hp
  | bitmap_indexed hl hb hlen hch ih =>
    rename_i level p bitmap cs
    have hwf : WF hashf eq_key level p (.bitmap_indexed bitmap cs) :=
      WF.bitmap_indexed hl hb hlen hch
    rw [node_entries]
    refine pairwise_children cs (fun i c hc => ?_)
      (fun i j ci cj hij hi hj a ha b hb => wf_children_cross ops hwf (Nat.ne_of_lt hij) hi hj ha hb)
    have hilt : i < rank bitmap 32 := by
      rw [← popcount_eq_rank, ← hlen]
      exact (List.getElem?_eq_some_iff.mp hc).1
    obtain ⟨s, hs, hbit, hr⟩ := exists_slot_of_rank bitmap 32 i hilt
    obtain ⟨q, hq, hm⟩ := exists_path_hash p level hs
    rw [← hr] at hc
    exact ih s hs hbit c hc q hq hm

theorem hash_collision_get_find (eq_key : Nat → Nat → Bool) (k : Nat) :
    ∀ cells : List Cell, hash_collision_get eq_key k cells = find_val eq_key k cells := by
  intro cells
  induction cells with
  | nil => rfl
  | cons c rest ih =>
    unfold hash_collision_get find_val
    rw [List.find?_cons]
    by_cases hc : eq_key c.key k = true
    · rw [if_pos hc]
      simp only [hc]
    · rw [if_neg hc, ih]
      simp only [hc]
      rfl

theorem find_val_append (eq_key : Nat → Nat → Bool) (k : Nat) (xs ys : List Cell) :
    find_val eq_key k (xs ++ ys) =
      if ∀ c ∈ xs, eq_key c.key k = false then find_val eq_key k ys
      else find_val eq_key k xs := by
  induction xs with
  | nil => simp
  | cons x rest ih =>
    by_cases hx : eq_key x.key k = true
    · have hn : ¬ ∀ c ∈ x :: rest, eq_key c.key k = false := by
        intro h
        rw [h x (List.mem_cons_self x rest)] at hx
        cases hx
      rw [if_neg hn]
      unfold find_val
      rw [List.cons_append, List.find?_cons, List.find?_cons]
      simp only [hx]
    · have hx0 : eq_key x.key k = false := by simpa using hx
      have e1 : find_val eq_key k (x :: rest ++ ys) = find_val eq_key k (rest ++ ys) := by
        unfold find_val
        rw [List.cons_append, List.find?_cons]
        simp only [hx0]
      have e2 : find_val eq_key k (x :: rest) = find_val eq_key k rest := by
        unfold find_val
        rw [List.find?_cons]
        simp only [hx0]
      rw [e1, e2, ih]
      by_cases hr : ∀ c ∈ rest, eq_key c.key k = false
      · rw [if_pos hr, if_pos]
        intro c hc
        rcases List.mem_cons.mp hc with e | e
        · rw [e]
          exact hx0
        · exact hr c e
      · rw [if_neg hr, if_neg]
        intro h
        exact hr (fun c hc => h c (List.mem_cons_of_mem x hc))

theorem find_val_none (eq_key : Nat → Nat → Bool) (k : Nat) (xs : List Cell)
    (h : ∀ c ∈ xs, eq_key c.key k = false) : find_val eq_key k xs = NULL := by
  unfold find_val
  rw [List.find?_eq_none.mpr (fun c hc => by rw [h c hc]; exact Bool.false_ne_true)]

/-- The lookup among the entries of a child array whose matching entries all
lie in child `r`. -/
theorem find_val_children (eq_key : Nat → Nat → Bool) (k : Nat) :
    ∀ (cs : List Node) (r : Nat),
      (∀ (i : Nat) (child : Node), cs[i]? = some child → i ≠ r →
        ∀ c ∈ node_entries child, eq_key c.key k = false) →
      find_val eq_key k (children_entries cs) =
        match cs[r]? with
        | some child => find_val eq_key k (node_entries child)
        | none => NULL := by
  intro cs
  induction cs with
  | nil =>
    intro r _
    rfl
  | cons x rest ih =>
    intro r h
    rw [children_entries, find_val_append]
    cases r with
    | zero =>
      rw [List.getElem?_cons_zero]
      have hrest : ∀ c ∈ children_entries rest, eq_key c.key k = false := by
        intro c hc
        obtain ⟨i, child, hi, hci⟩ := mem_children_entries hc
        exact h (i + 1) child (by rw [List.getElem?_cons_succ]; exact hi) (Nat.succ_ne_zero i) c hci
      by_cases hx : ∀ c ∈ node_entries x, eq_key c.key k = false
      · rw [if_pos hx, find_val_none eq_key k _ hrest]
        exact (find_val_none eq_key k _ hx).symm
      · rw [if_neg hx]
    | succ r =>
      rw [List.getElem?_cons_succ,
        if_pos (h 0 x List.getElem?_cons_zero (Nat.succ_ne_zero r).symm)]
      exact ih r (fun i child hi hne => h (i + 1) child
        (by rw [List.getElem?_cons_succ]; exact hi) (by omega))

/-- `get` on a well-formed node returns the value of the entry with the key. -/
theorem node_get_find {hashf : Nat → Nat} {eq_key : Nat → Nat → Bool}
    (ops : KeyOps hashf eq_key) {level p : Nat} {n : Node} (h : WF hashf eq_key level p n) :
    ∀ k, node_get eq_key k (hashf k % 2 ^ HASH_BITS) n level =
      some (find_val eq_key k (node_entries n)) := by
  induction h with
  | leaf hh ha =>
    rename_i level p k0 v0 h0
    intro k
    rw [node_get, leaf_get, node_entries]
    unfold find_val
    rw [List.find?_cons]
    by_cases hc : eq_key k0 k = true
    · simp only [hc, if_true]
    · simp only [hc, Bool.false_eq_true, if_false, List.find?_nil]
  | hash_collision hc hp =>
    intro k
    rw [node_get, hash_collision_get_find, node_entries]
  | bitmap_indexed hl hb hlen hch ih =>
    rename_i level p bitmap cs
    intro k
    have hwf : WF hashf eq_key level p (.bitmap_indexed bitmap cs) :=
      WF.bitmap_indexed hl hb hlen hch
    have hs := mask_lt (hashf k % 2 ^ HASH_BITS) level
    rw [node_get_bitmap, node_entries]
    by_cases hbit : bitmap.testBit (mask (hashf k % 2 ^ HASH_BITS) level) = true
    · rw [if_pos hbit]
      obtain ⟨c, hc⟩ := wf_child_exists hlen hs hbit
      obtain ⟨q, hq, hmq⟩ := exists_path_hash p level hs
      rw [find_val_children eq_key k cs (rank bitmap (mask (hashf k % 2 ^ HASH_BITS) level))
        (fun i child hi hne x hx => wf_off_path ops hwf k hi (fun _ => hne) hx), hc]
      exact ih _ hs hbit c hc q hq hmq k
    · rw [if_neg hbit]
      rw [find_val_none eq_key k _ (fun x hx => by
        obtain ⟨i, child, hi, hxi⟩ := mem_children_entries hx
        exact wf_off_path ops hwf k hi (fun e => absurd e hbit) hxi)]

end PHashmap

namespace PHashmap

theorem foldl_record (es : List Cell) :
    ∀ acc : List (Nat × Nat), es.foldl (fun s c => s ++ [(c.key, c.val)]) acc =
      acc ++ es.map (fun c => (c.key, c.val)) := by
  induction es with
  | nil => intro acc; simp
  | cons c rest ih =>
    intro acc
    rw [List.foldl_cons, ih, List.map_cons, List.append_assoc]
    rfl

/-- The visitor of a well-formed map calls `fn` on its entries in order. -/
theorem hashmap_visit_eq {σ : Type} {hashf : Nat → Nat} {eq_key eq_val : Nat → Nat → Bool}
    {map : Hashmap} (hm : MapWF hashf eq_key eq_val map) (fn : Nat → Nat → σ → σ) (acc : σ) :
    hashmap_visit map fn acc =
      some ((hashmap_entries map).foldl (fun a c => fn c.key c.val a) acc) := by
  unfold hashmap_visit hashmap_entries
  cases hr : map.root with
  | none => rfl
  | some root => exact node_visit_eq fn (hm.root_wf root hr) acc

/-- `hashmap_get` on a well-formed map returns the value of the entry with the
key. -/
theorem hashmap_get_find {hashf : Nat → Nat} {eq_key eq_val : Nat → Nat → Bool}
    (ops : KeyOps hashf eq_key) {map : Hashmap} (hm : MapWF hashf eq_key eq_val map) (k : Nat) :
    hashmap_get map k = some (find_val eq_key k (hashmap_entries map)) := by
  unfold hashmap_get hashmap_entries
  cases hr : map.root with
  | none => rfl
  | some root =>
    simp only [Hashmap.hash_of, hm.hash_eq, hm.eq_key_eq]
    exact node_get_find ops (hm.root_wf root hr) k

theorem hashmap_entries_pairwise {hashf : Nat → Nat} {eq_key eq_val : Nat → Nat → Bool}
    (ops : KeyOps hashf eq_key) {map : Hashmap} (hm : MapWF hashf eq_key eq_val map) :
    (hashmap_entries map).Pairwise (fun a b => eq_key a.key b.key = false) := by
  unfold hashmap_entries
  cases hr : map.root with
  | none => exact List.Pairwise.nil
  | some root => exact wf_entries_pairwise ops (hm.root_wf root hr)

theorem find_val_mem {hashf : Nat → Nat} {eq_key : Nat → Nat → Bool}
    (ops : KeyOps hashf eq_key) {es : List Cell}
    (hp : es.Pairwise (fun a b => eq_key a.key b.key = false)) {c : Cell} (hc : c ∈ es)
    {k : Nat} (hk : eq_key c.key k = true) : find_val eq_key k es = c.val := by
  rw [← hash_collision_get_find]
  exact get_of_mem ops k es hp c hc hk

theorem find_val_some {eq_key : Nat → Nat → Bool} {es : List Cell} {k : Nat}
    (h : find_val eq_key k es ≠ NULL) :
    ∃ c ∈ es, eq_key c.key k = true ∧ c.val = find_val eq_key k es := by
  unfold find_val at h ⊢
  cases hf : es.find? (fun c => eq_key c.key k) with
  | none =>
    rw [hf] at h
    exact absurd rfl h
  | some c =>
    exact ⟨c, List.mem_of_find?_eq_some hf, by simpa using List.find?_some hf, rfl⟩

/-- C24: for every reachable map (key equality an equivalence relation that the
hash respects) `hashmap_visit` calls `fn` on the entries of the map, one call
for each entry, in their order in the trie; the sequence of the pairs passed
to `fn` has length `hashmap_count`, no two of its keys are equal under the key
equality, `hashmap_get` of the key of each pair is its value, and every key
for which `hashmap_get` returns a value other than `NULL` is equal to the key
of a pair with that value. -/
theorem hashmap_visit_once {σ : Type} {hashf : Nat → Nat} {eq_key eq_val : Nat → Nat → Bool}
    (ops : KeyOps hashf eq_key) {map : Hashmap} (hr : Reach hashf eq_key eq_val map)
    (fn : Nat → Nat → σ → σ) (acc : σ) :
    hashmap_visit map fn acc =
      some ((hashmap_entries map).foldl (fun a c => fn c.key c.val a) acc) ∧
    hashmap_visit map (fun k v s => s ++ [(k, v)]) [] =
      some ((hashmap_entries map).map (fun c => (c.key, c.val))) ∧
    ((hashmap_entries map).length : Int) = hashmap_count map ∧
    (hashmap_entries map).Pairwise (fun a b => eq_key a.key b.key = false) ∧
    (∀ c ∈ hashmap_entries map, hashmap_get map c.key = some c.val) ∧
    ∀ k x, hashmap_get map k = some x → x ≠ NULL →
      ∃ c ∈ hashmap_entries map, eq_key c.key k = true ∧ c.val = x := by
  have hm := reach_wf ops hr
  have hp := hashmap_entries_pairwise ops hm
  refine ⟨hashmap_visit_eq hm fn acc, ?_, (reach_count ops hr).symm, hp, fun c hc => ?_,
    fun k x hg hx => ?_⟩
  · rw [hashmap_visit_eq hm, foldl_record, List.nil_append]
  · rw [hashmap_get_find ops hm, find_val_mem ops hp hc (ops.refl c.key)]
  · rw [hashmap_get_find ops hm] at hg
    have hx1 : find_val eq_key k (hashmap_entries map) ≠ NULL := by
      rw [Option.some.inj hg]
      exact hx
    obtain ⟨c, hc, hk, hv⟩ := find_val_some hx1
    exact ⟨c, hc, hk, by rw [hv, Option.some.inj hg]⟩

/-- C24 on the map built by `mod4_ops`, with a visitor that counts its calls. -/
theorem hashmap_visit_once_witness :
    KeyOps (fun k => k % 4) (fun a b => a == b) ∧
    ∃ map, run 15 mod4_ops mod4_map = some map ∧
      Reach (fun k => k % 4) (fun a b => a == b) (fun a b => a == b) map ∧
      hashmap_visit map (fun _ _ n => n + 1) 0 =
        some ((hashmap_entries map).foldl (fun a c => (fun _ _ n => n + 1) c.key c.val a) 0) ∧
      hashmap_visit map (fun k v s => s ++ [(k, v)]) [] =
        some ((hashmap_entries map).map (fun c => (c.key, c.val))) ∧
      ((hashmap_entries map).length : Int) = hashmap_count map ∧
      (hashmap_entries map).Pairwise (fun a b => (fun a b : Nat => a == b) a.key b.key = false) ∧
      (∀ c ∈ hashmap_entries map, hashmap_get map c.key = some c.val) ∧
      ∀ k x, hashmap_get map k = some x → x ≠ NULL →
        ∃ c ∈ hashmap_entries map, (fun a b : Nat => a == b) c.key k = true ∧ c.val = x := by
  have hc : returns (run 15 mod4_ops mod4_map) (fun _ => true) = true := by decide!
  obtain ⟨map, hm, _⟩ := exists_of_returns hc
  exact ⟨mod4_keyOps, map, hm, mod4_reach hm,
    hashmap_visit_once mod4_keyOps (mod4_reach hm) (fun _ _ n => n + 1) 0⟩

end PHashmap

namespace PList

/-! ### Chains of pairs -/

theorem isList_first {h : Heap} {p : Nat} {cs : List (Nat × Nat)} (hl : IsList h p cs) :
    p = first cs := by
  cases cs with
  | nil => exact hl
  | cons c rest => obtain ⟨a, d⟩ := c; exact hl.1

theorem isList_null {h : Heap} {cs : List (Nat × Nat)} (hl : IsList h NULL cs) : cs = [] := by
  cases cs with
  | nil => rfl
  | cons c rest => obtain ⟨a, d⟩ := c; exact absurd hl.1.symm hl.2.1

theorem first_eq_null {h : Heap} {p : Nat} {cs : List (Nat × Nat)} (hl : IsList h p cs) :
    p = NULL ↔ cs = [] := by
  constructor
  · intro e; subst e; exact isList_null hl
  · intro e; subst e; exact hl

theorem isList_frame {h h1 : Heap} : ∀ {cs : List (Nat × Nat)} {p : Nat}, IsList h p cs →
    (∀ a, a ∈ cs.map Prod.fst → h1.mem a = h.mem a) → IsList h1 p cs
  | [], _, hl, _ => hl
  | (a, d) :: rest, _, hl, hfr => by
    refine ⟨hl.1, hl.2.1, ?_, ?_⟩
    · rw [hfr a (by simp)]; exact hl.2.2.1
    · exact isList_frame hl.2.2.2 (fun b hb => hfr b (by simp [List.mem_map] at hb ⊢; exact Or.inr hb))

theorem isList_unique {h : Heap} : ∀ {cs cs1 : List (Nat × Nat)} {p : Nat}, IsList h p cs →
    IsList h p cs1 → cs = cs1
  | [], [], _, _, _ => rfl
  | [], (a, d) :: rest, _, hl, hl1 => by
    have e : _ = NULL := hl
    exact absurd (hl1.1.symm.trans e) hl1.2.1
  | (a, d) :: rest, [], _, hl, hl1 => by
    have e : _ = NULL := hl1
    exact absurd (hl.1.symm.trans e) hl.2.1
  | (a, d) :: rest, (a1, d1) :: rest1, p, hl, hl1 => by
    have ea : a = a1 := hl.1.symm.trans hl1.1
    subst ea
    have e := hl.2.2.1.symm.trans hl1.2.2.1
    simp only [Option.some.injEq, Pair.mk.injEq] at e
    obtain ⟨ed, en⟩ := e
    subst ed
    have hr1 := hl1.2.2.2
    rw [← en] at hr1
    rw [isList_unique hl.2.2.2 hr1]

theorem isList_suffix {h : Heap} : ∀ {l1 l2 : List (Nat × Nat)} {p : Nat},
    IsList h p (l1 ++ l2) → IsList h (first l2) l2
  | [], l2, p, hl => by
    have e := isList_first hl
    simp only [List.nil_append] at hl e
    rw [← e]; exact hl
  | (a, d) :: l1, l2, p, hl => by
    have hl1 : IsList h (first (l1 ++ l2)) (l1 ++ l2) := hl.2.2.2
    exact isList_suffix hl1

theorem isList_mem {h : Heap} : ∀ {cs : List (Nat × Nat)} {p : Nat}, IsList h p cs →
    ∀ a, a ∈ cs.map Prod.fst → a ≠ NULL ∧ ∃ pr, h.mem a = some pr
  | [], _, _, a, ha => by simp at ha
  | (b, d) :: rest, _, hl, a, ha => by
    simp only [List.map_cons, List.mem_cons] at ha
    rcases ha with e | ha
    · subst e; exact ⟨hl.2.1, _, hl.2.2.1⟩
    · exact isList_mem hl.2.2.2 a ha

theorem isList_nodup {h : Heap} : ∀ {cs : List (Nat × Nat)} {p : Nat}, IsList h p cs →
    (cs.map Prod.fst).Nodup
  | [], _, _ => List.nodup_nil
  | (a, d) :: rest, p, hl => by
    simp only [List.map_cons, List.nodup_cons]
    refine ⟨?_, isList_nodup hl.2.2.2⟩
    intro ha
    obtain ⟨c, hc, hca⟩ := List.mem_map.1 ha
    obtain ⟨l1, l2, e⟩ := List.append_of_mem hc
    obtain ⟨a1, d1⟩ := c
    simp only at hca
    subst hca
    have hs : IsList h (first ((a1, d1) :: l2)) ((a1, d1) :: l2) := by
      have hr := hl.2.2.2
      rw [e] at hr
      exact isList_suffix hr
    have hl0 : IsList h a1 ((a1, d) :: rest) := ⟨rfl, hl.2.1, hl.2.2.1, hl.2.2.2⟩
    have eq := isList_unique hs hl0
    simp only [List.cons.injEq, Prod.mk.injEq, true_and] at eq
    have hlen := congrArg List.length e
    rw [← eq.2] at hlen
    simp at hlen
    omega

/-- Two heaps that hold the same chain agree on its pairs. -/
theorem isList_mem_eq {h h1 : Heap} : ∀ {cs : List (Nat × Nat)} {p p1 : Nat}, IsList h p cs →
    IsList h1 p1 cs → ∀ a, a ∈ cs.map Prod.fst → h1.mem a = h.mem a
  | [], _, _, _, _, a, ha => by simp at ha
  | (b, d) :: rest, _, _, hl, hl1, a, ha => by
    by_cases e : a = b
    · subst e; rw [hl.2.2.1, hl1.2.2.1]
    · simp only [List.map_cons, List.mem_cons] at ha
      rcases ha with e1 | ha
      · exact absurd e1 e
      · exact isList_mem_eq hl.2.2.2 hl1.2.2.2 a ha

theorem isList_lt_next {h : Heap} (ok : HeapOK h) {cs : List (Nat × Nat)} {p : Nat}
    (hl : IsList h p cs) (a : Nat) (ha : a ∈ cs.map Prod.fst) : a < h.next := by
  obtain ⟨_, pr, hpr⟩ := isList_mem hl a ha
  by_contra hn
  rw [ok.2.2 a (by omega)] at hpr
  cases hpr

/-! ### `list_count`, `list_nth`, `list_find` -/

theorem count_loop_spec : ∀ (rest : List (Nat × Nat)) (fuel : Nat) (h : Heap) (a d : Nat)
    (ctr : Int), IsList h a ((a, d) :: rest) → rest.length < fuel →
    count_loop fuel h a ctr = some (ctr + rest.length)
  | [], fuel, h, a, d, ctr, hl, hf => by
    obtain ⟨f, rfl⟩ : ∃ f, fuel = f + 1 := ⟨fuel - 1, by omega⟩
    simp [count_loop, hl.2.2.1, first]
  | (b, e) :: rest, fuel, h, a, d, ctr, hl, hf => by
    obtain ⟨f, rfl⟩ : ∃ f, fuel = f + 1 := ⟨fuel - 1, by simp at hf; omega⟩
    have hb : b ≠ NULL := hl.2.2.2.2.1
    have hl1 : IsList h b ((b, e) :: rest) := hl.2.2.2
    simp only [count_loop, hl.2.2.1, first, ne_eq, hb, not_false_eq_true, if_true]
    rw [count_loop_spec rest f h b e (ctr + 1) hl1 (by simp at hf; omega)]
    simp only [List.length_cons, Nat.cast_add, Nat.cast_one]
    congr 1; omega

theorem list_count_spec {h : Heap} {l : Nat} {cs : List (Nat × Nat)} (hl : IsList h l cs)
    {fuel : Nat} (hf : cs.length ≤ fuel) : list_count fuel h l = some (cs.length : Int) := by
  cases cs with
  | nil =>
    have e : l = NULL := hl
    simp [list_count, e]
  | cons c rest =>
    obtain ⟨a, d⟩ := c
    have e : l = a := hl.1
    subst e
    have := count_loop_spec rest fuel h l d 1 hl (by simp at hf; omega)
    simp only [list_count, hl.2.1, if_false, this, List.length_cons, Nat.cast_add, Nat.cast_one]
    congr 1; omega

theorem nth_loop_spec (n : Int) : ∀ (cs : List (Nat × Nat)) (fuel : Nat) (h : Heap) (p : Nat)
    (idx : Int), IsList h p cs → cs.length < fuel → idx ≤ n →
    nth_loop n fuel h p idx = some ((cs.map Prod.snd).getD (n - idx).toNat NULL)
  | [], fuel, h, p, idx, hl, hf, hi => by
    obtain ⟨f, rfl⟩ : ∃ f, fuel = f + 1 := ⟨fuel - 1, by omega⟩
    have e : p = NULL := hl
    simp [nth_loop, e]
  | (a, d) :: rest, fuel, h, p, idx, hl, hf, hi => by
    obtain ⟨f, rfl⟩ : ∃ f, fuel = f + 1 := ⟨fuel - 1, by simp at hf; omega⟩
    have e : p = a := hl.1
    subst e
    simp only [nth_loop, ne_eq, hl.2.1, not_false_eq_true, if_true, hl.2.2.1]
    by_cases hn : n = idx
    · subst hn; simp
    · simp only [hn, if_false]
      rw [nth_loop_spec n rest f h (first rest) (idx + 1) hl.2.2.2 (by simp at hf; omega)
        (by omega)]
      have e1 : (n - idx).toNat = (n - (idx + 1)).toNat + 1 := by omega
      rw [e1]
      simp

theorem nth_loop_neg (n : Int) : ∀ (cs : List (Nat × Nat)) (fuel : Nat) (h : Heap) (p : Nat)
    (idx : Int), IsList h p cs → cs.length < fuel → n < idx →
    nth_loop n fuel h p idx = some NULL
  | [], fuel, h, p, idx, hl, hf, hi => by
    obtain ⟨f, rfl⟩ : ∃ f, fuel = f + 1 := ⟨fuel - 1, by omega⟩
    have e : p = NULL := hl
    simp [nth_loop, e]
  | (a, d) :: rest, fuel, h, p, idx, hl, hf, hi => by
    obtain ⟨f, rfl⟩ : ∃ f, fuel = f + 1 := ⟨fuel - 1, by simp at hf; omega⟩
    have e : p = a := hl.1
    subst e
    have hn : n ≠ idx := by omega
    simp only [nth_loop, ne_eq, hl.2.1, not_false_eq_true, if_true, hl.2.2.1, hn, if_false]
    exact nth_loop_neg n rest f h (first rest) (idx + 1) hl.2.2.2 (by simp at hf; omega)
      (by omega)

theorem list_nth_spec {h : Heap} {l : Nat} {cs : List (Nat × Nat)} (hl : IsList h l cs)
    {fuel : Nat} (hf : cs.length < fuel) (n : Int) :
    list_nth fuel h l n =
      some (if 0 ≤ n then (cs.map Prod.snd).getD n.toNat NULL else NULL) := by
  by_cases e : l = NULL
  · have hc := (first_eq_null hl).1 e
    subst hc
    simp [list_nth, e]
  · simp only [list_nth, e, if_false]
    by_cases h0 : 0 ≤ n
    · rw [nth_loop_spec n cs fuel h l 0 hl hf h0]
      simp [h0]
    · rw [nth_loop_neg n cs fuel h l 0 hl hf (by omega)]
      simp [h0]

theorem find_loop_spec (val : Nat) (fn : Nat → Nat → Bool) : ∀ (cs : List (Nat × Nat))
    (fuel : Nat) (h : Heap) (p : Nat) (ctr : Int), IsList h p cs → cs.length < fuel →
    find_loop val fn fuel h p ctr =
      some (if (cs.map Prod.snd).findIdx (fn val) < cs.length
        then ctr + ((cs.map Prod.snd).findIdx (fn val) : Nat) else -1)
  | [], fuel, h, p, ctr, hl, hf => by
    obtain ⟨f, rfl⟩ : ∃ f, fuel = f + 1 := ⟨fuel - 1, by omega⟩
    have e : p = NULL := hl
    simp [find_loop, e]
  | (a, d) :: rest, fuel, h, p, ctr, hl, hf => by
    obtain ⟨f, rfl⟩ : ∃ f, fuel = f + 1 := ⟨fuel - 1, by simp at hf; omega⟩
    have e : p = a := hl.1
    subst e
    simp only [find_loop, ne_eq, hl.2.1, not_false_eq_true, if_true, hl.2.2.1]
    by_cases hfn : fn val d = true
    · simp [hfn, List.findIdx_cons]
    · simp only [hfn, if_false]
      rw [find_loop_spec val fn rest f h (first rest) (ctr + 1) hl.2.2.2 (by simp at hf; omega)]
      simp only [Bool.not_eq_true] at hfn
      simp only [List.map_cons, List.findIdx_cons, hfn, cond_false, List.length_cons,
        Nat.add_lt_add_iff_right]
      by_cases hlt : List.findIdx (fn val) (List.map Prod.snd rest) < rest.length
      · simp only [hlt, if_true, Nat.cast_add, Nat.cast_one, Bool.false_eq_true, if_false,
          Option.some.injEq]
        omega
      · simp [hlt]

end PList

namespace PList

theorem sample_list_isList : IsList sample_list.1 sample_list.2 [(3, 9), (2, 8), (1, 7)] :=
  ⟨rfl, by decide, rfl, rfl, by decide, rfl, rfl, by decide, rfl, rfl⟩

theorem sample_list_ok : HeapOK sample_list.1 := by
  refine ⟨rfl, by decide, fun a ha => ?_⟩
  have e : sample_list.1.next = 4 := rfl
  rw [e] at ha
  have h1 : a ≠ 3 := by omega
  have h2 : a ≠ 2 := by omega
  have h3 : a ≠ 1 := by omega
  simp [sample_list, list_make, list_cons, Heap.empty, h1, h2, h3]

/-- C30: for a list `l` whose pairs hold the data `ds` (in order) `list_find`
returns the position of the first element `d` with `fn(val, d)` true, counting
from 0: the result is -1 exactly when `l` is empty, `val` is `NULL` or `fn`
is false on every element, and otherwise it is a position `i` of `l` at which
`fn` holds and before which it does not.  `list_count` is the length of `l`,
`list_nth(l, n)` is the element at position `n` when `0 <= n < list_count(l)`,
and `NULL` for any other `n`. -/
theorem list_find_nth (fuel : Nat) (h : Heap) (l : Nat) (cs : List (Nat × Nat)) (val : Nat)
    (fn : Nat → Nat → Bool) (hl : IsList h l cs) (hf : cs.length < fuel) :
    (∃ r, list_find fuel h l val fn = some r ∧
      (r = -1 ↔ (list_empty l = true ∨ val = NULL ∨ ∀ d ∈ cs.map Prod.snd, fn val d = false)) ∧
      (r ≠ -1 → ∃ (i : Nat) (d : Nat), r = (i : Int) ∧ (cs.map Prod.snd)[i]? = some d ∧ fn val d = true ∧
        ∀ (j : Nat) (e : Nat), j < i → (cs.map Prod.snd)[j]? = some e → fn val e = false)) ∧
    list_count fuel h l = some (cs.length : Int) ∧
    (∀ (n : Nat) (d : Nat), (cs.map Prod.snd)[n]? = some d → list_nth fuel h l (n : Int) = some d) ∧
    (∀ n : Int, n < 0 ∨ (cs.length : Int) ≤ n → list_nth fuel h l n = some NULL) := by
  refine ⟨?_, list_count_spec hl (by omega), fun n d hn => ?_, fun n hn => ?_⟩
  · by_cases hc : l = NULL ∨ val = NULL
    · refine ⟨-1, by simp [list_find, hc], ?_, fun hne => absurd rfl hne⟩
      constructor
      · intro _
        rcases hc with hc | hc
        · exact Or.inl (by simp [list_empty, hc])
        · exact Or.inr (Or.inl hc)
      · intro _; rfl
    · have hl0 : list_empty l = false := by
        simp only [list_empty, beq_eq_false_iff_ne, ne_eq]; exact fun e => hc (Or.inl e)
      have hv : val ≠ NULL := fun e => hc (Or.inr e)
      have hlen : (cs.map Prod.snd).length = cs.length := List.length_map _ _
      by_cases hlt : (cs.map Prod.snd).findIdx (fn val) < cs.length
      · refine ⟨((cs.map Prod.snd).findIdx (fn val) : Nat), ?_, ?_, fun _ => ?_⟩
        · simp only [list_find, hc, if_false]
          rw [find_loop_spec val fn cs fuel h l 0 hl hf]
          simp [hlt]
        · constructor
          · intro e; omega
          · intro e
            rcases e with e | e | e
            · rw [hl0] at e; cases e
            · exact absurd e hv
            · have := List.findIdx_eq_length.2 e
              omega
        · have hlt1 : (cs.map Prod.snd).findIdx (fn val) < (cs.map Prod.snd).length := by omega
          refine ⟨_, (cs.map Prod.snd)[(cs.map Prod.snd).findIdx (fn val)], rfl,
            List.getElem?_eq_getElem hlt1, List.findIdx_getElem, fun j e hj he => ?_⟩
          have hj1 : j < (cs.map Prod.snd).length := by omega
          rw [List.getElem?_eq_getElem hj1] at he
          have := List.not_of_lt_findIdx hj
          rw [Option.some.inj he] at this
          exact this
      · refine ⟨-1, ?_, ?_, fun hne => absurd rfl hne⟩
        · simp only [list_find, hc, if_false]
          rw [find_loop_spec val fn cs fuel h l 0 hl hf]
          simp [hlt]
        · constructor
          · intro _
            refine Or.inr (Or.inr (List.findIdx_eq_length.1 ?_))
            have := @List.findIdx_le_length _ (fn val) (cs.map Prod.snd)
            omega
          · intro _; rfl
  · rw [list_nth_spec hl hf]
    have hn1 := (List.getElem?_eq_some_iff.1 hn).1
    simp only [Int.toNat_ofNat, Nat.cast_nonneg, if_true, List.getD_eq_getElem?_getD, hn,
      Option.getD_some]
  · rw [list_nth_spec hl hf]
    by_cases h0 : 0 ≤ n
    · have hge : cs.length ≤ n.toNat := by omega
      simp only [h0, if_true, List.getD_eq_getElem?_getD]
      rw [List.getElem?_eq_none (by simpa using hge)]
      rfl
    · simp [h0]

/-- C30 on the list `(9 8 7)`: the position of 8 is 1, 5 is not found, and
position 1 holds 8. -/
theorem list_find_nth_witness :
    list_find 4 sample_list.1 sample_list.2 8 (fun a b => a == b) = some 1 ∧
    list_find 4 sample_list.1 sample_list.2 5 (fun a b => a == b) = some (-1) ∧
    list_count 4 sample_list.1 sample_list.2 = some 3 ∧
    list_nth 4 sample_list.1 sample_list.2 1 = some 8 ∧
    list_nth 4 sample_list.1 sample_list.2 3 = some NULL := by
  have h8 := list_find_nth 4 sample_list.1 sample_list.2 [(3, 9), (2, 8), (1, 7)] 8
    (fun a b => a == b) sample_list_isList (by decide)
  exact ⟨by decide, by decide, h8.2.1, h8.2.2.1 1 8 rfl, h8.2.2.2 3 (Or.inr (by decide))⟩

end PList

namespace PList

/-! ### `list_reverse` -/

theorem first_append_cons (l : List (Nat × Nat)) (c : Nat × Nat) (r : List (Nat × Nat)) :
    first (l.reverse ++ c :: r) = first ((c :: l).reverse ++ r) := by
  rw [List.reverse_cons, List.append_assoc]; rfl

theorem reverse_loop_spec : ∀ (rest : List (Nat × Nat)) (fuel : Nat) (h : Heap)
    (prev cur : Nat) (done : List (Nat × Nat)), IsList h prev done → IsList h cur rest →
    (∀ a, a ∈ rest.map Prod.fst → a ∉ done.map Prod.fst) → rest.length < fuel →
    ∃ h1, reverse_loop fuel h prev cur = some (h1, first (rest.reverse ++ done)) ∧
      IsList h1 (first (rest.reverse ++ done)) (rest.reverse ++ done) ∧ h1.next = h.next ∧
      ∀ a, a ∉ rest.map Prod.fst → h1.mem a = h.mem a
  | [], fuel, h, prev, cur, done, hd, hr, _, hf => by
    obtain ⟨f, rfl⟩ : ∃ f, fuel = f + 1 := ⟨fuel - 1, by omega⟩
    have e : cur = NULL := hr
    have ep := isList_first hd
    subst ep
    exact ⟨h, by simp [reverse_loop, e], hd, rfl, fun _ _ => rfl⟩
  | (a, d) :: rest, fuel, h, prev, cur, done, hd, hr, hdis, hf => by
    obtain ⟨f, rfl⟩ : ∃ f, fuel = f + 1 := ⟨fuel - 1, by simp at hf; omega⟩
    have e : cur = a := hr.1
    subst e
    have ep := isList_first hd
    have hnd := isList_nodup hr
    simp only [List.map_cons, List.nodup_cons] at hnd
    have hmem : ∀ b, (Heap.mk (fun x => if x = cur then some { data := d, next := prev }
        else h.mem x) h.next).mem b = if b = cur then some { data := d, next := prev }
        else h.mem b := fun _ => rfl
    have hd1 : IsList (Heap.mk (fun x => if x = cur then some { data := d, next := prev }
        else h.mem x) h.next) cur ((cur, d) :: done) := by
      refine ⟨rfl, hr.2.1, ?_, ?_⟩
      · rw [hmem, if_pos rfl, ep]
      · rw [← ep]
        refine isList_frame hd (fun b hb => ?_)
        rw [hmem, if_neg]
        intro eb; subst eb
        exact hdis b (by simp) hb
    have hr1 : IsList (Heap.mk (fun x => if x = cur then some { data := d, next := prev }
        else h.mem x) h.next) (first rest) rest := by
      refine isList_frame hr.2.2.2 (fun b hb => ?_)
      rw [hmem, if_neg]
      intro eb; subst eb
      exact hnd.1 hb
    have hdis1 : ∀ b, b ∈ rest.map Prod.fst → b ∉ ((cur, d) :: done).map Prod.fst := by
      intro b hb hb1
      simp only [List.map_cons, List.mem_cons] at hb1
      rcases hb1 with e1 | hb1
      · subst e1; exact hnd.1 hb
      · exact hdis b (by simp only [List.map_cons, List.mem_cons]; exact Or.inr hb) hb1
    obtain ⟨h1, e1, hl1, hn1, hfr1⟩ := reverse_loop_spec rest f _ cur (first rest)
      ((cur, d) :: done) hd1 hr1 hdis1 (by simp at hf; omega)
    refine ⟨h1, ?_, ?_, hn1, fun b hb => ?_⟩
    · simp only [reverse_loop, ne_eq, hr.2.1, not_false_eq_true, if_true, hr.2.2.1, set_next]
      rw [e1, first_append_cons]
    · rw [← first_append_cons, List.reverse_cons, List.append_assoc]
      exact hl1
    · simp only [List.map_cons, List.mem_cons, not_or] at hb
      rw [hfr1 b hb.2, hmem, if_neg hb.1]

theorem list_reverse_spec {h : Heap} {l : Nat} {cs : List (Nat × Nat)} (hl : IsList h l cs)
    {fuel : Nat} (hf : cs.length < fuel) :
    ∃ h1, list_reverse fuel h l = some (h1, first cs.reverse) ∧
      IsList h1 (first cs.reverse) cs.reverse ∧ h1.next = h.next ∧
      (∀ a, a ∉ cs.map Prod.fst → h1.mem a = h.mem a) ∧ (cs.length ≤ 1 → h1 = h) := by
  match cs, hl, hf with
  | [], hl, _ =>
    have e : l = NULL := hl
    exact ⟨h, by simp [list_reverse, e, first], rfl, rfl, fun _ _ => rfl, fun _ => rfl⟩
  | [(a, d)], hl, _ =>
    have e : l = a := hl.1
    subst e
    refine ⟨h, ?_, hl, rfl, fun _ _ => rfl, fun _ => rfl⟩
    simp [list_reverse, hl.2.1, hl.2.2.1, first]
  | (a, d) :: (b, e) :: rest, hl, hf =>
    have e1 : l = a := hl.1
    subst e1
    have hb : b ≠ NULL := hl.2.2.2.2.1
    obtain ⟨h1, e1, hl1, hn1, hfr1⟩ := reverse_loop_spec ((l, d) :: (b, e) :: rest) fuel h NULL l
      [] rfl hl (fun _ _ hx => by simp at hx) hf
    rw [List.append_nil] at e1 hl1
    refine ⟨h1, ?_, hl1, hn1, hfr1, fun hlen => by simp at hlen⟩
    simp only [list_reverse, hl.2.1, if_false, hl.2.2.1, first, ne_eq, hb, not_false_eq_true,
      if_true]
    exact e1

theorem heap_ext {h h1 : Heap} (hn : h1.next = h.next) (hm : ∀ a, h1.mem a = h.mem a) :
    h1 = h := by
  cases h; cases h1
  simp only at hn hm
  subst hn
  congr
  exact funext hm

theorem list_reverse_ok {h : Heap} (ok : HeapOK h) {l : Nat} {cs : List (Nat × Nat)}
    (hl : IsList h l cs) {h1 : Heap} (hn : h1.next = h.next)
    (hfr : ∀ a, a ∉ cs.map Prod.fst → h1.mem a = h.mem a) : HeapOK h1 := by
  refine ⟨?_, hn ▸ ok.2.1, fun a ha => ?_⟩
  · rw [hfr NULL (fun hx => (isList_mem hl NULL hx).1 rfl)]; exact ok.1
  · rw [hn] at ha
    rw [hfr a (fun hx => by have := isList_lt_next ok hl a hx; omega)]
    exact ok.2.2 a ha

/-- C28: for a list `l` of `n` pairs `list_reverse` returns a list of the same
pairs in the opposite order, so `list_nth` of the result at `n - 1 - i` is the
element `l` held at `i`; the reverse of the empty list is the empty list; a
list of one element is returned as it is, with nothing written; and reversing
the result again returns the head `l` and puts every pair back as it was. -/
theorem list_reverse_involution (fuel : Nat) (h : Heap) (l : Nat) (cs : List (Nat × Nat))
    (hl : IsList h l cs) (hf : cs.length < fuel) :
    ∃ h1 r, list_reverse fuel h l = some (h1, r) ∧ IsList h1 r cs.reverse ∧
      (∀ (i : Nat) (d : Nat), (cs.map Prod.snd)[i]? = some d →
        list_nth fuel h l (i : Int) = some d ∧
        list_nth fuel h1 r ((cs.length : Int) - 1 - (i : Int)) = some d) ∧
      (list_empty l = true → list_empty r = true ∧ h1 = h) ∧
      (cs.length = 1 → r = l ∧ h1 = h) ∧
      list_count fuel h1 r = list_count fuel h l ∧
      list_reverse fuel h1 r = some (h, l) := by
  obtain ⟨h1, e1, hl1, hn1, hfr1, hs1⟩ := list_reverse_spec hl hf
  have hf1 : cs.reverse.length < fuel := by rw [List.length_reverse]; exact hf
  obtain ⟨h2, e2, hl2, hn2, hfr2, _⟩ := list_reverse_spec hl1 hf1
  rw [List.reverse_reverse] at e2 hl2
  have hfirst := isList_first hl
  refine ⟨h1, first cs.reverse, e1, hl1, fun i d hi => ?_, fun he => ?_, fun hlen => ?_, ?_, ?_⟩
  · have hlt : i < (cs.map Prod.snd).length := (List.getElem?_eq_some_iff.1 hi).1
    rw [List.length_map] at hlt
    constructor
    · rw [list_nth_spec hl hf]
      simp [List.getD_eq_getElem?_getD, hi]
    · rw [list_nth_spec hl1 hf1]
      have h0 : (0 : Int) ≤ (cs.length : Int) - 1 - (i : Int) := by omega
      have e : ((cs.length : Int) - 1 - (i : Int)).toNat = cs.length - 1 - i := by omega
      simp only [h0, if_true, e, List.map_reverse, List.getD_eq_getElem?_getD]
      rw [List.getElem?_reverse (by rw [List.length_map]; omega), List.length_map]
      have e3 : cs.length - 1 - (cs.length - 1 - i) = i := by omega
      rw [e3, hi]; rfl
  · have e : l = NULL := by simpa [list_empty] using he
    have hc := (first_eq_null hl).1 e
    subst hc
    exact ⟨rfl, hs1 (by simp)⟩
  · have hr : first cs.reverse = l := by
      match cs, hlen, hfirst with
      | [c], _, hfirst => exact hfirst.symm
    exact ⟨hr, hs1 (by omega)⟩
  · rw [list_count_spec hl1 (by omega), list_count_spec hl (by omega), List.length_reverse]
  · rw [e2, ← hfirst]
    congr 2
    refine heap_ext (hn2.trans hn1) (fun a => ?_)
    by_cases ha : a ∈ cs.map Prod.fst
    · exact isList_mem_eq hl (hfirst ▸ hl2) a ha
    · rw [hfr2 a (by simpa using ha), hfr1 a ha]

/-- C28 on the list `(9 8 7)`: reversed it is `(7 8 9)` with head the pair that
was last, and reversed again it is the list before. -/
theorem list_reverse_involution_witness :
    ∃ h1 r, list_reverse 4 sample_list.1 sample_list.2 = some (h1, r) ∧ r = 1 ∧
      list_nth 4 h1 r 0 = some 7 ∧ list_nth 4 h1 r 1 = some 8 ∧ list_nth 4 h1 r 2 = some 9 ∧
      list_reverse 4 h1 r = some (sample_list.1, sample_list.2) := by
  obtain ⟨h1, r, e, hl, hn, _, _, _, hr⟩ := list_reverse_involution 4 sample_list.1 sample_list.2
    [(3, 9), (2, 8), (1, 7)] sample_list_isList (by decide)
  have er : r = 1 := isList_first hl
  exact ⟨h1, r, e, er, (hn 2 7 rfl).2, (hn 1 8 rfl).2, (hn 0 9 rfl).2, hr⟩

end PList

namespace PList

/-! ### `list_copy` and `list_concatenate` -/

theorem list_cons_ok {h : Heap} (ok : HeapOK h) (lst val : Nat) :
    HeapOK (list_cons h lst val).1 := by
  refine ⟨?_, Nat.succ_pos _, fun a ha => ?_⟩
  · have hne : NULL ≠ h.next := by have := ok.2.1; unfold NULL; omega
    simp only [list_cons, if_neg hne]
    exact ok.1
  · have ha1 : h.next + 1 ≤ a := ha
    have hne : a ≠ h.next := by omega
    simp only [list_cons, if_neg hne]
    exact ok.2.2 a (by omega)

theorem list_cons_old {h : Heap} (lst val a : Nat) (ha : a < h.next) :
    (list_cons h lst val).1.mem a = h.mem a := by
  have hne : a ≠ h.next := by omega
  simp only [list_cons, if_neg hne]

theorem list_cons_isList {h : Heap} (ok : HeapOK h) {lst : Nat} {cs : List (Nat × Nat)}
    (hl : IsList h lst cs) (val : Nat) :
    IsList (list_cons h lst val).1 (list_cons h lst val).2 ((h.next, val) :: cs) := by
  refine ⟨rfl, ?_, ?_, ?_⟩
  · have := ok.2.1; unfold NULL; omega
  · simp only [list_cons, if_pos]
    rw [isList_first hl]
  · rw [← isList_first hl]
    exact isList_frame hl (fun a ha => list_cons_old lst val a (isList_lt_next ok hl a ha))

theorem push_loop_spec : ∀ (cs : List (Nat × Nat)) (fuel : Nat) (h : Heap) (lst copy : Nat)
    (acc : List (Nat × Nat)), HeapOK h → IsList h lst cs → IsList h copy acc →
    cs.length < fuel →
    ∃ h1 out, push_loop fuel h lst copy = some (h1, first (out ++ acc)) ∧
      IsList h1 (first (out ++ acc)) (out ++ acc) ∧
      out.map Prod.snd = (cs.map Prod.snd).reverse ∧ HeapOK h1 ∧ h.next ≤ h1.next ∧
      (∀ a, a < h.next → h1.mem a = h.mem a) ∧
      ∀ a, a ∈ out.map Prod.fst → h.next ≤ a
  | [], fuel, h, lst, copy, acc, ok, hl, ha, hf => by
    obtain ⟨f, rfl⟩ : ∃ f, fuel = f + 1 := ⟨fuel - 1, by omega⟩
    have e : lst = NULL := hl
    refine ⟨h, [], ?_, ?_, rfl, ok, Nat.le_refl _, fun _ _ => rfl, fun a hx => by simp at hx⟩
    · simp [push_loop, e, ← isList_first ha]
    · rw [List.nil_append, ← isList_first ha]; exact ha
  | (a, d) :: rest, fuel, h, lst, copy, acc, ok, hl, ha, hf => by
    obtain ⟨f, rfl⟩ : ∃ f, fuel = f + 1 := ⟨fuel - 1, by simp at hf; omega⟩
    have e : lst = a := hl.1
    subst e
    have ha1 := list_cons_isList ok ha d
    have hl1 : IsList (list_cons h copy d).1 (first rest) rest :=
      isList_frame hl.2.2.2 (fun b hb => list_cons_old copy d b
        (isList_lt_next ok hl.2.2.2 b hb))
    obtain ⟨h1, out, e1, ho, hd, ok1, hn1, hfr1, hnew1⟩ := push_loop_spec rest f
      (list_cons h copy d).1 (first rest) (list_cons h copy d).2 ((h.next, d) :: acc)
      (list_cons_ok ok copy d) hl1 ha1 (by simp at hf; omega)
    have hnx : (list_cons h copy d).1.next = h.next + 1 := rfl
    refine ⟨h1, out ++ [(h.next, d)], ?_, ?_, ?_, ok1, by omega, fun b hb => ?_, fun b hb => ?_⟩
    · simp only [push_loop, ne_eq, hl.2.1, not_false_eq_true, if_true, hl.2.2.1]
      rw [e1, List.append_assoc]; rfl
    · rw [List.append_assoc]; exact ho
    · simp [hd]
    · rw [hfr1 b (by omega), list_cons_old copy d b hb]
    · simp only [List.map_append, List.map_cons, List.map_nil, List.mem_append,
        List.mem_singleton] at hb
      rcases hb with hb | hb
      · have := hnew1 b hb; omega
      · omega

theorem list_copy_spec {h : Heap} (ok : HeapOK h) {l : Nat} {cs : List (Nat × Nat)}
    (hl : IsList h l cs) {fuel : Nat} (hf : cs.length < fuel) :
    ∃ h1 out, list_copy fuel h l = some (h1, first out) ∧ IsList h1 (first out) out ∧
      out.map Prod.snd = cs.map Prod.snd ∧ HeapOK h1 ∧ h.next ≤ h1.next ∧
      (∀ a, a < h.next → h1.mem a = h.mem a) ∧
      ∀ a, a ∈ out.map Prod.fst → h.next ≤ a := by
  by_cases e : l = NULL
  · have hc := (first_eq_null hl).1 e
    subst hc
    exact ⟨h, [], by simp [list_copy, e, first], rfl, rfl, ok, Nat.le_refl _, fun _ _ => rfl,
      fun a hx => by simp at hx⟩
  · obtain ⟨h1, out, e1, ho, hd, ok1, hn1, hfr1, hnew1⟩ :=
      push_loop_spec cs fuel h l NULL [] ok hl rfl hf
    rw [List.append_nil] at e1 ho
    have hlen : out.length = cs.length := by
      have := congrArg List.length hd
      simpa using this
    have hf2 : out.length < fuel := by omega
    obtain ⟨h2, e2, ho2, hn2, hfr2, _⟩ := list_reverse_spec ho hf2
    refine ⟨h2, out.reverse, ?_, ho2, ?_, list_reverse_ok ok1 ho hn2 hfr2, by omega,
      fun a ha => ?_, fun a ha => ?_⟩
    · simp only [list_copy, e, if_false, e1]
      exact e2
    · rw [List.map_reverse, hd, List.reverse_reverse]
    · rw [hfr2 a (fun hx => by have := hnew1 a hx; omega), hfr1 a ha]
    · rw [List.map_reverse, List.mem_reverse] at ha
      exact hnew1 a ha

/-- C29: `list_concatenate(l1, l2)` returns a list of fresh pairs that holds
the elements of `l1` in order followed by the elements of `l2` in order, so its
`list_count` is the sum of the two counts and it is empty when both lists are;
after the call every pair that existed before the call is as it was, so `l1`
and `l2` are the lists they were. -/
theorem list_concatenate_spec (fuel : Nat) (h : Heap) (l1 l2 : Nat)
    (cs1 cs2 : List (Nat × Nat)) (ok : HeapOK h) (hl1 : IsList h l1 cs1)
    (hl2 : IsList h l2 cs2) (hf1 : cs1.length < fuel) (hf2 : cs2.length < fuel)
    (hf : cs1.length + cs2.length ≤ fuel) :
    ∃ h1 r out, list_concatenate fuel h l1 l2 = some (h1, r) ∧ IsList h1 r out ∧
      out.map Prod.snd = cs1.map Prod.snd ++ cs2.map Prod.snd ∧
      list_count fuel h1 r = some ((cs1.length : Int) + (cs2.length : Int)) ∧
      list_count fuel h l1 = some (cs1.length : Int) ∧
      list_count fuel h l2 = some (cs2.length : Int) ∧
      (list_empty l1 = true → list_empty l2 = true → list_empty r = true) ∧
      IsList h1 l1 cs1 ∧ IsList h1 l2 cs2 ∧
      (∀ a, a < h.next → h1.mem a = h.mem a) ∧
      (∀ a, a ∈ out.map Prod.fst → h.next ≤ a) ∧ HeapOK h1 := by
  obtain ⟨ha, outa, ea, hoa, hda, oka, hna, hfra, hnewa⟩ := list_copy_spec ok hl2 hf2
  have hl1a : IsList ha l1 cs1 :=
    isList_frame hl1 (fun a hx => hfra a (isList_lt_next ok hl1 a hx))
  obtain ⟨hb, eb, hlb, hnb, hfrb, _⟩ := list_reverse_spec hl1a hf1
  have okb := list_reverse_ok oka hl1a hnb hfrb
  have hoab : IsList hb (first outa) outa :=
    isList_frame hoa (fun a hx => hfrb a (fun hx1 => by
      have := hnewa a hx
      have := isList_lt_next ok hl1 a hx1
      omega))
  obtain ⟨hc, outc, ec, hoc, hdc, okc, hnc, hfrc, hnewc⟩ := push_loop_spec cs1.reverse fuel hb
    (first cs1.reverse) (first outa) outa okb hlb hoab (by rw [List.length_reverse]; exact hf1)
  have hlc : IsList hc (first cs1.reverse) cs1.reverse :=
    isList_frame hlb (fun a hx => hfrc a (isList_lt_next okb hlb a hx))
  obtain ⟨hd, ed, hld, hnd, hfrd, _⟩ := list_reverse_spec hlc
    (by rw [List.length_reverse]; exact hf1)
  rw [List.reverse_reverse] at hld
  have hold : ∀ a, a ∈ (outc ++ outa).map Prod.fst → h.next ≤ a := by
    intro a hx
    simp only [List.map_append, List.mem_append] at hx
    rcases hx with hx | hx
    · have := hnewc a hx; omega
    · exact hnewa a hx
  have hout : IsList hd (first (outc ++ outa)) (outc ++ outa) :=
    isList_frame hoc (fun a hx => hfrd a (fun hx1 => by
      have := hold a hx
      rw [List.map_reverse, List.mem_reverse] at hx1
      have := isList_lt_next ok hl1 a hx1
      omega))
  have hdata : (outc ++ outa).map Prod.snd = cs1.map Prod.snd ++ cs2.map Prod.snd := by
    rw [List.map_append, hdc, hda, List.map_reverse, List.reverse_reverse]
  have hmem : ∀ a, a < h.next → hd.mem a = h.mem a := by
    intro a hx
    by_cases hin : a ∈ cs1.map Prod.fst
    · rw [← isList_first hl1] at hld
      exact isList_mem_eq hl1 hld a hin
    · rw [hfrd a (by simpa using hin), hfrc a (by omega), hfrb a hin, hfra a hx]
  have hlen : (outc ++ outa).length = cs1.length + cs2.length := by
    have := congrArg List.length hdata
    simpa using this
  refine ⟨hd, first (outc ++ outa), outc ++ outa, ?_, hout, hdata, ?_,
    list_count_spec hl1 (by omega), list_count_spec hl2 (by omega), fun he1 he2 => ?_,
    isList_frame hl1 (fun a hx => hmem a (isList_lt_next ok hl1 a hx)),
    isList_frame hl2 (fun a hx => hmem a (isList_lt_next ok hl2 a hx)), hmem, hold,
    list_reverse_ok okc hlc hnd hfrd⟩
  · simp only [list_concatenate, ea, eb, ec, ed]
  · rw [list_count_spec hout (by omega), hlen]
    simp
  · have e1 : l1 = NULL := by simpa [list_empty] using he1
    have e2 : l2 = NULL := by simpa [list_empty] using he2
    have c1 := (first_eq_null hl1).1 e1
    have c2 := (first_eq_null hl2).1 e2
    subst c1; subst c2
    have : outc ++ outa = [] := List.length_eq_zero.1 (by rw [hlen]; rfl)
    rw [this]; rfl

/-- C29 on `(9 8 7)` joined to itself: the result is `(9 8 7 9 8 7)` and the
argument is the list it was. -/
theorem list_concatenate_spec_witness :
    ∃ h1 r, list_concatenate 7 sample_list.1 sample_list.2 sample_list.2 = some (h1, r) ∧
      list_count 7 h1 r = some 6 ∧ list_nth 7 h1 r 2 = some 7 ∧ list_nth 7 h1 r 3 = some 9 ∧
      list_nth 7 h1 sample_list.2 0 = some 9 ∧ list_count 7 h1 sample_list.2 = some 3 := by
  obtain ⟨h1, r, out, e, ho, hd, hc, _, _, _, hl1, _, _, _, _⟩ := list_concatenate_spec 7
    sample_list.1 sample_list.2 sample_list.2 [(3, 9), (2, 8), (1, 7)] [(3, 9), (2, 8), (1, 7)]
    sample_list_ok sample_list_isList sample_list_isList (by decide) (by decide) (by decide)
  have hlen : out.length < 7 := by
    have := congrArg List.length hd
    rw [List.length_map] at this
    rw [this]
    decide
  refine ⟨h1, r, e, hc, ?_, ?_, ?_, list_count_spec hl1 (by decide)⟩
  · rw [list_nth_spec ho hlen, hd]; rfl
  · rw [list_nth_spec ho hlen, hd]; rfl
  · rw [list_nth_spec hl1 (by decide)]; rfl

end PList

namespace PIterator

/-! ### Steps of the iterator functions -/

theorem iters_lt_inext {w : World} (ok : WorldOK w) {a : Nat} {it : Iterator}
    (h : w.iters a = some it) : a ≠ NULL ∧ a < w.inext := by
  constructor
  · intro e; rw [e, ok.1] at h; cases h
  · by_contra hn
    rw [ok.2.2.1 a (by omega)] at h
    cases h

theorem worldOK_write {w : World} (ok : WorldOK w) {iter : Nat} {it : Iterator}
    (hit : w.iters iter = some it) (it1 : Iterator) :
    WorldOK (World.mk (fun a => if a = iter then some it1 else w.iters a) w.inext w.pairs
      w.nodes) := by
  obtain ⟨hnn, hlt⟩ := iters_lt_inext ok hit
  refine ⟨?_, ok.2.1, fun a ha => ?_, ok.2.2.2⟩
  · simp only [if_neg (Ne.symm hnn)]; exact ok.1
  · have : a ≠ iter := by have : w.inext ≤ a := ha; omega
    simp only [if_neg this]; exact ok.2.2.1 a ha

theorem worldOK_alloc {w : World} (ok : WorldOK w) (it : Iterator) :
    WorldOK (iter_alloc w it).1 := by
  refine ⟨?_, Nat.succ_pos _, fun a ha => ?_, ok.2.2.2⟩
  · have h0 : NULL ≠ w.inext := by have := ok.2.1; unfold NULL; omega
    simp only [iter_alloc, if_neg h0]; exact ok.1
  · have ha1 : w.inext + 1 ≤ a := ha
    have h1 : a ≠ w.inext := by omega
    simp only [iter_alloc, if_neg h1]; exact ok.2.2.1 a (by omega)

theorem iter_alloc_new (w : World) (it : Iterator) :
    (iter_alloc w it).1.iters (iter_alloc w it).2 = some it := by
  simp [iter_alloc]

theorem iter_alloc_old (w : World) (it : Iterator) {a : Nat} (ha : a ≠ w.inext) :
    (iter_alloc w it).1.iters a = w.iters a := by
  simp [iter_alloc, ha]

theorem vector_next_fn_end {w : World} {iter : Nat} {it : Iterator}
    {vec : PVector.Vector} (hit : w.iters iter = some it) (hd : it.data = some vec)
    (he : it.current + 1 = vec.count) :
    vector_next_fn w iter = some (World.mk (fun a => if a = iter then
      some (Iterator.mk it.value it.next_fn (it.current + 1) it.data) else w.iters a) w.inext
      w.pairs w.nodes, NULL) := by
  simp [vector_next_fn, hit, hd, set_current, he]

theorem vector_next_fn_crash {w : World} (ok : WorldOK w) {iter : Nat} {it : Iterator}
    {vec : PVector.Vector} (hit : w.iters iter = some it) (hd : it.data = some vec)
    (he : it.current + 1 ≠ vec.count)
    (hg : PVector.vector_get w.nodes vec ((it.current + 1 : Nat) : Int) = none) :
    vector_next_fn w iter = none := by
  obtain ⟨hnn, hlt⟩ := iters_lt_inext ok hit
  have hne : w.inext ≠ iter := by omega
  simp only [Nat.cast_add, Nat.cast_one] at hg
  simp [vector_next_fn, hit, hd, set_current, he, iterator_copy, iter_alloc, hne, hg]

theorem vector_next_fn_step {w : World} (ok : WorldOK w) {iter : Nat} {it : Iterator}
    {vec : PVector.Vector} (hit : w.iters iter = some it) (hd : it.data = some vec)
    (he : it.current + 1 ≠ vec.count) {x : Nat}
    (hg : PVector.vector_get w.nodes vec ((it.current + 1 : Nat) : Int) = some x) :
    ∃ w1, vector_next_fn w iter = some (w1, w.inext) ∧ WorldOK w1 ∧ w1.nodes = w.nodes ∧
      w1.pairs = w.pairs ∧ w1.inext = w.inext + 1 ∧
      w1.iters w.inext = some (Iterator.mk x it.next_fn (it.current + 1) it.data) ∧
      w1.iters iter = some (Iterator.mk it.value it.next_fn (it.current + 1) it.data) ∧
      ∀ a, a ≠ iter → a ≠ w.inext → w1.iters a = w.iters a := by
  obtain ⟨hnn, hlt⟩ := iters_lt_inext ok hit
  have hne : w.inext ≠ iter := by omega
  have hne1 : iter ≠ w.inext := by omega
  simp only [Nat.cast_add, Nat.cast_one] at hg
  have e : vector_next_fn w iter = some (World.mk (fun a => if a = w.inext then
      some (Iterator.mk x it.next_fn (it.current + 1) it.data) else if a = iter then
      some (Iterator.mk it.value it.next_fn (it.current + 1) it.data) else w.iters a)
      (w.inext + 1) w.pairs w.nodes, w.inext) := by
    simp only [vector_next_fn, hit, hd, set_current, he, iterator_copy, iter_alloc,
      Option.bind_eq_bind, Option.some_bind, if_false, if_true, if_neg hne, if_pos,
      Nat.cast_add, Nat.cast_one, hg, set_value, Option.some.injEq, Prod.mk.injEq, and_true,
      World.mk.injEq, true_and]
    funext a
    by_cases h1 : a = w.inext
    · simp [h1]
    · simp [h1]
  refine ⟨_, e, ?_, rfl, rfl, rfl, by simp, by simp [hne1], fun a h1 h2 => by simp [h1, h2]⟩
  have ok1 := worldOK_write ok hit (Iterator.mk it.value it.next_fn (it.current + 1) it.data)
  exact worldOK_alloc ok1 (Iterator.mk x it.next_fn (it.current + 1) it.data)

/-- The step of `list_next_fn` and of `hashmap_next_fn` to the next pair. -/
theorem chain_next_step {w : World} (ok : WorldOK w) {iter : Nat} {it : Iterator}
    (hit : w.iters iter = some it) {p q : PList.Pair} (hp : w.pairs.mem it.current = some p)
    (hn : p.next ≠ NULL) (hq : w.pairs.mem p.next = some q) :
    ∃ w1, list_next_fn w iter = some (w1, w.inext) ∧
      hashmap_next_fn w iter = some (w1, w.inext) ∧ WorldOK w1 ∧ w1.nodes = w.nodes ∧
      w1.pairs = w.pairs ∧ w1.inext = w.inext + 1 ∧
      w1.iters w.inext = some (Iterator.mk q.data it.next_fn p.next it.data) ∧
      ∀ a, a ≠ w.inext → w1.iters a = w.iters a := by
  have e : list_next_fn w iter = some (World.mk (fun a => if a = w.inext then
      some (Iterator.mk q.data it.next_fn p.next it.data) else w.iters a)
      (w.inext + 1) w.pairs w.nodes, w.inext) := by
    simp only [list_next_fn, hit, hp, hn, iterator_copy, iter_alloc, set_current,
      Option.bind_eq_bind, Option.some_bind, if_false, if_true, if_pos, hq, set_value,
      Option.some.injEq, Prod.mk.injEq, and_true, World.mk.injEq, true_and]
    funext a
    by_cases h1 : a = w.inext
    · simp [h1]
    · simp [h1]
  have e1 : hashmap_next_fn w iter = some (World.mk (fun a => if a = w.inext then
      some (Iterator.mk q.data it.next_fn p.next it.data) else w.iters a)
      (w.inext + 1) w.pairs w.nodes, w.inext) := by
    simp only [hashmap_next_fn, hit, hp, hn, iterator_copy, iter_alloc, set_current,
      Option.bind_eq_bind, Option.some_bind, if_false, if_true, if_pos, hq, set_value,
      Option.some.injEq, Prod.mk.injEq, and_true, World.mk.injEq, true_and]
    funext a
    by_cases h1 : a = w.inext
    · simp [h1]
    · simp [h1]
  exact ⟨_, e, e1, worldOK_alloc ok (Iterator.mk q.data it.next_fn p.next it.data), rfl, rfl,
    rfl, by simp, fun a h1 => by simp [h1]⟩

theorem chain_next_end {w : World} {iter : Nat} {it : Iterator}
    (hit : w.iters iter = some it) {p : PList.Pair} (hp : w.pairs.mem it.current = some p)
    (hn : p.next = NULL) :
    list_next_fn w iter = some (w, NULL) ∧ hashmap_next_fn w iter = some (w, NULL) := by
  simp [list_next_fn, hashmap_next_fn, hit, hp, hn]

end PIterator

namespace PIterator

/-! ### The iteration loop -/

theorem iterate_null (fuel : Nat) (w : World) : iterate (fuel + 1) w NULL = some (w, []) := by
  simp [iterate]

theorem iterate_step {fuel : Nat} {w w1 : World} {iter iter1 : Nat} {it : Iterator}
    (ok : WorldOK w) (hit : w.iters iter = some it)
    (hn : iterator_next w iter = some (w1, iter1)) :
    iterate (fuel + 1) w iter =
      (iterate fuel w1 iter1).bind (fun r => some (r.1, it.value :: r.2)) := by
  have hnn := (iters_lt_inext ok hit).1
  simp only [iterate, if_neg hnn, iterator_value, hit, Option.map_some', hn]
  cases iterate fuel w1 iter1 with
  | none => rfl
  | some r => rfl

theorem iterate_vector (vec : PVector.Vector) (vals : List Nat)
    (hlen : vals.length = vec.count) :
    ∀ (k fuel : Nat) (w : World) (iter : Nat) (it : Iterator), WorldOK w →
      w.iters iter = some it → it.next_fn = NextFn.vector_next_fn → it.data = some vec →
      it.current + k + 1 = vec.count → vals[it.current]? = some it.value →
      (∀ (i : Nat) (x : Nat), vals[i]? = some x →
        PVector.vector_get w.nodes vec (i : Int) = some x) →
      k + 1 < fuel →
      ∃ w1, iterate fuel w iter = some (w1, vals.drop it.current) ∧ WorldOK w1 ∧
        w1.nodes = w.nodes ∧ w1.pairs = w.pairs
  | 0, fuel, w, iter, it, ok, hit, hfn, hd, hc, hv, _, hf => by
    obtain ⟨f, rfl⟩ : ∃ f, fuel = f + 2 := ⟨fuel - 2, by omega⟩
    have he : it.current + 1 = vec.count := by omega
    have hn : iterator_next w iter = vector_next_fn w iter := by
      simp only [iterator_next, hit, hfn]
    rw [vector_next_fn_end hit hd he] at hn
    have hlt : it.current < vals.length := by omega
    rw [iterate_step ok hit hn, iterate_null]
    refine ⟨World.mk (fun a => if a = iter then some (Iterator.mk it.value it.next_fn
      (it.current + 1) it.data) else w.iters a) w.inext w.pairs w.nodes, ?_,
      worldOK_write ok hit _, rfl, rfl⟩
    rw [List.drop_eq_getElem_cons hlt, List.drop_of_length_le (by omega)]
    rw [List.getElem?_eq_getElem hlt] at hv
    simp only [Option.some_bind, Option.some.injEq, Prod.mk.injEq, true_and, List.cons.injEq,
      and_true]
    exact (Option.some.inj hv).symm
  | k + 1, fuel, w, iter, it, ok, hit, hfn, hd, hc, hv, hget, hf => by
    obtain ⟨f, rfl⟩ : ∃ f, fuel = f + 1 := ⟨fuel - 1, by omega⟩
    have he : it.current + 1 ≠ vec.count := by omega
    have hlt : it.current < vals.length := by omega
    have hlt1 : it.current + 1 < vals.length := by omega
    have hg := hget (it.current + 1) _ (List.getElem?_eq_getElem hlt1)
    obtain ⟨w1, e1, ok1, hn1, hp1, _, hnew, _, _⟩ := vector_next_fn_step ok hit hd he hg
    have hn : iterator_next w iter = some (w1, w.inext) := by
      simp only [iterator_next, hit, hfn]
      exact e1
    obtain ⟨w2, e2, ok2, hn2, hp2⟩ := iterate_vector vec vals hlen k f w1 w.inext _ ok1 hnew
      hfn hd (by simp only; omega) (List.getElem?_eq_getElem hlt1)
      (fun i x hi => by rw [hn1]; exact hget i x hi) (by omega)
    refine ⟨w2, ?_, ok2, hn2.trans hn1, hp2.trans hp1⟩
    rw [iterate_step ok hit hn, e2, List.drop_eq_getElem_cons hlt]
    rw [List.getElem?_eq_getElem hlt] at hv
    simp only [Option.some_bind, Option.some.injEq, Prod.mk.injEq, true_and, List.cons.injEq,
      and_true]
    exact (Option.some.inj hv).symm

/-- The iteration of a vector on which `vector_get` returns at every index
below the count: the loop holds `vector_count(v)` iterators, and the value of
the `i`-th is `vector_get(v, i)`. -/
theorem vector_iterate_of_get {w : World} (ok : WorldOK w) (vec : PVector.Vector)
    (vals : List Nat) (hlen : vals.length = PVector.vector_count vec)
    (hne : PVector.vector_count vec ≠ 0)
    (hget : ∀ (i : Nat) (x : Nat), vals[i]? = some x →
      PVector.vector_get w.nodes vec (i : Int) = some x)
    {fuel : Nat} (hf : PVector.vector_count vec < fuel) :
    ∃ w0 iter w1, vector_iterator_make w vec = some (w0, iter) ∧ iter ≠ NULL ∧
      iterate fuel w0 iter = some (w1, vals) := by
  unfold PVector.vector_count at hlen hne hf
  have h0 : 0 < vals.length := by omega
  have hg0 := hget 0 _ (List.getElem?_eq_getElem h0)
  have hemp : PVector.vector_empty vec = false := by
    simp [PVector.vector_empty, hne]
  have e : vector_iterator_make w vec =
      some (iter_alloc w (Iterator.mk vals[0] NextFn.vector_next_fn 0 (some vec))) := by
    simp only [vector_iterator_make, hemp, Bool.false_eq_true, if_false, Nat.cast_zero] at hg0 ⊢
    rw [hg0]; rfl
  have ok0 := worldOK_alloc ok (Iterator.mk vals[0] NextFn.vector_next_fn 0 (some vec))
  obtain ⟨w1, e1, _⟩ := iterate_vector vec vals hlen (vec.count - 1) fuel _ _ _ ok0
    (iter_alloc_new w _) rfl rfl (by simp only; omega) (List.getElem?_eq_getElem h0)
    (fun i x hi => hget i x hi) (by omega)
  refine ⟨_, _, w1, e, ?_, e1⟩
  have := ok.2.1
  simp only [iter_alloc, NULL]
  omega

theorem iterate_chain : ∀ (rest : List (Nat × Nat)) (fuel : Nat) (w : World) (iter : Nat)
    (it : Iterator) (d : Nat), WorldOK w → w.iters iter = some it →
    (it.next_fn = NextFn.list_next_fn ∨ it.next_fn = NextFn.hashmap_next_fn) →
    it.value = d → PList.IsList w.pairs it.current ((it.current, d) :: rest) →
    rest.length + 1 < fuel →
    ∃ w1, iterate fuel w iter = some (w1, d :: rest.map Prod.snd) ∧ WorldOK w1 ∧
      w1.pairs = w.pairs ∧ w1.nodes = w.nodes
  | [], fuel, w, iter, it, d, ok, hit, hfn, hv, hl, hf => by
    obtain ⟨f, rfl⟩ : ∃ f, fuel = f + 2 := ⟨fuel - 2, by simp at hf; omega⟩
    have hn : iterator_next w iter = some (w, NULL) := by
      have := chain_next_end hit hl.2.2.1 rfl
      rcases hfn with hfn | hfn
      · simp only [iterator_next, hit, hfn]; exact this.1
      · simp only [iterator_next, hit, hfn]; exact this.2
    rw [iterate_step ok hit hn, iterate_null]
    exact ⟨w, by simp [hv], ok, rfl, rfl⟩
  | (b, e) :: rest, fuel, w, iter, it, d, ok, hit, hfn, hv, hl, hf => by
    obtain ⟨f, rfl⟩ : ∃ f, fuel = f + 1 := ⟨fuel - 1, by omega⟩
    have hb : b ≠ PList.NULL := hl.2.2.2.2.1
    have hmb : w.pairs.mem b = some (PList.Pair.mk e (PList.first rest)) := hl.2.2.2.2.2.1
    obtain ⟨w1, e1, e2, ok1, hn1, hp1, _, hnew, _⟩ := chain_next_step ok hit hl.2.2.1 hb hmb
    have hn : iterator_next w iter = some (w1, w.inext) := by
      rcases hfn with hfn | hfn
      · simp only [iterator_next, hit, hfn]; exact e1
      · simp only [iterator_next, hit, hfn]; exact e2
    have hl1 : PList.IsList w1.pairs b ((b, e) :: rest) := by
      rw [hp1]; exact hl.2.2.2
    obtain ⟨w2, e3, ok2, hp2, hn2⟩ := iterate_chain rest f w1 w.inext _ e ok1 hnew hfn rfl hl1
      (by simp at hf; omega)
    refine ⟨w2, ?_, ok2, hp2.trans hp1, hn2.trans hn1⟩
    rw [iterate_step ok hit hn, e3]
    simp [hv]

/-! ### The list that `hashmap_iterator_make` builds -/

theorem iterator_visit_isList {h : PList.Heap} (ok : PList.HeapOK h) {l : Nat}
    {acc : List (Nat × Nat)} (hl : PList.IsList h l acc) (key val : Nat) :
    PList.HeapOK (iterator_visit key val (h, l)).1 ∧
    PList.IsList (iterator_visit key val (h, l)).1 (iterator_visit key val (h, l)).2
      ((h.next + 1, key) :: (h.next, val) :: acc) ∧
    (iterator_visit key val (h, l)).2 = h.next + 1 := by
  have h1 := PList.list_cons_isList ok hl val
  have ok1 := PList.list_cons_ok ok l val
  have h2 := PList.list_cons_isList ok1 h1 key
  exact ⟨PList.list_cons_ok ok1 _ key, h2, rfl⟩

theorem iterator_visit_fold : ∀ (es : List PHashmap.Cell) (h : PList.Heap) (l : Nat)
    (acc : List (Nat × Nat)), PList.HeapOK h → PList.IsList h l acc →
    ∃ cs, PList.IsList (es.foldl (fun a c => iterator_visit c.key c.val a) (h, l)).1
        (es.foldl (fun a c => iterator_visit c.key c.val a) (h, l)).2 (cs ++ acc) ∧
      cs.map Prod.snd = es.reverse.flatMap (fun c => [c.key, c.val]) ∧
      PList.HeapOK (es.foldl (fun a c => iterator_visit c.key c.val a) (h, l)).1
  | [], h, l, acc, ok, hl => ⟨[], hl, rfl, ok⟩
  | c :: es, h, l, acc, ok, hl => by
    obtain ⟨ok1, hl1, _⟩ := iterator_visit_isList ok hl c.key c.val
    obtain ⟨cs, hcs, hd, ok2⟩ := iterator_visit_fold es _ _ _ ok1 hl1
    refine ⟨cs ++ [(h.next + 1, c.key), (h.next, c.val)], ?_, ?_, ok2⟩
    · rw [List.append_assoc]; exact hcs
    · simp [hd, List.flatMap_append]

end PIterator

namespace PIterator

/-! ### `hashmap_iterator_make` -/

theorem hashmap_iterator_make_eq {w : World} {map : PHashmap.Hashmap}
    (hne : PHashmap.hashmap_empty map = false) {pairs : PList.Heap} {lst : Nat}
    (hv : PHashmap.hashmap_visit map iterator_visit (w.pairs, NULL) = some (pairs, lst))
    {p : PList.Pair} (hp : pairs.mem lst = some p) :
    hashmap_iterator_make w map = some (World.mk (fun a => if a = w.inext then
      some (Iterator.mk p.data NextFn.hashmap_next_fn lst none) else w.iters a) (w.inext + 1)
      pairs w.nodes, w.inext) := by
  simp only [hashmap_iterator_make, hne, Bool.false_eq_true, if_false, iter_alloc,
    Option.bind_eq_bind, hv, Option.some_bind, set_current, if_true, hp, set_value,
    Option.some.injEq, Prod.mk.injEq, and_true, World.mk.injEq, true_and]
  funext a
  by_cases h1 : a = w.inext
  · simp [h1]
  · simp [h1]

theorem hashmap_iterator_make_spec {hashf : Nat → Nat} {eq_key eq_val : Nat → Nat → Bool}
    (ops : PHashmap.KeyOps hashf eq_key) {map : PHashmap.Hashmap}
    (hr : PHashmap.Reach hashf eq_key eq_val map) {w : World} (ok : WorldOK w)
    (hne : PHashmap.hashmap_count map ≠ 0) :
    ∃ w0 a d rest, hashmap_iterator_make w map = some (w0, w.inext) ∧ WorldOK w0 ∧
      w0.iters w.inext = some (Iterator.mk d NextFn.hashmap_next_fn a none) ∧
      PList.IsList w0.pairs a ((a, d) :: rest) ∧
      d :: rest.map Prod.snd =
        (PHashmap.hashmap_entries map).reverse.flatMap (fun c => [c.key, c.val]) := by
  have hm := PHashmap.reach_wf ops hr
  have hcnt : map.count = ((PHashmap.hashmap_entries map).length : Int) :=
    PHashmap.reach_count ops hr
  have hemp : PHashmap.hashmap_empty map = false := by
    simpa [PHashmap.hashmap_empty, PHashmap.hashmap_count] using hne
  have hv := PHashmap.hashmap_visit_eq hm iterator_visit (w.pairs, NULL)
  obtain ⟨cs, hcs, hd, okp⟩ := iterator_visit_fold (PHashmap.hashmap_entries map) w.pairs NULL
    [] ok.2.2.2 rfl
  rw [List.append_nil] at hcs
  have hlen : (PHashmap.hashmap_entries map).length ≠ 0 := by
    intro e
    apply hne
    unfold PHashmap.hashmap_count
    rw [hcnt, e]; rfl
  generalize hfold : List.foldl (fun a c => iterator_visit c.key c.val a) (w.pairs, NULL)
    (PHashmap.hashmap_entries map) = r at hv hcs okp
  obtain ⟨pairs, lst⟩ := r
  simp only at hcs okp
  match cs, hcs, hd with
  | [], _, hd =>
    exfalso
    have := congrArg List.length hd
    cases hes : (PHashmap.hashmap_entries map).reverse with
    | nil => simp at hes; exact hlen (by rw [hes]; rfl)
    | cons c r => rw [hes] at this; simp at this
  | (a, d) :: rest, hcs, hd =>
    have ea : lst = a := hcs.1
    subst ea
    have hp := hcs.2.2.1
    have ok1 := worldOK_alloc ok (Iterator.mk d NextFn.hashmap_next_fn lst none)
    exact ⟨_, lst, d, rest, hashmap_iterator_make_eq hemp hv hp,
      ⟨ok1.1, ok1.2.1, ok1.2.2.1, okp⟩, by simp, hcs, by rw [← hd]; rfl⟩

theorem flatMap_pair_length {α : Type} (f g : α → Nat) (l : List α) :
    (l.flatMap (fun c => [f c, g c])).length = 2 * l.length := by
  induction l with
  | nil => rfl
  | cons c l ih => simp [List.flatMap_cons, ih]; omega

/-- C25: for every reachable map `m` with `hashmap_count(m)` other than 0 (key
equality an equivalence relation that the hash respects),
`hashmap_iterator_make(m)` returns an iterator, and stepping it to exhaustion
yields `2 * hashmap_count(m)` values: for each entry of `m`, once, its key
followed at once by its value, the entries in the opposite of the order in
which `hashmap_visit` visits them.  No two entries have equal keys and
`hashmap_get` of the key of each entry is its value. -/
theorem hashmap_iterator_pairs {hashf : Nat → Nat} {eq_key eq_val : Nat → Nat → Bool}
    (ops : PHashmap.KeyOps hashf eq_key) {map : PHashmap.Hashmap}
    (hr : PHashmap.Reach hashf eq_key eq_val map) {w : World} (ok : WorldOK w)
    (hne : PHashmap.hashmap_count map ≠ 0) {fuel : Nat}
    (hf : 2 * (PHashmap.hashmap_count map).toNat < fuel) :
    ∃ w0 iter w1 vals, hashmap_iterator_make w map = some (w0, iter) ∧ iter ≠ NULL ∧
      iterate fuel w0 iter = some (w1, vals) ∧
      vals = (PHashmap.hashmap_entries map).reverse.flatMap (fun c => [c.key, c.val]) ∧
      (vals.length : Int) = 2 * PHashmap.hashmap_count map ∧
      (PHashmap.hashmap_entries map).Pairwise (fun a b => eq_key a.key b.key = false) ∧
      ∀ c ∈ PHashmap.hashmap_entries map, PHashmap.hashmap_get map c.key = some c.val := by
  have hm := PHashmap.reach_wf ops hr
  have hcnt : map.count = ((PHashmap.hashmap_entries map).length : Int) :=
    PHashmap.reach_count ops hr
  have hp := PHashmap.hashmap_entries_pairwise ops hm
  obtain ⟨w0, a, d, rest, e0, ok0, hit, hl, hd⟩ := hashmap_iterator_make_spec ops hr ok hne
  have hlen : (d :: rest.map Prod.snd).length = 2 * (PHashmap.hashmap_entries map).length := by
    rw [hd, flatMap_pair_length, List.length_reverse]
  have hc : (PHashmap.hashmap_count map).toNat = (PHashmap.hashmap_entries map).length := by
    unfold PHashmap.hashmap_count; rw [hcnt]; rfl
  obtain ⟨w1, e1, _⟩ := iterate_chain rest fuel w0 w.inext _ d ok0 hit (Or.inr rfl) rfl hl
    (by simp at hlen; omega)
  refine ⟨w0, w.inext, w1, _, e0, ?_, e1, hd, ?_, hp, fun c hc => ?_⟩
  · have := ok.2.1; unfold NULL; omega
  · rw [hlen]; unfold PHashmap.hashmap_count; rw [hcnt]; push_cast; rfl
  · rw [PHashmap.hashmap_get_find ops hm, PHashmap.find_val_mem ops hp hc (ops.refl c.key)]

/-- C25 on the map built by `mod4_ops`: the iteration yields the twelve values
`3, 30, 7, 70, 6, 60, 1, 11, 13, 130, 9, 91`. -/
theorem hashmap_iterator_pairs_witness :
    ∃ map, PHashmap.run 15 PHashmap.mod4_ops PHashmap.mod4_map = some map ∧
      ∃ w0 iter w1, hashmap_iterator_make (World.init PList.Heap.empty PVector.Heap.empty) map =
          some (w0, iter) ∧ iter ≠ NULL ∧
        iterate 13 w0 iter = some (w1, [3, 30, 7, 70, 6, 60, 1, 11, 13, 130, 9, 91]) := by
  have hc : PHashmap.returns (PHashmap.run 15 PHashmap.mod4_ops PHashmap.mod4_map) (fun map =>
      decide (PHashmap.hashmap_count map = 6) &&
      decide ((PHashmap.hashmap_entries map).reverse.flatMap (fun c => [c.key, c.val]) =
        [3, 30, 7, 70, 6, 60, 1, 11, 13, 130, 9, 91])) = true := by decide!
  obtain ⟨map, hrun, hQ⟩ := PHashmap.exists_of_returns hc
  simp only [Bool.and_eq_true, decide_eq_true_eq] at hQ
  have ops := PHashmap.mod4_keyOps
  have hr := PHashmap.mod4_reach hrun
  have ok : WorldOK (World.init PList.Heap.empty PVector.Heap.empty) :=
    ⟨rfl, by decide, fun _ _ => rfl, rfl, by decide, fun _ _ => rfl⟩
  obtain ⟨w0, iter, w1, vals, e0, hn, e1, ev, _⟩ := hashmap_iterator_pairs ops hr ok
    (by rw [hQ.1]; decide) (show 2 * (PHashmap.hashmap_count map).toNat < 13 by
      rw [hQ.1]; decide)
  rw [ev, hQ.2] at e1
  exact ⟨map, hrun, w0, iter, w1, e0, hn, e1⟩

end PIterator

namespace PIterator

/-! ### The first iterator of a collection -/

theorem worldOK_init : WorldOK (World.init PList.Heap.empty PVector.Heap.empty) :=
  ⟨rfl, by decide, fun _ _ => rfl, rfl, by decide, fun _ _ => rfl⟩

theorem vector_iterator_make_null {w : World} (ok : WorldOK w) (vec : PVector.Vector) :
    (∃ w1, vector_iterator_make w vec = some (w1, NULL)) ↔ PVector.vector_count vec = 0 := by
  unfold PVector.vector_count
  constructor
  · rintro ⟨w1, e⟩
    by_contra hne
    have hemp : PVector.vector_empty vec = false := by simp [PVector.vector_empty, hne]
    simp only [vector_iterator_make, hemp, Bool.false_eq_true, if_false] at e
    cases hg : PVector.vector_get w.nodes vec 0 with
    | none => rw [hg] at e; cases e
    | some x =>
      rw [hg] at e
      simp only [Option.bind_eq_bind, Option.some_bind, iter_alloc, Option.some.injEq,
        Prod.mk.injEq] at e
      have := ok.2.1
      rw [e.2] at this
      exact absurd this (by decide)
  · intro e
    exact ⟨w, by simp [vector_iterator_make, PVector.vector_empty, e]⟩

theorem vector_iterator_make_value {w : World} (ok : WorldOK w) (vec : PVector.Vector)
    (hne : PVector.vector_count vec ≠ 0) :
    (PVector.vector_get w.nodes vec 0 = none → vector_iterator_make w vec = none) ∧
    ∀ x, PVector.vector_get w.nodes vec 0 = some x →
      ∃ w1 iter, vector_iterator_make w vec = some (w1, iter) ∧ iter ≠ NULL ∧
        iterator_value w1 iter = some x := by
  have hemp : PVector.vector_empty vec = false := by
    simpa [PVector.vector_empty, PVector.vector_count] using hne
  refine ⟨fun hg => by simp [vector_iterator_make, hemp, hg], fun x hg => ?_⟩
  have e : vector_iterator_make w vec =
      some (iter_alloc w (Iterator.mk x NextFn.vector_next_fn 0 (some vec))) := by
    simp only [vector_iterator_make, hemp, Bool.false_eq_true, if_false, hg,
      Option.bind_eq_bind, Option.some_bind]
  refine ⟨_, _, e, ?_, ?_⟩
  · have := ok.2.1
    simp only [iter_alloc, NULL]; omega
  · simp [iterator_value, iter_alloc]

theorem list_iterator_make_spec {w : World} (ok : WorldOK w) {lst : Nat}
    {cs : List (Nat × Nat)} (hl : PList.IsList w.pairs lst cs) :
    ((∃ w1, list_iterator_make w lst = some (w1, NULL)) ↔ PList.list_empty lst = true) ∧
    (PList.list_empty lst = false →
      ∃ w1 iter d, list_iterator_make w lst = some (w1, iter) ∧ iter ≠ NULL ∧
        PList.list_first w.pairs lst = some d ∧ (cs.map Prod.snd).head? = some d ∧
        iterator_value w1 iter = some d) := by
  have h0 : w.inext ≠ NULL := by have := ok.2.1; unfold NULL; omega
  match cs, hl with
  | [], hl =>
    have e : lst = PList.NULL := hl
    subst e
    refine ⟨⟨fun _ => rfl, fun _ => ⟨w, rfl⟩⟩, fun hf => ?_⟩
    exact absurd hf (by decide)
  | (a, d) :: rest, hl =>
    have e : lst = a := hl.1
    subst e
    have hne : lst ≠ NULL := hl.2.1
    have hemp : PList.list_empty lst = false := by
      simp only [PList.list_empty, beq_eq_false_iff_ne, ne_eq]; exact hl.2.1
    have em : list_iterator_make w lst =
        some (iter_alloc w (Iterator.mk d NextFn.list_next_fn lst none)) := by
      simp only [list_iterator_make, hne, if_false, hl.2.2.1, Option.bind_eq_bind,
        Option.some_bind]
    refine ⟨⟨?_, fun hf => ?_⟩, fun _ => ⟨_, _, d, em, h0, ?_, rfl, ?_⟩⟩
    · rintro ⟨w1, e⟩
      rw [em] at e
      simp only [iter_alloc, Option.some.injEq, Prod.mk.injEq] at e
      exact absurd e.2 h0
    · rw [hemp] at hf; cases hf
    · have hne1 : lst ≠ PList.NULL := hl.2.1
      simp [PList.list_first, hne1, hl.2.2.1]
    · simp [iterator_value, iter_alloc]

theorem flatMap_head {α : Type} (f g : α → Nat) (c : α) (l : List α) (d : Nat)
    (rest : List Nat) (h : d :: rest = (c :: l).flatMap (fun c => [f c, g c])) : d = f c := by
  simp only [List.flatMap_cons, List.cons_append, List.cons.injEq] at h
  exact h.1

/-- C26: `vector_iterator_make` returns `NULL` exactly when the count of the
vector is 0, and for a vector with other count on which `vector_get(v, 0)`
returns, it returns an iterator whose value is `vector_get(v, 0)`.
`hashmap_iterator_make` on a reachable map returns `NULL` exactly when
`hashmap_count` is 0, and otherwise an iterator whose value is the key of the
entry that `hashmap_visit` visits last.  `list_iterator_make` returns `NULL`
exactly when the list is empty, and otherwise an iterator whose value is the
element at the head of the list. -/
theorem iterator_make_first {hashf : Nat → Nat} {eq_key eq_val : Nat → Nat → Bool}
    (ops : PHashmap.KeyOps hashf eq_key) {map : PHashmap.Hashmap}
    (hr : PHashmap.Reach hashf eq_key eq_val map) {w : World} (ok : WorldOK w)
    (vec : PVector.Vector) {lst : Nat} {cs : List (Nat × Nat)}
    (hl : PList.IsList w.pairs lst cs) :
    ((∃ w1, vector_iterator_make w vec = some (w1, NULL)) ↔ PVector.vector_count vec = 0) ∧
    (PVector.vector_count vec ≠ 0 → ∀ x, PVector.vector_get w.nodes vec 0 = some x →
      ∃ w1 iter, vector_iterator_make w vec = some (w1, iter) ∧ iter ≠ NULL ∧
        iterator_value w1 iter = some x) ∧
    ((∃ w1, hashmap_iterator_make w map = some (w1, NULL)) ↔
      PHashmap.hashmap_count map = 0) ∧
    (PHashmap.hashmap_count map ≠ 0 →
      ∃ w1 iter ps k v, hashmap_iterator_make w map = some (w1, iter) ∧ iter ≠ NULL ∧
        PHashmap.hashmap_visit map (fun k v s => s ++ [(k, v)]) [] = some ps ∧
        ps.getLast? = some (k, v) ∧ iterator_value w1 iter = some k) ∧
    ((∃ w1, list_iterator_make w lst = some (w1, NULL)) ↔ PList.list_empty lst = true) ∧
    (PList.list_empty lst = false →
      ∃ w1 iter d, list_iterator_make w lst = some (w1, iter) ∧ iter ≠ NULL ∧
        PList.list_first w.pairs lst = some d ∧ (cs.map Prod.snd).head? = some d ∧
        iterator_value w1 iter = some d) := by
  have h0 : w.inext ≠ NULL := by have := ok.2.1; unfold NULL; omega
  have hm := PHashmap.reach_wf ops hr
  refine ⟨vector_iterator_make_null ok vec, fun hne => (vector_iterator_make_value ok vec hne).2, ?_, ?_,
    (list_iterator_make_spec ok hl).1, (list_iterator_make_spec ok hl).2⟩
  · constructor
    · rintro ⟨w1, e⟩
      by_contra hne
      obtain ⟨w0, _, _, _, e0, _⟩ := hashmap_iterator_make_spec ops hr ok hne
      rw [e0] at e
      simp only [Option.some.injEq, Prod.mk.injEq] at e
      exact h0 e.2
    · intro e
      refine ⟨w, ?_⟩
      have : PHashmap.hashmap_empty map = true := by
        simpa [PHashmap.hashmap_empty, PHashmap.hashmap_count] using e
      simp [hashmap_iterator_make, this]
  · intro hne
    obtain ⟨w0, a, d, rest, e0, _, hit, _, hd⟩ := hashmap_iterator_make_spec ops hr ok hne
    have hv := PHashmap.hashmap_visit_eq hm (fun k v (s : List (Nat × Nat)) => s ++ [(k, v)]) []
    rw [PHashmap.foldl_record, List.nil_append] at hv
    cases hes : (PHashmap.hashmap_entries map).reverse with
    | nil => rw [hes] at hd; simp at hd
    | cons c r =>
      rw [hes] at hd
      have hdk := flatMap_head _ _ c r d _ hd
      refine ⟨w0, w.inext, _, c.key, c.val, e0, h0, hv, ?_, by simp [iterator_value, hit, hdk]⟩
      rw [List.getLast?_eq_head?_reverse, ← List.map_reverse, hes]
      rfl

/-- C26 at the map built by `mod4_ops`, the empty vector and the list
`(9 8 7)`: the map iterator starts at the key 3, which `hashmap_visit` visits
last, and the list iterator at 9. -/
theorem iterator_make_first_witness :
    ∃ map, PHashmap.run 15 PHashmap.mod4_ops PHashmap.mod4_map = some map ∧
      (∃ w1 iter ps v, hashmap_iterator_make (World.init PList.sample_list.1 PVector.Heap.empty)
          map = some (w1, iter) ∧ iter ≠ NULL ∧
        PHashmap.hashmap_visit map (fun k v s => s ++ [(k, v)]) [] = some ps ∧
        ps.getLast? = some (3, v) ∧ iterator_value w1 iter = some 3) ∧
      (∃ w1, vector_iterator_make (World.init PList.sample_list.1 PVector.Heap.empty)
        (PVector.vector_make PVector.Heap.empty).2 = some (w1, NULL)) ∧
      ∃ w1 iter, list_iterator_make (World.init PList.sample_list.1 PVector.Heap.empty)
        PList.sample_list.2 = some (w1, iter) ∧ iter ≠ NULL ∧
        iterator_value w1 iter = some 9 := by
  have hc : PHashmap.returns (PHashmap.run 15 PHashmap.mod4_ops PHashmap.mod4_map) (fun map =>
      decide (PHashmap.hashmap_count map = 6) &&
      decide ((PHashmap.hashmap_visit map (fun k v s => s ++ [(k, v)]) []).bind
        (fun ps => ps.getLast?.map Prod.fst) = some 3)) = true := by decide!
  obtain ⟨map, hrun, hQ⟩ := PHashmap.exists_of_returns hc
  simp only [Bool.and_eq_true, decide_eq_true_eq] at hQ
  have ok : WorldOK (World.init PList.sample_list.1 PVector.Heap.empty) :=
    ⟨rfl, by decide, fun _ _ => rfl, PList.sample_list_ok⟩
  have h := iterator_make_first PHashmap.mod4_keyOps (PHashmap.mod4_reach hrun) ok
    (PVector.vector_make PVector.Heap.empty).2 PList.sample_list_isList
  obtain ⟨w1, iter, ps, k, v, e1, hn, hv, hlast, hval⟩ := h.2.2.2.1 (by rw [hQ.1]; decide)
  have hk : k = 3 := by
    have := hQ.2
    rw [hv] at this
    simp only [Option.some_bind, hlast, Option.map_some', Option.some.injEq] at this
    exact this
  subst hk
  obtain ⟨w2, iter2, d, e2, hn2, _, hd, hval2⟩ := h.2.2.2.2.2 (by decide)
  have hd9 : d = 9 := by
    have : (([(3, 9), (2, 8), (1, 7)] : List (Nat × Nat)).map Prod.snd).head? = some 9 := rfl
    rw [hd] at this
    exact Option.some.inj this
  subst hd9
  exact ⟨map, hrun, ⟨w1, iter, ps, v, e1, hn, hv, hlast, hval⟩, h.1.2 rfl,
    w2, iter2, e2, hn2, hval2⟩

/-- C26 as the specification states it fails on the code: on the map with the
entries (1, 10) and (2, 20) `hashmap_visit` visits the key 1 first and the key
2 last, and the value of the iterator that `hashmap_iterator_make` returns is
2. -/
theorem hashmap_iterator_starts_at_last_visited :
    ∃ map w1 iter, PHashmap.run 15 [PHashmap.Op.assoc 1 10, PHashmap.Op.assoc 2 20]
        PHashmap.mod4_map = some map ∧
      PHashmap.hashmap_visit map (fun k v s => s ++ [(k, v)]) [] = some [(1, 10), (2, 20)] ∧
      hashmap_iterator_make (World.init PList.Heap.empty PVector.Heap.empty) map =
        some (w1, iter) ∧
      iterator_value w1 iter = some 2 := by
  have hc : PHashmap.returns (PHashmap.run 15 [PHashmap.Op.assoc 1 10, PHashmap.Op.assoc 2 20]
      PHashmap.mod4_map) (fun map =>
      decide (PHashmap.hashmap_visit map (fun k v s => s ++ [(k, v)]) [] =
        some [(1, 10), (2, 20)]) &&
      PHashmap.returns (hashmap_iterator_make (World.init PList.Heap.empty PVector.Heap.empty)
        map) (fun r => decide (iterator_value r.1 r.2 = some 2))) = true := by decide!
  obtain ⟨map, hrun, hQ⟩ := PHashmap.exists_of_returns hc
  simp only [Bool.and_eq_true, decide_eq_true_eq] at hQ
  obtain ⟨r, hr, hv⟩ := PHashmap.exists_of_returns hQ.2
  simp only [decide_eq_true_eq] at hv
  exact ⟨map, r.1, r.2, hrun, hQ.1, hr, hv⟩

end PIterator

namespace PIterator

/-! ### Stepping an iterator twice -/

/-- C22 fails on the code for the iterators of a vector: on the vector
`[10, 11, 12]` let `it` be the iterator `vector_iterator_make` returns, with
`current = 0`.  The first `iterator_next(it)` returns an iterator at position 1
with the value 11 and leaves `it` with `current = 1`; the second
`iterator_next(it)` returns an iterator at position 2 with the value 12 and
leaves `it` with `current = 2`. -/
theorem vector_next_fn_mutates :
    ∃ w v w0 it w1 a w2 b, sample_vector = some (w, v) ∧
      vector_iterator_make w v = some (w0, it) ∧
      iterator_next w0 it = some (w1, a) ∧ iterator_next w1 it = some (w2, b) ∧
      (w0.iters it).map (fun i => i.current) = some 0 ∧
      (w1.iters it).map (fun i => i.current) = some 1 ∧
      (w2.iters it).map (fun i => i.current) = some 2 ∧
      iterator_value w1 a = some 11 ∧ (w1.iters a).map (fun i => i.current) = some 1 ∧
      iterator_value w2 b = some 12 ∧ (w2.iters b).map (fun i => i.current) = some 2 := by
  have hc : PHashmap.returns sample_vector (fun s =>
      PHashmap.returns (vector_iterator_make s.1 s.2) (fun r0 =>
        PHashmap.returns (iterator_next r0.1 r0.2) (fun r1 =>
          PHashmap.returns (iterator_next r1.1 r0.2) (fun r2 =>
            decide ((r0.1.iters r0.2).map (fun i => i.current) = some 0) &&
            decide ((r1.1.iters r0.2).map (fun i => i.current) = some 1) &&
            decide ((r2.1.iters r0.2).map (fun i => i.current) = some 2) &&
            decide (iterator_value r1.1 r1.2 = some 11) &&
            decide ((r1.1.iters r1.2).map (fun i => i.current) = some 1) &&
            decide (iterator_value r2.1 r2.2 = some 12) &&
            decide ((r2.1.iters r2.2).map (fun i => i.current) = some 2))))) = true := by
    decide!
  obtain ⟨s, hs, h0⟩ := PHashmap.exists_of_returns hc
  obtain ⟨r0, hr0, h1⟩ := PHashmap.exists_of_returns h0
  obtain ⟨r1, hr1, h2⟩ := PHashmap.exists_of_returns h1
  obtain ⟨r2, hr2, hQ⟩ := PHashmap.exists_of_returns h2
  simp only [Bool.and_eq_true, decide_eq_true_eq] at hQ
  exact ⟨s.1, s.2, r0.1, r0.2, r1.1, r1.2, r2.1, r2.2, hs, hr0, hr1, hr2, hQ.1.1.1.1.1.1,
    hQ.1.1.1.1.1.2, hQ.1.1.1.1.2, hQ.1.1.1.2, hQ.1.1.2, hQ.1.2, hQ.2⟩

/-- The iterators of a list and of a map are not altered by `iterator_next`:
the call leaves every iterator as it was, and a second call on the same
iterator returns `NULL` if the first did and otherwise an iterator at the same
position and with the same value as the first. -/
theorem chain_next_immutable {w w1 : World} (ok : WorldOK w) {iter r : Nat} {it : Iterator}
    (hit : w.iters iter = some it)
    (hfn : it.next_fn = NextFn.list_next_fn ∨ it.next_fn = NextFn.hashmap_next_fn)
    (hn : iterator_next w iter = some (w1, r)) :
    (∀ a, a < w.inext → w1.iters a = w.iters a) ∧ w1.iters iter = some it ∧
    ∃ w2 r2, iterator_next w1 iter = some (w2, r2) ∧ (r = NULL ↔ r2 = NULL) ∧
      (r ≠ NULL → iterator_value w2 r2 = iterator_value w1 r ∧
        (w2.iters r2).map (fun i => i.current) = (w1.iters r).map (fun i => i.current)) := by
  have hlt := (iters_lt_inext ok hit).2
  have hnext : ∀ v : World, v.iters iter = some it →
      iterator_next v iter = list_next_fn v iter ∧
      iterator_next v iter = hashmap_next_fn v iter := by
    intro v hv
    cases hp : v.pairs.mem it.current with
    | none =>
      rcases hfn with hfn | hfn <;>
        simp [iterator_next, hv, hfn, list_next_fn, hashmap_next_fn, hp]
    | some p =>
      by_cases hpn : p.next = NULL
      · have := chain_next_end hv hp hpn
        rcases hfn with hfn | hfn <;> simp [iterator_next, hv, hfn, this.1, this.2]
      · cases hq : v.pairs.mem p.next with
        | none =>
          rcases hfn with hfn | hfn <;>
            simp [iterator_next, hv, hfn, list_next_fn, hashmap_next_fn, hp, hpn,
              iterator_copy, iter_alloc, set_current, hq]
        | some q =>
          have e1 : list_next_fn v iter = hashmap_next_fn v iter := by
            simp [list_next_fn, hashmap_next_fn, hv, hp, hpn]
          rcases hfn with hfn | hfn <;> simp [iterator_next, hv, hfn, e1]
  rw [(hnext w hit).1] at hn
  cases hp : w.pairs.mem it.current with
  | none => simp [list_next_fn, hit, hp] at hn
  | some p =>
    by_cases hpn : p.next = NULL
    · rw [(chain_next_end hit hp hpn).1] at hn
      simp only [Option.some.injEq, Prod.mk.injEq] at hn
      obtain ⟨e1, e2⟩ := hn
      subst e1; subst e2
      refine ⟨fun _ _ => rfl, hit, w, NULL, ?_, Iff.rfl, fun h => absurd rfl h⟩
      rw [(hnext w hit).1]
      exact (chain_next_end hit hp hpn).1
    · cases hq : w.pairs.mem p.next with
      | none =>
        simp [list_next_fn, hit, hp, hpn, iterator_copy, iter_alloc, set_current, hq] at hn
      | some q =>
        obtain ⟨v1, e1, _, ok1, _, hp1, hi1, hnew1, hold1⟩ := chain_next_step ok hit hp hpn hq
        rw [e1] at hn
        simp only [Option.some.injEq, Prod.mk.injEq] at hn
        obtain ⟨ew, er⟩ := hn
        subst ew; subst er
        have hit1 : v1.iters iter = some it := by rw [hold1 iter (by omega)]; exact hit
        obtain ⟨v2, e2, _, ok2, _, _, _, hnew2, hold2⟩ := chain_next_step ok1 hit1
          (by rw [hp1]; exact hp) hpn (by rw [hp1]; exact hq)
        have h0 : w.inext ≠ NULL := by have := ok.2.1; unfold NULL; omega
        have h1 : v1.inext ≠ NULL := by have := ok1.2.1; unfold NULL; omega
        refine ⟨fun a ha => hold1 a (by omega), hit1, v2, v1.inext, ?_, ?_, fun _ => ?_⟩
        · rw [(hnext v1 hit1).1]; exact e2
        · exact ⟨fun h => absurd h h0, fun h => absurd h h1⟩
        · simp [iterator_value, hnew2, hnew1]

/-! ### Iteration of a vector -/

/-- C23 fails on the code: on the reachable vector of 1055 elements that
`full_trie_ops` followed by a push and two pops builds, block 0 of the trie is
`NULL`, and `vector_iterator_make` dereferences `NULL` in `vector_get(v, 0)`
instead of returning the first of 1055 iterators. -/
theorem vector_iterator_null_block :
    ∃ h v, PVector.Reach h v ∧ PVector.vector_count v = 1055 ∧
      PVector.vector_get h v 0 = none ∧
      vector_iterator_make (World.init PList.Heap.empty h) v = none := by
  have hc : PHashmap.returns (PVector.run_fresh (PVector.full_trie_ops ++
      [PVector.Op.push 2002, PVector.Op.pop, PVector.Op.pop])) (fun s =>
      decide (PVector.vector_count s.2 = 1055) && (PVector.vector_get s.1 s.2 0).isNone &&
      (vector_iterator_make (World.init PList.Heap.empty s.1) s.2).isNone) = true := by
    decide!
  obtain ⟨s, hs, hQ⟩ := PHashmap.exists_of_returns hc
  simp only [Bool.and_eq_true, decide_eq_true_eq, Option.isNone_iff_eq_none] at hQ
  exact ⟨s.1, s.2, PVector.reach_run_fresh hs, hQ.1.1, hQ.1.2, hQ.2⟩

end PIterator

namespace PHashmap

/-! ### The role of the value equality -/

/-- C40: let `key` be present in a reachable map (key equality an equivalence
relation that the hash respects) with the stored value `w`, so that
`hashmap_get` of `key` is `w`.  If `eq_val(w, val)` is true, `hashmap_assoc`
returns the map it was given, in which `key` is still bound to `w`, whether or
not `w` and `val` are the same value; if `eq_val(w, val)` is false it returns a
map in which `hashmap_get` of `key` is `val` and whose count is the count of
the input map. -/
theorem hashmap_assoc_eq_val {hashf : Nat → Nat} {eq_key eq_val : Nat → Nat → Bool}
    (ops : KeyOps hashf eq_key) {map : Hashmap} (hr : Reach hashf eq_key eq_val map)
    (key val : Nat) {c : Cell} (hc : c ∈ hashmap_entries map) (hk : eq_key c.key key = true)
    {fuel : Nat} (hf : 15 ≤ fuel) :
    hashmap_get map key = some c.val ∧
    (eq_val c.val val = true → hashmap_assoc fuel map key val = some map) ∧
    (eq_val c.val val = false →
      ∃ map1, hashmap_assoc fuel map key val = some map1 ∧
        hashmap_get map1 key = some val ∧ hashmap_count map1 = hashmap_count map) := by
  have hm := reach_wf ops hr
  have hp := hashmap_entries_pairwise ops hm
  obtain ⟨map1, h1, hm1, _, _⟩ := hashmap_assoc_spec ops hm key val hf
  obtain ⟨hin, _, hsame⟩ := hashmap_assoc_cases ops hm h1
  refine ⟨?_, fun hv => ?_, fun hv => ⟨map1, h1, ?_, ?_⟩⟩
  · rw [hashmap_get_find ops hm, find_val_mem ops hp hc hk]
  · rw [h1, hsame ⟨c, hc, hk, hv⟩]
  · obtain ⟨r, he, _, _⟩ := hashmap_assoc_entries ops hm h1
    have hp1 := hashmap_entries_pairwise ops hm1
    rw [hashmap_get_find ops hm1]
    rcases he with ⟨_, _, x, hxm, hxk, hxv⟩ | ⟨_, x, rest, _, _, _, hp2, _⟩ | ⟨_, hn, _⟩
    · exfalso
      have e1 := find_val_mem ops hp hxm hxk
      have e2 := find_val_mem ops hp hc hk
      rw [← e1, e2, hv] at hxv
      cases hxv
    · have hmem : ({ key := key, val := val, hash := hashf key % 2 ^ HASH_BITS } : Cell) ∈
          hashmap_entries map1 := hp2.mem_iff.mpr (List.mem_cons_self _ _)
      exact congrArg some (find_val_mem ops hp1 hmem (ops.refl key))
    · rw [hn c hc] at hk
      cases hk
  · unfold hashmap_count
    exact hin ⟨c, hc, by rw [hm.eq_key_eq]; exact hk⟩

/-- C40 on the map built by `digit_ops`, whose value equality equates 10 with
20 and separates 10 from 27: a further `assoc` of key 1 with 20 returns the same
map, where key 1 still has the value 10, and one with 27 rebinds the key. -/
theorem hashmap_assoc_eq_val_witness :
    KeyOps (fun k => k % 4) (fun a b => a == b) ∧
    ∃ map, run 15 digit_ops digit_map = some map ∧
      Reach (fun k => k % 4) (fun a b => a == b) (fun a b => a % 10 == b % 10) map ∧
      (Cell.mk 1 10 1) ∈ hashmap_entries map ∧
      hashmap_get map 1 = some 10 ∧
      hashmap_assoc 15 map 1 20 = some map ∧
      ∃ map1, hashmap_assoc 15 map 1 27 = some map1 ∧
        hashmap_get map1 1 = some 27 ∧ hashmap_count map1 = hashmap_count map := by
  have hc : returns (run 15 digit_ops digit_map)
      (fun map => (hashmap_entries map).any
        (fun c => c.key == 1 && c.val == 10 && c.hash == 1)) = true := by decide!
  obtain ⟨map, hm, hmem⟩ := exists_of_returns hc
  have hmem1 : Cell.mk 1 10 1 ∈ hashmap_entries map := by
    obtain ⟨c, hcm, hcp⟩ := List.any_eq_true.mp hmem
    obtain ⟨k, v, h⟩ := c
    simp only [Bool.and_eq_true, beq_iff_eq] at hcp
    obtain ⟨⟨rfl, rfl⟩, rfl⟩ := hcp
    exact hcm
  have hr : Reach (fun k => k % 4) (fun a b => a == b) (fun a b => a % 10 == b % 10) map :=
    hashmap_reach_run 15 digit_ops digit_map map (Reach.make _) hm
  have h20 := hashmap_assoc_eq_val mod4_keyOps hr 1 20 hmem1 (by decide) (Nat.le_refl 15)
  have h27 := hashmap_assoc_eq_val mod4_keyOps hr 1 27 hmem1 (by decide) (Nat.le_refl 15)
  exact ⟨mod4_keyOps, map, hm, hr, hmem1, h20.1, h20.2.1 (by decide), h27.2.2 (by decide)⟩

end PHashmap

namespace PVector

/-! ### The depth of the trie -/

/-- The `levels` field of the result of `vector_push`, read off the code: the
copy takes one more level exactly when the tail is flushed and the count is the
capacity `1 << (BITS * (levels + 1))`. -/
theorem push_levels_eq {h h1 : Heap} {v v1 : Vector} {x : Nat}
    (hp : vector_push h v x = some (h1, v1)) :
    v1.levels = if v.tail_count = WIDTH ∧ v.count = 1 <<< (BITS * (v.levels + 1))
      then v.levels + 1 else v.levels := by
  have hcopy : ∀ r, vector_copy h v = some r → r.2 = { v with head := r.2.head } := by
    intro r hc
    unfold vector_copy at hc
    simp only [Option.bind_eq_bind, Option.bind_eq_some, Option.some.injEq] at hc
    obtain ⟨a, _, rfl⟩ := hc
    rfl
  cases hc : vector_copy h v with
  | none =>
    unfold vector_push at hp
    simp only [hc, Option.bind_eq_bind, Option.none_bind] at hp
    cases hp
  | some r =>
    obtain ⟨h2, c⟩ := r
    have ec : c = { v with head := c.head } := hcopy _ hc
    have e1 : c.tail_count = v.tail_count := by rw [ec]
    have e2 : c.count = v.count := by rw [ec]
    have e3 : c.levels = v.levels := by rw [ec]
    unfold vector_push at hp
    simp only [hc, Option.bind_eq_bind, Option.some_bind] at hp
    by_cases htc : v.tail_count = WIDTH
    · rw [if_pos (e1.trans htc)] at hp
      cases ha : vector_append_tail h2 c with
      | none =>
        simp only [ha, Option.none_bind] at hp
        cases hp
      | some r2 =>
        obtain ⟨h3, c3⟩ := r2
        simp only [ha, Option.some_bind, Option.bind_eq_some] at hp
        obtain ⟨w0, _, e0⟩ := hp
        cases e0
        show c3.levels = _
        unfold vector_append_tail at ha
        by_cases hcap : v.count = 1 <<< (BITS * (v.levels + 1))
        · rw [if_pos ⟨htc, hcap⟩]
          rw [if_pos (by rw [e2, e3]; exact hcap)] at ha
          simp only [Option.bind_eq_bind, Option.bind_eq_some] at ha
          obtain ⟨w, _, a, ea, w2, _, ec3⟩ := ha
          cases ea
          cases ec3
          exact congrArg (· + 1) e3
        · rw [if_neg (fun x : _ ∧ _ => hcap x.2)]
          rw [if_neg (by rw [e2, e3]; exact hcap)] at ha
          simp only [Option.bind_eq_bind, Option.some_bind, Option.bind_eq_some] at ha
          obtain ⟨w2, _, ec3⟩ := ha
          cases ec3
          exact e3
    · rw [if_neg (fun x => htc (e1.symm.trans x))] at hp
      rw [if_neg (fun x : _ ∧ _ => htc x.1)]
      simp only [Option.some_bind, Option.bind_eq_some] at hp
      obtain ⟨w2, _, ec3⟩ := hp
      cases ec3
      exact e3

/-- C35: `vector_push` on a vector the API can produce returns, and the result
has `levels + 1` levels if the pushed-to vector has `tail_count = 32` and
`count = 32^(levels+1)` (the value of `1 << (BITS * (levels + 1))`), and
`levels` levels otherwise; and after the `n` pushes of the values `xs` onto
`vector_make()`, `n ≤ 2^30`, the field `levels` is the least `L ≥ 1` with
`n ≤ 32^(L+1)`, which is at most 5. -/
theorem vector_push_levels {h : Heap} {v : Vector} (hr : Reach h v) (x : Nat) (xs : List Nat)
    (hn : xs.length ≤ 2 ^ 30) :
    (∃ h1 v1, vector_push h v x = some (h1, v1) ∧
      1 <<< (BITS * (v.levels + 1)) = 32 ^ (v.levels + 1) ∧
      v1.levels = if v.tail_count = 32 ∧ v.count = 32 ^ (v.levels + 1)
        then v.levels + 1 else v.levels) ∧
    ∃ h2 v2, run_fresh (xs.map Op.push) = some (h2, v2) ∧
      1 ≤ v2.levels ∧ v2.levels ≤ 5 ∧ xs.length ≤ 32 ^ (v2.levels + 1) ∧
      ∀ L, 1 ≤ L → xs.length ≤ 32 ^ (L + 1) → v2.levels ≤ L := by
  have hW := WIDTH_eq
  constructor
  · obtain ⟨dep, inv⟩ := reach_inv hr
    obtain ⟨h1, v1, _, hp, _⟩ := vector_push_spec inv x
    have hl := push_levels_eq hp
    rw [capacity_eq, hW] at hl
    refine ⟨h1, v1, hp, ?_, hl⟩
    rw [capacity_eq, hW]
  · obtain ⟨lab, inv, hc0⟩ := vector_make_push (fun i => xs.getD i 0)
    obtain ⟨h1, v1, B1, lab1, hrun, inv1, hc1, ht1⟩ := run_push (fun i => xs.getD i 0) xs.length
      _ _ _ _ inv
    rw [hc0] at hrun hc1
    rw [Nat.zero_add] at hc1
    have hcnt := inv1.count_eq
    have htc := inv1.tc_le
    have hcap := inv1.cap
    have hpos := inv1.levels_pos
    rw [hW] at hcnt htc hcap
    have hmin : ∀ L, 1 ≤ L → xs.length ≤ 32 ^ (L + 1) → v1.levels ≤ L := by
      intro L hL hle
      rcases inv1.grown with e | e
      · omega
      · rw [hW] at e
        by_contra hgt
        have h6 : 32 ^ (L + 1) ≤ 32 ^ v1.levels := Nat.pow_le_pow_right (by decide) (by omega)
        by_cases h0 : xs.length = 0
        · have := Nat.pos_pow_of_pos v1.levels (show 0 < 32 by decide)
          omega
        · have := ht1 (by omega)
          omega
    refine ⟨h1, v1, ?_, hpos, ?_, ?_, hmin⟩
    · rw [run_fresh, map_push_eq]
      exact hrun
    · exact hmin 5 (by decide) (le_trans hn (by decide))
    · have e : 32 ^ (v1.levels + 1) = 32 * 32 ^ v1.levels := by rw [Nat.pow_succ, Nat.mul_comm]
      omega

/-- C35 at the vector of the 1024 pushes of `0 .. 1023`, which has one level,
a full tail and `count = 32^2`, so that the next push gives two levels; and
for the 1025 pushes of `0 .. 1024`. -/
theorem vector_push_levels_witness :
    ∃ s, run_fresh ((List.range 1024).map Op.push) = some s ∧ Reach s.1 s.2 ∧
      (List.range 1025).length ≤ 2 ^ 30 ∧
      s.2.levels = 1 ∧ s.2.tail_count = 32 ∧ s.2.count = 32 ^ 2 ∧
      (∃ h1 v1, vector_push s.1 s.2 7 = some (h1, v1) ∧
        1 <<< (BITS * (s.2.levels + 1)) = 32 ^ (s.2.levels + 1) ∧
        v1.levels = if s.2.tail_count = 32 ∧ s.2.count = 32 ^ (s.2.levels + 1)
          then s.2.levels + 1 else s.2.levels) ∧
      ∃ h2 v2, run_fresh ((List.range 1025).map Op.push) = some (h2, v2) ∧
        1 ≤ v2.levels ∧ v2.levels ≤ 5 ∧ (List.range 1025).length ≤ 32 ^ (v2.levels + 1) ∧
        ∀ L, 1 ≤ L → (List.range 1025).length ≤ 32 ^ (L + 1) → v2.levels ≤ L := by
  have hc : PHashmap.returns (run_fresh ((List.range 1024).map Op.push)) (fun s =>
      s.2.levels == 1 && s.2.tail_count == 32 && s.2.count == 32 ^ 2) = true := by decide!
  obtain ⟨s, hs, hp⟩ := PHashmap.exists_of_returns hc
  simp only [Bool.and_eq_true, beq_iff_eq] at hp
  have hlen : (List.range 1025).length ≤ 2 ^ 30 := by
    rw [List.length_range]
    decide
  have hreach := reach_run_fresh hs
  have ht := vector_push_levels hreach 7 (List.range 1025) hlen
  exact ⟨s, hs, hreach, hlen, hp.1.1, hp.1.2, hp.2, ht.1, ht.2⟩

end PVector

namespace PVector

/-! ### The count and the blocks of the trie -/

/-- C32 fails on the code: the vector built by `full_trie_ops` has one level,
`count = 1056`, `tail_count = 32` and 32 blocks in its trie, so that
`count = 32 * 32 + tail_count`; the push of one more value returns a vector
with one level, `count = 1057`, `tail_count = 1` and still 32 blocks in its
trie, where `32 * 32 + 1 = 1025` is not the count.  The bounds
`tail_count ≤ 32` and `levels ≥ 1` hold in both. -/
theorem vector_count_not_blocks :
    PHashmap.returns (run_fresh full_trie_ops) (fun s =>
      s.2.levels == 1 && s.2.count == 1056 && s.2.tail_count == 32 &&
      leaf_blocks s.1 s.2.levels s.2.head == some 32 &&
      decide (s.2.count = 32 * 32 + s.2.tail_count)) = true ∧
    PHashmap.returns (run_fresh (full_trie_ops ++ [Op.push 2002])) (fun s =>
      s.2.levels == 1 && s.2.count == 1057 && s.2.tail_count == 1 &&
      leaf_blocks s.1 s.2.levels s.2.head == some 32 &&
      decide (s.2.count ≠ 32 * 32 + s.2.tail_count)) = true := by
  constructor <;> decide!

end PVector

namespace PHashmap

/-! ### The hashes of a collision chain -/

/-- C33 fails on the code: `hash_collision_assoc` does not compare the hash it
is given with the hash of the chain.  In the map with the hash `key mod 64`
the calls `assoc 2`, `assoc 1`, `assoc 65` leave a bitmap-indexed root whose
child for slot 1 is the chain of the keys 65 and 1, both of hash 1; the call
`assoc 33`, whose hash 33 has the slot 1 at level 0, is routed to that chain
and extends it, so that the chain holds the hashes 33, 1, 1.  In the map with
the hash `key mod 4` the calls `assoc 1`, `assoc 5` make the root a chain, and
`assoc 2` extends it with a cell of hash 2. -/
theorem hash_collision_assoc_mixes_hashes :
    returns (run 15 mod64_ops mod64_map) (fun map =>
      match map.root with
      | some (.bitmap_indexed bitmap [c1, c2]) =>
        bitmap == 6 && chain_hashes c1 == some [(33, 33), (65, 1), (1, 1)] &&
          chain_hashes c2 == none
      | _ => false) = true ∧
    returns (run 15 [.assoc 1 10, .assoc 5 50, .assoc 2 20] mod4_map) (fun map =>
      match map.root with
      | some root => chain_hashes root == some [(2, 2), (5, 1), (1, 1)]
      | none => false) = true := by
  constructor <;> decide!

end PHashmap

namespace PHashmapMem

open PHashmap (NULL UNCHANGED ADDED UPDATED REMOVED HASH_BITS popcount mask bitpos bit_index)

/-! ### The copies of the insert path -/

/-- The insert branch of `bitmap_indexed_assoc` is `bitmap_indexed_insert` over
the `memcpy` of the model, which copies the entries that exist in both
arrays. -/
theorem bitmap_indexed_assoc_insert (assoc : Heap → Nat → Nat → Option (Heap × Nat × Nat))
    (h : Heap) (self level key val hash : Nat) {bitmap : Nat}
    (hb : get_bitmap h self = some bitmap) (hbit : bitmap &&& bitpos hash level = 0) :
    bitmap_indexed_assoc assoc h self level key val hash =
      bitmap_indexed_insert memcpy h self level key val hash := by
  unfold bitmap_indexed_assoc bitmap_indexed_insert
  simp only [hb, Option.bind_eq_bind, Option.some_bind]
  rw [if_neg (by rw [hbit]; exact fun x => x rfl)]

/-- The second copy of the insert path asks for one entry more than either
array holds.  Let `self` be a bitmap-indexed node whose child array has the
`popcount(bitmap)` entries of its children, and let the bit of the key be
clear in the bitmap.  The first `memcpy` is within both arrays, and the second
one, of `nodes - idx` entries with `nodes = popcount(bitmap) + 1`, reads the
source array up to the index `popcount(bitmap)` and writes the destination
array up to the index `popcount(bitmap) + 1`, one entry past the end of each;
with the bounds checked the branch fails. -/
theorem bitmap_indexed_insert_overrun {h : Heap} (ok : HeapOK h) {self bitmap children : Nat}
    {slots : List Nat} (hs : h.mem self = some (.bitmap_indexed bitmap children))
    (hc : h.mem children = some (.children slots)) (hlen : slots.length = popcount bitmap)
    (level key val hash : Nat) (hbit : bitmap.testBit (mask hash level) = false) :
    bitmap_indexed_insert memcpy_checked h self level key val hash = none := by
  have hm5 : mask hash level < 32 := by
    unfold mask
    exact Nat.lt_of_le_of_lt Nat.and_le_right (by decide)
  have hsl := mem_lt_next ok hs
  have hcl := mem_lt_next ok hc
  have hnodes : popcount (bitmap ||| bitpos hash level) = popcount bitmap + 1 := by
    rw [PHashmap.bitpos_eq, PHashmap.popcount_eq_rank, PHashmap.rank_or bitmap _ hbit,
      if_pos hm5, ← PHashmap.popcount_eq_rank]
  have hidx : bit_index bitmap (bitpos hash level) ≤ popcount bitmap := by
    rw [PHashmap.bitpos_eq, PHashmap.bit_index_eq_rank bitmap (Nat.le_of_lt hm5),
      PHashmap.popcount_eq_rank]
    exact PHashmap.rank_mono bitmap (Nat.le_of_lt hm5)
  generalize hi : bit_index bitmap (bitpos hash level) = idx at hidx
  have e1 : get_bitmap h self = some bitmap := by
    unfold get_bitmap
    rw [hs]
  have e2 : copy_bitmap_indexed_node h self = some (alloc h (.bitmap_indexed bitmap children)) := by
    unfold copy_bitmap_indexed_node
    rw [hs]
  unfold bitmap_indexed_insert
  simp only [e1, e2, Option.bind_eq_bind, Option.some_bind, hi]
  have e3 : get_bitmap (alloc h (.bitmap_indexed bitmap children)).1
      (alloc h (.bitmap_indexed bitmap children)).2 = some bitmap := by
    unfold get_bitmap
    rw [alloc_snd, alloc_mem, if_pos rfl]
  simp only [e3, Option.some_bind]
  have e4 : set_bitmap (alloc h (.bitmap_indexed bitmap children)).1
      (alloc h (.bitmap_indexed bitmap children)).2 (bitmap ||| bitpos hash level) =
      some (write (alloc h (.bitmap_indexed bitmap children)).1 h.next
        (.bitmap_indexed (bitmap ||| bitpos hash level) children)) := by
    unfold set_bitmap
    rw [alloc_snd, alloc_mem, if_pos rfl]
  simp only [e4, Option.some_bind]
  generalize hh2 : write (alloc h (.bitmap_indexed bitmap children)).1 h.next
    (.bitmap_indexed (bitmap ||| bitpos hash level) children) = h2
  have m2 : ∀ a, h2.mem a = if a = h.next then
      some (.bitmap_indexed (bitmap ||| bitpos hash level) children) else h.mem a := by
    intro a
    rw [← hh2, write_mem, alloc_mem]
    by_cases ha : a = h.next <;> simp [ha]
  have n2 : h2.next = h.next + 1 := by
    rw [← hh2, write_next, alloc_next]
  have e5 : get_bitmap h2 h.next = some (bitmap ||| bitpos hash level) := by
    unfold get_bitmap
    rw [m2, if_pos rfl]
  simp only [alloc_snd, e5, Option.some_bind, hnodes]
  unfold GC_MALLOC
  generalize hh3 : (alloc h2 (.children (List.replicate (popcount bitmap + 1) NULL))).1 = h3
  have a3 : (alloc h2 (.children (List.replicate (popcount bitmap + 1) NULL))).2 = h.next + 1 := by
    rw [alloc_snd, n2]
  rw [a3]
  have m3 : ∀ a, h3.mem a = if a = h.next + 1 then
      some (.children (List.replicate (popcount bitmap + 1) NULL)) else h2.mem a := by
    intro a
    rw [← hh3, alloc_mem, n2]
  have e6 : set_children h3 h.next (h.next + 1) = some (write h3 h.next
      (.bitmap_indexed (bitmap ||| bitpos hash level) (h.next + 1))) := by
    unfold set_children
    rw [m3, if_neg (by omega), m2, if_pos rfl]
  simp only [e6, Option.some_bind]
  generalize hh4 : write h3 h.next
    (.bitmap_indexed (bitmap ||| bitpos hash level) (h.next + 1)) = h4
  have m4 : ∀ a, h4.mem a = if a = h.next then
      some (.bitmap_indexed (bitmap ||| bitpos hash level) (h.next + 1)) else h3.mem a := by
    intro a
    rw [← hh4, write_mem]
  have e7 : get_children h4 h.next = some (h.next + 1) := by
    unfold get_children
    rw [m4, if_pos rfl]
  have e8 : get_children h4 self = some children := by
    unfold get_children
    rw [m4, if_neg (by omega), m3, if_neg (by omega), m2, if_neg (by omega), hs]
  simp only [e7, e8, Option.some_bind]
  have m4a : h4.mem (h.next + 1) =
      some (.children (List.replicate (popcount bitmap + 1) NULL)) := by
    rw [m4, if_neg (by omega), m3, if_pos rfl]
  have m4c : h4.mem children = some (.children slots) := by
    rw [m4, if_neg (by omega), m3, if_neg (by omega), m2, if_neg (by omega), hc]
  have e9 : memcpy_checked h4 (h.next + 1) 0 children 0 idx = some (write h4 (h.next + 1)
      (.children (copy_slots (List.replicate (popcount bitmap + 1) NULL) 0 slots 0 idx))) := by
    unfold memcpy_checked
    rw [m4a, m4c]
    simp only
    rw [if_pos]
    rw [List.length_replicate, hlen]
    omega
  simp only [e9, Option.some_bind]
  generalize hh5 : write h4 (h.next + 1)
    (.children (copy_slots (List.replicate (popcount bitmap + 1) NULL) 0 slots 0 idx)) = h5
  have m5a : h5.mem (h.next + 1) = some (.children
      (copy_slots (List.replicate (popcount bitmap + 1) NULL) 0 slots 0 idx)) := by
    rw [← hh5, write_mem, if_pos rfl]
  have m5c : h5.mem children = some (.children slots) := by
    rw [← hh5, write_mem, if_neg (by omega), m4c]
  have e10 : memcpy_checked h5 (h.next + 1) (idx + 1) children idx (popcount bitmap + 1 - idx) =
      none := by
    unfold memcpy_checked
    rw [m5a, m5c]
    simp only
    rw [if_neg]
    rw [copy_slots_length, List.length_replicate, hlen]
    omega
  simp only [e10, Option.none_bind]

/-- C37 fails on the code: in the heap model of the map with the hash
`key mod 4`, after `assoc` of the keys 0 and 1 the root is a bitmap-indexed
node with the bitmap 3 and a child array of 2 entries.  The `assoc` of the key
2 takes the insert path with `idx = 2` and `nodes = 3`: its second `memcpy`
copies `nodes - idx = 1` entry from `&node->children[2]` to
`&new->children[3]`, where the source array has the entries 0..1 and the
destination array the entries 0..2.  With the bounds of the arrays checked the
call fails; the model that ignores what lies past the arrays returns.  On
arrays of these lengths the first copy, of `idx = 2` entries from index 0 to
index 0, is within bounds and the second is not. -/
theorem bitmap_indexed_assoc_copies_past_end :
    PHashmap.returns (run 15 [.assoc 0 1, .assoc 1 10] mod4_map) (fun s =>
      match get_root s.1 s.2 with
      | some root =>
        get_bitmap s.1 root == some 3 &&
        ((get_children s.1 root).bind (array_length s.1)) == some 2 &&
        bit_index 3 (bitpos 2 0) == 2 &&
        (bitmap_indexed_insert memcpy s.1 root 0 2 20 2).isSome &&
        (bitmap_indexed_insert memcpy_checked s.1 root 0 2 20 2).isNone
      | none => false) = true ∧
    (memcpy_checked (write (write Heap.empty 1 (.children [7, 8])) 2 (.children [0, 0, 0]))
      2 0 1 0 2).isSome = true ∧
    (memcpy_checked (write (write Heap.empty 1 (.children [7, 8])) 2 (.children [0, 0, 0]))
      2 3 1 2 (3 - 2)).isNone = true := by
  refine ⟨by decide!, by decide!, by decide!⟩

end PHashmapMem

namespace PHashmap

/-! ### Splitting a leaf -/

/-- Two different 32-bit hashes that agree below level `L` have a first level
from `L` on at which their slices differ, and it is at most 6. -/
theorem first_diff {a b : Nat} (ha : a < 2 ^ HASH_BITS) (hb : b < 2 ^ HASH_BITS) (hne : a ≠ b) :
    ∀ (d L : Nat), L + d = 7 → agree L a b →
      ∃ n, L + n ≤ 6 ∧ mask a (L + n) ≠ mask b (L + n) ∧
        ∀ l, L ≤ l → l < L + n → mask a l = mask b l := by
  intro d
  induction d with
  | zero =>
    intro L hL hag
    have := level_le_of_ne ha hb hag hne
    omega
  | succ d ih =>
    intro L hL hag
    by_cases hm : mask a L = mask b L
    · obtain ⟨n, h1, h2, h3⟩ := ih (L + 1) (by omega) (agree_succ hag hm)
      refine ⟨n + 1, by omega, ?_, fun l hl1 hl2 => ?_⟩
      · rw [show L + (n + 1) = L + 1 + n by omega]
        exact h2
      · rcases Nat.eq_or_lt_of_le hl1 with e | e
        · rw [← e]
          exact hm
        · exact h3 l (by omega) (by omega)
    · exact ⟨0, by omega, hm, fun l hl1 hl2 => by omega⟩

theorem bitpos_ne_iff (a b level : Nat) :
    bitpos a level ≠ bitpos b level ↔ mask a level ≠ mask b level := by
  rw [bitpos_eq, bitpos_eq]
  constructor
  · intro h e
    exact h (by rw [e])
  · intro h e
    exact h (Nat.pow_right_injective (Nat.le_refl 2) e)

/-- The two-child node that `leaf_assoc` builds where the slices differ. -/
theorem leaf_assoc_two (assoc : Node → Nat → Option (Node × Nat)) (k v h level key val hash : Nat)
    (eq_key eq_val : Nat → Nat → Bool) (hne : h ≠ hash)
    (hm : mask h level ≠ mask hash level) :
    leaf_assoc assoc k v h level key val hash eq_key eq_val =
      some (split_node k v h key val hash 0 level, ADDED) := by
  unfold leaf_assoc
  rw [if_pos hne]
  simp only
  rw [if_pos ((bitpos_ne_iff h hash level).mpr hm), leaf_split_eq k v h key val hash level hm]
  have hz : (0 : Nat).testBit (mask h level) = false := Nat.zero_testBit _
  rw [rank_or 0 _ hz, rank_zero_bitmap]
  unfold split_node
  rw [bitpos_eq, bitpos_eq, Nat.zero_or]
  by_cases hlt : mask h level < mask hash level
  · simp [hlt]
  · simp [hlt]

/-- One step of the recursion where the slices are equal: `bitmap_indexed_assoc`
on the single-child parent descends into its child, the leaf, one level down,
and puts the result of that call in a copy of the parent. -/
theorem single_parent_assoc (assoc : Node → Nat → Option (Node × Nat))
    (k v h level key val hash : Nat) (hm : mask h level = mask hash level) {new : Node} {r : Nat}
    (ha : assoc (.leaf k v h) (level + 1) = some (new, r)) (hr : r ≠ UNCHANGED) :
    bitmap_indexed_assoc assoc (0 ||| bitpos h level) [.leaf k v h] level key val hash =
      some (.bitmap_indexed (bitpos h level) [new], r) := by
  have hs := mask_lt h level
  have hz : (0 : Nat).testBit (mask h level) = false := Nat.zero_testBit _
  have hbit : (0 ||| bitpos h level) &&& bitpos hash level ≠ 0 := by
    rw [bitpos_eq, bitpos_eq, ← hm, and_two_pow_ne_zero, testBit_or_two_pow]
    simp
  have hidx : bit_index (0 ||| bitpos h level) (bitpos hash level) = 0 := by
    rw [bitpos_eq, bitpos_eq, ← hm, bit_index_eq_rank _ (Nat.le_of_lt hs), rank_or 0 _ hz,
      rank_zero_bitmap, if_neg (Nat.lt_irrefl _)]
  have hpop : popcount (0 ||| bitpos h level) = 1 := by
    rw [bitpos_eq, popcount_eq_rank, rank_or 0 _ hz, rank_zero_bitmap, if_pos hs]
  unfold bitmap_indexed_assoc
  simp only [hidx]
  rw [if_pos hbit]
  simp only [List.getElem?_cons_zero, ha]
  rw [if_pos hr, hpop, Nat.zero_or]
  rfl

/-- The recursion of `leaf_assoc` on two hashes whose slices are equal at the
`n` levels from `level` on and differ at level `level + n`. -/
theorem node_assoc_leaf_split (k v h key val hash : Nat) (eq_key eq_val : Nat → Nat → Bool)
    (hne : h ≠ hash) :
    ∀ (n level fuel : Nat), (∀ l, level ≤ l → l < level + n → mask h l = mask hash l) →
      mask h (level + n) ≠ mask hash (level + n) → 2 * n + 1 ≤ fuel →
      node_assoc key val hash eq_key eq_val fuel (.leaf k v h) level =
        some (split_node k v h key val hash n level, ADDED) := by
  intro n
  induction n with
  | zero =>
    intro level fuel _ hd hf
    obtain ⟨f, rfl⟩ : ∃ f, fuel = f + 1 := ⟨fuel - 1, by omega⟩
    rw [node_assoc]
    exact leaf_assoc_two _ k v h level key val hash eq_key eq_val hne hd
  | succ n ih =>
    intro level fuel heq hd hf
    obtain ⟨f, rfl⟩ : ∃ f, fuel = f + 2 := ⟨fuel - 2, by omega⟩
    have hm : mask h level = mask hash level := heq level (Nat.le_refl _) (by omega)
    have hrec := ih (level + 1) f (fun l h1 h2 => heq l (by omega) (by omega))
      (by rw [show level + 1 + n = level + (n + 1) by omega]; exact hd) (by omega)
    rw [node_assoc]
    unfold leaf_assoc
    rw [if_pos hne]
    simp only
    rw [if_neg (fun x => (bitpos_ne_iff h hash level).mp x hm), node_assoc,
      single_parent_assoc _ k v h level key val hash hm hrec (by decide)]
    rfl

/-- The same recursion with the shift counts checked: every slice is taken at
a level of at most `level + n`. -/
theorem node_assoc_checked_leaf_split (k v h key val hash : Nat)
    (eq_key eq_val : Nat → Nat → Bool) (hne : h ≠ hash) :
    ∀ (n level fuel : Nat), (∀ l, level ≤ l → l < level + n → mask h l = mask hash l) →
      mask h (level + n) ≠ mask hash (level + n) → level + n ≤ 6 → 2 * n + 1 ≤ fuel →
      node_assoc_checked key val hash eq_key eq_val fuel (.leaf k v h) level =
        some (split_node k v h key val hash n level, ADDED) := by
  intro n
  induction n with
  | zero =>
    intro level fuel _ hd hl hf
    obtain ⟨f, rfl⟩ : ∃ f, fuel = f + 1 := ⟨fuel - 1, by omega⟩
    rw [node_assoc_checked, if_neg (by unfold HASH_BITS BITS_PER_LEVEL; omega)]
    exact leaf_assoc_two _ k v h level key val hash eq_key eq_val hne hd
  | succ n ih =>
    intro level fuel heq hd hl hf
    obtain ⟨f, rfl⟩ : ∃ f, fuel = f + 2 := ⟨fuel - 2, by omega⟩
    have hm : mask h level = mask hash level := heq level (Nat.le_refl _) (by omega)
    have hrec := ih (level + 1) f (fun l h1 h2 => heq l (by omega) (by omega))
      (by rw [show level + 1 + n = level + (n + 1) by omega]; exact hd) (by omega) (by omega)
    rw [node_assoc_checked, if_neg (by unfold HASH_BITS BITS_PER_LEVEL; omega)]
    unfold leaf_assoc
    rw [if_pos hne]
    simp only
    rw [if_neg (fun x => (bitpos_ne_iff h hash level).mp x hm), node_assoc_checked,
      if_neg (by unfold HASH_BITS BITS_PER_LEVEL; omega),
      single_parent_assoc _ k v h level key val hash hm hrec (by decide)]
    rfl

/-- C36: let `leaf_assoc` be called at level `L` on the leaf `(k, v, h)` with
a key of another hash, both hashes 32-bit values with the same slices below
`L` (as in every call that the API makes).  There is a first level `M ≥ L` at
which the slices of the two hashes differ, and `M ≤ 6`.  Given fuel for
`2 * (M - L) + 1` nested calls, the call returns the status `ADDED` and
`M - L` bitmap-indexed nodes with one child each above a bitmap-indexed node
with the two leaves as children; and it returns the same with the shift count
of every `mask` checked, so that no slice is taken at level 7 or above. -/
theorem leaf_assoc_split (k v h key val hash L : Nat) (eq_key eq_val : Nat → Nat → Bool)
    (hh : h < 2 ^ HASH_BITS) (hhash : hash < 2 ^ HASH_BITS) (hne : h ≠ hash)
    (hag : agree L h hash) :
    ∃ M, L ≤ M ∧ M ≤ 6 ∧ mask h M ≠ mask hash M ∧
      (∀ l, L ≤ l → l < M → mask h l = mask hash l) ∧
      ∀ fuel, 2 * (M - L) + 1 ≤ fuel →
        node_assoc key val hash eq_key eq_val fuel (.leaf k v h) L =
          some (split_node k v h key val hash (M - L) L, ADDED) ∧
        node_assoc_checked key val hash eq_key eq_val fuel (.leaf k v h) L =
          some (split_node k v h key val hash (M - L) L, ADDED) := by
  have hL := level_le_of_ne hh hhash hag hne
  obtain ⟨n, h1, h2, h3⟩ := first_diff hh hhash hne (7 - L) L (by omega) hag
  refine ⟨L + n, by omega, h1, h2, h3, fun fuel hf => ?_⟩
  rw [Nat.add_sub_cancel_left] at hf ⊢
  exact ⟨node_assoc_leaf_split k v h key val hash eq_key eq_val hne n L fuel h3 h2 hf,
    node_assoc_checked_leaf_split k v h key val hash eq_key eq_val hne n L fuel h3 h2 h1 hf⟩

/-- C36 at level 0 for the hashes 1 and 1 + 2^10, whose slices are equal at the
levels 0 and 1 and differ at level 2. -/
theorem leaf_assoc_split_witness :
    (1 : Nat) < 2 ^ HASH_BITS ∧ 1025 < 2 ^ HASH_BITS ∧ (1 : Nat) ≠ 1025 ∧ agree 0 1 1025 ∧
    ∃ M, 0 ≤ M ∧ M ≤ 6 ∧ mask 1 M ≠ mask 1025 M ∧
      (∀ l, 0 ≤ l → l < M → mask 1 l = mask 1025 l) ∧
      ∀ fuel, 2 * (M - 0) + 1 ≤ fuel →
        node_assoc 1025 20 1025 (fun a b => a == b) (fun a b => a == b) fuel (.leaf 1 10 1) 0 =
          some (split_node 1 10 1 1025 20 1025 (M - 0) 0, ADDED) ∧
        node_assoc_checked 1025 20 1025 (fun a b => a == b) (fun a b => a == b) fuel
            (.leaf 1 10 1) 0 =
          some (split_node 1 10 1 1025 20 1025 (M - 0) 0, ADDED) :=
  ⟨by decide, by decide, by decide, fun _ hj => absurd hj (Nat.not_lt_zero _),
    leaf_assoc_split 1 10 1 1025 20 1025 0 (fun a b => a == b) (fun a b => a == b) (by decide)
      (by decide) (by decide) (fun _ hj => absurd hj (Nat.not_lt_zero _))⟩

end PHashmap

namespace PHashmap

/-! ### Non-empty nodes -/

theorem bitpos_ne_zero (hash level : Nat) : bitpos hash level ≠ 0 := by
  rw [bitpos_eq]
  exact Nat.pos_iff_ne_zero.mp (Nat.pos_pow_of_pos _ (by decide))

theorem or_bitpos_ne_zero (bitmap hash level : Nat) : bitmap ||| bitpos hash level ≠ 0 := by
  intro h
  have h1 := testBit_or_two_pow bitmap (mask hash level) (mask hash level)
  rw [← bitpos_eq, h, Nat.zero_testBit] at h1
  simp at h1

theorem solid_of_getElem? {bitmap : Nat} {children : List Node}
    (hs : Solid (.bitmap_indexed bitmap children)) {i : Nat} {c : Node}
    (hi : children[i]? = some c) : Solid c := by
  cases hs with
  | bitmap_indexed hb hc => exact hc c (List.getElem?_mem hi)

/-- `hash_collision_assoc` returns a chain with at least as many cells. -/
theorem hash_collision_assoc_solid (cells : List Cell) (key val hash : Nat)
    (eq_key eq_val : Nat → Nat → Bool) (h2 : 2 ≤ cells.length) :
    Solid (hash_collision_assoc cells key val hash eq_key eq_val).1 := by
  obtain ⟨hsplit, _, _⟩ := chain_find_spec eq_key key cells
  unfold hash_collision_assoc
  cases hfind : chain_find eq_key key cells with
  | mk pre suf =>
  rw [hfind] at hsplit
  simp only at hsplit
  cases suf with
  | nil =>
    simp only
    exact Solid.hash_collision (by simp only [List.length_cons]; omega)
  | cons node next =>
    simp only
    have hl : cells.length = pre.length + (next.length + 1) := by
      rw [hsplit, List.length_append, List.length_cons]
    by_cases hc : (eq_key node.key key && eq_val node.val val) = true
    · rw [if_pos hc]
      exact Solid.hash_collision h2
    · rw [if_neg hc]
      cases pre with
      | nil =>
        simp only
        refine Solid.hash_collision ?_
        simp only [List.length_cons, List.length_nil] at hl ⊢
        omega
      | cons x xs =>
        simp only
        refine Solid.hash_collision ?_
        rw [chain_copy_eq]
        simp only [List.length_append, List.length_reverse, List.length_cons] at hl ⊢
        omega

/-- `node_assoc` keeps chains at two cells or more and bitmaps non-zero. -/
theorem node_assoc_solid (key val hash : Nat) (eq_key eq_val : Nat → Nat → Bool) :
    ∀ (fuel : Nat) (n : Node) (level : Nat) (n1 : Node) (r : Nat), Solid n →
      node_assoc key val hash eq_key eq_val fuel n level = some (n1, r) → Solid n1 := by
  intro fuel
  induction fuel with
  | zero =>
    intro n level n1 r _ h
    rw [node_assoc] at h
    cases h
  | succ fuel ih =>
    intro n level n1 r hs h
    cases n with
    | leaf k v h0 =>
      rw [node_assoc] at h
      unfold leaf_assoc at h
      by_cases hne : h0 ≠ hash
      · rw [if_pos hne] at h
        simp only at h
        by_cases hb : bitpos h0 level ≠ bitpos hash level
        · rw [if_pos hb, leaf_split_eq k v h0 key val hash level
            ((bitpos_ne_iff h0 hash level).mp hb)] at h
          simp only [Option.some.injEq, Prod.mk.injEq] at h
          rw [← h.1]
          refine Solid.bitmap_indexed ?_ ?_
          · rw [← bitpos_eq hash level]
            exact or_bitpos_ne_zero _ hash level
          · intro c hc
            rcases List.mem_append.mp hc with h1 | h1
            · have := List.mem_of_mem_take h1
              rw [List.mem_singleton] at this
              rw [this]
              exact Solid.leaf _ _ _
            · rcases List.mem_cons.mp h1 with h2 | h2
              · rw [h2]
                exact Solid.leaf _ _ _
              · have := List.mem_of_mem_drop h2
                rw [List.mem_singleton] at this
                rw [this]
                exact Solid.leaf _ _ _
        · rw [if_neg hb] at h
          refine ih _ level n1 r (Solid.bitmap_indexed ?_ ?_) h
          · exact or_bitpos_ne_zero 0 h0 level
          · intro c hc
            rw [List.mem_singleton] at hc
            rw [hc]
            exact Solid.leaf _ _ _
      · rw [if_neg hne] at h
        by_cases h1 : (eq_key k key && eq_val v val) = true
        · rw [if_pos h1] at h
          simp only [Option.some.injEq, Prod.mk.injEq] at h
          rw [← h.1]
          exact Solid.leaf _ _ _
        · rw [if_neg h1] at h
          by_cases h2 : eq_key k key = true
          · rw [if_pos h2] at h
            simp only [Option.some.injEq, Prod.mk.injEq] at h
            rw [← h.1]
            exact Solid.leaf _ _ _
          · rw [if_neg h2] at h
            simp only [Option.some.injEq, Prod.mk.injEq] at h
            rw [← h.1]
            exact Solid.hash_collision (Nat.le_refl 2)
    | bitmap_indexed bitmap children =>
      rw [node_assoc] at h
      unfold bitmap_indexed_assoc at h
      simp only at h
      cases hs with
      | bitmap_indexed hb0 hch =>
      by_cases hbit : bitmap &&& bitpos hash level ≠ 0
      · rw [if_pos hbit] at h
        cases hc : children[bit_index bitmap (bitpos hash level)]? with
        | none =>
          rw [hc] at h
          cases h
        | some child =>
          rw [hc] at h
          simp only at h
          cases ha : node_assoc key val hash eq_key eq_val fuel child (level + 1) with
          | none =>
            rw [ha] at h
            cases h
          | some res =>
            obtain ⟨new, result⟩ := res
            rw [ha] at h
            simp only at h
            have hnew := ih child (level + 1) new result (hch child (List.getElem?_mem hc)) ha
            by_cases hr : result ≠ UNCHANGED
            · rw [if_pos hr] at h
              simp only [Option.some.injEq, Prod.mk.injEq] at h
              rw [← h.1]
              refine Solid.bitmap_indexed hb0 (fun c hcm => ?_)
              rcases List.mem_or_eq_of_mem_set hcm with h1 | h1
              · exact hch c (List.mem_of_mem_take h1)
              · rw [h1]
                exact hnew
            · rw [if_neg hr] at h
              simp only [Option.some.injEq, Prod.mk.injEq] at h
              rw [← h.1]
              exact Solid.bitmap_indexed hb0 hch
      · rw [if_neg hbit] at h
        simp only [Option.some.injEq, Prod.mk.injEq] at h
        rw [← h.1]
        refine Solid.bitmap_indexed (or_bitpos_ne_zero _ hash level) (fun c hcm => ?_)
        rcases List.mem_append.mp hcm with h1 | h1
        · exact hch c (List.mem_of_mem_take h1)
        · rcases List.mem_cons.mp h1 with h2 | h2
          · rw [h2]
            exact Solid.leaf _ _ _
          · exact hch c (List.mem_of_mem_drop (List.mem_of_mem_take h2))
    | hash_collision cells =>
      rw [node_assoc] at h
      simp only [Option.some.injEq] at h
      cases hs with
      | hash_collision h2 =>
      have := hash_collision_assoc_solid cells key val hash eq_key eq_val h2
      rw [h] at this
      exact this

end PHashmap

namespace PHashmap

/-- The result of `hash_collision_dissoc` by the number of cells that remain:
with the key found in the cell `c` between the cells `pre` and `next`, the
result is `REMOVED` with no node if no cell remains, a leaf for the one cell
that remains, and a chain of the cells that remain if they are two or more. -/
theorem hash_collision_dissoc_shape (eq_key : Nat → Nat → Bool) (cells : List Cell) (key : Nat)
    {pre next : List Cell} {c : Cell} (hfind : chain_find eq_key key cells = (pre, c :: next)) :
    (hash_collision_dissoc eq_key cells key).2 = REMOVED ∧
    (pre ++ next = [] → (hash_collision_dissoc eq_key cells key).1 = none) ∧
    (∀ d, pre ++ next = [d] →
      (hash_collision_dissoc eq_key cells key).1 = some (.leaf d.key d.val d.hash)) ∧
    (2 ≤ (pre ++ next).length → ∃ cells1, cells1.Perm (pre ++ next) ∧
      (hash_collision_dissoc eq_key cells key).1 = some (.hash_collision cells1)) := by
  have hcopy : ∀ l : List Cell, (chain_copy next l).Perm (l ++ next) := by
    intro l
    rw [chain_copy_eq]
    exact List.Perm.append_right _ (List.reverse_perm _)
  unfold hash_collision_dissoc
  rw [hfind]
  cases pre with
  | nil =>
    cases next with
    | nil =>
      refine ⟨rfl, fun _ => rfl, fun d hd => (by cases hd), fun h2 => ?_⟩
      simp only [List.append_nil, List.length_nil] at h2
      omega
    | cons n rest =>
      cases rest with
      | nil =>
        refine ⟨rfl, fun h => (by cases h), fun d hd => ?_, fun h2 => ?_⟩
        · simp only [List.nil_append, List.cons.injEq, and_true] at hd
          rw [hd]
        · simp only [List.nil_append, List.length_cons, List.length_nil] at h2
          omega
      | cons m rest =>
        refine ⟨rfl, fun h => (by cases h), fun d hd => ?_, fun _ => ⟨_, List.Perm.refl _, rfl⟩⟩
        simp only [List.nil_append, List.cons.injEq] at hd
        cases hd.2
  | cons f pre1 =>
    cases pre1 with
    | nil =>
      cases next with
      | nil =>
        refine ⟨rfl, fun h => (by cases h), fun d hd => ?_, fun h2 => ?_⟩
        · simp only [List.append_nil, List.cons.injEq, and_true] at hd
          rw [hd]
        · simp only [List.append_nil, List.length_cons, List.length_nil] at h2
          omega
      | cons n rest =>
        refine ⟨rfl, fun h => (by cases h), fun d hd => ?_, fun _ => ⟨_, hcopy _, rfl⟩⟩
        simp only [List.cons_append, List.nil_append, List.cons.injEq] at hd
        cases hd.2
    | cons g pre2 =>
      refine ⟨rfl, fun h => (by cases h), fun d hd => ?_, fun _ => ⟨_, hcopy _, rfl⟩⟩
      simp only [List.cons_append, List.cons.injEq] at hd
      cases hd.2

/-- `hash_collision_dissoc` with the key not found. -/
theorem hash_collision_dissoc_none (eq_key : Nat → Nat → Bool) (cells : List Cell) (key : Nat)
    {pre : List Cell} (hfind : chain_find eq_key key cells = (pre, [])) :
    hash_collision_dissoc eq_key cells key = (none, UNCHANGED) := by
  unfold hash_collision_dissoc
  rw [hfind]
  rcases pre with _ | ⟨a, _ | ⟨b, l⟩⟩ <;> rfl

/-- A node returned by `hash_collision_dissoc` is a leaf or a chain of two
cells or more. -/
theorem hash_collision_dissoc_solid (eq_key : Nat → Nat → Bool) (cells : List Cell) (key : Nat)
    {m : Node} (h : (hash_collision_dissoc eq_key cells key).1 = some m) : Solid m := by
  cases hfind : chain_find eq_key key cells with
  | mk pre suf =>
  cases suf with
  | nil =>
    rw [hash_collision_dissoc_none eq_key cells key hfind] at h
    cases h
  | cons c next =>
    obtain ⟨_, h0, h1, h2⟩ := hash_collision_dissoc_shape eq_key cells key hfind
    rcases Nat.lt_or_ge (pre ++ next).length 2 with hl | hl
    · cases hrest : pre ++ next with
      | nil =>
        rw [h0 hrest] at h
        cases h
      | cons d tl =>
        cases tl with
        | nil =>
          rw [h1 d hrest] at h
          cases h
          exact Solid.leaf _ _ _
        | cons e tl =>
          rw [hrest] at hl
          simp only [List.length_cons] at hl
          omega
    · obtain ⟨cells1, hp, he⟩ := h2 hl
      rw [he] at h
      cases h
      exact Solid.hash_collision (by rw [hp.length_eq]; exact hl)

/-- `node_dissoc` keeps chains at two cells or more and bitmaps non-zero. -/
theorem node_dissoc_solid (eq_key : Nat → Nat → Bool) (key hash : Nat) {n : Node}
    (hs : Solid n) :
    ∀ (level : Nat) (m : Node) (r : Nat),
      node_dissoc eq_key key hash n level = some (some m, r) → Solid m := by
  induction hs with
  | leaf k v h0 =>
    intro level m r h
    rw [node_dissoc] at h
    unfold leaf_dissoc at h
    by_cases hk : eq_key k key = true
    · rw [if_pos hk] at h
      simp only [Option.some.injEq, Prod.mk.injEq] at h
      cases h.1
    · rw [if_neg hk] at h
      simp only [Option.some.injEq, Prod.mk.injEq] at h
      rw [← h.1]
      exact Solid.leaf _ _ _
  | hash_collision h2 =>
    rename_i cells
    intro level m r h
    rw [node_dissoc] at h
    simp only [Option.some.injEq] at h
    exact hash_collision_dissoc_solid eq_key cells key (by rw [h])
  | bitmap_indexed hb hch ih =>
    rename_i bitmap children
    intro level m r h
    rw [node_dissoc] at h
    simp only at h
    by_cases hbit : bitmap &&& bitpos hash level ≠ 0
    · rw [if_pos hbit, child_dissoc_eq] at h
      cases hc : children[bit_index bitmap (bitpos hash level)]? with
      | none =>
        rw [hc] at h
        cases h
      | some child =>
        rw [hc] at h
        simp only at h
        cases hd : node_dissoc eq_key key hash child (level + 1) with
        | none =>
          rw [hd] at h
          cases h
        | some res =>
          obtain ⟨new, result⟩ := res
          rw [hd] at h
          simp only at h
          by_cases hr : result ≠ UNCHANGED
          · rw [if_pos hr] at h
            cases new with
            | none =>
              simp only at h
              by_cases hz : bitmap &&& ((2 ^ HASH_BITS - 1) ^^^ bitpos hash level) = 0
              · rw [if_pos hz] at h
                simp only [Option.some.injEq, Prod.mk.injEq] at h
                cases h.1
              · rw [if_neg hz] at h
                simp only [Option.some.injEq, Prod.mk.injEq] at h
                rw [← h.1]
                refine Solid.bitmap_indexed hz (fun c hcm => ?_)
                rcases List.mem_append.mp hcm with h1 | h1
                · exact hch c (List.mem_of_mem_take h1)
                · exact hch c (List.mem_of_mem_drop (List.mem_of_mem_take h1))
            | some new =>
              simp only [Option.some.injEq, Prod.mk.injEq] at h
              rw [← h.1]
              have hnew := ih child (List.getElem?_mem hc) (level + 1) new result hd
              refine Solid.bitmap_indexed hb (fun c hcm => ?_)
              rcases List.mem_or_eq_of_mem_set hcm with h1 | h1
              · exact hch c (List.mem_of_mem_take h1)
              · rw [h1]
                exact hnew
          · rw [if_neg hr] at h
            simp only [Option.some.injEq, Prod.mk.injEq] at h
            rw [← h.1]
            exact Solid.bitmap_indexed hb hch
    · rw [if_neg hbit] at h
      simp only [Option.some.injEq, Prod.mk.injEq] at h
      rw [← h.1]
      exact Solid.bitmap_indexed hb hch

/-- In every map the API can produce, chains have two cells or more and
bitmaps are non-zero. -/
theorem reach_solid {hashf : Nat → Nat} {eq_key eq_val : Nat → Nat → Bool} {map : Hashmap}
    (hr : Reach hashf eq_key eq_val map) : ∀ root, map.root = some root → Solid root := by
  induction hr with
  | make str =>
    intro root h
    cases h
  | @assoc map0 map1 fuel key val _ h ih =>
    intro root hroot
    unfold hashmap_assoc at h
    cases h0 : map0.root with
    | none =>
      rw [h0] at h
      simp only at h
      rw [if_pos (by decide)] at h
      simp only [Option.some.injEq] at h
      rw [← h] at hroot
      simp only [Option.some.injEq] at hroot
      rw [← hroot]
      exact Solid.leaf _ _ _
    | some root0 =>
      rw [h0] at h
      simp only at h
      cases ha : node_assoc key val (map0.hash_of key) map0.eq_key map0.eq_val fuel root0 0 with
      | none =>
        rw [ha] at h
        cases h
      | some res =>
        obtain ⟨n1, r⟩ := res
        rw [ha] at h
        simp only at h
        have hn1 := node_assoc_solid key val _ _ _ fuel root0 0 n1 r (ih root0 h0) ha
        by_cases hru : r ≠ UNCHANGED
        · rw [if_pos hru] at h
          simp only [Option.some.injEq] at h
          rw [← h] at hroot
          simp only [Option.some.injEq] at hroot
          rw [← hroot]
          exact hn1
        · rw [if_neg hru] at h
          simp only [Option.some.injEq] at h
          rw [← h] at hroot
          exact ih root hroot
  | @dissoc map0 map1 key _ h ih =>
    intro root hroot
    unfold hashmap_dissoc at h
    cases h0 : map0.root with
    | none =>
      rw [h0] at h
      simp only [Option.some.injEq] at h
      rw [← h, h0] at hroot
      cases hroot
    | some root0 =>
      rw [h0] at h
      simp only at h
      cases hd : node_dissoc map0.eq_key key (map0.hash_of key) root0 0 with
      | none =>
        rw [hd] at h
        cases h
      | some res =>
        obtain ⟨n1, r⟩ := res
        rw [hd] at h
        simp only at h
        by_cases hru : r ≠ UNCHANGED
        · rw [if_pos hru] at h
          simp only [Option.some.injEq] at h
          rw [← h] at hroot
          simp only at hroot
          rw [hroot] at hd
          exact node_dissoc_solid _ key _ (ih root0 h0) 0 root r hd
        · rw [if_neg hru] at h
          simp only [Option.some.injEq] at h
          rw [← h] at hroot
          exact ih root hroot

theorem popcount_pos {bitmap : Nat} (hb : bitmap < 2 ^ HASH_BITS) (hz : bitmap ≠ 0) :
    0 < popcount bitmap := by
  obtain ⟨i, hi⟩ := Nat.ne_zero_implies_bit_true hz
  have hi32 : i < 32 := by
    by_contra hge
    have h1 : bitmap < 2 ^ i :=
      Nat.lt_of_lt_of_le hb (Nat.pow_le_pow_right (by decide) (by unfold HASH_BITS; omega))
    rw [Nat.testBit_eq_false_of_lt h1] at hi
    cases hi
  exact Nat.lt_of_le_of_lt (Nat.zero_le _) (rank_lt_popcount bitmap hi32 hi)

/-- The child at an index of a well-formed bitmap-indexed node is well formed
for some hash along the path. -/
theorem wf_child_at {hashf : Nat → Nat} {eq_key : Nat → Nat → Bool} {level p bitmap : Nat}
    {cs : List Node} (h : WF hashf eq_key level p (.bitmap_indexed bitmap cs)) {i : Nat}
    {c : Node} (hi : cs[i]? = some c) :
    ∃ s q, s < 32 ∧ bitmap.testBit s = true ∧ rank bitmap s = i ∧ agree level q p ∧
      mask q level = s ∧ WF hashf eq_key (level + 1) q c := by
  cases h with
  | bitmap_indexed hl hb hlen hch =>
    have hilt : i < rank bitmap 32 := by
      rw [← popcount_eq_rank, ← hlen]
      exact (List.getElem?_eq_some_iff.mp hi).1
    obtain ⟨s, hs, hbit, hr⟩ := exists_slot_of_rank bitmap 32 i hilt
    obtain ⟨q, hq, hm⟩ := exists_path_hash p level hs
    rw [← hr] at hi
    exact ⟨s, q, hs, hbit, hr, hq, hm, hch s hs hbit c hi q hq hm⟩

/-- A node of a map the API can produce holds an entry. -/
theorem solid_entries_ne_nil {hashf : Nat → Nat} {eq_key : Nat → Nat → Bool} {n : Node}
    (hs : Solid n) : ∀ (level p : Nat), WF hashf eq_key level p n → node_entries n ≠ [] := by
  induction hs with
  | leaf k v h0 =>
    intro level p _
    simp [node_entries]
  | hash_collision h2 =>
    rename_i cells
    intro level p _ he
    rw [node_entries] at he
    rw [he] at h2
    simp at h2
  | bitmap_indexed hb hch ih =>
    rename_i bitmap children
    intro level p hwf
    have hpos : 0 < children.length := by
      cases hwf with
      | bitmap_indexed hl hb1 hlen _ =>
        rw [hlen]
        exact popcount_pos hb1 hb
    cases children with
    | nil => simp at hpos
    | cons c cs =>
      obtain ⟨s, q, _, _, _, _, _, hc⟩ := wf_child_at hwf
        (show (c :: cs)[0]? = some c from List.getElem?_cons_zero)
      have := ih c (List.mem_cons_self _ _) (level + 1) q hc
      rw [node_entries, children_entries]
      intro he
      exact this (List.append_eq_nil.mp he).1

end PHashmap

namespace PHashmap

/-! ### The nodes of a map and their paths -/

/-- The child index that the code computes for a set bit is the position of
the bit among the set bits of the bitmap. -/
theorem slots_rank (bitmap : Nat) {s : Nat} (hs : s < 32) (hb : bitmap.testBit s = true) :
    (slots bitmap)[rank bitmap s]? = some s := by
  have hr : List.range HASH_BITS = List.range s ++ s :: List.range' (s + 1) (31 - s) := by
    rw [List.range_eq_range', List.range_eq_range', ← List.range'_succ]
    have h32 : HASH_BITS = (31 - s + 1) + s := by unfold HASH_BITS; omega
    rw [h32, ← List.range'_append 0 s (31 - s + 1) 1]
    simp
  unfold slots rank
  rw [hr, List.filter_append, List.getElem?_append_right (Nat.le_refl _), Nat.sub_self,
    List.filter_cons_of_pos (by simpa using hb)]
  exact List.getElem?_cons_zero

theorem path_of_length (q level : Nat) : (path_of q level).length = level := by
  unfold path_of
  simp

theorem path_of_succ {level q p s : Nat} (ha : agree level q p) (hm : mask q level = s) :
    path_of p level ++ [s] = path_of q (level + 1) := by
  unfold path_of
  rw [List.range_succ, List.map_append, List.map_singleton, hm]
  congr 1
  apply List.map_congr_left
  intro l hl
  exact (ha l (List.mem_range.mp hl)).symm

theorem path_of_getElem? {q level l s : Nat} (h : (path_of q level)[l]? = some s) :
    l < level ∧ s = mask q l := by
  unfold path_of at h
  rw [List.getElem?_map] at h
  cases hr : (List.range level)[l]? with
  | none =>
    rw [hr] at h
    cases h
  | some x =>
    rw [hr] at h
    simp only [Option.map_some', Option.some.injEq] at h
    have hx := List.getElem?_eq_some_iff.mp hr
    obtain ⟨hlt, hx1⟩ := hx
    rw [List.length_range] at hlt
    rw [List.getElem_range] at hx1
    rw [← hx1] at h
    exact ⟨hlt, h.symm⟩

theorem mem_children_subnodes {x : List Nat × Node} :
    ∀ {cs : List Node} {ss path : List Nat}, x ∈ children_subnodes cs ss path →
      ∃ (i : Nat) (c : Node), cs[i]? = some c ∧
        x ∈ node_subnodes c (path ++ [ss.getD i HASH_BITS]) := by
  intro cs
  induction cs with
  | nil =>
    intro ss path h
    simp [children_subnodes] at h
  | cons c cs ih =>
    intro ss path h
    simp only [children_subnodes, List.mem_append] at h
    rcases h with h | h
    · refine ⟨0, c, List.getElem?_cons_zero, ?_⟩
      cases ss with
      | nil => exact h
      | cons s ss => exact h
    · obtain ⟨i, c1, hi, hx⟩ := ih h
      refine ⟨i + 1, c1, by simpa using hi, ?_⟩
      cases ss with
      | nil =>
        simp only [List.tail_nil, List.getD_nil] at hx
        simpa using hx
      | cons s ss =>
        simp only [List.tail_cons] at hx
        simpa using hx

theorem children_subnodes_mem {x : List Nat × Node} :
    ∀ {cs : List Node} {ss path : List Nat} {i : Nat} {c : Node}, cs[i]? = some c →
      x ∈ node_subnodes c (path ++ [ss.getD i HASH_BITS]) →
      x ∈ children_subnodes cs ss path := by
  intro cs
  induction cs with
  | nil =>
    intro ss path i c hi _
    simp at hi
  | cons c0 cs ih =>
    intro ss path i c hi hx
    simp only [children_subnodes, List.mem_append]
    cases i with
    | zero =>
      simp only [List.getElem?_cons_zero, Option.some.injEq] at hi
      rw [hi]
      left
      cases ss with
      | nil => exact hx
      | cons s ss => exact hx
    | succ i =>
      right
      simp only [List.getElem?_cons_succ] at hi
      refine ih hi ?_
      cases ss with
      | nil =>
        simp only [List.tail_nil, List.getD_nil]
        simpa using hx
      | cons s ss =>
        simp only [List.tail_cons]
        simpa using hx

/-- The slot that labels the child at index `i` of a bitmap-indexed node with
`popcount(bitmap)` children is a set bit `s` with `bit_index(bitmap, 1 << s) = i`. -/
theorem slots_getD {bitmap i s : Nat} (hs : s < 32) (hb : bitmap.testBit s = true)
    (hr : rank bitmap s = i) : (slots bitmap).getD i HASH_BITS = s := by
  have h := slots_rank bitmap hs hb
  rw [hr] at h
  rw [List.getD_eq_getElem?_getD, h]
  rfl

/-- Every node below a well-formed node of a map the API can produce is well
formed at the level that is the length of its path, for a hash that selects
the slots of the path. -/
theorem wf_subnodes {hashf : Nat → Nat} {eq_key : Nat → Nat → Bool} {level p : Nat} {n : Node}
    (h : WF hashf eq_key level p n) :
    Solid n → ∀ x ∈ node_subnodes n (path_of p level),
      ∃ q d, level ≤ d ∧ agree level q p ∧ x.1 = path_of q d ∧ WF hashf eq_key d q x.2 ∧
        Solid x.2 := by
  induction h with
  | leaf hh ha =>
    rename_i level p k v h0
    intro hs x hx
    simp only [node_subnodes, List.mem_singleton] at hx
    rw [hx]
    exact ⟨p, level, Nat.le_refl _, agree_refl _ _, rfl, WF.leaf hh ha, hs⟩
  | hash_collision hc hp =>
    rename_i level p cells
    intro hs x hx
    simp only [node_subnodes, List.mem_singleton] at hx
    rw [hx]
    exact ⟨p, level, Nat.le_refl _, agree_refl _ _, rfl, WF.hash_collision hc hp, hs⟩
  | bitmap_indexed hl hb hlen hch ih =>
    rename_i level p bitmap cs
    intro hs x hx
    simp only [node_subnodes, List.mem_cons] at hx
    rcases hx with hx | hx
    · rw [hx]
      exact ⟨p, level, Nat.le_refl _, agree_refl _ _, rfl, WF.bitmap_indexed hl hb hlen hch, hs⟩
    · obtain ⟨i, c, hi, hxc⟩ := mem_children_subnodes hx
      obtain ⟨s, q, hs32, hbit, hr, hq, hm, _⟩ :=
        wf_child_at (WF.bitmap_indexed hl hb hlen hch) hi
      rw [slots_getD hs32 hbit hr, path_of_succ hq hm] at hxc
      rw [← hr] at hi
      obtain ⟨q1, d, hd, ha1, hp1, hw1, hs1⟩ :=
        ih s hs32 hbit c hi q hq hm (solid_of_getElem? hs hi) x hxc
      exact ⟨q1, d, by omega, agree_trans (agree_of_succ ha1) hq, hp1, hw1, hs1⟩

/-- The entries below a node of the tree are entries of the tree. -/
theorem subnodes_entries {x : List Nat × Node} {c : Cell} (hc : c ∈ node_entries x.2) :
    ∀ (n : Node) (path : List Nat), x ∈ node_subnodes n path → c ∈ node_entries n := by
  intro n
  refine @Node.rec (fun n => ∀ (path : List Nat), x ∈ node_subnodes n path → c ∈ node_entries n)
    (fun cs => ∀ (ss path : List Nat), x ∈ children_subnodes cs ss path →
      c ∈ children_entries cs) ?_ ?_ ?_ ?_ ?_ n
  · intro k v h path hx
    simp only [node_subnodes, List.mem_singleton] at hx
    rw [hx] at hc
    exact hc
  · intro bitmap children ih path hx
    simp only [node_subnodes, List.mem_cons] at hx
    rcases hx with hx | hx
    · rw [hx] at hc
      exact hc
    · rw [node_entries]
      exact ih _ _ hx
  · intro cells path hx
    simp only [node_subnodes, List.mem_singleton] at hx
    rw [hx] at hc
    exact hc
  · intro ss path hx
    simp [children_subnodes] at hx
  · intro child children ih1 ih2 ss path hx
    simp only [children_subnodes, List.mem_append] at hx
    rw [children_entries, List.mem_append]
    rcases hx with hx | hx
    · exact Or.inl (ih1 _ hx)
    · exact Or.inr (ih2 _ _ hx)

/-- Every entry of the tree is in a leaf or a chain of the tree. -/
theorem entries_subnodes {c : Cell} :
    ∀ (n : Node) (path : List Nat), c ∈ node_entries n →
      ∃ x ∈ node_subnodes n path, is_bucket x.2 = true ∧ c ∈ node_entries x.2 := by
  intro n
  refine @Node.rec (fun n => ∀ (path : List Nat), c ∈ node_entries n →
      ∃ x ∈ node_subnodes n path, is_bucket x.2 = true ∧ c ∈ node_entries x.2)
    (fun cs => ∀ (ss path : List Nat), c ∈ children_entries cs →
      ∃ x ∈ children_subnodes cs ss path, is_bucket x.2 = true ∧ c ∈ node_entries x.2)
    ?_ ?_ ?_ ?_ ?_ n
  · intro k v h path hc
    exact ⟨(path, .leaf k v h), by simp [node_subnodes], rfl, hc⟩
  · intro bitmap children ih path hc
    rw [node_entries] at hc
    obtain ⟨x, hx, hb, hcx⟩ := ih (slots bitmap) path hc
    exact ⟨x, by simp only [node_subnodes, List.mem_cons]; exact Or.inr hx, hb, hcx⟩
  · intro cells path hc
    exact ⟨(path, .hash_collision cells), by simp [node_subnodes], rfl, hc⟩
  · intro ss path hc
    simp [children_entries] at hc
  · intro child children ih1 ih2 ss path hc
    rw [children_entries, List.mem_append] at hc
    rcases hc with hc | hc
    · obtain ⟨x, hx, hb, hcx⟩ := ih1 (path ++ [ss.headD HASH_BITS]) hc
      exact ⟨x, by simp only [children_subnodes, List.mem_append]; exact Or.inl hx, hb, hcx⟩
    · obtain ⟨x, hx, hb, hcx⟩ := ih2 ss.tail path hc
      exact ⟨x, by simp only [children_subnodes, List.mem_append]; exact Or.inr hx, hb, hcx⟩

/-- The nodes of a map the API can produce. -/
theorem reach_subnodes {hashf : Nat → Nat} {eq_key eq_val : Nat → Nat → Bool}
    (ops : KeyOps hashf eq_key) {map : Hashmap} (hr : Reach hashf eq_key eq_val map) :
    ∀ x ∈ hashmap_subnodes map,
      ∃ q, x.1 = path_of q x.1.length ∧ WF hashf eq_key x.1.length q x.2 ∧ Solid x.2 ∧
        ∀ c ∈ node_entries x.2, c ∈ hashmap_entries map := by
  intro x hx
  unfold hashmap_subnodes at hx
  unfold hashmap_entries
  cases hroot : map.root with
  | none =>
    rw [hroot] at hx
    cases hx
  | some root =>
    rw [hroot] at hx
    simp only at hx
    have hwf := (reach_wf ops hr).root_wf root hroot
    have hsol := reach_solid hr root hroot
    have hx0 : x ∈ node_subnodes root (path_of 0 0) := hx
    obtain ⟨q, d, _, _, hp, hw, hs⟩ := wf_subnodes hwf hsol x hx0
    have hd : x.1.length = d := by rw [hp, path_of_length]
    rw [hd]
    exact ⟨q, hp, hw, hs, fun c hc => subnodes_entries hc root [] hx⟩

end PHashmap

namespace PHashmap

/-! ### Count, bitmaps, paths and chains of the maps of the API -/

/-- Pointer equality on keys satisfies the assumptions on the key functions,
whatever the hash function. -/
theorem beq_keyOps (f : Nat → Nat) : KeyOps f (fun a b => a == b) where
  refl := by simp
  symm := by
    intro a b h
    simp only [beq_iff_eq] at h ⊢
    exact h.symm
  trans := by
    intro a b c h1 h2
    simp only [beq_iff_eq] at h1 h2 ⊢
    exact h1.trans h2
  hash_eq := by
    intro a b h
    simp only [beq_iff_eq] at h
    rw [h]

/-- C31: in every map the API can produce (key equality an equivalence
relation that the hash respects) the `count` field is the number of entries
below the root, and it is 0 exactly when the root is `NULL`.  A node of the
map that holds one entry, such as a bitmap-indexed node whose one child holds
it, returns `NULL` with the status `REMOVED` from the `dissoc` of the key of
that entry; and if the entry is the one entry of the map, `hashmap_dissoc` of
its key returns a map with the root `NULL` and the count 0. -/
theorem hashmap_count_root {hashf : Nat → Nat} {eq_key eq_val : Nat → Nat → Bool}
    (ops : KeyOps hashf eq_key) {map : Hashmap} (hr : Reach hashf eq_key eq_val map) :
    hashmap_count map = (hashmap_entries map).length ∧
    (hashmap_count map = 0 ↔ map.root = none) ∧
    (∀ x ∈ hashmap_subnodes map, ∀ c, node_entries x.2 = [c] →
      node_dissoc map.eq_key c.key (map.hash_of c.key) x.2 x.1.length = some (none, REMOVED)) ∧
    ∀ c, hashmap_entries map = [c] →
      ∃ map1, hashmap_dissoc map c.key = some map1 ∧ map1.root = none ∧
        hashmap_count map1 = 0 := by
  have hm := reach_wf ops hr
  have hcnt : map.count = (hashmap_entries map).length := reach_count ops hr
  have hzero : ∀ {m : Hashmap}, Reach hashf eq_key eq_val m → (m.count = 0 ↔ m.root = none) := by
    intro m hrm
    have hc : m.count = (hashmap_entries m).length := reach_count ops hrm
    constructor
    · intro h0
      cases hroot : m.root with
      | none => rfl
      | some root =>
        exfalso
        have hne := solid_entries_ne_nil (reach_solid hrm root hroot) 0 0
          ((reach_wf ops hrm).root_wf root hroot)
        rw [hc, hashmap_entries, hroot, entries_opt] at h0
        exact hne (List.length_eq_zero.mp (by exact_mod_cast h0))
    · intro hroot
      rw [hc, hashmap_entries, hroot]
      rfl
  refine ⟨hcnt, hzero hr, ?_, ?_⟩
  · intro x hx c hxc
    obtain ⟨q, hp, hw, hs, _⟩ := reach_subnodes ops hr x hx
    have hcm : c ∈ node_entries x.2 := by rw [hxc]; exact List.mem_singleton_self c
    obtain ⟨hch, hca⟩ := wf_entries hw c hcm
    have hw1 : WF hashf eq_key x.1.length (hashf c.key % 2 ^ HASH_BITS) x.2 := by
      rw [← hch]
      exact wf_agree hw c.hash (agree_symm hca)
    obtain ⟨n1, r, hd, hwf1, _⟩ := node_dissoc_spec ops c.key hw1 (agree_refl _ _)
    have he := node_dissoc_entries ops c.key hw1 (agree_refl _ _) n1 r hd
    rw [hm.eq_key_eq, Hashmap.hash_of, hm.hash_eq, hd]
    rcases he with ⟨_, hn⟩ | ⟨hrem, c1, _, hperm, _⟩
    · have := hn c hcm
      rw [ops.refl] at this
      cases this
    · rw [hxc] at hperm
      have hlen := hperm.length_eq
      simp only [List.length_cons, List.length_nil] at hlen
      have hnil : entries_opt n1 = [] := List.length_eq_zero.mp (by omega)
      cases n1 with
      | none => rw [hrem]
      | some m =>
        exfalso
        have hsm := node_dissoc_solid eq_key c.key _ hs x.1.length m r hd
        have hwm := hwf1 m (by rw [hrem]; rfl)
        exact solid_entries_ne_nil hsm _ _ hwm hnil
  · intro c hc
    obtain ⟨map1, h1, _, _⟩ := hashmap_dissoc_spec ops hm c.key
    have hr1 : Reach hashf eq_key eq_val map1 := Reach.dissoc c.key hr h1
    have hk : has_key map c.key := by
      refine ⟨c, ?_, ?_⟩
      · rw [hc]
        exact List.mem_singleton_self c
      · rw [hm.eq_key_eq]
        exact ops.refl _
    have hc1 := (hashmap_dissoc_cases ops hm h1).1 hk
    have h0 : map1.count = 0 := by
      rw [hc1, hcnt, hc]
      rfl
    exact ⟨map1, h1, (hzero hr1).mp h0, h0⟩

/-- C31 on the map built by `single_ops`, a bitmap-indexed root with one child
that is a bitmap-indexed node with one child, the leaf of the key 1: the count
is 1, and `hashmap_dissoc` of the key 1 returns a map with the root `NULL`. -/
theorem hashmap_count_root_witness :
    KeyOps (fun k => k % 64) (fun a b => a == b) ∧
    ∃ map, run 15 single_ops mod64_map = some map ∧
      Reach (fun k => k % 64) (fun a b => a == b) (fun a b => a == b) map ∧
      hashmap_count map = 1 ∧
      (hashmap_subnodes map).map (fun x => (x.1, is_bucket x.2)) =
        [([], false), ([1], false), ([1, 0], true)] ∧
      returns (hashmap_dissoc map 1) (fun m => m.root.isNone && m.count == 0) = true ∧
      hashmap_count map = (hashmap_entries map).length ∧
      (hashmap_count map = 0 ↔ map.root = none) ∧
      (∀ x ∈ hashmap_subnodes map, ∀ c, node_entries x.2 = [c] →
        node_dissoc map.eq_key c.key (map.hash_of c.key) x.2 x.1.length =
          some (none, REMOVED)) ∧
      ∀ c, hashmap_entries map = [c] →
        ∃ map1, hashmap_dissoc map c.key = some map1 ∧ map1.root = none ∧
          hashmap_count map1 = 0 := by
  have ops : KeyOps (fun k => k % 64) (fun a b => a == b) := beq_keyOps _
  have hc : returns (run 15 single_ops mod64_map) (fun map =>
      decide (hashmap_count map = 1) &&
      decide ((hashmap_subnodes map).map (fun x => (x.1, is_bucket x.2)) =
        [([], false), ([1], false), ([1, 0], true)]) &&
      returns (hashmap_dissoc map 1) (fun m => m.root.isNone && m.count == 0)) = true := by
    decide!
  obtain ⟨map, hm, hp⟩ := exists_of_returns hc
  simp only [Bool.and_eq_true, decide_eq_true_eq] at hp
  have hr : Reach (fun k => k % 64) (fun a b => a == b) (fun a b => a == b) map :=
    hashmap_reach_run 15 single_ops mod64_map map (Reach.make _) hm
  exact ⟨ops, map, hm, hr, hp.1.1, hp.1.2, hp.2, hashmap_count_root ops hr⟩

end PHashmap

namespace PHashmap

/-- C34: every bitmap-indexed node of a map the API can produce (key equality an
equivalence relation that the hash respects; `assoc` and `dissoc` lead from
such maps to such maps) has a non-zero 32-bit bitmap and a child array of
exactly `popcount(bitmap)` children, each of which holds an entry; every child
is the child of a set bit; and for every set bit `p` the index
`bit_index(bitmap, 1 << p) = popcount(bitmap & ((1 << p) - 1))` is below
`popcount(bitmap)` and the child at that index holds only entries whose hash
has the slice `p` at the level of the node. -/
theorem bitmap_indexed_dense {hashf : Nat → Nat} {eq_key eq_val : Nat → Nat → Bool}
    (ops : KeyOps hashf eq_key) {map : Hashmap} (hr : Reach hashf eq_key eq_val map) :
    ∀ x ∈ hashmap_subnodes map, ∀ bitmap children, x.2 = .bitmap_indexed bitmap children →
      bitmap ≠ 0 ∧ bitmap < 2 ^ HASH_BITS ∧ x.1.length ≤ 6 ∧
      children.length = popcount bitmap ∧
      (∀ c ∈ children, node_entries c ≠ []) ∧
      (∀ i c, children[i]? = some c →
        ∃ p, p < 32 ∧ bitmap.testBit p = true ∧ bit_index bitmap (1 <<< p) = i) ∧
      ∀ p, p < 32 → bitmap.testBit p = true →
        bit_index bitmap (1 <<< p) = popcount (bitmap &&& ((1 <<< p) - 1)) ∧
        bit_index bitmap (1 <<< p) < popcount bitmap ∧
        ∃ c, children[bit_index bitmap (1 <<< p)]? = some c ∧
          ∀ e ∈ node_entries c, mask e.hash x.1.length = p := by
  intro x hx bitmap children hxe
  obtain ⟨q, _, hw, hs, _⟩ := reach_subnodes ops hr x hx
  rw [hxe] at hw hs
  have hbi : ∀ p, p < 32 → bit_index bitmap (1 <<< p) = rank bitmap p := by
    intro p hp
    rw [Nat.one_shiftLeft]
    exact bit_index_eq_rank bitmap (Nat.le_of_lt hp)
  cases hs with
  | bitmap_indexed hb0 hch =>
  cases hw with
  | bitmap_indexed hl hb hlen hwc =>
  have hw := WF.bitmap_indexed hl hb hlen hwc
  refine ⟨hb0, hb, hl, hlen, ?_, ?_, ?_⟩
  · intro c hc
    obtain ⟨i, hi⟩ := List.mem_iff_getElem?.mp hc
    obtain ⟨s, q1, _, _, _, _, _, hwc1⟩ := wf_child_at hw hi
    exact solid_entries_ne_nil (hch c hc) _ _ hwc1
  · intro i c hi
    obtain ⟨s, q1, hs32, hbit, hrk, _, _, _⟩ := wf_child_at hw hi
    exact ⟨s, hs32, hbit, by rw [hbi s hs32]; exact hrk⟩
  · intro p hp hbit
    obtain ⟨c, hc⟩ := wf_child_exists hlen hp hbit
    refine ⟨rfl, ?_, c, ?_, ?_⟩
    · rw [hbi p hp]
      exact rank_lt_popcount bitmap hp hbit
    · rw [hbi p hp]
      exact hc
    · intro e he
      obtain ⟨_, hbe, hre⟩ := wf_child_slot hw hc he
      by_contra hne
      exact rank_ne_of_ne bitmap hbe hbit hne hre

/-- C34 on the map built by `mod4_ops`, whose root is a bitmap-indexed node
with the bitmap 14 and three children. -/
theorem bitmap_indexed_dense_witness :
    KeyOps (fun k => k % 4) (fun a b => a == b) ∧
    ∃ map, run 15 mod4_ops mod4_map = some map ∧
      Reach (fun k => k % 4) (fun a b => a == b) (fun a b => a == b) map ∧
      (hashmap_subnodes map).map (fun x => (x.1, is_bucket x.2)) =
        [([], false), ([1], true), ([2], true), ([3], true)] ∧
      ∀ x ∈ hashmap_subnodes map, ∀ bitmap children, x.2 = .bitmap_indexed bitmap children →
        bitmap ≠ 0 ∧ bitmap < 2 ^ HASH_BITS ∧ x.1.length ≤ 6 ∧
        children.length = popcount bitmap ∧
        (∀ c ∈ children, node_entries c ≠ []) ∧
        (∀ i c, children[i]? = some c →
          ∃ p, p < 32 ∧ bitmap.testBit p = true ∧ bit_index bitmap (1 <<< p) = i) ∧
        ∀ p, p < 32 → bitmap.testBit p = true →
          bit_index bitmap (1 <<< p) = popcount (bitmap &&& ((1 <<< p) - 1)) ∧
          bit_index bitmap (1 <<< p) < popcount bitmap ∧
          ∃ c, children[bit_index bitmap (1 <<< p)]? = some c ∧
            ∀ e ∈ node_entries c, mask e.hash x.1.length = p := by
  have hc : returns (run 15 mod4_ops mod4_map) (fun map =>
      decide ((hashmap_subnodes map).map (fun x => (x.1, is_bucket x.2)) =
        [([], false), ([1], true), ([2], true), ([3], true)])) = true := by decide!
  obtain ⟨map, hm, hp⟩ := exists_of_returns hc
  exact ⟨mod4_keyOps, map, hm, mod4_reach hm, of_decide_eq_true hp,
    bitmap_indexed_dense mod4_keyOps (mod4_reach hm)⟩

/-- C38: in every map the API can produce (key equality an equivalence relation
that the hash respects), every entry below a node of the map, a leaf or a
collision chain in particular, has as its cached hash the hash of its key, and
the slot followed at each level `l` above the node is the slice of that hash
at level `l`, the bit followed being `bitpos(hash, l)`; every entry of the map
is in a leaf or a chain; and `hashmap_get` of the key of an entry returns the
value of the entry. -/
theorem hash_path_consistent {hashf : Nat → Nat} {eq_key eq_val : Nat → Nat → Bool}
    (ops : KeyOps hashf eq_key) {map : Hashmap} (hr : Reach hashf eq_key eq_val map) :
    (∀ x ∈ hashmap_subnodes map, ∀ c ∈ node_entries x.2,
      c.hash = map.hash_of c.key ∧
      (∀ l s, x.1[l]? = some s → s = mask c.hash l ∧ bitpos c.hash l = 1 <<< s) ∧
      hashmap_get map c.key = some c.val) ∧
    ∀ c ∈ hashmap_entries map,
      ∃ x ∈ hashmap_subnodes map, is_bucket x.2 = true ∧ c ∈ node_entries x.2 := by
  have hm := reach_wf ops hr
  constructor
  · intro x hx c hc
    obtain ⟨q, hp, hw, _, hin⟩ := reach_subnodes ops hr x hx
    obtain ⟨hch, hca⟩ := wf_entries hw c hc
    refine ⟨?_, fun l s hl => ?_, ?_⟩
    · rw [Hashmap.hash_of, hm.hash_eq]
      exact hch
    · rw [hp] at hl
      obtain ⟨hlt, hs⟩ := path_of_getElem? hl
      have hsm : s = mask c.hash l := by
        rw [hs]
        exact (hca l hlt).symm
      refine ⟨hsm, ?_⟩
      rw [hsm]
      rfl
    · rw [hashmap_get_find ops hm,
        find_val_mem ops (hashmap_entries_pairwise ops hm) (hin c hc) (ops.refl _)]
  · intro c hc
    unfold hashmap_entries at hc
    unfold hashmap_subnodes
    cases hroot : map.root with
    | none =>
      rw [hroot] at hc
      cases hc
    | some root =>
      rw [hroot] at hc
      exact entries_subnodes root [] hc

/-- C38 on the map built by `mod4_ops`. -/
theorem hash_path_consistent_witness :
    KeyOps (fun k => k % 4) (fun a b => a == b) ∧
    ∃ map, run 15 mod4_ops mod4_map = some map ∧
      Reach (fun k => k % 4) (fun a b => a == b) (fun a b => a == b) map ∧
      (hashmap_entries map).map (fun c => (c.key, c.hash)) =
        [(9, 1), (13, 1), (1, 1), (6, 2), (7, 3), (3, 3)] ∧
      (∀ x ∈ hashmap_subnodes map, ∀ c ∈ node_entries x.2,
        c.hash = map.hash_of c.key ∧
        (∀ l s, x.1[l]? = some s → s = mask c.hash l ∧ bitpos c.hash l = 1 <<< s) ∧
        hashmap_get map c.key = some c.val) ∧
      ∀ c ∈ hashmap_entries map,
        ∃ x ∈ hashmap_subnodes map, is_bucket x.2 = true ∧ c ∈ node_entries x.2 := by
  have hc : returns (run 15 mod4_ops mod4_map) (fun map =>
      decide ((hashmap_entries map).map (fun c => (c.key, c.hash)) =
        [(9, 1), (13, 1), (1, 1), (6, 2), (7, 3), (3, 3)])) = true := by decide!
  obtain ⟨map, hm, hp⟩ := exists_of_returns hc
  exact ⟨mod4_keyOps, map, hm, mod4_reach hm, of_decide_eq_true hp,
    hash_path_consistent mod4_keyOps (mod4_reach hm)⟩

/-- C39: every collision chain of a map the API can produce (key equality an
equivalence relation that the hash respects) has at least two cells.  Let
`key` be the key of the cell `c` of the chain: `hash_collision_dissoc` on a
chain of two cells returns with `REMOVED` a leaf with the key, value and hash
of the other cell; on a chain of three cells or more it returns with `REMOVED`
a chain with one cell fewer that keeps every cell but `c`. -/
theorem hash_collision_two_cells {hashf : Nat → Nat} {eq_key eq_val : Nat → Nat → Bool}
    (ops : KeyOps hashf eq_key) {map : Hashmap} (hr : Reach hashf eq_key eq_val map) :
    ∀ x ∈ hashmap_subnodes map, ∀ cells, x.2 = .hash_collision cells →
      2 ≤ cells.length ∧
      ∀ key c, c ∈ cells → eq_key c.key key = true →
        ∃ rest, cells.Perm (c :: rest) ∧ (∀ e ∈ rest, eq_key e.key key = false) ∧
          (cells.length = 2 → ∃ d, rest = [d] ∧
            hash_collision_dissoc eq_key cells key =
              (some (.leaf d.key d.val d.hash), REMOVED)) ∧
          (3 ≤ cells.length → ∃ cells1, cells1.Perm rest ∧
            cells1.length + 1 = cells.length ∧
            hash_collision_dissoc eq_key cells key = (some (.hash_collision cells1), REMOVED)) := by
  intro x hx cells hxe
  obtain ⟨q, _, hw, hs, _⟩ := reach_subnodes ops hr x hx
  rw [hxe] at hw hs
  cases hs with
  | hash_collision h2 =>
  cases hw with
  | hash_collision hcw hpw =>
  refine ⟨h2, fun key c hc hk => ?_⟩
  obtain ⟨hsplit, hpre, hsuf⟩ := chain_find_spec eq_key key cells
  cases hfind : chain_find eq_key key cells with
  | mk pre suf =>
  rw [hfind] at hsplit hpre hsuf
  simp only at hsplit hpre hsuf
  cases suf with
  | nil =>
    exfalso
    rw [List.append_nil] at hsplit
    rw [hsplit] at hc
    rw [hpre c hc] at hk
    cases hk
  | cons c1 next =>
    have hck : eq_key c1.key key = true := hsuf c1 next rfl
    have hperm0 : (pre ++ c1 :: next).Perm (c1 :: (pre ++ next)) := List.perm_middle
    have hp1 : (c1 :: (pre ++ next)).Pairwise (fun a b => eq_key a.key b.key = false) := by
      rw [hsplit] at hpw
      exact (hperm0.pairwise_iff (fun {a b} h => pairwise_symm ops a b h)).mp hpw
    rw [List.pairwise_cons] at hp1
    have hrest : ∀ e ∈ pre ++ next, eq_key e.key key = false := by
      intro e he
      by_contra hne
      have hek : eq_key e.key key = true := by simpa using hne
      have h1 := hp1.1 e he
      rw [ops.trans _ _ _ hck (ops.symm _ _ hek)] at h1
      cases h1
    have hcc : c = c1 := by
      have hmem : c ∈ c1 :: (pre ++ next) := by
        rw [hsplit] at hc
        exact hperm0.mem_iff.mp hc
      rcases List.mem_cons.mp hmem with h1 | h1
      · exact h1
      · rw [hrest c h1] at hk
        cases hk
    obtain ⟨hrem, _, hone, hmany⟩ := hash_collision_dissoc_shape eq_key cells key hfind
    have hlen : cells.length = (pre ++ next).length + 1 := by
      rw [hsplit]
      simp only [List.length_append, List.length_cons]
      omega
    refine ⟨pre ++ next, ?_, hrest, fun hl2 => ?_, fun hl3 => ?_⟩
    · rw [hcc, hsplit]
      exact hperm0
    · cases hr1 : pre ++ next with
      | nil =>
        rw [hr1] at hlen
        simp only [List.length_nil] at hlen
        omega
      | cons d tl =>
        cases tl with
        | nil => exact ⟨d, rfl, Prod.ext (hone d hr1) hrem⟩
        | cons e tl =>
          rw [hr1] at hlen
          simp only [List.length_cons] at hlen
          omega
    · obtain ⟨cells1, hp, he⟩ := hmany (by omega)
      exact ⟨cells1, hp, by rw [hp.length_eq, hlen], Prod.ext he hrem⟩

/-- C39 on the map built by `mod4_ops`, which holds the chain of the keys 9,
13, 1 and the chain of the keys 7, 3. -/
theorem hash_collision_two_cells_witness :
    KeyOps (fun k => k % 4) (fun a b => a == b) ∧
    ∃ map, run 15 mod4_ops mod4_map = some map ∧
      Reach (fun k => k % 4) (fun a b => a == b) (fun a b => a == b) map ∧
      (hashmap_subnodes map).map (fun x => (x.1, (chain_hashes x.2).map List.length)) =
        [([], none), ([1], some 3), ([2], none), ([3], some 2)] ∧
      ∀ x ∈ hashmap_subnodes map, ∀ cells, x.2 = .hash_collision cells →
        2 ≤ cells.length ∧
        ∀ key c, c ∈ cells → (fun a b : Nat => a == b) c.key key = true →
          ∃ rest, cells.Perm (c :: rest) ∧
            (∀ e ∈ rest, (fun a b : Nat => a == b) e.key key = false) ∧
            (cells.length = 2 → ∃ d, rest = [d] ∧
              hash_collision_dissoc (fun a b => a == b) cells key =
                (some (.leaf d.key d.val d.hash), REMOVED)) ∧
            (3 ≤ cells.length → ∃ cells1, cells1.Perm rest ∧
              cells1.length + 1 = cells.length ∧
              hash_collision_dissoc (fun a b => a == b) cells key =
                (some (.hash_collision cells1), REMOVED)) := by
  have hc : returns (run 15 mod4_ops mod4_map) (fun map =>
      decide ((hashmap_subnodes map).map (fun x => (x.1, (chain_hashes x.2).map List.length)) =
        [([], none), ([1], some 3), ([2], none), ([3], some 2)])) = true := by decide!
  obtain ⟨map, hm, hp⟩ := exists_of_returns hc
  exact ⟨mod4_keyOps, map, hm, mod4_reach hm, of_decide_eq_true hp,
    hash_collision_two_cells mod4_keyOps (mod4_reach hm)⟩

end PHashmap

namespace PVector

/-! ### The count at the end of the range of `int` -/

end PVector

namespace PHashmapMem

open PHashmap (NULL UNCHANGED ADDED UPDATED REMOVED HASH_BITS popcount mask bitpos bit_index)

/-! ### The insert path under `hashmap_assoc` -/

/-- Over the `memcpy` of the model, which copies the entries that exist in both
arrays, `node_assoc_with` is `node_assoc`. -/
theorem node_assoc_with_memcpy (key val hash : Nat) (eq_key eq_val : Nat → Nat → Bool) :
    ∀ fuel, node_assoc_with memcpy key val hash eq_key eq_val fuel =
      node_assoc key val hash eq_key eq_val fuel := by
  intro fuel
  induction fuel with
  | zero =>
    funext h self level
    rw [node_assoc_with, node_assoc]
  | succ fuel ih =>
    funext h self level
    rw [node_assoc_with, node_assoc, ih]
    rfl

/-- Over the `memcpy` of the model, `hashmap_assoc_with` is `hashmap_assoc`. -/
theorem hashmap_assoc_with_memcpy (fuel : Nat) (h : Heap) (map key val : Nat) :
    hashmap_assoc_with memcpy fuel h map key val = hashmap_assoc fuel h map key val := by
  unfold hashmap_assoc_with hashmap_assoc
  cases h.mem map with
  | none => rfl
  | some o => cases o <;> simp only [node_assoc_with_memcpy]

end PHashmapMem

